import Mathlib

/-! wvkbd input core: a shallow embedding of `keyboard.c`

The definitions below transcribe the functions of `src/keyboard.c` over an
explicit keyboard state.  Conventions of the embedding:

* a C string is the list of its bytes before the terminating NUL (`List Nat`),
  a nullable `char *` is an `Option` of such a list;
* a pointer to a `struct layout` is the layout's index in the static registry
  `kb->layouts`, and the registry is a total map from indices to layouts;
* a `struct key *` handed to the press/commit functions is the key record it
  points to (all fields the handlers read are `const`);
* `uint32_t` and `uint8_t` arithmetic is written with an explicit `% 2 ^ 32`
  and `% 256`; `size_t` indices stay far below `2 ^ 64` and are plain `Nat`;
* a stored `double` that is only read or compared (`width` of a key,
  `trail_fade_distance_px`) is the rational number it holds; the arithmetic of
  `kbd_init_layout` runs in the type `double` below, which rounds every
  operation as IEEE 754 binary64 does;
* calls that end the process (`exit`) or read outside an array are results
  in `Except Fault`;
* the wire protocol (`zwp_virtual_keyboard_v1_*`, keymap upload) is recorded
  as a chronological trace of `Event`s in the state; pixel drawing is not
  recorded.
-/

namespace Wvkbd

/-! ## Data model (`keyboard.h`) -/

/-- The `enum key_type` of `keyboard.h`. -/
inductive key_type where
  | Pad | Code | Mod | Copy | Layout | BackLayer | NextLayer | Compose | EndRow | Last
  deriving DecidableEq, Repr

/-- The `enum key_modifier_type` of `keyboard.h`, as bit masks. -/
def NoMod : Nat := 0
def Shift : Nat := 1
def CapsLock : Nat := 2
def Ctrl : Nat := 4
def Alt : Nat := 8
def Super : Nat := 64
def AltGr : Nat := 128

/-- Scancodes of `linux/input-event-codes.h` that `keyboard.c` names. -/
def KEY_BACKSPACE : Nat := 14
def KEY_TAB : Nat := 15
def KEY_ENTER : Nat := 28
def KEY_SPACE : Nat := 57

def WVKBD_MAX_SUGGESTIONS : Nat := 64
def WVKBD_MAX_TOKEN_BYTES : Nat := 128
def WVKBD_MAX_CONTEXT_WORDS : Nat := 64
def WVKBD_MAX_SWIPE_POINTS : Nat := 192
def WVKBD_MAX_DISMISSED_WORDS : Nat := 256

/-- The `struct key` of `keyboard.h`; `layout` is the index of the layout the
key points to, `none` for a NULL pointer. -/
structure key where
  label : Option (List Nat)
  shift_label : Option (List Nat)
  width : ℚ
  type : key_type
  code : Nat
  layout : Option Nat
  code_mod : Nat
  scheme : Nat
  reset_mod : Bool
  x : Nat
  y : Nat
  w : Nat
  h : Nat
  deriving DecidableEq

/-- The `struct layout` of `keyboard.h`; `keys` is the key array, which the
source terminates with a key of type `Last`. -/
structure layout where
  keys : List key
  keymap_name : String
  name : Option String
  abc : Bool
  keyheight : Nat
  deriving DecidableEq

/-- How a run of the embedded code can stop without returning: `exit(status)`
or an access outside an array. -/
inductive Fault where
  | exit (status : Nat)
  | undefined
  deriving DecidableEq, Repr

/-- Requests sent to the virtual-keyboard protocol, in the order of the calls:
`create_and_upload_keymap`, `zwp_virtual_keyboard_v1_modifiers` and
`zwp_virtual_keyboard_v1_key`. -/
inductive Event where
  | keymap (name : String) (comp_unichr comp_shift_unichr : Nat)
  | modifiers (mods : Nat)
  | keyev (time code : Nat) (pressed : Bool)
  deriving DecidableEq, Repr

/-- The `struct wvkbd_point` of a swipe sample. -/
structure wvkbd_point where
  x : Int
  y : Int
  time_ms : Nat
  deriving DecidableEq

/-- The `struct wvkbd_candidate` the predictor fills in: a nullable word and
its score. -/
structure wvkbd_candidate where
  word : Option (List Nat)
  score : Int
  deriving DecidableEq

inductive wvkbd_suggestion_kind where
  | WVKBD_SUGGEST_WORD | WVKBD_SUGGEST_ADD_WORD
  deriving DecidableEq, Repr

inductive wvkbd_suggest_mode where
  | WVKBD_SMODE_NONE | WVKBD_SMODE_PREFIX | WVKBD_SMODE_SWIPE | WVKBD_SMODE_NEXT_WORD
  deriving DecidableEq, Repr

/-- The `struct wvkbd_suggestion` of `keyboard.h`. -/
structure wvkbd_suggestion where
  kind : wvkbd_suggestion_kind
  word : Option (List Nat)
  inline_word : List Nat
  score : Int
  deriving DecidableEq

/-- Modelled from the spec: the predictor of `predict.h`, which is not among
the sources.  The spec (section 6) gives it as an oracle queried through a
fixed interface, `predictPrefix(token, max)`, `predictNextWord(lastWord, max)`,
`predictSwipe(keyPositionMap, points, token, lastWord, max)` and
`userKnowsWord(word)`, each returning a possibly empty candidate list.  The
key-position map is passed as the keys it is built from. -/
structure wvkbd_predictor where
  predict_prefix : List Nat → Int → List wvkbd_candidate
  predict_next_word : Option (List Nat) → Int → List wvkbd_candidate
  predict_swipe : List key → List wvkbd_point → List Nat → Option (List Nat) → Int →
    List wvkbd_candidate
  user_has_word : List Nat → Bool

inductive kbd_input_mode where
  | KBD_INPUT_NONE | KBD_INPUT_TAP | KBD_INPUT_SWIPE | KBD_INPUT_SUGGEST_SCROLL
  deriving DecidableEq, Repr

/-- The `struct kbd` of `keyboard.h`, without the drawing surfaces, the colour
schemes, the popup rectangle and the scroll offset and cached pill layout of the
suggestion bar.
`layouts` is the static registry, `layers` and `landscape_layers` are the
layer arrays (layout ids, ended by `NumLayouts`), `NumLayouts` and `Index`
are the enum constants of the layout header, `keymap_names` is the table of
the keymap header, `vkbd` tells whether the protocol object is non-NULL and
`out` is the trace of protocol requests made so far and `stdout` the bytes
printed so far; `swipe_refreshes` is the number of calls of
`kbd_update_suggestions_swipe` made so far, which, like the two traces, records
what the program did and is no member of the C structure.  The arrays
`suggestions`, `swipe_points` and `dismissed_words` are kept as the lists of
their first `suggestions_len`, `swipe_points_len` and `dismissed_words_len`
entries. -/
structure kbd where
  layout : Nat
  print : Bool
  print_intersect : Bool
  w : Nat
  h : Nat
  landscape : Bool
  shift_space_is_tab : Bool
  mods : Nat
  compose : Nat
  last_press : Option key
  last_swipe : Option key
  preview_key : Option key
  prevlayout : Option Nat
  layer_index : Nat
  last_abc_layout : Option Nat
  last_abc_index : Nat
  layouts : Nat → Wvkbd.layout
  layers : List Nat
  landscape_layers : List Nat
  NumLayouts : Nat
  Index : Nat
  keymap_names : List String
  vkbd : Bool
  suggest_height : Nat
  suggest_visible_count : Int
  suggestions : List wvkbd_suggestion
  suggest_mode : wvkbd_suggest_mode
  current_token : List Nat
  current_token_len : Int
  context_words : List (Option (List Nat))
  context_words_len : Int
  context_words_pos : Int
  context_words_max : Int
  swipe_points : List wvkbd_point
  swipe_last_suggest_time : Nat
  pending_swipe : Bool
  pending_swipe_word : List Nat
  dismissed_words : List (List Nat)
  trail_enabled : Bool
  trail_fade_ms : Nat
  trail_fade_distance_px : ℚ
  trail_now_ms : Nat
  predictor : Option wvkbd_predictor
  input_down : Bool
  input_mode : kbd_input_mode
  input_down_time : Nat
  input_down_x : Int
  input_down_y : Int
  input_last_x : Int
  input_last_y : Int
  input_moved : Bool
  swipe_threshold_px : Nat
  out : List Event
  stdout : List Nat
  swipe_refreshes : Nat

/-! ## Key hit-test -/

/-- The loop of `kbd_get_key` from the key at position `i` on; `ks` is the rest
of the key array.  Running off the array before a `Last` key is an access
outside the array. -/
def kbd_get_key_from (x y : Nat) : List key → Nat → Except Fault (Option Nat)
  | [], _ => .error .undefined
  | k :: ks, i =>
    if k.type = .Last then .ok none
    else if k.type ≠ .EndRow ∧ k.type ≠ .Pad ∧ k.type ≠ .Pad ∧
        x ≥ k.x ∧ y ≥ k.y ∧ x < (k.x + k.w) % 2 ^ 32 ∧ y < (k.y + k.h) % 2 ^ 32 then
      .ok (some i)
    else kbd_get_key_from x y ks (i + 1)

/-- The function `kbd_get_key`: the position in `kb->layout->keys` of the key
returned, `none` for NULL. -/
def kbd_get_key (kb : kbd) (x y : Nat) : Except Fault (Option Nat) :=
  kbd_get_key_from x y (kb.layouts kb.layout).keys 0

/-- A key qualifies at the point `(x, y)`: its type is neither `Pad` nor
`EndRow` and its rectangle `[x, x+w) × [y, y+h)` contains the point. -/
def key_hit (k : key) (x y : Nat) : Prop :=
  k.type ≠ .Pad ∧ k.type ≠ .EndRow ∧ k.x ≤ x ∧ x < k.x + k.w ∧ k.y ≤ y ∧ y < k.y + k.h

instance (k : key) (x y : Nat) : Decidable (key_hit k x y) := by
  unfold key_hit; infer_instance

/-- The rectangle of a key lies inside the `uint32_t` coordinate range. -/
def key_in_range (k : key) : Prop :=
  k.x + k.w < 2 ^ 32 ∧ k.y + k.h < 2 ^ 32

instance (k : key) : Decidable (key_in_range k) := by
  unfold key_in_range; infer_instance

/-! ## Geometry -/

/-- The loop of `kbd_get_rows`; `rows` is the `uint8_t` counter. -/
def kbd_get_rows_from : List key → Nat → Except Fault Nat
  | [], _ => .error .undefined
  | k :: ks, rows =>
    if k.type = .Last then .ok ((rows + 1) % 256)
    else if k.type = .EndRow then kbd_get_rows_from ks ((rows + 1) % 256)
    else kbd_get_rows_from ks rows

/-- The function `kbd_get_rows`. -/
def kbd_get_rows (l : layout) : Except Fault Nat :=
  kbd_get_rows_from l.keys 0

/-! ### The type `double`

The program computes the key widths in the type `double`.  It is taken to be
the binary64 format of IEEE 754 with every operation rounded to nearest, ties
to even, which is what the compilers of the platforms of the program give. -/

/-- The power `2 ^ e` for an integer exponent. -/
def pow2 (e : Int) : ℚ :=
  if 0 ≤ e then ((2 ^ e.toNat : Nat) : ℚ) else 1 / ((2 ^ (-e).toNat : Nat) : ℚ)

/-- The number of halvings that bring `n` below 2, at most `fuel` of them. -/
def log2_fuel : Nat → Nat → Nat
  | 0, _ => 0
  | fuel + 1, n => if n < 2 then 0 else log2_fuel fuel (n / 2) + 1

/-- The position of the highest bit of a number that is not 0. -/
def log2_floor (n : Nat) : Nat :=
  log2_fuel n n

/-- The binary exponent of a rational number that is not 0: the `e` with
`2 ^ e ≤ |q| < 2 ^ (e + 1)`, which is the difference of the bit positions of
numerator and denominator or one less. -/
def binary_exponent (q : ℚ) : Int :=
  if pow2 ((log2_floor q.num.natAbs : Int) - (log2_floor q.den : Int)) ≤ |q| then
    (log2_floor q.num.natAbs : Int) - (log2_floor q.den : Int)
  else (log2_floor q.num.natAbs : Int) - (log2_floor q.den : Int) - 1

/-- The integer nearest to a rational number, the even one of two that are
equally near. -/
def round_half_even (q : ℚ) : Int :=
  if q - ⌊q⌋ < 1 / 2 then ⌊q⌋
  else if 1 / 2 < q - ⌊q⌋ then ⌊q⌋ + 1
  else if ⌊q⌋ % 2 = 0 then ⌊q⌋ else ⌊q⌋ + 1

/-- A real number rounded to the precision of `double`, to nearest with ties to
even: 53 significant bits, and below `2 ^ -1022` the spacing `2 ^ -1074` of the
subnormal numbers. -/
def round_double (q : ℚ) : ℚ :=
  if q = 0 then 0
  else
    (round_half_even (q / pow2 (max (binary_exponent q) (-1022) - 52)) : ℚ) *
      pow2 (max (binary_exponent q) (-1022) - 52)

/-- A value of the type `double`: a finite number, an infinity or a NaN.  The
sign of a zero is not kept: the program divides by sums only, and a sum that is
zero is `+0`. -/
inductive double where
  | finite (q : ℚ)
  | infinite (negative : Bool)
  | nan
  deriving DecidableEq

/-- The `double` that an operation with the real result `q` delivers: `q`
rounded, and an infinity when the rounded value is `2 ^ 1024` or more in
magnitude. -/
def double_of_real (q : ℚ) : double :=
  if |round_double q| < pow2 1024 then .finite (round_double q) else .infinite (decide (q < 0))

/-- The conversion `(double)n` of a `uint32_t`, which is exact. -/
def double_of_uint32 (n : Nat) : double :=
  .finite (n : ℚ)

/-- The sum of two doubles. -/
def double_add : double → double → double
  | .finite a, .finite b => double_of_real (a + b)
  | .finite _, .infinite s => .infinite s
  | .infinite s, .finite _ => .infinite s
  | .infinite s, .infinite t => if s = t then .infinite s else .nan
  | _, _ => .nan

/-- The product of two doubles. -/
def double_mul : double → double → double
  | .finite a, .finite b => double_of_real (a * b)
  | .finite a, .infinite s => if a = 0 then .nan else .infinite (s != decide (a < 0))
  | .infinite s, .finite b => if b = 0 then .nan else .infinite (s != decide (b < 0))
  | .infinite s, .infinite t => .infinite (s != t)
  | _, _ => .nan

/-- The quotient of two doubles. -/
def double_div : double → double → double
  | .finite a, .finite b =>
    if b = 0 then (if a = 0 then .nan else .infinite (decide (a < 0)))
    else double_of_real (a / b)
  | .finite _, .infinite _ => .finite 0
  | .infinite s, .finite b => .infinite (s != decide (b < 0))
  | _, _ => .nan

/-- The comparison `a < b` of two doubles, false when one is a NaN. -/
def double_lt : double → double → Bool
  | .finite a, .finite b => decide (a < b)
  | .finite _, .infinite s => !s
  | .infinite s, .finite _ => s
  | .infinite s, .infinite t => s && !t
  | _, _ => false

/-- The conversion of a `double` to `uint32_t`: the value truncated toward
zero; undefined when that is not a `uint32_t`, as for an infinity or a NaN. -/
def double_to_uint32 : double → Except Fault Nat
  | .finite q => if -1 < q ∧ q < 2 ^ 32 then .ok (Int.toNat ⌊q⌋) else .error .undefined
  | _ => .error .undefined

/-- The loop of `kbd_get_row_length`; `len` is the sum so far.  The relative
width of a key is the value of its `double`. -/
def kbd_get_row_length_from : List key → double → Except Fault double
  | [], _ => .error .undefined
  | k :: ks, len =>
    if k.type ≠ .Last ∧ k.type ≠ .EndRow then
      kbd_get_row_length_from ks (double_add len (.finite k.width))
    else .ok len

/-- The function `kbd_get_row_length` on the key array from `k` on. -/
def kbd_get_row_length (ks : List key) : Except Fault double :=
  kbd_get_row_length_from ks (.finite 0)

/-- The `while` loop of `kbd_init_layout` on the key array from `k` on, with
the locals `x`, `y`, `rowlength` and `rowwidth`; it returns the keys with their
geometry. -/
def kbd_init_layout_loop (width keyheight : Nat) :
    List key → Nat → Nat → double → double → Except Fault (List key)
  | [], _, _, _, _ => .error .undefined
  | k :: ks, x, y, rowlength, rowwidth =>
    if k.type = .Last then .ok (k :: ks)
    else if k.type = .EndRow then do
      let rowlength ← kbd_get_row_length ks
      let ks ← kbd_init_layout_loop width keyheight ks 0 ((y + keyheight) % 2 ^ 32) rowlength
        (.finite 0)
      pure ({ k with h := keyheight } :: ks)
    else if k.width > 0 then do
      let w ← double_to_uint32
        (double_mul (double_div (double_of_uint32 width) rowlength) (.finite k.width))
      let x1 : Nat := (x + w) % 2 ^ 32
      let rowwidth := double_add rowwidth (.finite k.width)
      let bump : Bool := double_lt (double_of_uint32 x1)
        (double_mul (double_div rowwidth rowlength) (double_of_uint32 width))
      let ks ← kbd_init_layout_loop width keyheight ks
        (if bump then (x1 + 1) % 2 ^ 32 else x1) y rowlength rowwidth
      pure ({ k with x := x, y := y, w := if bump then (w + 1) % 2 ^ 32 else w,
                     h := keyheight } :: ks)
    else do
      let ks ← kbd_init_layout_loop width keyheight ks x y rowlength rowwidth
      pure ({ k with h := keyheight } :: ks)

/-- The function `kbd_init_layout`; a layout with `kbd_get_rows` 0 divides by
zero. -/
def kbd_init_layout (l : layout) (width height y_offset : Nat) : Except Fault layout := do
  let rows ← kbd_get_rows l
  if rows = 0 then .error .undefined
  else do
    let keyheight := height / rows
    let rowlength ← kbd_get_row_length l.keys
    let keys ← kbd_init_layout_loop width keyheight l.keys 0 y_offset rowlength (.finite 0)
    pure { l with keyheight := keyheight, keys := keys }

/-- The rows of a key array: the keys between `EndRow` markers, up to the
`Last` key; `cur` holds the keys of the row being read. -/
def layout_rows_from : List key → List key → List (List key)
  | [], cur => [cur]
  | k :: ks, cur =>
    if k.type = .Last then [cur]
    else if k.type = .EndRow then cur :: layout_rows_from ks []
    else layout_rows_from ks (cur ++ [k])

/-- The rows of a key array. -/
def layout_rows (ks : List key) : List (List key) :=
  layout_rows_from ks []

/-- The total relative width of a list of keys. -/
def relative_width (row : List key) : ℚ :=
  (row.map key.width).sum

/-- The total pixel width of the keys of positive relative width in a list. -/
def pixel_width (row : List key) : Nat :=
  ((row.filter (fun k => decide (0 < k.width))).map key.w).sum

/-- The keys of a key array up to the next `EndRow` or `Last` key: what is left
of the current row. -/
def row_rest (ks : List key) : List key :=
  ks.takeWhile (fun k => decide (k.type ≠ .Last ∧ k.type ≠ .EndRow))

/-- The sum of a list of relative widths as `kbd_get_row_length` and the loop of
`kbd_init_layout` form it: one rounded addition for each, from `len` on. -/
def double_sum (ws : List ℚ) (len : double) : double :=
  ws.foldl (fun s w => double_add s (.finite w)) len

/-- A row whose rounding errors stay below a pixel on a screen `W` pixels wide:
at most `2 ^ 16` keys, each of relative width 0 or between `2 ^ -32` and
`2 ^ 32`, and `1 ≤ W < 2 ^ 31`. -/
def tame_row (W : Nat) (row : List key) : Prop :=
  1 ≤ W ∧ W < 2 ^ 31 ∧ row.length ≤ 2 ^ 16 ∧
    ∀ k ∈ row, k.width = 0 ∨ (1 / 2 ^ 32 ≤ k.width ∧ k.width ≤ 2 ^ 32)

/-- The invariant of a row of the loop of `kbd_init_layout`: `cur` holds the
keys of the row that are laid out, `rest` is the key array from the current key
on.  `rowlength` is the rounded sum of the row, and in a tame row `x` is the
pixel width so far, `rowwidth` the rounded sum so far, and `x` is the share
`W * rowwidth / rowlength` rounded up, but for the rounding errors. -/
def rounded_row_invariant (W : Nat) (cur rest : List key) (x : Nat) (rw rl : double) : Prop :=
  rl = double_sum ((cur ++ row_rest rest).map key.width) (.finite 0) ∧
  (tame_row W (cur ++ row_rest rest) →
    x = pixel_width cur ∧ rw = double_sum (cur.map key.width) (.finite 0) ∧
    ∀ r S, rw = .finite r → rl = .finite S →
      (W : ℚ) * r / S - cur.length * ((W : ℚ) / 2 ^ 49) ≤ x ∧
      (x : ℚ) < (W : ℚ) * r / S + 1 + cur.length * ((W : ℚ) / 2 ^ 49))

/-! ## Keymap upload and redraw -/

/-- The function `create_and_upload_keymap`: `exit(9)` when `name` is not in the
keymap table, `exit(1)` when the protocol object is NULL, otherwise one upload
of the keymap with the two compose code points.  The anonymous file and its
mapping are taken to succeed. -/
def create_and_upload_keymap (kb : kbd) (name : String)
    (comp_unichr comp_shift_unichr : Nat) : Except Fault kbd :=
  if name ∉ kb.keymap_names then .error (.exit 9)
  else if kb.vkbd = false then .error (.exit 1)
  else .ok { kb with out := kb.out ++ [.keymap name comp_unichr comp_shift_unichr] }

/-- The state change of `kbd_draw_trail`: a trail that has faded by time alone
is dropped (`swipe_points_len = 0`); the drawing itself is not recorded. -/
def kbd_draw_trail (kb : kbd) : kbd :=
  if kb.trail_enabled = false ∨ kb.swipe_points.length < 2 ∨
      (kb.trail_fade_ms = 0 ∧ kb.trail_fade_distance_px ≤ 0) then kb
  else
    let last_t := (kb.swipe_points.getLast?.map wvkbd_point.time_ms).getD 0
    let now := if kb.trail_now_ms = 0 then last_t else kb.trail_now_ms
    if kb.trail_fade_ms > 0 ∧ now > last_t ∧ now - last_t > kb.trail_fade_ms ∧
        kb.trail_fade_distance_px ≤ 0 then
      { kb with swipe_points := [] }
    else kb

/-- The state change of `kbd_draw_layout`; of the state kept here it touches
only what `kbd_draw_trail` does. -/
def kbd_draw_layout (kb : kbd) : kbd :=
  kbd_draw_trail kb

/-! ## Layout and layer navigation -/

/-- The function `kbd_switch_layout`. -/
def kbd_switch_layout (kb : kbd) (l : Nat) (layer_index : Nat) : Except Fault kbd := do
  let kb := { kb with prevlayout := some kb.layout }
  let kb :=
    if kb.layer_index ≠ kb.last_abc_index ∧ (kb.layouts kb.layout).abc = true then
      { kb with last_abc_layout := some kb.layout, last_abc_index := kb.layer_index }
    else kb
  let kb := { kb with layer_index := layer_index, layout := l }
  let kb ←
    match kb.prevlayout with
    | none => create_and_upload_keymap kb (kb.layouts kb.layout).keymap_name 0 0
    | some p =>
      if (kb.layouts p).keymap_name ≠ (kb.layouts kb.layout).keymap_name then
        create_and_upload_keymap kb (kb.layouts kb.layout).keymap_name 0 0
      else pure kb
  pure (kbd_draw_layout kb)

/-- The layer array in use: `landscape_layers` in landscape, else `layers`. -/
def active_layers (kb : kbd) : List Nat :=
  if kb.landscape then kb.landscape_layers else kb.layers

/-- The loop `for (i = 0; layercount == 0; i++)` of `kbd_next_layer` from index
`i` on: it stops at the first index other than 0 holding `NumLayouts`. -/
def layercount_from (NumLayouts : Nat) : List Nat → Nat → Except Fault Nat
  | [], _ => .error .undefined
  | l :: ls, i =>
    if l = NumLayouts ∧ i ≠ 0 then .ok i else layercount_from NumLayouts ls (i + 1)

/-- The value of `layercount` after the scan of the active layer array. -/
def kbd_layercount (kb : kbd) : Except Fault Nat :=
  layercount_from kb.NumLayouts (active_layers kb) 0

/-- The function `kbd_next_layer`; `k` is the key pressed, `none` for NULL. -/
def kbd_next_layer (kb : kbd) (k : Option key) (invert : Bool) : Except Fault kbd := do
  let layer_index := kb.layer_index
  let (kb, layer_index) ←
    if kb.mods &&& Ctrl ≠ 0 ∨ kb.mods &&& Alt ≠ 0 ∨ kb.mods &&& AltGr ≠ 0 ∨
        kb.compose ≠ 0 then
      pure (f := Except Fault) ({ kb with mods := 0 }, 0)
    else if kb.mods &&& Shift ≠ 0 ∨ kb.mods &&& CapsLock ≠ 0 ∨ invert = true then do
      let li ←
        if layer_index > 0 then pure (layer_index - 1)
        else do
          let layercount ← kbd_layercount kb
          pure (layercount - 1)
      let kb := if invert = false then { kb with mods := (kb.mods ^^^ Shift) % 256 } else kb
      pure (kb, li)
    else pure (kb, layer_index + 1)
  let layercount ← kbd_layercount kb
  let layer_index := if layer_index ≥ layercount then 0 else layer_index
  match (active_layers kb)[layer_index]? with
  | none => .error .undefined
  | some layer =>
    let kb := if kb.compose ≠ 0 ∧ k.isSome then { kb with compose := 0 } else kb
    kbd_switch_layout kb layer layer_index

/-- Calling `kbd_next_layer(kb, k, false)` `n` times in a row. -/
def kbd_next_layer_times (k : Option key) : Nat → kbd → Except Fault kbd
  | 0, kb => .ok kb
  | n + 1, kb => do
    let kb ← kbd_next_layer kb k false
    kbd_next_layer_times k n kb

/-! ## Key press and release -/

/-- The `isalpha` of the C locale on a byte. -/
def isalpha (c : Nat) : Bool :=
  (65 ≤ c && c ≤ 90) || (97 ≤ c && c ≤ 122)

/-- The `isupper` of the C locale on a byte. -/
def isupper (c : Nat) : Bool :=
  65 ≤ c && c ≤ 90

/-- The `isalnum` of the C locale on a byte. -/
def isalnum (c : Nat) : Bool :=
  isalpha c || (48 ≤ c && c ≤ 57)

/-- One request on the protocol object `kb->vkbd`; on a NULL object the call
is undefined. -/
def vkbd_request (kb : kbd) (e : Event) : Except Fault kbd :=
  if kb.vkbd = false then .error .undefined
  else .ok { kb with out := kb.out ++ [e] }

/-- The function `kbd_get_layer_index`: the position of the layout `l` among
the first `NumLayouts - 1` entries of the registry, 0 when it is not there.
The bound is compared as a `size_t`, so with `NumLayouts = 0` it does not
restrict the search. -/
def kbd_get_layer_index (kb : kbd) (l : Nat) : Nat :=
  if kb.NumLayouts = 0 ∨ l + 1 < kb.NumLayouts then l else 0

/-- The function `kbd_print_key_stdout`.  The CapsLock test joins the mask bit
and the truth value of the label test with the bitwise `&`, as the source does.
With Shift set the label test is not evaluated.  Printing a NULL label, or
measuring one, is undefined. -/
def kbd_print_key_stdout (kb : kbd) (k : key) : Except Fault kbd :=
  let put (text : Option (List Nat)) : Except Fault kbd :=
    match text with
    | none => .error .undefined
    | some text => .ok { kb with stdout := kb.stdout ++ text }
  let unhandled : Except Fault kbd :=
    if kb.mods &&& Shift ≠ 0 then put k.shift_label
    else
      match k.label with
      | none => .error .undefined
      | some label =>
        if (kb.mods &&& CapsLock) &&&
            (if label.length = 1 ∧ isalpha (label.headD 0) = true then 1 else 0) ≠ 0 then
          put k.shift_label
        else if kb.mods &&& Ctrl = 0 ∧ kb.mods &&& Alt = 0 ∧ kb.mods &&& Super = 0 then
          put (some label)
        else .ok kb
  if k.type = .Code then
    if k.code = KEY_SPACE then put (some [32])
    else if k.code = KEY_ENTER then put (some [10])
    else if k.code = KEY_BACKSPACE then put (some [8])
    else if k.code = KEY_TAB then put (some [9])
    else unhandled
  else if k.type ≠ .Copy then .ok kb
  else .ok kb

/-- The label `kbd_draw_key` draws on the key: the value of its first
statement, a pointer that is NULL when the chosen label is.  The CapsLock test
joins the mask bit and the label test with `&&`, so the label is measured only
with CapsLock set and Shift clear; measuring a NULL label is undefined. -/
def kbd_draw_key_label (kb : kbd) (k : key) : Except Fault (Option (List Nat)) :=
  if kb.mods &&& Shift ≠ 0 then .ok k.shift_label
  else if kb.mods &&& CapsLock ≠ 0 then
    match k.label with
    | none => .error .undefined
    | some label =>
      if label.length = 1 ∧ isalpha (label.headD 0) = true then .ok k.shift_label
      else .ok k.label
  else .ok k.label

/-- The modifier toggles of `kbd_unpress_key`: each one-shot modifier that is
set is switched off. -/
def unlatch_mods (kb : kbd) : kbd :=
  let unlatch_shift := kb.mods &&& Shift = Shift
  let unlatch_ctrl := kb.mods &&& Ctrl = Ctrl
  let unlatch_alt := kb.mods &&& Alt = Alt
  let unlatch_super := kb.mods &&& Super = Super
  let unlatch_altgr := kb.mods &&& AltGr = AltGr
  let kb := if unlatch_shift then { kb with mods := (kb.mods ^^^ Shift) % 256 } else kb
  let kb := if unlatch_ctrl then { kb with mods := (kb.mods ^^^ Ctrl) % 256 } else kb
  let kb := if unlatch_alt then { kb with mods := (kb.mods ^^^ Alt) % 256 } else kb
  let kb := if unlatch_super then { kb with mods := (kb.mods ^^^ Super) % 256 } else kb
  if unlatch_altgr then { kb with mods := (kb.mods ^^^ AltGr) % 256 } else kb

/-- Some one-shot modifier is set: the disjunction of the `unlatch_` flags of
`kbd_unpress_key`. -/
def unlatched (kb : kbd) : Prop :=
  kb.mods &&& Shift = Shift ∨ kb.mods &&& Ctrl = Ctrl ∨ kb.mods &&& Alt = Alt ∨
    kb.mods &&& Super = Super ∨ kb.mods &&& AltGr = AltGr

instance (kb : kbd) : Decidable (unlatched kb) := by
  unfold unlatched; infer_instance

/-- The release event of `kbd_unpress_key` for the key `last_press`;
`unlatch_shift` is the flag computed before the toggles. -/
def unpress_release (kb : kbd) (last_press : key) (unlatch_shift : Bool) (time : Nat) :
    Except Fault kbd :=
  if last_press.type = .Copy then vkbd_request kb (.keyev time 127 false)
  else if kb.shift_space_is_tab = true ∧ last_press.code = KEY_SPACE ∧ unlatch_shift = true then
    vkbd_request kb (.keyev time KEY_TAB false)
  else vkbd_request kb (.keyev time last_press.code false)

/-- The end of `kbd_unpress_key`: a finished compose sequence goes back to the
last alphabetic layout, otherwise the keyboard or the key is redrawn;
`was_unlatched` tells whether a modifier was switched off. -/
def unpress_finish (kb : kbd) (was_unlatched : Bool) : Except Fault kbd :=
  if kb.compose ≥ 2 then
    match kb.last_abc_layout with
    | none => .error .undefined
    | some l => kbd_switch_layout { kb with compose := 0 } l kb.last_abc_index
  else if was_unlatched = true then .ok (kbd_draw_layout kb)
  else .ok kb

/-- The function `kbd_unpress_key`. -/
def kbd_unpress_key (kb : kbd) (time : Nat) : Except Fault kbd :=
  match kb.last_press with
  | none => .ok kb
  | some last_press => do
    let unlatch_shift : Bool := decide (kb.mods &&& Shift = Shift)
    let was_unlatched : Bool := decide (unlatched kb)
    let kb := unlatch_mods kb
    let kb ← (if was_unlatched = true then vkbd_request kb (.modifiers kb.mods) else .ok kb)
    let kb ← unpress_release kb last_press unlatch_shift time
    let kb ← unpress_finish kb was_unlatched
    pure { kb with last_press := none }

/-- The statements after the layout switch of the `Layout` and `BackLayer`
cases: the alphabetic fallback is reset to the first layer. -/
def reset_last_abc (kb : kbd) : Except Fault kbd :=
  match (active_layers kb)[0]? with
  | none => .error .undefined
  | some layer => .ok { kb with last_abc_index := 0, last_abc_layout := some layer }

/-- The start of `kbd_press_key`, taken when compose is 1 and the key is
neither a `Compose` nor a `Mod` key. -/
def press_composing (kb : kbd) (k : key) : Except Fault kbd :=
  if k.type = .NextLayer ∨ k.type = .BackLayer ∨ (k.type = .Code ∧ k.code = KEY_SPACE) then
    kbd_switch_layout { kb with compose := 0 } kb.Index 0
  else
    match k.layout with
    | some l =>
      kbd_switch_layout { kb with compose := (kb.compose + 1) % 256 } l
        (kbd_get_layer_index { kb with compose := (kb.compose + 1) % 256 } l)
    | none => .ok kb

/-- The modifier request of the `Code` case. -/
def press_code_modifiers (kb : kbd) (k : key) : Except Fault kbd :=
  if k.code_mod ≠ 0 then
    if k.reset_mod = true then vkbd_request kb (.modifiers k.code_mod)
    else vkbd_request kb (.modifiers (kb.mods ^^^ k.code_mod))
  else vkbd_request kb (.modifiers kb.mods)

/-- The press event of the `Code` case: Tab for Shift and Space when
`shift_space_is_tab` is set, else the key's code. -/
def press_code_key (kb : kbd) (k : key) (time : Nat) : Except Fault kbd :=
  if kb.shift_space_is_tab = true ∧ k.code = KEY_SPACE ∧ kb.mods &&& Shift ≠ 0 then do
    let kb ← vkbd_request kb (.modifiers 0)
    vkbd_request kb (.keyev time KEY_TAB true)
  else vkbd_request kb (.keyev time k.code true)

/-- The statement `if (kb->print || kb->print_intersect) kbd_print_key_stdout`. -/
def press_print (kb : kbd) (k : key) : Except Fault kbd :=
  if kb.print = true ∨ kb.print_intersect = true then kbd_print_key_stdout kb k
  else .ok kb

/-- The `Code` case of `kbd_press_key`. -/
def press_code (kb : kbd) (k : key) (time : Nat) : Except Fault kbd := do
  let kb ← press_code_modifiers kb k
  let kb ← press_code_key { kb with last_swipe := some k, last_press := some k } k time
  let kb ← press_print kb k
  pure (if kb.compose ≠ 0 then { kb with compose := (kb.compose + 1) % 256 } else kb)

/-- The `Mod` case of `kbd_press_key`. -/
def press_mod (kb : kbd) (k : key) : Except Fault kbd :=
  if k.code = Shift ∨ k.code = CapsLock then
    vkbd_request (kbd_draw_layout { kb with mods := (kb.mods ^^^ k.code) % 256 })
      (.modifiers ((kb.mods ^^^ k.code) % 256))
  else
    vkbd_request { kb with mods := (kb.mods ^^^ k.code) % 256 }
      (.modifiers ((kb.mods ^^^ k.code) % 256))

/-- The `Layout` case of `kbd_press_key`; a NULL target layout is dereferenced
by `kbd_switch_layout`. -/
def press_layout (kb : kbd) (k : key) : Except Fault kbd :=
  match k.layout with
  | none => .error .undefined
  | some l => do
    let kb ← kbd_switch_layout kb l (kbd_get_layer_index kb l)
    reset_last_abc kb

/-- The `BackLayer` case of `kbd_press_key`. -/
def press_back_layer (kb : kbd) : Except Fault kbd :=
  match kb.last_abc_layout with
  | none => .ok kb
  | some l => do
    let kb ← kbd_switch_layout { kb with compose := 0 } l kb.last_abc_index
    reset_last_abc kb

/-- The `Copy` case of `kbd_press_key`. -/
def press_copy (kb : kbd) (k : key) (time : Nat) : Except Fault kbd := do
  let kb ← create_and_upload_keymap { kb with last_swipe := some k, last_press := some k }
    (kb.layouts kb.layout).keymap_name k.code k.code_mod
  let kb ← vkbd_request kb (.modifiers kb.mods)
  let kb ← vkbd_request kb (.keyev time 127 true)
  press_print kb k

/-- The function `kbd_press_key`. -/
def kbd_press_key (kb : kbd) (k : key) (time : Nat) : Except Fault kbd :=
  if kb.compose = 1 ∧ k.type ≠ .Compose ∧ k.type ≠ .Mod then press_composing kb k
  else
    match k.type with
    | .Code => press_code kb k time
    | .Mod => press_mod kb k
    | .Layout => press_layout kb k
    | .Compose => .ok { kb with compose := if kb.compose = 0 then 1 else 0 }
    | .NextLayer => kbd_next_layer kb (some k) false
    | .BackLayer => press_back_layer kb
    | .Copy => press_copy kb k time
    | _ => .ok kb

/-! ## Strings -/

/-- The `toupper` of the C locale on a byte. -/
def toupper (c : Nat) : Nat :=
  if 97 ≤ c ∧ c ≤ 122 then c - 32 else c

/-- The `tolower` of the C locale on a byte. -/
def tolower (c : Nat) : Nat :=
  if 65 ≤ c ∧ c ≤ 90 then c + 32 else c

/-- Modelled from the spec: `ascii_lower_inplace` of `utf8.h`, which is not
among the sources.  The spec speaks of the "lowercase form" of a word within
"ASCII-class" heuristics: every byte `A`..`Z` becomes `a`..`z`, every other
byte stays. -/
def ascii_lower_inplace (s : List Nat) : List Nat :=
  s.map tolower

/-- Modelled from the spec: `utf8_pop_last` of `utf8.h`, which is not among the
sources.  The spec: "Backspace pops the last UTF-8 code point (not byte) from
the token": the trailing continuation bytes (`10xxxxxx`) go, and the byte
before them. -/
def utf8_pop_last (s : List Nat) : List Nat :=
  ((s.reverse.dropWhile (fun c => decide (c &&& 0xC0 = 0x80))).drop 1).reverse

/-- Modelled from the spec: `utf8_startswith` of `utf8.h`, which is not among
the sources.  The spec: the word "must share the current token as a ...
prefix": the bytes of `pre` start the bytes of `s`. -/
def utf8_startswith (s pre : List Nat) : Bool :=
  pre.isPrefixOf s

/-- The copy `strncpy(buf, s, sizeof(buf) - 1)` into a zeroed buffer of
`WVKBD_MAX_TOKEN_BYTES` bytes: the first 127 bytes of `s`. -/
def strncpy_token (s : List Nat) : List Nat :=
  s.take (WVKBD_MAX_TOKEN_BYTES - 1)

/-! ## Token and context -/

/-- The function `kbd_last_context_word`; reading `context_words` outside its
64 entries is undefined. -/
def kbd_last_context_word (kb : kbd) : Except Fault (Option (List Nat)) :=
  if kb.context_words_len ≤ 0 then .ok none
  else
    let idx := if kb.context_words_pos - 1 < 0 then kb.context_words_max - 1
      else kb.context_words_pos - 1
    if idx < 0 then .error .undefined
    else
      match kb.context_words[idx.toNat]? with
      | none => .error .undefined
      | some word => .ok word

/-- The function `kbd_context_push_word` on a non-NULL word; `strdup` is taken
to succeed. -/
def kbd_context_push_word (kb : kbd) (word : List Nat) : Except Fault kbd :=
  if word = [] ∨ kb.context_words_max ≤ 0 then .ok kb
  else
    let tmp := ascii_lower_inplace (strncpy_token word)
    let idx := Int.tmod kb.context_words_pos (WVKBD_MAX_CONTEXT_WORDS : Int)
    if idx < 0 ∨ kb.context_words.length ≤ idx.toNat then .error .undefined
    else
      .ok { kb with
        context_words := kb.context_words.set idx.toNat (some tmp)
        context_words_pos := Int.tmod (kb.context_words_pos + 1) kb.context_words_max
        context_words_len :=
          if kb.context_words_len < kb.context_words_max then kb.context_words_len + 1
          else kb.context_words_len }

/-- The function `kbd_is_separator_label` on a non-NULL label. -/
def kbd_is_separator_label (label : List Nat) : Bool :=
  match label with
  | [] => false
  | [c] =>
    if c = 32 then true
    else if c = 10 then true
    else if isalnum c then false
    else if c = 39 ∨ c = 95 then false
    else true
  | _ => false

/-- The function `kbd_is_token_char_label` on a non-NULL label. -/
def kbd_is_token_char_label (label : List Nat) : Bool :=
  match label with
  | [] => false
  | [c] =>
    if isalnum c then true
    else if c = 39 ∨ c = 95 then true
    else false
  | _ => false

/-! ## Suggestions -/

/-- The test `dismissed` of the first loop of `kbd_suggestions_from_candidates`:
the candidate has a non-empty word, the dismissed list is not empty and holds
the lowercase form of the word. -/
def candidate_dismissed (kb : kbd) (c : wvkbd_candidate) : Bool :=
  match c.word with
  | some word =>
    decide (word ≠ [] ∧ kb.dismissed_words.length > 0 ∧
      ascii_lower_inplace (strncpy_token word) ∈ kb.dismissed_words)
  | none => false

/-- The first loop of `kbd_suggestions_from_candidates`: candidates whose
lowercase form is in the dismissed list are skipped, the others become `Word`
suggestions, while there is room in the array. -/
def suggestions_from_loop (kb : kbd) :
    List wvkbd_candidate → List wvkbd_suggestion → List wvkbd_suggestion
  | [], acc => acc
  | c :: cs, acc =>
    if acc.length < WVKBD_MAX_SUGGESTIONS then
      if candidate_dismissed kb c = true then suggestions_from_loop kb cs acc
      else
        suggestions_from_loop kb cs
          (acc ++ [{ kind := .WVKBD_SUGGEST_WORD, word := c.word, inline_word := [],
                     score := c.score }])
    else acc

/-- The value of `can_add` before the last `if` of
`kbd_suggestions_from_candidates`, for the `Word` suggestions `sugs`. -/
def can_add_word (kb : kbd) (sugs : List wvkbd_suggestion) : Bool :=
  decide (kb.current_token_len > 0 ∧ sugs.length < WVKBD_MAX_SUGGESTIONS) &&
  !(match kb.predictor with
    | some p => p.user_has_word kb.current_token
    | none => false) &&
  sugs.all (fun s =>
    !(match s.word with
      | some word =>
        decide (s.kind = .WVKBD_SUGGEST_WORD ∧
          ascii_lower_inplace (strncpy_token word) =
            ascii_lower_inplace (strncpy_token kb.current_token))
      | none => false))

/-- The function `kbd_suggestions_from_candidates` on the candidates the
predictor returned. -/
def kbd_suggestions_from_candidates (kb : kbd) (cands : List wvkbd_candidate) : kbd :=
  let sugs := suggestions_from_loop kb cands []
  if can_add_word kb sugs = true then
    { kb with
      suggestions := sugs ++
        [{ kind := .WVKBD_SUGGEST_ADD_WORD, word := none,
           inline_word := [43, 32] ++ kb.current_token.take (WVKBD_MAX_TOKEN_BYTES - 2 - 1),
           score := 0 }] }
  else { kb with suggestions := sugs }

/-- The function `kbd_update_suggestions_prefix`. -/
def kbd_update_suggestions_prefix (kb : kbd) : kbd :=
  match kb.predictor with
  | none => { kb with suggestions := [], suggest_mode := .WVKBD_SMODE_NONE }
  | some p =>
    kbd_draw_layout
      { (kbd_suggestions_from_candidates kb
          (p.predict_prefix kb.current_token kb.suggest_visible_count)) with
        suggest_mode := .WVKBD_SMODE_PREFIX }

/-- The function `kbd_update_suggestions_next_word`. -/
def kbd_update_suggestions_next_word (kb : kbd) : Except Fault kbd :=
  match kb.predictor with
  | none => .ok { kb with suggestions := [], suggest_mode := .WVKBD_SMODE_NONE }
  | some p => do
    let lw ← kbd_last_context_word kb
    pure (kbd_draw_layout
      { (kbd_suggestions_from_candidates kb
          (p.predict_next_word lw kb.suggest_visible_count)) with
        suggest_mode := .WVKBD_SMODE_NEXT_WORD })

/-- Modelled from the spec: the `struct wvkbd_key_pos_map` of `predict.h`, which
is not among the sources, as the keys `kbd_build_key_pos_map` takes positions
from.  The loop of `kbd_build_key_pos_map` over the keys of the last alphabetic
layout: every `Code` key with a one-byte label enters the map. -/
def kbd_build_key_pos_map_from : List key → List key → Except Fault (List key)
  | [], _ => .error .undefined
  | k :: ks, pos =>
    if k.type = .Last then .ok pos
    else
      match k.label with
      | some [_] =>
        if k.type = .Code then kbd_build_key_pos_map_from ks (pos ++ [k])
        else kbd_build_key_pos_map_from ks pos
      | _ => kbd_build_key_pos_map_from ks pos

/-- The function `kbd_build_key_pos_map`. -/
def kbd_build_key_pos_map (kb : kbd) : Except Fault (List key) :=
  match kb.last_abc_layout with
  | none => .ok []
  | some l => kbd_build_key_pos_map_from (kb.layouts l).keys []

/-- The test `s->kind == WVKBD_SUGGEST_WORD && s->word && s->word[0]`. -/
def suggestion_has_word (s : wvkbd_suggestion) : Bool :=
  match s.word with
  | some word => decide (s.kind = .WVKBD_SUGGEST_WORD ∧ word ≠ [])
  | none => false

/-- The function `kbd_set_pending_swipe_from_suggestions`: the first `Word`
suggestion with a non-empty word becomes the pending swipe word. -/
def kbd_set_pending_swipe_from_suggestions (kb : kbd) : kbd :=
  match kb.suggestions.find? suggestion_has_word with
  | some s =>
    { kb with pending_swipe := true, pending_swipe_word := strncpy_token (s.word.getD []) }
  | none => { kb with pending_swipe := false, pending_swipe_word := [] }

/-- The function `kbd_update_suggestions_swipe`; every call that returns is
counted in `swipe_refreshes`. -/
def kbd_update_suggestions_swipe (kb : kbd) : Except Fault kbd :=
  match kb.predictor with
  | none => .ok { kb with swipe_refreshes := kb.swipe_refreshes + 1 }
  | some p =>
    if kb.swipe_points.length < 2 then
      .ok { kb with swipe_refreshes := kb.swipe_refreshes + 1 }
    else do
      let pos ← kbd_build_key_pos_map kb
      let lw ← kbd_last_context_word kb
      pure (kbd_draw_layout (kbd_set_pending_swipe_from_suggestions
        { (kbd_suggestions_from_candidates kb
            (p.predict_swipe pos kb.swipe_points kb.current_token lw
              kb.suggest_visible_count)) with
          suggest_mode := .WVKBD_SMODE_SWIPE
          swipe_refreshes := kb.swipe_refreshes + 1 }))

/-- The function `kbd_dismiss_word`; `word` is `none` for NULL.  A full list
loses its first entry before the word is added. -/
def kbd_dismiss_word (kb : kbd) (word : Option (List Nat)) : kbd :=
  match word with
  | none => kb
  | some [] => kb
  | some word =>
    let w := ascii_lower_inplace (strncpy_token word)
    if w ∈ kb.dismissed_words then kb
    else if kb.dismissed_words.length ≥ WVKBD_MAX_DISMISSED_WORDS then
      { kb with
        dismissed_words :=
          (kb.dismissed_words.drop 1).take (WVKBD_MAX_DISMISSED_WORDS - 1) ++
            [strncpy_token w] }
    else { kb with dismissed_words := kb.dismissed_words ++ [strncpy_token w] }

/-- The function `kbd_refresh_suggestions`. -/
def kbd_refresh_suggestions (kb : kbd) : Except Fault kbd :=
  match kb.suggest_mode with
  | .WVKBD_SMODE_SWIPE => kbd_update_suggestions_swipe kb
  | .WVKBD_SMODE_NEXT_WORD => kbd_update_suggestions_next_word kb
  | _ => .ok ( kbd_update_suggestions_prefix kb)

/-- The function `kbd_commit_token_if_needed`. -/
def kbd_commit_token_if_needed (kb : kbd) : Except Fault kbd :=
  if kb.current_token_len ≤ 0 then .ok kb
  else do
    let kb ← kbd_context_push_word kb kb.current_token
    pure { kb with current_token := [], current_token_len := 0 }

/-! ## Commit engine -/

/-- One entry of the derived character map of `kbd_build_char_keymap`: the
`struct wvkbd_char_key` with `has` set, as the pair of `code` and `mods`. -/
abbrev char_keymap := List (Option (Nat × Nat))

/-- The assignment `if (c < 128 && !out[c].has) { ... }`. -/
def char_keymap_add (map : char_keymap) (c code mods : Nat) : char_keymap :=
  if c < 128 ∧ map.getD c none = none then map.set c (some (code, mods)) else map

/-- The loop of `kbd_build_char_keymap` over the keys of the last alphabetic
layout. -/
def kbd_build_char_keymap_from : List key → char_keymap → Except Fault char_keymap
  | [], _ => .error .undefined
  | k :: ks, map =>
    if k.type = .Last then .ok map
    else
      let map :=
        match k.label with
        | some [c] => if k.type = .Code then char_keymap_add map c k.code 0 else map
        | _ => map
      let map :=
        match k.shift_label with
        | some [c] => if k.type = .Code then char_keymap_add map c k.code Shift else map
        | _ => map
      kbd_build_char_keymap_from ks map

/-- The function `kbd_build_char_keymap`. -/
def kbd_build_char_keymap (kb : kbd) : Except Fault char_keymap :=
  match kb.last_abc_layout with
  | none => .ok (List.replicate 128 none)
  | some l => kbd_build_char_keymap_from (kb.layouts l).keys (List.replicate 128 none)

/-- The loop of `kbd_type_text_mapped` from the byte `c` on; the result tells
whether every byte had a mapped key. -/
def kbd_type_text_mapped_loop (map : char_keymap) :
    List Nat → Nat → kbd → Except Fault (Bool × kbd)
  | [], _, kb => do
    let kb ← vkbd_request kb (.modifiers kb.mods)
    pure (true, kb)
  | c :: cs, t, kb =>
    match (if c ≥ 128 then none else map.getD c none) with
    | none => .ok (false, kb)
    | some (code, mods) => do
      let kb ← vkbd_request kb (.modifiers mods)
      let kb ← vkbd_request kb (.keyev t code true)
      let kb ← vkbd_request kb (.keyev t code false)
      kbd_type_text_mapped_loop map cs ((t + 1) % 2 ^ 32) kb

/-- The function `kbd_type_text_mapped` on a non-NULL text. -/
def kbd_type_text_mapped (kb : kbd) (time_ms : Nat) (text : List Nat) :
    Except Fault (Bool × kbd) :=
  if kb.vkbd = false then .ok (false, kb)
  else do
    let map ← kbd_build_char_keymap kb
    kbd_type_text_mapped_loop map text time_ms kb

/-- The function `kbd_type_codepoint`. -/
def kbd_type_codepoint (kb : kbd) (time_ms cp : Nat) : Except Fault kbd := do
  let kb ← create_and_upload_keymap kb (kb.layouts kb.layout).keymap_name cp cp
  let kb ← vkbd_request kb (.modifiers 0)
  let kb ← vkbd_request kb (.keyev time_ms 127 true)
  vkbd_request kb (.keyev time_ms 127 false)

/-- One round of the decoding loop of `kbd_type_text_utf8` on a non-empty rest
`s` of the text: the code point and the number of bytes it takes.  A byte past
the end of the list is the terminating NUL. -/
def utf8_next (s : List Nat) : Nat × Nat :=
  let s0 := s.getD 0 0
  let s1 := s.getD 1 0
  let s2 := s.getD 2 0
  let s3 := s.getD 3 0
  if s0 < 0x80 then (s0, 1)
  else if s0 &&& 0xE0 = 0xC0 ∧ s1 &&& 0xC0 = 0x80 then
    (((s0 &&& 0x1F) <<< 6) ||| (s1 &&& 0x3F), 2)
  else if s0 &&& 0xF0 = 0xE0 ∧ s1 &&& 0xC0 = 0x80 ∧ s2 &&& 0xC0 = 0x80 then
    (((s0 &&& 0x0F) <<< 12) ||| ((s1 &&& 0x3F) <<< 6) ||| (s2 &&& 0x3F), 3)
  else if s0 &&& 0xF8 = 0xF0 ∧ s1 &&& 0xC0 = 0x80 ∧ s2 &&& 0xC0 = 0x80 ∧
      s3 &&& 0xC0 = 0x80 then
    (((s0 &&& 0x07) <<< 18) ||| ((s1 &&& 0x3F) <<< 12) ||| ((s2 &&& 0x3F) <<< 6) |||
      (s3 &&& 0x3F), 4)
  else (s0, 1)

/-- The decoding loop of `kbd_type_text_utf8` with a bound on its rounds: the
code points of the text in order. -/
def utf8_codepoints_fuel : Nat → List Nat → List Nat
  | 0, _ => []
  | _ + 1, [] => []
  | fuel + 1, c :: rest =>
    (utf8_next (c :: rest)).1 ::
      utf8_codepoints_fuel fuel ((c :: rest).drop (utf8_next (c :: rest)).2)

/-- The code points the loop of `kbd_type_text_utf8` reads from a text; every
round takes at least one byte, so as many rounds as bytes are enough. -/
def utf8_codepoints (text : List Nat) : List Nat :=
  utf8_codepoints_fuel text.length text

/-- The calls of `kbd_type_codepoint` of `kbd_type_text_utf8`, one for each
code point, at times `t`, `t + 1`, and so on. -/
def kbd_type_codepoints : List Nat → Nat → kbd → Except Fault kbd
  | [], _, kb => .ok kb
  | cp :: cps, t, kb => do
    let kb ← kbd_type_codepoint kb t cp
    kbd_type_codepoints cps ((t + 1) % 2 ^ 32) kb

/-- The function `kbd_type_text_utf8` on a non-NULL text. -/
def kbd_type_text_utf8 (kb : kbd) (time_ms : Nat) (text : List Nat) : Except Fault kbd :=
  if kb.vkbd = false then .ok kb
  else do
    let kb ← kbd_type_codepoints (utf8_codepoints text) time_ms kb
    create_and_upload_keymap kb (kb.layouts kb.layout).keymap_name 0 0

/-- The statement `if (!kbd_type_text_mapped(kb, t, text)) kbd_type_text_utf8(kb,
t, text);` of `kbd_commit_suggestion`. -/
def kbd_type_text (kb : kbd) (time_ms : Nat) (text : List Nat) : Except Fault kbd := do
  let r ← kbd_type_text_mapped kb time_ms text
  if r.1 = true then pure r.2 else kbd_type_text_utf8 r.2 time_ms text

/-- The flags `first_upper`, `saw_alpha` and `all_upper` after the loop of
`kbd_adjust_suggestion_case` over the token from position `i` on. -/
def token_case_flags : List Nat → Nat → Bool × Bool × Bool → Bool × Bool × Bool
  | [], _, flags => flags
  | c :: cs, i, (first_upper, saw_alpha, all_upper) =>
    if isalpha c = true then
      token_case_flags cs (i + 1)
        (if i = 0 ∧ isupper c = true then true else first_upper, true,
         if isupper c = true then all_upper else false)
    else token_case_flags cs (i + 1) (first_upper, saw_alpha, all_upper)

/-- The function `kbd_adjust_suggestion_case`: the contents of `out`; `word` is
`none` for NULL. -/
def kbd_adjust_suggestion_case (kb : kbd) (word : Option (List Nat)) (mods : Nat) : List Nat :=
  match word with
  | none => []
  | some [] => []
  | some word =>
    let out := ascii_lower_inplace (strncpy_token word)
    let flags := token_case_flags kb.current_token 0 (false, false, true)
    let first_upper := flags.1
    let saw_alpha := flags.2.1
    let all_upper := if saw_alpha = true then flags.2.2 else false
    let all_upper' :=
      if kb.current_token_len ≤ 0 then (if mods &&& CapsLock ≠ 0 then true else all_upper)
      else all_upper
    let first_upper' :=
      if kb.current_token_len ≤ 0 then
        (if mods &&& CapsLock ≠ 0 then false
         else if mods &&& Shift ≠ 0 then true else first_upper)
      else first_upper
    if all_upper' = true then out.map (fun c => if c < 0x80 then toupper c else c)
    else if first_upper' = true then
      match out with
      | [] => []
      | c :: cs => toupper c :: cs
    else out

/-- The part of `kbd_commit_suggestion` after the prefix check; `word_in` is
the copy of the word. -/
def kbd_commit_suggestion_typed (kb : kbd) (time_ms : Nat) (word_in : List Nat) :
    Except Fault kbd := do
  let adjusted := kbd_adjust_suggestion_case kb (some word_in) kb.mods
  let kb ←
    (if kb.current_token_len > 0 then
      (if adjusted.drop kb.current_token.length ≠ [] then
        kbd_type_text kb time_ms (adjusted.drop kb.current_token.length)
      else .ok kb)
    else kbd_type_text kb time_ms adjusted)
  pure ( kbd_update_suggestions_prefix
    { kb with current_token := strncpy_token adjusted,
              current_token_len := (strncpy_token adjusted).length })

/-- The function `kbd_commit_suggestion`; `word` is `none` for NULL. -/
def kbd_commit_suggestion (kb : kbd) (time_ms : Nat) (word : Option (List Nat)) :
    Except Fault kbd :=
  match word with
  | none => .ok kb
  | some [] => .ok kb
  | some word =>
    let word_in := strncpy_token word
    let kb := { kb with pending_swipe := false, pending_swipe_word := [] }
    let token_l := ascii_lower_inplace (strncpy_token kb.current_token)
    let word_l := ascii_lower_inplace (strncpy_token word_in)
    if kb.current_token_len > 0 ∧ utf8_startswith word_l token_l = false then .ok kb
    else kbd_commit_suggestion_typed kb time_ms word_in

/-! ## Committed keys -/

/-- The two statements `kb->pending_swipe = false; kb->pending_swipe_word[0] = 0`. -/
def clear_pending_swipe (kb : kbd) : kbd :=
  { kb with pending_swipe := false, pending_swipe_word := [] }

/-- The separator branch of `kbd_handle_committed_key`. -/
def committed_separator (kb : kbd) : Except Fault kbd := do
  let kb ← kbd_commit_token_if_needed (clear_pending_swipe kb)
  kbd_update_suggestions_next_word kb

/-- The token-character branch of `kbd_handle_committed_key`: the label is
appended when `current_token_len + len + 1`, computed as a `size_t`, is below
the size of the buffer; `strcat` past the end of the buffer is undefined. -/
def committed_token_char (kb : kbd) (label : List Nat) : Except Fault kbd :=
  let kb := clear_pending_swipe kb
  if ((kb.current_token_len % 2 ^ 64).toNat + label.length + 1) % 2 ^ 64 <
      WVKBD_MAX_TOKEN_BYTES then
    if kb.current_token.length + label.length + 1 > WVKBD_MAX_TOKEN_BYTES then
      .error .undefined
    else
      .ok ( kbd_update_suggestions_prefix
        { kb with current_token := kb.current_token ++ label,
                  current_token_len := (kb.current_token ++ label).length })
  else .ok kb

/-- The two tests on the effective label that end both cases of
`kbd_handle_committed_key`; `label` is `none` for NULL. -/
def committed_label (kb : kbd) (label : Option (List Nat)) : Except Fault kbd :=
  match label with
  | none => .ok kb
  | some label =>
    if kbd_is_separator_label label = true then committed_separator kb
    else if kbd_is_token_char_label label = true then committed_token_char kb label
    else .ok kb

/-- The test `label && label[1] == 0 && isalpha(label[0])`. -/
def single_alpha (label : Option (List Nat)) : Bool :=
  match label with
  | some [c] => isalpha c
  | _ => false

/-- The label a `Code` key commits under the modifier mask `mods_before`: the
shifted label with Shift, or with CapsLock on a single alphabetic character. -/
def effective_label (k : key) (mods_before : Nat) : Option (List Nat) :=
  if mods_before &&& Shift ≠ 0 ∨
      (mods_before &&& CapsLock ≠ 0 ∧ single_alpha k.label = true) then
    k.shift_label
  else k.label

/-- The function `kbd_handle_committed_key` on a non-NULL key. -/
def kbd_handle_committed_key (kb : kbd) (k : key) (mods_before : Nat) : Except Fault kbd :=
  if k.type = .Code then
    if k.code = KEY_BACKSPACE then
      .ok ( kbd_update_suggestions_prefix
        { clear_pending_swipe kb with
          current_token := utf8_pop_last kb.current_token,
          current_token_len := (utf8_pop_last kb.current_token).length })
    else if k.code = KEY_SPACE ∨ k.code = KEY_ENTER then committed_separator kb
    else committed_label kb (effective_label k mods_before)
  else if k.type = .Copy then committed_label kb k.label
  else .ok kb

/-- The function `kbd_key_is_separator` on a non-NULL key. -/
def kbd_key_is_separator (k : key) (mods_before : Nat) : Bool :=
  if k.type = .Code then
    if k.code = KEY_SPACE ∨ k.code = KEY_ENTER then true
    else
      match effective_label k mods_before with
      | some label => kbd_is_separator_label label
      | none => false
  else if k.type = .Copy then
    match k.label with
    | some label => kbd_is_separator_label label
    | none => false
  else false

/-! ## Input -/

/-- The function `kbd_release_key`; the popup rectangle it clears is not part
of the state kept here. -/
def kbd_release_key (kb : kbd) (time : Nat) : Except Fault kbd :=
  kbd_unpress_key kb time >>= fun kb =>
    if kb.print_intersect = true ∧ kb.last_swipe.isSome = true then
      .ok { (kbd_draw_layout { kb with stdout := kb.stdout ++ [10] }) with last_swipe := none }
    else .ok kb

/-- The function `kbd_top_word_suggestion`: the word of the first `Word`
suggestion with a non-empty word, `none` for NULL. -/
def kbd_top_word_suggestion (kb : kbd) : Option (List Nat) :=
  match kb.suggestions.find? suggestion_has_word with
  | some s => s.word
  | none => none

/-- The function `kbd_cancel_swipe`. -/
def kbd_cancel_swipe (kb : kbd) : Except Fault kbd :=
  if kb.current_token_len > 0 then
    .ok ( kbd_update_suggestions_prefix
      { kb with pending_swipe := false, pending_swipe_word := [], swipe_points := [] })
  else
    kbd_update_suggestions_next_word
      { kb with pending_swipe := false, pending_swipe_word := [], swipe_points := [] }

/-- The function `kbd_preview_set_key`; keys are compared by value. -/
def kbd_preview_set_key (kb : kbd) (k : Option key) : kbd :=
  if kb.preview_key = k then kb
  else kbd_draw_layout { kb with preview_key := k }

/-- The key `kbd_get_key` returns, by value; `none` for NULL. -/
def kbd_get_key_value (kb : kbd) (x y : Nat) : Except Fault (Option key) :=
  kbd_get_key kb x y >>= fun i =>
    match i with
    | some i => .ok (kb.layouts kb.layout).keys[i]?
    | none => .ok none

/-- The conversion `(int)x` of a `uint32_t` value. -/
def uint32_to_int (x : Nat) : Int :=
  if x % 2 ^ 32 < 2 ^ 31 then ((x % 2 ^ 32 : Nat) : Int)
  else ((x % 2 ^ 32 : Nat) : Int) - 2 ^ 32

/-- The result of an `int` operation: a value outside the range of `int` is a
signed overflow, which is undefined. -/
def int_checked (v : Int) : Except Fault Int :=
  if -2 ^ 31 ≤ v ∧ v < 2 ^ 31 then .ok v else .error .undefined

/-- The function `kbd_input_down`.  The drag origin of the suggestion bar is not
part of the state kept here. -/
def kbd_input_down (kb : kbd) (time_ms x y : Nat) : Except Fault kbd :=
  if y < kb.suggest_height then
    .ok { kb with
      input_down := true, input_mode := .KBD_INPUT_SUGGEST_SCROLL, input_down_time := time_ms
      input_down_x := uint32_to_int x, input_last_x := uint32_to_int x
      input_down_y := uint32_to_int y, input_last_y := uint32_to_int y
      input_moved := false, swipe_points := [], swipe_last_suggest_time := 0 }
  else
    kbd_get_key_value { kb with
      input_down := true, input_mode := .KBD_INPUT_TAP, input_down_time := time_ms
      input_down_x := uint32_to_int x, input_last_x := uint32_to_int x
      input_down_y := uint32_to_int y, input_last_y := uint32_to_int y
      input_moved := false, swipe_points := [], swipe_last_suggest_time := 0 } x y >>= fun k =>
    .ok (kbd_preview_set_key { kb with
      input_down := true, input_mode := .KBD_INPUT_TAP, input_down_time := time_ms
      input_down_x := uint32_to_int x, input_last_x := uint32_to_int x
      input_down_y := uint32_to_int y, input_last_y := uint32_to_int y
      input_moved := false, swipe_points := [], swipe_last_suggest_time := 0 } k)

/-- The value `dx * dx + dy * dy` of `kbd_input_motion`, computed in `int`. -/
def motion_distance (kb : kbd) (x y : Nat) : Except Fault Int :=
  int_checked (uint32_to_int x - kb.input_down_x) >>= fun dx =>
  int_checked (uint32_to_int y - kb.input_down_y) >>= fun dy =>
  int_checked (dx * dx) >>= fun dx2 =>
  int_checked (dy * dy) >>= fun dy2 =>
  int_checked (dx2 + dy2)

/-- The statement of the `KBD_INPUT_SWIPE` case of `kbd_input_motion` that
stores the sample while fewer than `WVKBD_MAX_SWIPE_POINTS` are stored. -/
def swipe_capture (kb : kbd) (time_ms x y : Nat) : kbd :=
  if kb.swipe_points.length < WVKBD_MAX_SWIPE_POINTS then
    { kb with swipe_points := kb.swipe_points ++ [{ x := (x : Int), y := (y : Int),
                                                    time_ms := time_ms }] }
  else kb

/-- The test `(time_ms - kb->swipe_last_suggest_time) > 40`, a difference of
`uint32_t` values. -/
def swipe_refresh_due (kb : kbd) (time_ms : Nat) : Bool :=
  decide ((time_ms % 2 ^ 32 + 2 ^ 32 - kb.swipe_last_suggest_time % 2 ^ 32) % 2 ^ 32 > 40)

/-- The `KBD_INPUT_SWIPE` case of `kbd_input_motion`. -/
def motion_swipe (kb : kbd) (time_ms x y : Nat) : Except Fault kbd :=
  if swipe_refresh_due kb time_ms = true then
    kbd_update_suggestions_swipe
      { swipe_capture kb time_ms x y with swipe_last_suggest_time := time_ms }
  else .ok (swipe_capture kb time_ms x y)

/-- The test of the `KBD_INPUT_TAP` case of `kbd_input_motion` that turns the
tap into a swipe. -/
def swipe_starts (kb : kbd) (y : Nat) : Bool :=
  kb.predictor.isSome && kb.input_moved && decide (y ≥ kb.suggest_height)

/-- The `KBD_INPUT_TAP` case of `kbd_input_motion`: the tap becomes a swipe
with the two points of the gesture so far and a swipe refresh, or the key under
the point is previewed. -/
def motion_tap (kb : kbd) (time_ms x y : Nat) : Except Fault kbd :=
  if swipe_starts kb y = true then
    kbd_update_suggestions_swipe
      { (kbd_draw_layout { kb with input_mode := .KBD_INPUT_SWIPE, preview_key := none }) with
        swipe_points :=
          [ { x := kb.input_down_x, y := kb.input_down_y, time_ms := time_ms },
            { x := (x : Int), y := (y : Int), time_ms := time_ms } ] }
  else
    kbd_get_key_value kb x y >>= fun k => .ok (kbd_preview_set_key kb k)

/-- The state of `kbd_input_motion` after the displacement test `d2` and the
update of the last position. -/
def motion_moved (kb : kbd) (d2 : Int) (x y : Nat) : kbd :=
  { kb with
    input_moved :=
      if d2 > uint32_to_int (kb.swipe_threshold_px * kb.swipe_threshold_px) then true
      else kb.input_moved
    input_last_x := uint32_to_int x, input_last_y := uint32_to_int y }

/-- The function `kbd_input_motion`.  In the `KBD_INPUT_SUGGEST_SCROLL` case the
scroll offset it sets is not part of the state kept here. -/
def kbd_input_motion (kb : kbd) (time_ms x y : Nat) : Except Fault kbd :=
  if kb.input_down = false then .ok kb
  else
    motion_distance kb x y >>= fun d2 =>
      match kb.input_mode with
      | .KBD_INPUT_SUGGEST_SCROLL => .ok (kbd_draw_layout (motion_moved kb d2 x y))
      | .KBD_INPUT_TAP => motion_tap (motion_moved kb d2 x y) time_ms x y
      | .KBD_INPUT_SWIPE => motion_swipe (motion_moved kb d2 x y) time_ms x y
      | .KBD_INPUT_NONE => .ok (motion_moved kb d2 x y)

/-- The statements of `kbd_input_up` that drop the pending swipe word, the
swipe points and the suggestions before a key that is no separator. -/
def input_up_discard (kb : kbd) : kbd :=
  { kb with pending_swipe := false, pending_swipe_word := [], swipe_points := [],
            suggestions := [], suggest_mode := .WVKBD_SMODE_NONE }

/-- A swipe word is pending or the suggestions come from a swipe: the test
`kb->pending_swipe || kb->suggest_mode == WVKBD_SMODE_SWIPE`. -/
def swipe_pending (kb : kbd) : Bool :=
  kb.pending_swipe || decide (kb.suggest_mode = .WVKBD_SMODE_SWIPE)

/-- The word `kbd_input_up` commits before a separator key: the pending swipe
word, or the top `Word` suggestion when none is pending. -/
def input_up_word (kb : kbd) : Option (List Nat) :=
  if kb.pending_swipe = true then some kb.pending_swipe_word else kbd_top_word_suggestion kb

/-- The automatic commit of `kbd_input_up` before a separator key; the result
tells whether a word was committed (`did_autocommit`). -/
def input_up_autocommit (kb : kbd) (time_ms : Nat) : Except Fault (kbd × Bool) :=
  match input_up_word kb with
  | none => .ok (kb, false)
  | some [] => .ok (kb, false)
  | some w => kbd_commit_suggestion kb time_ms (some w) >>= fun kb => .ok (kb, true)

/-- The press, release and commit of the key of a tap, at `key_time`. -/
def input_up_press (kb : kbd) (k : key) (mods_before key_time : Nat) : Except Fault kbd :=
  kbd_press_key kb k key_time >>= fun kb =>
  kbd_release_key kb key_time >>= fun kb =>
  kbd_handle_committed_key kb k mods_before

/-- The block `if (k) { ... }` of the `KBD_INPUT_TAP` case of `kbd_input_up`. -/
def input_up_key (kb : kbd) (k : key) (time_ms : Nat) : Except Fault kbd :=
  if kbd_key_is_separator k kb.mods = true then
    if swipe_pending kb = true then
      input_up_autocommit kb time_ms >>= fun r =>
        input_up_press r.1 k kb.mods (if r.2 = true then (time_ms + 32) % 2 ^ 32 else time_ms)
    else input_up_press kb k kb.mods time_ms
  else if swipe_pending kb = true then input_up_press (input_up_discard kb) k kb.mods time_ms
  else input_up_press kb k kb.mods time_ms

/-- The key a tap resolves to: the key under the point, or the previewed key
when there is none. -/
def input_up_resolve (kb : kbd) (hit : Option key) : Option key :=
  match hit with
  | some k => some k
  | none => kb.preview_key

/-- The `KBD_INPUT_TAP` case of `kbd_input_up`. -/
def input_up_tap (kb : kbd) (time_ms x y : Nat) : Except Fault kbd :=
  kbd_get_key_value kb x y >>= fun hit =>
    (match input_up_resolve kb hit with
      | some k => input_up_key { kb with preview_key := none } k time_ms
      | none => .ok { kb with preview_key := none }) >>= fun kb =>
    .ok { (kbd_draw_layout kb) with input_mode := .KBD_INPUT_NONE }

/-- The `KBD_INPUT_SWIPE` case of `kbd_input_up`. -/
def input_up_swipe (kb : kbd) : Except Fault kbd :=
  kbd_update_suggestions_swipe kb >>= fun kb =>
    .ok { (kbd_set_pending_swipe_from_suggestions kb) with input_mode := .KBD_INPUT_NONE }

/-- The function `kbd_input_up`.  The argument `suggestion_tap` stands for the
dispatch of a tap on the suggestion bar in the `KBD_INPUT_SUGGEST_SCROLL` case,
which tests the point against the pill rectangles the drawing library measures
and is not embedded. -/
def kbd_input_up (suggestion_tap : kbd → Nat → Nat → Nat → Except Fault kbd)
    (kb : kbd) (time_ms x y : Nat) : Except Fault kbd :=
  match kb.input_mode with
  | .KBD_INPUT_SUGGEST_SCROLL =>
    (if kb.input_moved = false then suggestion_tap { kb with input_down := false } time_ms x y
     else .ok { kb with input_down := false }) >>= fun kb =>
      .ok { kb with input_mode := .KBD_INPUT_NONE }
  | .KBD_INPUT_TAP => input_up_tap { kb with input_down := false } time_ms x y
  | .KBD_INPUT_SWIPE => input_up_swipe { kb with input_down := false }
  | .KBD_INPUT_NONE => .ok { kb with input_down := false, input_mode := .KBD_INPUT_NONE }

/-! ## Start-up -/

def MAX_LAYERS : Nat := 25

/-- The `while` loop of `kbd_init_layers` over the names `strtok` yields;
`layers` holds the entries written so far. -/
def kbd_init_layers_loop (layouts : Nat → layout) (NumLayouts : Nat) :
    List String → List Nat → Except Fault (List Nat)
  | [], layers => .ok layers
  | s :: rest, layers =>
    if layers.length + 1 = MAX_LAYERS then .error (.exit 3)
    else
      match (List.range (NumLayouts - 1)).find? (fun i => (layouts i).name = some s) with
      | some i => kbd_init_layers_loop layouts NumLayouts rest (layers ++ [i])
      | none => .error (.exit 3)

/-- The function `kbd_init_layers` on the list of names between the commas of
`layer_names_list`: the entries written, ended by `NumLayouts`. -/
def kbd_init_layers (layouts : Nat → layout) (NumLayouts : Nat) (names : List String) :
    Except Fault (List Nat) := do
  let layers ← kbd_init_layers_loop layouts NumLayouts names []
  if layers.length = 0 then .error (.exit 3) else .ok (layers ++ [NumLayouts])

/-- The statement `if (layer_names_list) kb->layers = kbd_init_layers(...)`. -/
def init_layers (kb : kbd) (layer_names_list : Option (List String)) : Except Fault kbd :=
  match layer_names_list with
  | some names => do
    let layers ← kbd_init_layers kb.layouts kb.NumLayouts names
    pure { kb with layers := layers }
  | none => .ok kb

/-- The statement `if (landscape_layer_names_list) kb->landscape_layers = ...`. -/
def init_landscape_layers (kb : kbd) (landscape_layer_names_list : Option (List String)) :
    Except Fault kbd :=
  match landscape_layer_names_list with
  | some names => do
    let layers ← kbd_init_layers kb.layouts kb.NumLayouts names
    pure { kb with landscape_layers := layers }
  | none => .ok kb

/-- The assignments of `kbd_init` from `kb->layout = ...` to the last trail
field; `layer` is the first entry of the active layer array. -/
def init_fields (kb : kbd) (layer : Nat) : kbd :=
  { kb with
    layout := layer, last_abc_layout := some layer
    suggest_visible_count :=
      if kb.suggest_visible_count ≤ 0 then 3 else kb.suggest_visible_count
    suggestions := [], suggest_mode := .WVKBD_SMODE_NONE
    current_token := [], current_token_len := 0
    context_words_len := 0, context_words_pos := 0
    context_words_max := if kb.context_words_max ≤ 0 then 5 else kb.context_words_max
    input_down := false, input_mode := .KBD_INPUT_NONE
    preview_key := none
    swipe_threshold_px := 18
    swipe_points := [], swipe_last_suggest_time := 0
    pending_swipe := false, pending_swipe_word := [], dismissed_words := []
    trail_enabled := true, trail_fade_ms := 800, trail_fade_distance_px := 0
    trail_now_ms := 0 }

/-- The function `kbd_init`; a names list is `none` for a NULL argument.  The
loop that counts the layers reads `kb->layers` up to its `NumLayouts` entry. -/
def kbd_init (kb : kbd) (layouts : Nat → layout)
    (layer_names_list landscape_layer_names_list : Option (List String)) :
    Except Fault kbd := do
  let kb ← init_layers { kb with layouts := layouts, layer_index := 0, last_abc_index := 0 }
    layer_names_list
  let kb ← init_landscape_layers kb landscape_layer_names_list
  if kb.NumLayouts ∉ kb.layers then .error .undefined
  else
    match (active_layers kb)[kb.layer_index]? with
    | none => .error .undefined
    | some layer =>
      create_and_upload_keymap (init_fields kb layer)
        ((init_fields kb layer).layouts (init_fields kb layer).layout).keymap_name 0 0

/-- The states the key handlers reach from `s0`: any sequence of returning
calls of `kbd_press_key`, `kbd_unpress_key` and `kbd_next_layer`. -/
inductive reachable (s0 : kbd) : kbd → Prop where
  | start : reachable s0 s0
  | press (s s' : kbd) (k : key) (time : Nat) :
      reachable s0 s → kbd_press_key s k time = .ok s' → reachable s0 s'
  | unpress (s s' : kbd) (time : Nat) :
      reachable s0 s → kbd_unpress_key s time = .ok s' → reachable s0 s'
  | next_layer (s s' : kbd) (k : Option key) (invert : Bool) :
      reachable s0 s → kbd_next_layer s k invert = .ok s' → reachable s0 s'

/-- The list `seq` is the active layer sequence: the entries of the active layer
array before its `NumLayouts` sentinel, at least one. -/
def layer_sequence (kb : kbd) (seq : List Nat) : Prop :=
  seq ≠ [] ∧ kb.NumLayouts ∉ seq ∧ ∃ rest, active_layers kb = seq ++ kb.NumLayouts :: rest

/-- Keymap uploads go through: the protocol object is there and every layout of
the registry names a keymap of the keymap table. -/
def keymaps_defined (kb : kbd) : Prop :=
  kb.vkbd = true ∧ ∀ i, (kb.layouts i).keymap_name ∈ kb.keymap_names

/-- The first branch of `kbd_next_layer` is taken: Ctrl, Alt or AltGr is set or
compose is active. -/
def first_layer_requested (kb : kbd) : Prop :=
  kb.mods &&& Ctrl ≠ 0 ∨ kb.mods &&& Alt ≠ 0 ∨ kb.mods &&& AltGr ≠ 0 ∨ kb.compose ≠ 0

instance (kb : kbd) : Decidable (first_layer_requested kb) := by
  unfold first_layer_requested; infer_instance

/-- The condition of the second branch of `kbd_next_layer`: Shift or CapsLock is
set or `invert` is requested. -/
def previous_layer_requested (kb : kbd) (invert : Bool) : Prop :=
  kb.mods &&& Shift ≠ 0 ∨ kb.mods &&& CapsLock ≠ 0 ∨ invert = true

instance (kb : kbd) (invert : Bool) : Decidable (previous_layer_requested kb invert) := by
  unfold previous_layer_requested; infer_instance

/-- The layer index `kbd_next_layer` settles on when the layer count is `n`:
the branch's index, put back to 0 when it is not below `n`. -/
def next_layer_index (kb : kbd) (invert : Bool) (n : Nat) : Nat :=
  let raw :=
    if first_layer_requested kb then 0
    else if previous_layer_requested kb invert then
      (if kb.layer_index > 0 then kb.layer_index - 1 else n - 1)
    else kb.layer_index + 1
  if raw ≥ n then 0 else raw

/-- The state `kbd_next_layer` hands to `kbd_switch_layout`: the modifier mask
of the branch taken and the compose counter cleared when a key was given. -/
def next_layer_state (kb : kbd) (k : Option key) (invert : Bool) : kbd :=
  { kb with
    mods :=
      if first_layer_requested kb then 0
      else if previous_layer_requested kb invert ∧ invert = false then
        (kb.mods ^^^ Shift) % 256
      else kb.mods
    compose := if kb.compose ≠ 0 ∧ k.isSome then 0 else kb.compose }

/-- The state `b` has the static setup of `a`: registry, layer arrays,
orientation, enum constants, keymap table and protocol object. -/
def same_setup (a b : kbd) : Prop :=
  b.layouts = a.layouts ∧ b.layers = a.layers ∧ b.landscape_layers = a.landscape_layers ∧
  b.landscape = a.landscape ∧ b.NumLayouts = a.NumLayouts ∧ b.Index = a.Index ∧
  b.keymap_names = a.keymap_names ∧ b.vkbd = a.vkbd

/-- The state `b` differs from `a` in nothing the layer navigation reads: same
static setup, layer index and alphabetic fallback index. -/
def nav_frame (a b : kbd) : Prop :=
  same_setup a b ∧ b.layer_index = a.layer_index ∧ b.last_abc_index = a.last_abc_index

/-- The bound the key handlers keep on the two layer indices: each is below the
length `n` of the active layer sequence or is a position of the registry that
`kbd_get_layer_index` can return. -/
def layer_index_bounded (s : kbd) (n : Nat) : Prop :=
  (s.layer_index < n ∨ s.layer_index + 1 < s.NumLayouts) ∧
  (s.last_abc_index < n ∨ s.last_abc_index + 1 < s.NumLayouts)

/-- The token is well formed: `current_token_len` is the byte length of
`current_token`, and that is at most 127, the 128 bytes of the buffer less the
terminator. -/
def token_ok (kb : kbd) : Prop :=
  kb.current_token_len = (kb.current_token.length : Int) ∧
  kb.current_token.length ≤ WVKBD_MAX_TOKEN_BYTES - 1

instance (kb : kbd) : Decidable (token_ok kb) := by
  unfold token_ok; infer_instance

/-- The state `b` has the token of `a`: buffer and length field. -/
def token_frame (a b : kbd) : Prop :=
  b.current_token = a.current_token ∧ b.current_token_len = a.current_token_len

/-- The context ring is well formed: the array has its 64 entries, the
configured capacity is between 1 and 64, the write position is below the
capacity and the count is at most the capacity. -/
def context_ok (kb : kbd) : Prop :=
  kb.context_words.length = WVKBD_MAX_CONTEXT_WORDS ∧
  1 ≤ kb.context_words_max ∧ kb.context_words_max ≤ (WVKBD_MAX_CONTEXT_WORDS : Int) ∧
  0 ≤ kb.context_words_pos ∧ kb.context_words_pos < kb.context_words_max ∧
  0 ≤ kb.context_words_len ∧ kb.context_words_len ≤ kb.context_words_max

instance (kb : kbd) : Decidable (context_ok kb) := by
  unfold context_ok; infer_instance

/-- The state `b` has the context ring of `a`: array, count, write position and
capacity. -/
def context_frame (a b : kbd) : Prop :=
  b.context_words = a.context_words ∧ b.context_words_len = a.context_words_len ∧
  b.context_words_pos = a.context_words_pos ∧ b.context_words_max = a.context_words_max

/-- The entry of the context ring written `j` pushes back: the index
`context_words_pos - 1 - j`, wrapped by the capacity when negative, as
`kbd_last_context_word` computes it for the last push. -/
def context_word_back (kb : kbd) (j : Nat) : Option (List Nat) :=
  let idx := kb.context_words_pos - 1 - (j : Int)
  let idx := if idx < 0 then idx + kb.context_words_max else idx
  kb.context_words.getD idx.toNat none

/-- The ring holds the words of `hist`, the most recent first: the count is the
number of words up to the capacity, the entry `j` pushes back is the word `j`
of `hist` while `j` is below the count, and exactly the slots below the count
hold a word. -/
def context_ring_holds (kb : kbd) (hist : List (List Nat)) : Prop :=
  context_ok kb ∧
  kb.context_words_len = ((min hist.length kb.context_words_max.toNat : Nat) : Int) ∧
  kb.context_words_pos.toNat ≤ hist.length ∧
  ((hist.length : Int) < kb.context_words_max → kb.context_words_pos = (hist.length : Int)) ∧
  (∀ j : Nat, j < min hist.length kb.context_words_max.toNat →
    context_word_back kb j = hist[j]?) ∧
  (∀ i : Nat, (kb.context_words.getD i none).isSome =
    decide (i < min hist.length kb.context_words_max.toNat))

/-- The calls of `kbd_context_push_word` for the words of a list, in order. -/
def kbd_context_push_words : List (List Nat) → kbd → Except Fault kbd
  | [], kb => .ok kb
  | w :: ws, kb => do
    let kb ← kbd_context_push_word kb w
    kbd_context_push_words ws kb

/-- The key is a separator key: `kbd_key_is_separator` holds for it and it is
not the Backspace key, which `kbd_handle_committed_key` tests first. -/
def separator_key (k : key) (mods_before : Nat) : Prop :=
  kbd_key_is_separator k mods_before = true ∧ ¬ (k.type = .Code ∧ k.code = KEY_BACKSPACE)

instance (k : key) (mods_before : Nat) : Decidable (separator_key k mods_before) := by
  unfold separator_key; infer_instance

/-- The calls of `kbd_handle_committed_key` for a list of keys, each with the
modifier mask it was pressed under, in order. -/
def kbd_handle_committed_keys : List (key × Nat) → kbd → Except Fault kbd
  | [], kb => .ok kb
  | p :: rest, kb => do
    let kb ← kbd_handle_committed_key kb p.1 p.2
    kbd_handle_committed_keys rest kb

/-- The test `label && kbd_is_token_char_label(label)`. -/
def label_is_token_char (label : Option (List Nat)) : Bool :=
  match label with
  | some l => kbd_is_token_char_label l
  | none => false

/-- The key press reaches a token-character branch of
`kbd_handle_committed_key`: a `Code` key other than Backspace, Space and Enter
whose effective label is a token character, or a `Copy` key whose label is. -/
def token_char_key (k : key) (mods_before : Nat) : Prop :=
  (k.type = .Code ∧ k.code ≠ KEY_BACKSPACE ∧ k.code ≠ KEY_SPACE ∧ k.code ≠ KEY_ENTER ∧
    label_is_token_char (effective_label k mods_before) = true) ∨
  (k.type = .Copy ∧ label_is_token_char k.label = true)

instance (k : key) (mods_before : Nat) : Decidable (token_char_key k mods_before) := by
  unfold token_char_key; infer_instance

/-- The key is the Backspace key. -/
def backspace_key (k : key) : Prop :=
  k.type = .Code ∧ k.code = KEY_BACKSPACE

instance (k : key) : Decidable (backspace_key k) := by
  unfold backspace_key; infer_instance

/-- Every byte of the token is an ASCII byte. -/
def token_ascii (kb : kbd) : Prop :=
  ∀ c ∈ kb.current_token, c < 128

/-- The `Word` suggestion the first loop of `kbd_suggestions_from_candidates`
makes of a candidate. -/
def word_suggestion (c : wvkbd_candidate) : wvkbd_suggestion :=
  { kind := .WVKBD_SUGGEST_WORD, word := c.word, inline_word := [], score := c.score }

/-- The `Add word` suggestion `kbd_suggestions_from_candidates` makes of the
token: the label `+ ` and the token, cut to the 127 bytes of `inline_word`. -/
def add_word_suggestion (kb : kbd) : wvkbd_suggestion :=
  { kind := .WVKBD_SUGGEST_ADD_WORD, word := none,
    inline_word := [43, 32] ++ kb.current_token.take (WVKBD_MAX_TOKEN_BYTES - 2 - 1),
    score := 0 }

/-- The candidate's word, lowercased and compared on its first 127 bytes, is in
the dismissed-word list. -/
def word_dismissed (kb : kbd) (c : wvkbd_candidate) : Bool :=
  match c.word with
  | some w => decide (ascii_lower_inplace (w.take 127) ∈ kb.dismissed_words)
  | none => false

/-- The candidates that become `Word` suggestions: those not dismissed, in the
order of the list, up to the 64 entries of the array. -/
def kept_candidates (kb : kbd) (cands : List wvkbd_candidate) : List wvkbd_candidate :=
  (cands.filter (fun c => !word_dismissed kb c)).take WVKBD_MAX_SUGGESTIONS

/-- The text of a `Word` suggestion; an `Add word` suggestion and a `Word`
suggestion with a NULL word have none. -/
def word_text (s : wvkbd_suggestion) : Option (List Nat) :=
  if s.kind = .WVKBD_SUGGEST_WORD then s.word else none

/-- The dismissed-word list is well formed: every entry is a non-empty
lowercase word of at most 127 bytes, as `kbd_dismiss_word` stores them. -/
def dismissed_ok (kb : kbd) : Prop :=
  ∀ d ∈ kb.dismissed_words, d ≠ [] ∧ ascii_lower_inplace d = d ∧ d.length ≤ 127

instance (kb : kbd) : Decidable (dismissed_ok kb) := by
  unfold dismissed_ok; infer_instance

/-- The predictor honours the `max` it is asked for: no query returns more
candidates. -/
def predictor_honours_max (kb : kbd) : Prop :=
  ∀ p, kb.predictor = some p → ∀ max : Int, 0 ≤ max →
    (∀ tok, ((p.predict_prefix tok max).length : Int) ≤ max) ∧
    (∀ lw, ((p.predict_next_word lw max).length : Int) ≤ max) ∧
    (∀ pos pts tok lw, ((p.predict_swipe pos pts tok lw max).length : Int) ≤ max)

/-- An `Add word` suggestion is due: the token is not empty, the `Word`
suggestions leave room in the array, the predictor, if any, does not know the
token as a user word, and no `Word` suggestion has the token as its word, both
lowercased and compared on their first 127 bytes. -/
def add_word_due (kb : kbd) (cands : List wvkbd_candidate) : Prop :=
  kb.current_token ≠ [] ∧
  (kept_candidates kb cands).length < WVKBD_MAX_SUGGESTIONS ∧
  (∀ p, kb.predictor = some p → p.user_has_word kb.current_token = false) ∧
  ∀ c ∈ kept_candidates kb cands, ∀ w, c.word = some w →
    ascii_lower_inplace (w.take 127) ≠ ascii_lower_inplace kb.current_token

/-- The first character of the token is an uppercase letter. -/
def token_first_upper (token : List Nat) : Bool :=
  match token with
  | c :: _ => isalpha c && isupper c
  | [] => false

/-- The casing of a committed word as the specification words it: the word,
cut to 127 bytes, with all ASCII letters uppercase if the token contains an
alphabetic character and every alphabetic character of the token is uppercase,
or if the token is empty and CapsLock is set; otherwise lowercase with only the
first character uppercased if the first character of the token is an uppercase
letter, or if the token is empty and Shift is set without CapsLock; otherwise
lowercase. -/
def adjusted_case_spec (token : List Nat) (mods : Nat) (word : List Nat) : List Nat :=
  if (token.any isalpha = true ∧ token.all (fun c => !isalpha c || isupper c) = true) ∨
      (token = [] ∧ mods &&& CapsLock ≠ 0) then
    (word.take 127).map toupper
  else if token_first_upper token = true ∨
      (token = [] ∧ mods &&& Shift ≠ 0 ∧ mods &&& CapsLock = 0) then
    match word.take 127 with
    | [] => []
    | c :: cs => toupper c :: cs.map tolower
  else (word.take 127).map tolower

/-- The casing of the token is one a committed word continues: every letter of
the token is uppercase, or no character after the first is an uppercase
letter. -/
def token_case_regular (token : List Nat) : Prop :=
  (∀ c ∈ token, isalpha c = true → isupper c = true) ∨ (∀ c ∈ token.tail, isupper c = false)

instance (token : List Nat) : Decidable (token_case_regular token) := by
  unfold token_case_regular; infer_instance

/-- The state `b` differs from `a` in nothing but what pressing and releasing a
key may change: the trace, the printed bytes, the modifier mask, the compose
state, the layout shown with its bookkeeping, the pressed key and the swipe
trail, which is as before or dropped. -/
def key_frame (a b : kbd) : Prop :=
  b = { a with
        out := b.out, stdout := b.stdout, mods := b.mods, compose := b.compose,
        layout := b.layout, prevlayout := b.prevlayout, layer_index := b.layer_index,
        last_abc_layout := b.last_abc_layout, last_abc_index := b.last_abc_index,
        last_press := b.last_press, last_swipe := b.last_swipe,
        swipe_points := b.swipe_points } ∧
  (b.swipe_points = a.swipe_points ∨ b.swipe_points = [])

/-- The state `b` differs from `a` in nothing but what a commit may change: the
trace, the token, the context ring, the suggestions, the pending swipe word,
which is as before or cleared, and the swipe trail, which is as before or
dropped. -/
def edit_frame (a b : kbd) : Prop :=
  b = { a with
        out := b.out, current_token := b.current_token,
        current_token_len := b.current_token_len, context_words := b.context_words,
        context_words_len := b.context_words_len, context_words_pos := b.context_words_pos,
        suggestions := b.suggestions, suggest_mode := b.suggest_mode,
        pending_swipe := b.pending_swipe, pending_swipe_word := b.pending_swipe_word,
        swipe_points := b.swipe_points } ∧
  (b.swipe_points = a.swipe_points ∨ b.swipe_points = []) ∧
  ((b.pending_swipe = a.pending_swipe ∧ b.pending_swipe_word = a.pending_swipe_word) ∨
    (b.pending_swipe = false ∧ b.pending_swipe_word = []))

/-- No swipe is pending: the flag is off, the pending word is empty and no swipe
point is stored. -/
def swipe_cleared (kb : kbd) : Prop :=
  kb.pending_swipe = false ∧ kb.pending_swipe_word = [] ∧ kb.swipe_points = []

instance (kb : kbd) : Decidable (swipe_cleared kb) := by
  unfold swipe_cleared; infer_instance

/-- The state `b` differs from `a` in nothing but what a swipe refresh may
change: the suggestions, the pending swipe word and the swipe trail, which is
as before or dropped, and as before when `trail_now_ms` is 0. -/
def refresh_frame (a b : kbd) : Prop :=
  b = { a with
        suggestions := b.suggestions, suggest_mode := b.suggest_mode,
        pending_swipe := b.pending_swipe, pending_swipe_word := b.pending_swipe_word,
        swipe_points := b.swipe_points, swipe_refreshes := b.swipe_refreshes } ∧
  (b.swipe_points = a.swipe_points ∨ b.swipe_points = []) ∧
  (a.trail_now_ms = 0 → b.swipe_points = a.swipe_points)

/-- The motion events `(time_ms, x, y)` of a gesture handled in order by
`kbd_input_motion`: the state after the last one and the timestamps of the
events in whose handling `kbd_update_suggestions_swipe` was called, which are
those that raised the count `swipe_refreshes`. -/
def kbd_input_motions : List (Nat × Nat × Nat) → kbd → Except Fault (kbd × List Nat)
  | [], kb => .ok (kb, [])
  | e :: rest, kb =>
    kbd_input_motion kb e.1 e.2.1 e.2.2 >>= fun kb1 =>
    kbd_input_motions rest kb1 >>= fun r =>
    .ok (r.1, if kb1.swipe_refreshes ≠ kb.swipe_refreshes then e.1 :: r.2 else r.2)

/-- The swipe point of a motion event. -/
def motion_point (e : Nat × Nat × Nat) : wvkbd_point :=
  { x := (e.2.1 : Int), y := (e.2.2 : Int), time_ms := e.1 }

/-- The state of a key press after its bookkeeping: `k` is the pressed key and
the key of the swipe, and `out` is the trace. -/
def pressed (kb : kbd) (k : key) (out : List Event) : kbd :=
  { kb with last_swipe := some k, last_press := some k, out := out }

/-- The request is a key event. -/
def key_event (e : Event) : Bool :=
  match e with
  | .keyev _ _ _ => true
  | _ => false

/-- The state `b` is the state `a` after more protocol requests: only the trace
has grown. -/
def typed (a b : kbd) : Prop :=
  ∃ es, b = { a with out := a.out ++ es }

/-- The class `[A-Za-z0-9'_]` of the specification, on a byte. -/
def token_class (c : Nat) : Bool :=
  (65 ≤ c && c ≤ 90) || (97 ≤ c && c ≤ 122) || (48 ≤ c && c ≤ 57) || c == 39 || c == 95

/-- The UTF-8 encoding of a code point, as RFC 3629 defines it: one byte below
U+0080, two bytes below U+0800, three below U+10000 and four from there on. -/
def utf8_encode (cp : Nat) : List Nat :=
  if cp < 0x80 then [cp]
  else if cp < 0x800 then [0xC0 + cp / 64, 0x80 + cp % 64]
  else if cp < 0x10000 then [0xE0 + cp / 4096, 0x80 + cp / 64 % 64, 0x80 + cp % 64]
  else [0xF0 + cp / 262144, 0x80 + cp / 4096 % 64, 0x80 + cp / 64 % 64, 0x80 + cp % 64]

/-- The text that encodes the code points `cps` in order. -/
def utf8_text : List Nat → List Nat
  | [] => []
  | cp :: cps => utf8_encode cp ++ utf8_text cps

/-- A continuation byte, `10xxxxxx`. -/
def utf8_continuation (c : Nat) : Prop :=
  0x80 ≤ c ∧ c < 0xC0

instance (c : Nat) : Decidable (utf8_continuation c) := by
  unfold utf8_continuation; infer_instance

/-- The text starts with a lead byte and the continuation bytes it calls for:
`110xxxxx` with one, `1110xxxx` with two or `11110xxx` with three.  A byte past
the end of the text is the terminating NUL. -/
def utf8_lead_sequence (s : List Nat) : Prop :=
  (0xC0 ≤ s.getD 0 0 ∧ s.getD 0 0 < 0xE0 ∧ utf8_continuation (s.getD 1 0)) ∨
  (0xE0 ≤ s.getD 0 0 ∧ s.getD 0 0 < 0xF0 ∧ utf8_continuation (s.getD 1 0) ∧
    utf8_continuation (s.getD 2 0)) ∨
  (0xF0 ≤ s.getD 0 0 ∧ s.getD 0 0 < 0xF8 ∧ utf8_continuation (s.getD 1 0) ∧
    utf8_continuation (s.getD 2 0) ∧ utf8_continuation (s.getD 3 0))

instance (s : List Nat) : Decidable (utf8_lead_sequence s) := by
  unfold utf8_lead_sequence; infer_instance

/-- The requests that type the code points `cps` through the keymap `name` from
time `t` on: for each code point an upload of the keymap that carries it, the
modifiers 0 and the press and release of key 127. -/
def codepoint_events (name : String) : Nat → List Nat → List Event
  | _, [] => []
  | t, cp :: cps =>
    [.keymap name cp cp, .modifiers 0, .keyev t 127 true, .keyev t 127 false] ++
      codepoint_events name ((t + 1) % 2 ^ 32) cps

/-- The number of `EndRow` keys of a key array before its `Last` key. -/
def end_rows : List key → Nat
  | [] => 0
  | k :: ks =>
    if k.type = .Last then 0
    else if k.type = .EndRow then end_rows ks + 1
    else end_rows ks

/-- The positions up to `j` of a key array lie before its `Last` key. -/
def before_last (ks : List key) (j : Nat) : Prop :=
  ∀ m k, m ≤ j → ks[m]? = some k → k.type ≠ .Last

/-- A key that `kbd_init_layout` gives a rectangle: a key of positive relative
width that is no `EndRow` marker. -/
def placed (k : key) : Prop :=
  k.type ≠ .EndRow ∧ 0 < k.width

instance (k : key) : Decidable (placed k) := by
  unfold placed; infer_instance

/-- The rectangle `[x, x+w) × [y, y+h)` of a key contains the point. -/
def key_rect (k : key) (x y : Nat) : Prop :=
  k.x ≤ x ∧ x < k.x + k.w ∧ k.y ≤ y ∧ y < k.y + k.h

instance (k : key) (x y : Nat) : Decidable (key_rect k x y) := by
  unfold key_rect; infer_instance

/-- The key `a` lies before the key `b`: in the same row with its `x` range
ending where that of `b` starts or before, or in a row whose `y` range ends
where that of `b` starts or before. -/
def key_apart (a b : key) : Prop :=
  (a.y = b.y ∧ a.x + a.w ≤ b.x) ∨ a.y + a.h ≤ b.y

instance (a b : key) : Decidable (key_apart a b) := by
  unfold key_apart; infer_instance

/-- The code of the press and release events `kbd_press_key` and
`kbd_unpress_key` send for the `Code` or `Copy` key `k` under the modifier mask
of `kb`: 127 for a `Copy` key, whose code point is uploaded as a keymap, Tab
for the Space key with Shift when `shift_space_is_tab` is set, and the code of
the key otherwise. -/
def key_event_code (kb : kbd) (k : key) : Nat :=
  if k.type = .Copy then 127
  else if kb.shift_space_is_tab = true ∧ k.code = KEY_SPACE ∧ kb.mods &&& Shift ≠ 0 then KEY_TAB
  else k.code

/-- The requests of the direct typing path for a text whose bytes all have a
key in the character map `map`, from time `t` on: for each byte the modifiers
of its key and the press and release of the key. -/
def mapped_events (map : char_keymap) : Nat → List Nat → List Event
  | _, [] => []
  | t, c :: cs =>
    match map.getD c none with
    | some (code, mods) =>
      [.modifiers mods, .keyev t code true, .keyev t code false] ++
        mapped_events map ((t + 1) % 2 ^ 32) cs
    | none => mapped_events map ((t + 1) % 2 ^ 32) cs

/-- In a row the positive-width keys are laid side by side from the left edge,
the positions counted in `uint32_t`: the `x` of each is the pixel width of the
keys before it modulo `2 ^ 32`. -/
def laid_out_mod (row : List key) : Prop :=
  ∀ pre k post, row = pre ++ k :: post → 0 < k.width → k.x = pixel_width pre % 2 ^ 32

/-! ## Sample configuration

A small keyboard used to evaluate the definitions on concrete inputs. -/

/-- A key record with every field zero, as in a zero-initialised table. -/
def key_zero : key :=
  { label := none, shift_label := none, width := 0, type := .Pad, code := 0, layout := none,
    code_mod := 0, scheme := 0, reset_mod := false, x := 0, y := 0, w := 0, h := 0 }

/-- A `struct kbd` with every field zero and an empty registry. -/
def kbd_zero : kbd :=
  { layout := 0, print := false, print_intersect := false, w := 0, h := 0, landscape := false,
    shift_space_is_tab := false, mods := 0, compose := 0, last_press := none,
    last_swipe := none, preview_key := none, prevlayout := none, layer_index := 0,
    last_abc_layout := none, last_abc_index := 0,
    layouts := fun _ => { keys := [], keymap_name := "", name := none, abc := false,
                          keyheight := 0 },
    layers := [], landscape_layers := [], NumLayouts := 0, Index := 0, keymap_names := [],
    vkbd := false, suggest_height := 0, suggest_visible_count := 0, suggestions := [],
    suggest_mode := .WVKBD_SMODE_NONE, current_token := [], current_token_len := 0,
    context_words := List.replicate 64 none, context_words_len := 0, context_words_pos := 0,
    context_words_max := 0, swipe_points := [], swipe_last_suggest_time := 0,
    pending_swipe := false, pending_swipe_word := [], dismissed_words := [],
    trail_enabled := false, trail_fade_ms := 0, trail_fade_distance_px := 0,
    trail_now_ms := 0, predictor := none, input_down := false,
    input_mode := .KBD_INPUT_NONE, input_down_time := 0, input_down_x := 0, input_down_y := 0,
    input_last_x := 0, input_last_y := 0, input_moved := false, swipe_threshold_px := 0,
    out := [], stdout := [], swipe_refreshes := 0 }

/-- Two rows: a pad and the key `a`, then a wide key `b`; all 10 pixels high. -/
def demo_keys : List key :=
  [ { key_zero with width := 1, type := .Pad, x := 0, y := 0, w := 10, h := 10 },
    { key_zero with label := some [97], shift_label := some [65], width := 1, type := .Code,
                    code := 30, x := 10, y := 0, w := 10, h := 10 },
    { key_zero with type := .EndRow, h := 10 },
    { key_zero with label := some [98], shift_label := some [66], width := 2, type := .Code,
                    code := 48, x := 0, y := 10, w := 20, h := 10 },
    { key_zero with type := .Last } ]

/-- The sample keyboard showing `demo_keys` as its current layout. -/
def demo_kbd : kbd :=
  { kbd_zero with
    layouts := fun _ => { keys := demo_keys, keymap_name := "latin", name := some "full",
                          abc := true, keyheight := 10 } }

/-- A registry of four layouts: `special` (0), `full` (1) and `cyrillic` (2),
and the index layout (3); the first two share the keymap `latin`. -/
def nav_layouts (i : Nat) : layout :=
  if i = 0 then
    { keys := demo_keys, keymap_name := "latin", name := some "special", abc := false,
      keyheight := 10 }
  else if i = 1 then
    { keys := demo_keys, keymap_name := "latin", name := some "full", abc := true,
      keyheight := 10 }
  else if i = 2 then
    { keys := demo_keys, keymap_name := "cyrillic", name := some "cyrillic", abc := true,
      keyheight := 10 }
  else
    { keys := demo_keys, keymap_name := "latin", name := some "index", abc := false,
      keyheight := 10 }

/-- The sample keyboard with the layer sequence `full, special`, showing the
first layer `full`, as `kbd_init` leaves it. -/
def nav_kbd : kbd :=
  { kbd_zero with
    layouts := nav_layouts, NumLayouts := 4, Index := 3,
    layers := [1, 0, 4], landscape_layers := [1, 4],
    keymap_names := ["latin", "cyrillic"], vkbd := true,
    layout := 1, layer_index := 0, last_abc_layout := some 1, last_abc_index := 0 }

/-- The sample keyboard with Ctrl and Shift latched. -/
def ctrl_shift_kbd : kbd :=
  { nav_kbd with mods := Ctrl ||| Shift }

/-- The sample keyboard with CapsLock alone. -/
def capslock_kbd : kbd :=
  { nav_kbd with mods := CapsLock }

/-- The sample keyboard with Shift alone. -/
def shift_kbd : kbd :=
  { nav_kbd with mods := Shift }

/-- The sample keyboard before `kbd_init`: the static tables, every other
field zero. -/
def boot_kbd : kbd :=
  { kbd_zero with
    layouts := nav_layouts, NumLayouts := 4, Index := 3,
    keymap_names := ["latin", "cyrillic"], vkbd := true }

/-- A `Layout` key of the sample keyboard that shows `cyrillic` (layout 2). -/
def cyrillic_key : key :=
  { key_zero with label := some [209, 134], width := 1, type := .Layout, layout := some 2 }

/-- A `Layout` key of the sample keyboard that shows `special` (layout 0). -/
def special_key : key :=
  { key_zero with label := some [63], width := 1, type := .Layout, layout := some 0 }

/-- A layout of two rows of relative widths 1, 1, 1 and 1.5, 1. -/
def thirds_layout : layout :=
  { keys :=
      [ { key_zero with width := 1, type := .Code, code := 16 },
        { key_zero with width := 1, type := .Code, code := 17 },
        { key_zero with width := 1, type := .Code, code := 18 },
        { key_zero with type := .EndRow },
        { key_zero with width := 3 / 2, type := .Code, code := 30 },
        { key_zero with width := 1, type := .Pad },
        { key_zero with type := .Last } ],
    keymap_name := "latin", name := some "thirds", abc := true, keyheight := 0 }

/-- A row with a key of negative relative width: widths 2 and -1. -/
def negative_layout : layout :=
  { keys :=
      [ { key_zero with width := 2, type := .Code, code := 16 },
        { key_zero with width := -1, type := .Pad },
        { key_zero with type := .Last } ],
    keymap_name := "latin", name := some "negative", abc := true, keyheight := 0 }

/-- A predictor that knows the words `the`, `then` and `there`, whatever the
query. -/
def demo_predictor : wvkbd_predictor :=
  { predict_prefix := fun _ _ =>
      [ { word := some [116, 104, 101], score := 3 },
        { word := some [116, 104, 101, 110], score := 2 },
        { word := some [116, 104, 101, 114, 101], score := 1 } ],
    predict_next_word := fun _ _ => [],
    predict_swipe := fun _ _ _ _ _ => [],
    user_has_word := fun _ => false }

/-- The `Code` key `e` / `E`. -/
def e_key : key :=
  { key_zero with label := some [101], shift_label := some [69], width := 1, type := .Code,
                  code := 18 }

/-- The sample keyboard with the predictor and the token `th` typed. -/
def typing_kbd : kbd :=
  { nav_kbd with
    predictor := some demo_predictor, suggest_visible_count := 3, context_words_max := 5,
    current_token := [116, 104], current_token_len := 2 }

/-- The sample keyboard with a token of 127 bytes, which fills the buffer. -/
def full_kbd : kbd :=
  { nav_kbd with
    predictor := some demo_predictor, suggest_visible_count := 3, context_words_max := 5,
    current_token := List.replicate 127 97, current_token_len := 127 }

/-- The zeroed keyboard with a context ring of capacity 2. -/
def ring_kbd : kbd :=
  { kbd_zero with context_words_max := 2 }

/-- The sample keyboard with the predictor and the token `Th` typed. -/
def caps_token_kbd : kbd :=
  { typing_kbd with current_token := [84, 104], current_token_len := 2 }

/-- The Space key. -/
def space_key : key :=
  { key_zero with label := some [32], shift_label := some [32], width := 4, type := .Code,
                  code := KEY_SPACE }

/-- The Backspace key. -/
def backspace : key :=
  { key_zero with label := some [226, 140, 171], shift_label := some [226, 140, 171],
                  width := 2, type := .Code, code := KEY_BACKSPACE }

/-- Five candidate words: `the`, `then`, `there`, `they` and `them`. -/
def five_candidates : List wvkbd_candidate :=
  [ { word := some [116, 104, 101], score := 5 },
    { word := some [116, 104, 101, 110], score := 4 },
    { word := some [116, 104, 101, 114, 101], score := 3 },
    { word := some [116, 104, 101, 121], score := 2 },
    { word := some [116, 104, 101, 109], score := 1 } ]

/-- A predictor that returns the five candidates whatever `max` is. -/
def wide_predictor : wvkbd_predictor :=
  { predict_prefix := fun _ _ => five_candidates,
    predict_next_word := fun _ _ => five_candidates,
    predict_swipe := fun _ _ _ _ _ => five_candidates,
    user_has_word := fun _ => false }

/-- A predictor that returns the first `max` of the five candidates. -/
def capped_predictor : wvkbd_predictor :=
  { predict_prefix := fun _ max => five_candidates.take max.toNat,
    predict_next_word := fun _ max => five_candidates.take max.toNat,
    predict_swipe := fun _ _ _ _ max => five_candidates.take max.toNat,
    user_has_word := fun _ => false }

/-- The sample keyboard with the token `th` and the predictor that ignores
`max`; the visible count is 3. -/
def wide_kbd : kbd :=
  { typing_kbd with predictor := some wide_predictor }

/-- The sample keyboard with the token `th` and the predictor that honours
`max`; the visible count is 3. -/
def capped_kbd : kbd :=
  { typing_kbd with predictor := some capped_predictor }

/-- The sample keyboard with the token `the` typed. -/
def the_kbd : kbd :=
  { typing_kbd with current_token := [116, 104, 101], current_token_len := 3 }

/-- The sample keyboard with the token `the` typed after the word `The` was
dismissed. -/
def the_dismissed_kbd : kbd :=
  kbd_dismiss_word the_kbd (some [84, 104, 101])

/-- The sample keyboard after the word of 127 bytes `a` and a `b` was
dismissed. -/
def long_dismissed_kbd : kbd :=
  kbd_dismiss_word nav_kbd (some (List.replicate 127 97 ++ [98]))

/-- The sample keyboard with the token `th` after the word `Then` was
dismissed. -/
def then_dismissed_kbd : kbd :=
  kbd_dismiss_word typing_kbd (some [84, 104, 101, 110])

/-- The sample keyboard with the token `a` typed; its last alphabetic layout has
keys for `a` and `b` and none for `c`. -/
def a_token_kbd : kbd :=
  { nav_kbd with current_token := [97], current_token_len := 1 }

/-- A predictor that returns no candidate and knows no word. -/
def silent_predictor : wvkbd_predictor :=
  { predict_prefix := fun _ _ => [],
    predict_next_word := fun _ _ => [],
    predict_swipe := fun _ _ _ _ _ => [],
    user_has_word := fun _ => false }

/-- The sample keyboard with the token `th` and the predictor that returns no
candidate. -/
def silent_kbd : kbd :=
  { typing_kbd with predictor := some silent_predictor }

/-- The sample keyboard with a token of 126 bytes `a`, the longest that key
presses make. -/
def long_token_kbd : kbd :=
  { nav_kbd with current_token := List.replicate 126 97, current_token_len := 126 }

/-- The sample keyboard with a full dismissed-word list: the 256 two-letter
words `aa`, `ab`, ... in order. -/
def full_dismissed_kbd : kbd :=
  { nav_kbd with
    dismissed_words := (List.range 256).map (fun i => [97 + i / 26, 97 + i % 26]) }

/-- The sample keyboard with the token `tHe`, typed with an uppercase letter in
second place. -/
def mixed_token_kbd : kbd :=
  { typing_kbd with current_token := [116, 72, 101], current_token_len := 3 }

/-- The sample keyboard in a tap after a swipe: the token `a` is typed, the
swipe word `ab` is pending and the Space key is previewed. -/
def swiped_kbd : kbd :=
  { typing_kbd with
    current_token := [97], current_token_len := 1
    input_down := true, input_mode := .KBD_INPUT_TAP
    pending_swipe := true, pending_swipe_word := [97, 98]
    suggest_mode := .WVKBD_SMODE_SWIPE
    swipe_points := [{ x := 15, y := 5, time_ms := 0 }, { x := 5, y := 15, time_ms := 3 }]
    preview_key := some space_key }

/-- The keyboard of `swiped_kbd` with a compose selection pending. -/
def composing_kbd : kbd :=
  { swiped_kbd with compose := 1 }

/-- The sample keyboard in a swipe with the buffer of 192 points full, the last
point taken at time 0, and the clock of the trail at 2000 with a fade of 800
milliseconds. -/
def faded_kbd : kbd :=
  { typing_kbd with
    input_down := true, input_mode := .KBD_INPUT_SWIPE
    swipe_points := List.replicate 192 { x := 15, y := 5, time_ms := 0 }
    trail_enabled := true, trail_fade_ms := 800, trail_now_ms := 2000 }

/-- The sample keyboard in a swipe from the key `a` towards the key `b` with two
points stored. -/
def swiping_kbd : kbd :=
  { typing_kbd with
    input_down := true, input_mode := .KBD_INPUT_SWIPE
    input_down_x := 15, input_down_y := 5
    swipe_points := [{ x := 15, y := 5, time_ms := 0 }, { x := 5, y := 15, time_ms := 0 }] }

/-- A predictor whose swipe prediction is a word of as many letters `a` as there
are swipe points. -/
def counting_predictor : wvkbd_predictor :=
  { predict_prefix := fun _ _ => [],
    predict_next_word := fun _ _ => [],
    predict_swipe := fun _ points _ _ _ =>
      [{ word := some (List.replicate points.length 97), score := 0 }],
    user_has_word := fun _ => false }

/-- The sample keyboard at rest with the counting predictor, the empty token and
the default swipe threshold. -/
def gesture_kbd : kbd :=
  { typing_kbd with
    predictor := some counting_predictor, current_token := [], current_token_len := 0
    swipe_threshold_px := 18 }

/-- A key that sends Backspace and is labelled with a full stop. -/
def dot_backspace : key :=
  { key_zero with label := some [46], shift_label := some [46], width := 1, type := .Code,
                  code := KEY_BACKSPACE }

/-- The keyboard of `swiped_kbd` with the key `dot_backspace` previewed. -/
def dot_kbd : kbd :=
  { swiped_kbd with preview_key := some dot_backspace }

/-- A suggestion list for the sample keyboard: the entry to add a word, a `Word`
suggestion with an empty text, then the words `the` and `then`. -/
def mixed_suggestions : List wvkbd_suggestion :=
  [ { kind := .WVKBD_SUGGEST_ADD_WORD, word := some [116], inline_word := [], score := 0 },
    { kind := .WVKBD_SUGGEST_WORD, word := some [], inline_word := [], score := 0 },
    { kind := .WVKBD_SUGGEST_WORD, word := some [116, 104, 101], inline_word := [], score := 3 },
    { kind := .WVKBD_SUGGEST_WORD, word := some [116, 104, 101, 110], inline_word := [],
      score := 2 } ]

/-- The key `à` / `À` of a compose layout, a `Code` key. -/
def agrave_key : key :=
  { key_zero with label := some [195, 160], shift_label := some [195, 128], width := 1,
                  type := .Code, code := 40 }

/-- A registry of four layouts: the alphabetic layouts `full` (0) and `simple`
(1), the compose layout of the key `a` (2) and the index layout (3). -/
def compose_layouts (i : Nat) : layout :=
  if i = 0 then
    { keys := demo_keys, keymap_name := "latin", name := some "full", abc := true,
      keyheight := 10 }
  else if i = 1 then
    { keys := demo_keys, keymap_name := "latin", name := some "simple", abc := true,
      keyheight := 10 }
  else if i = 2 then
    { keys := [agrave_key, { key_zero with type := .Last }], keymap_name := "latin",
      name := some "compose_a", abc := false, keyheight := 10 }
  else
    { keys := demo_keys, keymap_name := "latin", name := some "index", abc := false,
      keyheight := 10 }

/-- A `Compose` key. -/
def compose_key : key :=
  { key_zero with label := some [99, 109, 112], width := 1, type := .Compose }

/-- The `Code` key `a` / `A` that carries the compose layout 2. -/
def a_compose_key : key :=
  { key_zero with label := some [97], shift_label := some [65], width := 1, type := .Code,
                  code := 30, layout := some 2 }

/-- A `Layout` key that shows `full` (layout 0). -/
def full_key : key :=
  { key_zero with label := some [70], width := 1, type := .Layout, layout := some 0 }

/-- The keyboard with the registry `compose_layouts` showing `simple` (layer 0
of the sequence `simple, full`) with the alphabetic fallback at layer 1. -/
def compose_kbd : kbd :=
  { kbd_zero with
    layouts := compose_layouts, NumLayouts := 4, Index := 3,
    layers := [1, 0, 4], landscape_layers := [1, 4],
    keymap_names := ["latin"], vkbd := true,
    layout := 1, layer_index := 0, last_abc_layout := some 0, last_abc_index := 1 }

/-- The sample keyboard in a tap that started at the point (15, 5), with the
swipe threshold at 65536. -/
def wide_threshold_kbd : kbd :=
  { nav_kbd with
    swipe_threshold_px := 65536, input_down := true, input_mode := .KBD_INPUT_TAP
    input_down_x := 15, input_down_y := 5 }

/-- The sample keyboard in a tap that started at the point (0, 5), with the
default swipe threshold of 18. -/
def tap_kbd : kbd :=
  { nav_kbd with
    swipe_threshold_px := 18, input_down := true, input_mode := .KBD_INPUT_TAP
    input_down_x := 0, input_down_y := 5 }

/-- A row of relative widths 1, 1, 1 and -2. -/
def wrap_layout : layout :=
  { keys :=
      [ { key_zero with width := 1, type := .Code, code := 16 },
        { key_zero with width := 1, type := .Code, code := 17 },
        { key_zero with width := 1, type := .Code, code := 18 },
        { key_zero with width := -2, type := .Pad },
        { key_zero with type := .Last } ],
    keymap_name := "latin", name := some "wrap", abc := true, keyheight := 0 }

/-- A key table with one key whose x range starts ten pixels before `2 ^ 32`
and is twenty pixels wide. -/
def edge_keys : List key :=
  [ { key_zero with label := some [97], shift_label := some [65], width := 1, type := .Code,
                    code := 30, x := 4294967286, y := 0, w := 20, h := 10 },
    { key_zero with type := .Last } ]

/-- The keyboard showing `edge_keys` as its current layout. -/
def edge_kbd : kbd :=
  { kbd_zero with
    layouts := fun _ => { keys := edge_keys, keymap_name := "latin", name := some "edge",
                          abc := true, keyheight := 10 } }

/-- A row of eleven keys of relative widths 0.5, nine times 1, and 0.5. -/
def half_layout : layout :=
  { keys :=
      [ { key_zero with width := 1 / 2, type := .Code, code := 15 },
        { key_zero with width := 1, type := .Code, code := 16 },
        { key_zero with width := 1, type := .Code, code := 17 },
        { key_zero with width := 1, type := .Code, code := 18 },
        { key_zero with width := 1, type := .Code, code := 19 },
        { key_zero with width := 1, type := .Code, code := 20 },
        { key_zero with width := 1, type := .Code, code := 21 },
        { key_zero with width := 1, type := .Code, code := 22 },
        { key_zero with width := 1, type := .Code, code := 23 },
        { key_zero with width := 1, type := .Code, code := 24 },
        { key_zero with width := 1 / 2, type := .Code, code := 14 },
        { key_zero with type := .Last } ],
    keymap_name := "latin", name := some "half", abc := true, keyheight := 0 }

/-! ## Theorems -/

/-! ### Hit-test -/

/-- On a key whose rectangle is in range, the test in the loop of
`kbd_get_key` is `key_hit`. -/
theorem key_test_iff (k : key) (x y : Nat) (hr : key_in_range k) :
    (k.type ≠ .EndRow ∧ k.type ≠ .Pad ∧ k.type ≠ .Pad ∧
        x ≥ k.x ∧ y ≥ k.y ∧ x < (k.x + k.w) % 2 ^ 32 ∧ y < (k.y + k.h) % 2 ^ 32) ↔
      key_hit k x y := by
  unfold key_in_range at hr
  unfold key_hit
  rw [Nat.mod_eq_of_lt hr.1, Nat.mod_eq_of_lt hr.2]
  constructor
  · rintro ⟨h1, h2, _, h4, h5, h6, h7⟩
    exact ⟨h2, h1, h4, h6, h5, h7⟩
  · rintro ⟨h1, h2, h3, h4, h5, h6⟩
    exact ⟨h2, h1, h1, h3, h5, h4, h6⟩

/-- The scan from position `i` returns the first qualifying key before the
sentinel at relative position `n`, and NULL when there is none. -/
theorem kbd_get_key_from_spec (x y : Nat) : ∀ (ks : List key) (i n : Nat),
    (∃ k, ks[n]? = some k ∧ k.type = .Last) →
    (∀ j k, j < n → ks[j]? = some k → k.type ≠ .Last ∧ key_in_range k) →
    ∃ r, kbd_get_key_from x y ks i = .ok r ∧
      (∀ m, r = some m ↔ ∃ j k, m = i + j ∧ j < n ∧ ks[j]? = some k ∧ key_hit k x y ∧
          ∀ j' k', j' < j → ks[j']? = some k' → ¬ key_hit k' x y) ∧
      (r = none ↔ ∀ j k, j < n → ks[j]? = some k → ¬ key_hit k x y) := by
  intro ks
  induction ks with
  | nil =>
    intro i n h _
    obtain ⟨k, hk, _⟩ := h
    simp at hk
  | cons k ks ih =>
    intro i n hlast hpre
    cases n with
    | zero =>
      obtain ⟨k0, hk0, hl⟩ := hlast
      simp at hk0
      subst hk0
      refine ⟨none, by simp [kbd_get_key_from, hl], ?_, ?_⟩
      · intro m
        simp
      · simp
    | succ n =>
      have h0 := hpre 0 k (Nat.succ_pos n) (by simp)
      by_cases hh : key_hit k x y
      · refine ⟨some i, ?_, ?_, ?_⟩
        · have := (key_test_iff k x y h0.2).mpr hh
          simp only [kbd_get_key_from, if_neg h0.1, if_pos this]
        · intro m
          constructor
          · intro hm
            refine ⟨0, k, ?_, Nat.succ_pos n, by simp, hh, ?_⟩
            · simpa using hm.symm
            · intro j' k' hj'
              exact absurd hj' (Nat.not_lt_zero _)
          · rintro ⟨j, kj, hm, _, hkj, _, hfirst⟩
            cases j with
            | zero => simp [hm]
            | succ j => exact absurd hh (hfirst 0 k (Nat.succ_pos j) (by simp))
        · constructor
          · intro h; cases h
          · intro h
            exact absurd hh (h 0 k (Nat.succ_pos n) (by simp))
      · have hno := fun h => hh ((key_test_iff k x y h0.2).mp h)
        obtain ⟨r, hr, hsome, hnone⟩ := ih (i + 1) n
          (by obtain ⟨kl, hkl, hl⟩ := hlast; exact ⟨kl, by simpa using hkl, hl⟩)
          (fun j kj hj hkj => hpre (j + 1) kj (Nat.succ_lt_succ hj) (by simpa using hkj))
        refine ⟨r, ?_, ?_, ?_⟩
        · simp only [kbd_get_key_from, if_neg h0.1, if_neg hno]
          exact hr
        · intro m
          rw [hsome m]
          constructor
          · rintro ⟨j, kj, hm, hj, hkj, hhit, hfirst⟩
            refine ⟨j + 1, kj, by omega, Nat.succ_lt_succ hj, by simpa using hkj, hhit, ?_⟩
            intro j' k' hj' hk'
            cases j' with
            | zero =>
              simp at hk'
              subst hk'
              exact hh
            | succ j' =>
              exact hfirst j' k' (Nat.lt_of_succ_lt_succ hj') (by simpa using hk')
          · rintro ⟨j, kj, hm, hj, hkj, hhit, hfirst⟩
            cases j with
            | zero =>
              simp at hkj
              subst hkj
              exact absurd hhit hh
            | succ j =>
              refine ⟨j, kj, by omega, Nat.lt_of_succ_lt_succ hj, by simpa using hkj, hhit, ?_⟩
              intro j' k' hj' hk'
              exact hfirst (j' + 1) k' (Nat.succ_lt_succ hj') (by simpa using hk')
        · rw [hnone]
          constructor
          · intro h j kj hj hkj
            cases j with
            | zero =>
              simp at hkj
              subst hkj
              exact hh
            | succ j => exact h j kj (Nat.lt_of_succ_lt_succ hj) (by simpa using hkj)
          · intro h j kj hj hkj
            exact h (j + 1) kj (Nat.succ_lt_succ hj) (by simpa using hkj)

/-- C1 (amended): on a layout whose key array ends with a `Last` key at position `n` and
whose key rectangles lie in the 32-bit coordinate range, `kbd_get_key` returns
the first position before the sentinel whose key is neither `Pad` nor `EndRow`
and contains the point, it returns NULL exactly when no key before the sentinel
qualifies, and a key it returns is never `Pad` or `EndRow`. -/
theorem kbd_get_key_first_hit (kb : kbd) (x y n : Nat)
    (hlast : ∃ k, (kb.layouts kb.layout).keys[n]? = some k ∧ k.type = .Last)
    (hpre : ∀ j k, j < n → (kb.layouts kb.layout).keys[j]? = some k →
      k.type ≠ .Last ∧ key_in_range k) :
    ∃ r, kbd_get_key kb x y = .ok r ∧
      (∀ i, r = some i ↔
        ∃ k, i < n ∧ (kb.layouts kb.layout).keys[i]? = some k ∧ key_hit k x y ∧
          ∀ j k', j < i → (kb.layouts kb.layout).keys[j]? = some k' → ¬ key_hit k' x y) ∧
      (r = none ↔ ∀ j k, j < n → (kb.layouts kb.layout).keys[j]? = some k → ¬ key_hit k x y) ∧
      (∀ i k, r = some i → (kb.layouts kb.layout).keys[i]? = some k →
        k.type ≠ .Pad ∧ k.type ≠ .EndRow) := by
  obtain ⟨r, hr, hsome, hnone⟩ :=
    kbd_get_key_from_spec x y (kb.layouts kb.layout).keys 0 n hlast hpre
  refine ⟨r, hr, ?_, hnone, ?_⟩
  · intro i
    rw [hsome i]
    constructor
    · rintro ⟨j, k, hi, hj, hk, hh, hf⟩
      have : i = j := by omega
      subst this
      exact ⟨k, hj, hk, hh, hf⟩
    · rintro ⟨k, hi, hk, hh, hf⟩
      exact ⟨i, k, by omega, hi, hk, hh, hf⟩
  · intro i k hi hk
    obtain ⟨j, k', hij, _, hk', hh, _⟩ := (hsome i).mp hi
    have : i = j := by omega
    subst this
    rw [hk] at hk'
    cases hk'
    exact ⟨hh.1, hh.2.1⟩

/-- C1 (amended) at the sample keyboard: the point (12, 3) lies in the pad-free key `a`
at position 1, which is what the hit-test returns. -/
theorem kbd_get_key_first_hit_witness :
    kbd_get_key demo_kbd 12 3 = .ok (some 1) ∧ kbd_get_key demo_kbd 25 3 = .ok none := by
  have hlast : ∃ k, (demo_kbd.layouts demo_kbd.layout).keys[4]? = some k ∧ k.type = .Last :=
    ⟨_, rfl, rfl⟩
  have hpre : ∀ j k, j < 4 → (demo_kbd.layouts demo_kbd.layout).keys[j]? = some k →
      k.type ≠ .Last ∧ key_in_range k := by
    intro j k hj hk
    interval_cases j <;> cases hk <;> decide
  refine ⟨?_, ?_⟩
  · obtain ⟨r, hr, hsome, -, -⟩ := kbd_get_key_first_hit demo_kbd 12 3 4 hlast hpre
    rw [hr, (hsome 1).mpr ⟨_, by decide, rfl, by decide, ?_⟩]
    intro j k hj hk
    interval_cases j
    cases hk
    decide
  · rfl

/-- C1, as stated, fails: the key at position 0 of the sample table starts at
x = 2 ^ 32 - 10 and is 20 wide, so the point (2 ^ 32 - 5, 3) lies in its
rectangle; the sum `k->x + k->w` wraps to 10 in `uint32_t`, the test
`x < k->x + k->w` fails and `kbd_get_key` returns NULL. -/
theorem kbd_get_key_first_hit_counterexample :
    (4294967291 < 2 ^ 32 ∧
      ∃ k, (edge_kbd.layouts edge_kbd.layout).keys[0]? = some k ∧ k.type ≠ .Last ∧
        key_hit k 4294967291 3) ∧
    kbd_get_key edge_kbd 4294967291 3 = .ok none :=
  ⟨⟨by decide, _, rfl, by decide, by decide⟩, rfl⟩

/-! ### Layout and layer navigation -/

/-- Redrawing changes no field of the state other than the swipe trail. -/
theorem kbd_draw_layout_eq (kb : kbd) :
    kbd_draw_layout kb = { kb with swipe_points := (kbd_draw_layout kb).swipe_points } := by
  unfold kbd_draw_layout kbd_draw_trail
  dsimp only
  split_ifs <;> rfl

/-- The state `kbd_switch_layout` returns when it returns: the bookkeeping
updates, at most one keymap upload, then the redraw. -/
theorem kbd_switch_layout_eq (kb : kbd) (l i : Nat)
    (h : (kb.layouts l).keymap_name = (kb.layouts kb.layout).keymap_name ∨
      (kb.vkbd = true ∧ (kb.layouts l).keymap_name ∈ kb.keymap_names)) :
    kbd_switch_layout kb l i = .ok (kbd_draw_layout
      { kb with
        prevlayout := some kb.layout
        last_abc_layout :=
          if kb.layer_index ≠ kb.last_abc_index ∧ (kb.layouts kb.layout).abc = true then
            some kb.layout else kb.last_abc_layout
        last_abc_index :=
          if kb.layer_index ≠ kb.last_abc_index ∧ (kb.layouts kb.layout).abc = true then
            kb.layer_index else kb.last_abc_index
        layer_index := i
        layout := l
        out := kb.out ++
          if (kb.layouts kb.layout).keymap_name ≠ (kb.layouts l).keymap_name then
            [.keymap (kb.layouts l).keymap_name 0 0] else [] }) := by
  unfold kbd_switch_layout create_and_upload_keymap
  by_cases hc : kb.layer_index ≠ kb.last_abc_index ∧ (kb.layouts kb.layout).abc = true
  · by_cases hn : (kb.layouts kb.layout).keymap_name = (kb.layouts l).keymap_name
    · simp [hc, hn]
      rfl
    · rcases h with h | ⟨hv, hm⟩
      · exact absurd h.symm hn
      · simp [hc, hn, hv, hm]
  · by_cases hn : (kb.layouts kb.layout).keymap_name = (kb.layouts l).keymap_name
    · simp [hc, hn]
      rfl
    · rcases h with h | ⟨hv, hm⟩
      · exact absurd h.symm hn
      · simp [hc, hn, hv, hm]

/-- The scan for the sentinel counts the entries before it. -/
theorem layercount_from_eq (N : Nat) (rest : List Nat) : ∀ (pre : List Nat) (i : Nat),
    N ∉ pre → i + pre.length ≠ 0 →
    layercount_from N (pre ++ N :: rest) i = .ok (i + pre.length) := by
  intro pre
  induction pre with
  | nil =>
    intro i _ hi
    have : i ≠ 0 := by simpa using hi
    simp [layercount_from, this]
  | cons a pre ih =>
    intro i hN _
    have ha : a ≠ N := fun h => hN (by simp [h])
    have hN2 : N ∉ pre := fun h => hN (by simp [h])
    have hstep : layercount_from N ((a :: pre) ++ N :: rest) i =
        layercount_from N (pre ++ N :: rest) (i + 1) := by
      simp [layercount_from, ha]
    rw [hstep, ih (i + 1) hN2 (by omega)]
    simp only [List.length_cons]
    congr 1
    omega

/-- The layer count `kbd_next_layer` computes is the length of the active layer
sequence. -/
theorem kbd_layercount_eq (kb : kbd) (seq : List Nat) (h : layer_sequence kb seq) :
    kbd_layercount kb = .ok seq.length := by
  obtain ⟨hne, hN, rest, hrest⟩ := h
  unfold kbd_layercount
  rw [hrest, layercount_from_eq kb.NumLayouts rest seq 0 hN]
  · simp
  · have : seq.length ≠ 0 := fun h0 => hne (List.length_eq_zero.mp h0)
    omega

/-- An index below the length of the active layer sequence reads that
sequence's entry from the active layer array. -/
theorem active_layers_get (kb : kbd) (seq : List Nat) (h : layer_sequence kb seq)
    (i : Nat) (hi : i < seq.length) : (active_layers kb)[i]? = seq[i]? := by
  obtain ⟨_, _, rest, hrest⟩ := h
  rw [hrest, List.getElem?_append_left hi]

/-- With a well-formed active layer sequence `kbd_next_layer` is one call of
`kbd_switch_layout`, to the layer at `next_layer_index`. -/
theorem kbd_next_layer_eq (kb : kbd) (k : Option key) (invert : Bool) (seq : List Nat)
    (hseq : layer_sequence kb seq) :
    kbd_next_layer kb k invert =
      kbd_switch_layout (next_layer_state kb k invert)
        (seq.getD (next_layer_index kb invert seq.length) 0)
        (next_layer_index kb invert seq.length) := by
  have hlc : kbd_layercount kb = .ok seq.length := kbd_layercount_eq kb seq hseq
  have hlc0 : kbd_layercount { kb with mods := 0 } = .ok seq.length :=
    kbd_layercount_eq _ seq hseq
  have hlc1 : kbd_layercount { kb with mods := (kb.mods ^^^ Shift) % 256 } = .ok seq.length :=
    kbd_layercount_eq _ seq hseq
  have hpos : 0 < seq.length := List.length_pos.mpr hseq.1
  have hidx : next_layer_index kb invert seq.length < seq.length := by
    unfold next_layer_index
    dsimp only
    split_ifs <;> omega
  have hget : (active_layers kb)[next_layer_index kb invert seq.length]? =
      some (seq.getD (next_layer_index kb invert seq.length) 0) := by
    rw [active_layers_get kb seq hseq _ hidx, List.getD_eq_getElem?_getD,
      List.getElem?_eq_getElem hidx]
    rfl
  by_cases hf : first_layer_requested kb
  · have hf2 := hf
    unfold first_layer_requested at hf2
    have hi : next_layer_index kb invert seq.length = 0 := by
      simp [next_layer_index, hf]
    rw [hi] at hget ⊢
    have hget0 : (active_layers { kb with mods := 0 })[0]? = some (seq.getD 0 0) := hget
    simp only [kbd_next_layer, if_pos hf2, bind, Except.bind, pure, Except.pure, hlc0,
      ge_iff_le, Nat.le_zero, Nat.ne_of_gt hpos, if_false, hget0]
    simp only [next_layer_state, if_pos hf]
    split_ifs <;> rfl
  · have hf2 := hf
    unfold first_layer_requested at hf2
    have hc0 : kb.compose = 0 := by
      by_contra hc
      exact hf2 (Or.inr (Or.inr (Or.inr hc)))
    have hcomp : (if kb.compose ≠ 0 ∧ k.isSome = true then 0 else kb.compose) = kb.compose := by
      rw [hc0]
      simp
    by_cases hb : previous_layer_requested kb invert
    · have hb2 := hb
      unfold previous_layer_requested at hb2
      cases invert with
      | false =>
        have hget1 : (active_layers { kb with mods := (kb.mods ^^^ Shift) % 256 })[
            next_layer_index kb false seq.length]? =
            some (seq.getD (next_layer_index kb false seq.length) 0) := hget
        have hst : next_layer_state kb k false = { kb with mods := (kb.mods ^^^ Shift) % 256 } := by
          simp only [next_layer_state, hcomp, if_neg hf, hb, and_self, if_true]
        rw [hst]
        by_cases hpos2 : kb.layer_index > 0
        · have hi : next_layer_index kb false seq.length =
              if kb.layer_index - 1 ≥ seq.length then 0 else kb.layer_index - 1 := by
            simp [next_layer_index, hf, hb, hpos2]
          rw [hi] at hget1 ⊢
          simp only [kbd_next_layer, if_neg hf2, if_pos hb2, if_pos hpos2, bind, Except.bind,
            pure, Except.pure, hlc1, if_true, hget1]
          simp [hc0]
        · have hi : next_layer_index kb false seq.length =
              if seq.length - 1 ≥ seq.length then 0 else seq.length - 1 := by
            simp [next_layer_index, hf, hb, hpos2]
          rw [hi] at hget1 ⊢
          simp only [kbd_next_layer, if_neg hf2, if_pos hb2, if_neg hpos2, bind, Except.bind,
            pure, Except.pure, hlc, hlc1, if_true, hget1]
          simp [hc0]
      | true =>
        have hst : next_layer_state kb k true = kb := by
          simp [next_layer_state, hcomp, hf]
        rw [hst]
        by_cases hpos2 : kb.layer_index > 0
        · have hi : next_layer_index kb true seq.length =
              if kb.layer_index - 1 ≥ seq.length then 0 else kb.layer_index - 1 := by
            simp [next_layer_index, hf, hb, hpos2]
          rw [hi] at hget ⊢
          simp only [kbd_next_layer, if_neg hf2, if_pos hb2, hpos2, bind, Except.bind,
            pure, Except.pure, hlc, hget]
          simp [hc0, hlc, hget]
        · have hi : next_layer_index kb true seq.length =
              if seq.length - 1 ≥ seq.length then 0 else seq.length - 1 := by
            simp [next_layer_index, hf, hb, hpos2]
          rw [hi] at hget ⊢
          simp only [kbd_next_layer, if_neg hf2, if_pos hb2, hpos2, bind, Except.bind,
            pure, Except.pure, hlc, hget]
          simp [hc0, hlc, hget]
    · have hb2 := hb
      unfold previous_layer_requested at hb2
      have hst : next_layer_state kb k invert = kb := by
        simp [next_layer_state, hcomp, hf, hb]
      rw [hst]
      have hi : next_layer_index kb invert seq.length =
          if kb.layer_index + 1 ≥ seq.length then 0 else kb.layer_index + 1 := by
        simp [next_layer_index, hf, hb]
      rw [hi] at hget ⊢
      simp only [kbd_next_layer, if_neg hf2, if_neg hb2, bind, Except.bind,
        pure, Except.pure, hlc, hget]
      simp [hc0]

/-- The value of `next_layer_index` from a valid index, case by case. -/
theorem next_layer_index_cases (kb : kbd) (invert : Bool) (n : Nat) (hi : kb.layer_index < n) :
    (first_layer_requested kb → next_layer_index kb invert n = 0) ∧
    (¬ first_layer_requested kb → previous_layer_requested kb invert →
      (kb.layer_index > 0 → next_layer_index kb invert n = kb.layer_index - 1) ∧
      (kb.layer_index = 0 → next_layer_index kb invert n = n - 1)) ∧
    (¬ first_layer_requested kb → ¬ previous_layer_requested kb invert →
      (kb.layer_index + 1 = n → next_layer_index kb invert n = 0) ∧
      (kb.layer_index + 1 ≠ n → next_layer_index kb invert n = kb.layer_index + 1)) := by
  refine ⟨?_, ?_, ?_⟩
  · intro hf
    simp [next_layer_index, hf]
  · intro hf hb
    refine ⟨?_, ?_⟩
    · intro hpos
      simp only [next_layer_index, if_neg hf, if_pos hb, if_pos hpos]
      rw [if_neg (by omega)]
    · intro h0
      simp only [next_layer_index, if_neg hf, if_pos hb, h0, gt_iff_lt, lt_self_iff_false,
        if_false]
      rw [if_neg (by omega)]
  · intro hf hb
    refine ⟨?_, ?_⟩
    · intro h
      simp only [next_layer_index, if_neg hf, if_neg hb]
      rw [if_pos (by omega)]
    · intro h
      simp only [next_layer_index, if_neg hf, if_neg hb]
      rw [if_neg (by omega)]

/-- The index `next_layer_index` is below the layer count. -/
theorem next_layer_index_lt (kb : kbd) (invert : Bool) (n : Nat) (hn : 0 < n) :
    next_layer_index kb invert n < n := by
  unfold next_layer_index
  dsimp only
  split_ifs <;> omega

/-- C3: for an active layer sequence `seq` (length at least 1, ended by the
`NumLayouts` sentinel) and an old index below its length, `kbd_next_layer`
returns with the layer index 0 if Ctrl, Alt or AltGr is set or compose is
active; otherwise, if Shift or CapsLock is set or `invert` is requested, with
the index one lower, or the last index when the old one is 0; otherwise with
the index one higher, back to 0 past the last.  The current layout is the one
`seq` names at the new index. -/
theorem kbd_next_layer_index (kb : kbd) (k : Option key) (invert : Bool) (seq : List Nat)
    (hseq : layer_sequence kb seq) (hi : kb.layer_index < seq.length)
    (hkm : keymaps_defined kb) :
    ∃ kb', kbd_next_layer kb k invert = .ok kb' ∧
      (first_layer_requested kb → kb'.layer_index = 0) ∧
      (¬ first_layer_requested kb → previous_layer_requested kb invert →
        (kb.layer_index > 0 → kb'.layer_index = kb.layer_index - 1) ∧
        (kb.layer_index = 0 → kb'.layer_index = seq.length - 1)) ∧
      (¬ first_layer_requested kb → ¬ previous_layer_requested kb invert →
        (kb.layer_index + 1 = seq.length → kb'.layer_index = 0) ∧
        (kb.layer_index + 1 ≠ seq.length → kb'.layer_index = kb.layer_index + 1)) ∧
      seq[kb'.layer_index]? = some kb'.layout := by
  rw [kbd_next_layer_eq kb k invert seq hseq,
    kbd_switch_layout_eq (next_layer_state kb k invert) _ _ (Or.inr ⟨hkm.1, hkm.2 _⟩)]
  refine ⟨_, rfl, ?_⟩
  rw [kbd_draw_layout_eq]
  dsimp only
  obtain ⟨h1, h2, h3⟩ := next_layer_index_cases kb invert seq.length hi
  refine ⟨h1, h2, h3, ?_⟩
  have hlt := next_layer_index_lt kb invert seq.length (List.length_pos.mpr hseq.1)
  rw [List.getD_eq_getElem?_getD, List.getElem?_eq_getElem hlt]
  rfl

/-- A state with the same static setup has the same active layer sequence. -/
theorem layer_sequence_of_same_setup (a b : kbd) (seq : List Nat) (h : same_setup a b)
    (hs : layer_sequence a seq) : layer_sequence b seq := by
  obtain ⟨_, h2, h3, h4, h5, _, _, _⟩ := h
  unfold layer_sequence active_layers at hs ⊢
  rw [h2, h3, h4, h5]
  exact hs

/-- A state with the same static setup can upload the same keymaps. -/
theorem keymaps_defined_of_same_setup (a b : kbd) (h : same_setup a b)
    (hk : keymaps_defined a) : keymaps_defined b := by
  obtain ⟨h1, _, _, _, _, _, h7, h8⟩ := h
  unfold keymaps_defined at hk ⊢
  rw [h1, h7, h8]
  exact hk

/-- What `kbd_next_layer` returns on a keyboard with a well-formed layer
sequence and defined keymaps: index and layout of the new layer, the modifier
mask and compose counter of `next_layer_state`, the static setup untouched. -/
theorem kbd_next_layer_ok (kb : kbd) (k : Option key) (invert : Bool) (seq : List Nat)
    (hseq : layer_sequence kb seq) (hkm : keymaps_defined kb) :
    ∃ kb', kbd_next_layer kb k invert = .ok kb' ∧
      kb'.layer_index = next_layer_index kb invert seq.length ∧
      seq[kb'.layer_index]? = some kb'.layout ∧
      kb'.mods = (next_layer_state kb k invert).mods ∧
      kb'.compose = (next_layer_state kb k invert).compose ∧
      same_setup kb kb' ∧
      kb'.last_press = kb.last_press ∧
      (kb'.last_abc_index = kb.last_abc_index ∨ kb'.last_abc_index = kb.layer_index) := by
  rw [kbd_next_layer_eq kb k invert seq hseq,
    kbd_switch_layout_eq (next_layer_state kb k invert) _ _ (Or.inr ⟨hkm.1, hkm.2 _⟩)]
  refine ⟨_, rfl, ?_⟩
  rw [kbd_draw_layout_eq]
  dsimp only
  have hlt := next_layer_index_lt kb invert seq.length (List.length_pos.mpr hseq.1)
  refine ⟨rfl, ?_, rfl, rfl, ⟨rfl, rfl, rfl, rfl, rfl, rfl, rfl, rfl⟩, rfl, ?_⟩
  · rw [List.getD_eq_getElem?_getD, List.getElem?_eq_getElem hlt]
    rfl
  · split_ifs
    · exact Or.inr rfl
    · exact Or.inl rfl

/-- One plain step: without modifiers and compose `kbd_next_layer` moves to the
next index modulo the layer count and keeps the modifier-free state. -/
theorem kbd_next_layer_plain (kb : kbd) (k : Option key) (seq : List Nat)
    (hseq : layer_sequence kb seq) (hi : kb.layer_index < seq.length)
    (hkm : keymaps_defined kb) (hf : ¬ first_layer_requested kb)
    (hb : ¬ previous_layer_requested kb false) :
    ∃ kb', kbd_next_layer kb k false = .ok kb' ∧
      kb'.layer_index = (kb.layer_index + 1) % seq.length ∧
      seq[kb'.layer_index]? = some kb'.layout ∧
      layer_sequence kb' seq ∧ keymaps_defined kb' ∧
      ¬ first_layer_requested kb' ∧ ¬ previous_layer_requested kb' false := by
  obtain ⟨kb', hok, hidx, hlay, hmods, hcomp, hsame, -, -⟩ :=
    kbd_next_layer_ok kb k false seq hseq hkm
  have hc0 : kb.compose = 0 := by
    by_contra hc
    exact hf (Or.inr (Or.inr (Or.inr hc)))
  have hmods2 : kb'.mods = kb.mods := by
    rw [hmods]
    simp [next_layer_state, hf, hb]
  have hcomp2 : kb'.compose = kb.compose := by
    rw [hcomp]
    simp [next_layer_state, hc0]
  refine ⟨kb', hok, ?_, hlay, layer_sequence_of_same_setup kb kb' seq hsame hseq,
    keymaps_defined_of_same_setup kb kb' hsame hkm, ?_, ?_⟩
  · rw [hidx]
    obtain ⟨-, -, h3⟩ := next_layer_index_cases kb false seq.length hi
    by_cases hlast : kb.layer_index + 1 = seq.length
    · rw [(h3 hf hb).1 hlast, hlast, Nat.mod_self]
    · rw [(h3 hf hb).2 hlast, Nat.mod_eq_of_lt (by omega)]
  · unfold first_layer_requested at hf ⊢
    rw [hmods2, hcomp2]
    exact hf
  · unfold previous_layer_requested at hb ⊢
    rw [hmods2]
    exact hb

/-- After `m` plain steps the layer index has advanced by `m` modulo the layer
count, and the layout shown is the one the sequence names there. -/
theorem kbd_next_layer_times_index (k : Option key) (seq : List Nat) : ∀ (m : Nat) (kb : kbd),
    layer_sequence kb seq → kb.layer_index < seq.length → keymaps_defined kb →
    ¬ first_layer_requested kb → ¬ previous_layer_requested kb false →
    ∃ kb', kbd_next_layer_times k m kb = .ok kb' ∧
      kb'.layer_index = (kb.layer_index + m) % seq.length ∧
      (0 < m → seq[kb'.layer_index]? = some kb'.layout) := by
  intro m
  induction m with
  | zero =>
    intro kb _ hi _ _ _
    exact ⟨kb, rfl, by rw [Nat.add_zero, Nat.mod_eq_of_lt hi], fun h => absurd h (by omega)⟩
  | succ m ih =>
    intro kb hseq hi hkm hf hb
    obtain ⟨kb1, hok1, hidx1, hlay1, hseq1, hkm1, hf1, hb1⟩ :=
      kbd_next_layer_plain kb k seq hseq hi hkm hf hb
    have hpos : 0 < seq.length := by omega
    have hi1 : kb1.layer_index < seq.length := by
      rw [hidx1]
      exact Nat.mod_lt _ hpos
    obtain ⟨kb', hok, hidx, hlay⟩ := ih kb1 hseq1 hi1 hkm1 hf1 hb1
    refine ⟨kb', ?_, ?_, ?_⟩
    · simp only [kbd_next_layer_times, hok1, bind, Except.bind]
      exact hok
    · rw [hidx, hidx1, Nat.mod_add_mod]
      congr 1
      omega
    · intro _
      cases m with
      | zero =>
        simp only [kbd_next_layer_times] at hok
        cases hok
        exact hlay1
      | succ m => exact hlay (Nat.succ_pos m)

/-- C2, as amended: for an active layer sequence of length `n ≥ 1` and a valid
starting index, in a state without Ctrl, Alt, AltGr, Shift, CapsLock and
compose, `n` calls of `kbd_next_layer` (invert = false) return, bring
`layer_index` back to its starting value and leave as current layout the one
the sequence names at that index. -/
theorem kbd_next_layer_cycle (kb : kbd) (k : Option key) (seq : List Nat)
    (hseq : layer_sequence kb seq) (hi : kb.layer_index < seq.length)
    (hkm : keymaps_defined kb) (hf : ¬ first_layer_requested kb)
    (hb : ¬ previous_layer_requested kb false) :
    ∃ kb', kbd_next_layer_times k seq.length kb = .ok kb' ∧
      kb'.layer_index = kb.layer_index ∧
      seq[kb.layer_index]? = some kb'.layout := by
  obtain ⟨kb', hok, hidx, hlay⟩ :=
    kbd_next_layer_times_index k seq seq.length kb hseq hi hkm hf hb
  have hidx2 : kb'.layer_index = kb.layer_index := by
    rw [hidx, Nat.add_mod_right, Nat.mod_eq_of_lt hi]
  refine ⟨kb', hok, hidx2, ?_⟩
  rw [← hidx2]
  exact hlay (by omega)

/-- The sample keyboard has the layer sequence `full, special`. -/
theorem nav_kbd_layer_sequence : layer_sequence nav_kbd [1, 0] :=
  ⟨by decide, by decide, [], rfl⟩

/-- Every layout of the sample registry names a keymap of the table. -/
theorem nav_kbd_keymaps_defined : keymaps_defined nav_kbd := by
  refine ⟨rfl, ?_⟩
  intro i
  show (nav_layouts i).keymap_name ∈ ["latin", "cyrillic"]
  unfold nav_layouts
  split_ifs <;> decide

/-- C2, as stated, fails: on the sample keyboard, after `kbd_init` and a press
of the `Layout` key for `special` (which leaves layer index 0, no modifier, no
compose, with the layer sequence `full, special` of length 2), two calls of
`kbd_next_layer` bring the layer index back to 0 but leave the layout `full`
(1), not the layout `special` (0) the calls started from. -/
theorem kbd_next_layer_cycle_counterexample :
    ∃ s0 s kb',
      kbd_init boot_kbd nav_layouts (some ["full", "special"]) (some ["full"]) = .ok s0 ∧
      kbd_press_key s0 special_key 0 = .ok s ∧
      layer_sequence s [1, 0] ∧ s.layer_index < [1, 0].length ∧
      ¬ first_layer_requested s ∧ ¬ previous_layer_requested s false ∧
      kbd_next_layer_times none [1, 0].length s = .ok kb' ∧
      kb'.layer_index = s.layer_index ∧ kb'.layout = 1 ∧ s.layout = 0 :=
  ⟨_, _, _, rfl, rfl, ⟨by decide, by decide, [], rfl⟩, by decide, by decide, by decide,
    rfl, rfl, rfl, rfl⟩

/-- C2 at the sample keyboard as `kbd_init` leaves it: two calls come back to
layer index 0 and to the layout `full`. -/
theorem kbd_next_layer_cycle_witness :
    ∃ kb', kbd_next_layer_times none 2 nav_kbd = .ok kb' ∧
      kb'.layer_index = nav_kbd.layer_index ∧ kb'.layout = nav_kbd.layout := by
  obtain ⟨kb', hok, hidx, hlay⟩ :=
    kbd_next_layer_cycle nav_kbd none [1, 0] nav_kbd_layer_sequence (by decide)
      nav_kbd_keymaps_defined (by decide) (by decide)
  refine ⟨kb', hok, hidx, ?_⟩
  have h1 : ([1, 0] : List Nat)[nav_kbd.layer_index]? = some 1 := rfl
  rw [h1] at hlay
  exact (Option.some.inj hlay).symm

/-- C3 at the sample keyboard: without modifiers the call moves from layer 0 to
layer 1 and shows the layout `special` named there. -/
theorem kbd_next_layer_index_witness :
    ∃ kb', kbd_next_layer nav_kbd none false = .ok kb' ∧
      kb'.layer_index = 1 ∧ kb'.layout = 0 := by
  obtain ⟨kb', hok, -, -, h3, hlay⟩ :=
    kbd_next_layer_index nav_kbd none false [1, 0] nav_kbd_layer_sequence (by decide)
      nav_kbd_keymaps_defined
  have hidx : kb'.layer_index = 1 := (h3 (by decide) (by decide)).2 (by decide)
  refine ⟨kb', hok, hidx, ?_⟩
  rw [hidx] at hlay
  exact (Option.some.inj hlay).symm

/-- C4, as stated, fails: with Ctrl and Shift latched on the sample keyboard
`kbd_next_layer` returns with the modifier mask 0, while the old mask without
its Ctrl, Alt and AltGr bits is Shift; the Shift bit did not keep its value. -/
theorem kbd_next_layer_first_mods_counterexample :
    first_layer_requested ctrl_shift_kbd ∧
    ∃ kb', kbd_next_layer ctrl_shift_kbd none false = .ok kb' ∧
      kb'.mods = 0 ∧ ctrl_shift_kbd.mods &&& (255 - (Ctrl ||| Alt ||| AltGr)) = Shift ∧
      kb'.mods &&& Shift ≠ ctrl_shift_kbd.mods &&& Shift :=
  ⟨by decide, _, rfl, rfl, by decide, by decide⟩

/-- C4, as amended: called with Ctrl, Alt or AltGr set or with compose active,
`kbd_next_layer` returns with the whole modifier mask cleared: the resulting
mask is 0, so Shift, CapsLock and Super are cleared along with Ctrl, Alt and
AltGr. -/
theorem kbd_next_layer_first_mods (kb : kbd) (k : Option key) (invert : Bool) (seq : List Nat)
    (hseq : layer_sequence kb seq) (hkm : keymaps_defined kb)
    (hf : first_layer_requested kb) :
    ∃ kb', kbd_next_layer kb k invert = .ok kb' ∧ kb'.mods = 0 := by
  obtain ⟨kb', hok, -, -, hmods, -⟩ := kbd_next_layer_ok kb k invert seq hseq hkm
  refine ⟨kb', hok, ?_⟩
  rw [hmods]
  simp [next_layer_state, hf]

/-- C4 at the sample keyboard with Ctrl and Shift latched. -/
theorem kbd_next_layer_first_mods_witness :
    ∃ kb', kbd_next_layer ctrl_shift_kbd (some key_zero) true = .ok kb' ∧ kb'.mods = 0 :=
  kbd_next_layer_first_mods ctrl_shift_kbd (some key_zero) true [1, 0]
    ⟨by decide, by decide, [], rfl⟩
    (keymaps_defined_of_same_setup nav_kbd ctrl_shift_kbd
      ⟨rfl, rfl, rfl, rfl, rfl, rfl, rfl, rfl⟩ nav_kbd_keymaps_defined)
    (by decide)

/-- C5, as stated, fails: with CapsLock alone and `invert` false the call takes
the previous-layer branch and returns with Shift switched on. -/
theorem kbd_next_layer_previous_mods_counterexample :
    ¬ first_layer_requested capslock_kbd ∧ previous_layer_requested capslock_kbd false ∧
    ∃ kb', kbd_next_layer capslock_kbd none false = .ok kb' ∧
      kb'.mods = (CapsLock ||| Shift) ∧ kb'.mods &&& Shift ≠ 0 :=
  ⟨by decide, by decide, _, rfl, rfl, by decide⟩

/-- C5, as amended: in the previous-layer branch (no Ctrl, Alt, AltGr, no
compose, and Shift or CapsLock set or `invert` requested) `kbd_next_layer`
returns; if `invert` is false the Shift bit of the mask is toggled (the mask is
the old one xor Shift, as a byte), so Shift is off afterwards exactly when it
was on before; if `invert` is true the mask is unchanged. -/
theorem kbd_next_layer_previous_mods (kb : kbd) (k : Option key) (invert : Bool)
    (seq : List Nat) (hseq : layer_sequence kb seq) (hkm : keymaps_defined kb)
    (hf : ¬ first_layer_requested kb) (hb : previous_layer_requested kb invert) :
    ∃ kb', kbd_next_layer kb k invert = .ok kb' ∧
      (invert = false → kb'.mods = (kb.mods ^^^ Shift) % 256 ∧
        (kb'.mods &&& Shift = 0 ↔ kb.mods &&& Shift ≠ 0)) ∧
      (invert = true → kb'.mods = kb.mods) := by
  obtain ⟨kb', hok, -, -, hmods, -⟩ := kbd_next_layer_ok kb k invert seq hseq hkm
  refine ⟨kb', hok, ?_, ?_⟩
  · intro hinv
    subst hinv
    have hm : kb'.mods = (kb.mods ^^^ Shift) % 256 := by
      rw [hmods]
      simp [next_layer_state, hf, hb]
    refine ⟨hm, ?_⟩
    rw [hm]
    simp only [Shift, Nat.and_one_is_mod]
    rw [Nat.mod_mod_of_dvd _ (by decide : 2 ∣ 256), Nat.xor_mod_two_eq]
    omega
  · intro hinv
    subst hinv
    rw [hmods]
    simp [next_layer_state, hf]

/-- C5 at the sample keyboard with Shift alone: the call returns with Shift
off. -/
theorem kbd_next_layer_previous_mods_witness :
    ∃ kb', kbd_next_layer shift_kbd none false = .ok kb' ∧ kb'.mods &&& Shift = 0 := by
  obtain ⟨kb', hok, h1, -⟩ :=
    kbd_next_layer_previous_mods shift_kbd none false [1, 0]
      ⟨by decide, by decide, [], rfl⟩
      (keymaps_defined_of_same_setup nav_kbd shift_kbd
        ⟨rfl, rfl, rfl, rfl, rfl, rfl, rfl, rfl⟩ nav_kbd_keymaps_defined)
      (by decide) (by decide)
  exact ⟨kb', hok, (h1 rfl).2.mpr (by decide)⟩

/-- C6: when `kbd_switch_layout(l, i)` returns (the new layout shares the
current keymap name, or names a keymap of the table with the protocol object
present), it has set `prevlayout` to the old current layout, the current
layout to `l` and `layer_index` to `i`; `last_abc_layout` and `last_abc_index`
are the old layout and layer index exactly when the old layout is alphabetic
and the old layer index differs from the old `last_abc_index`, and are
unchanged otherwise; modifier mask, compose counter and token are unchanged. -/
theorem kbd_switch_layout_bookkeeping (kb : kbd) (l i : Nat)
    (h : (kb.layouts l).keymap_name = (kb.layouts kb.layout).keymap_name ∨
      (kb.vkbd = true ∧ (kb.layouts l).keymap_name ∈ kb.keymap_names)) :
    ∃ kb', kbd_switch_layout kb l i = .ok kb' ∧
      kb'.prevlayout = some kb.layout ∧ kb'.layout = l ∧ kb'.layer_index = i ∧
      ((kb.layouts kb.layout).abc = true ∧ kb.layer_index ≠ kb.last_abc_index →
        kb'.last_abc_layout = some kb.layout ∧ kb'.last_abc_index = kb.layer_index) ∧
      (¬ ((kb.layouts kb.layout).abc = true ∧ kb.layer_index ≠ kb.last_abc_index) →
        kb'.last_abc_layout = kb.last_abc_layout ∧ kb'.last_abc_index = kb.last_abc_index) ∧
      kb'.mods = kb.mods ∧ kb'.compose = kb.compose ∧
      kb'.current_token = kb.current_token ∧ kb'.current_token_len = kb.current_token_len := by
  rw [kbd_switch_layout_eq kb l i h]
  refine ⟨_, rfl, ?_⟩
  rw [kbd_draw_layout_eq]
  dsimp only
  refine ⟨rfl, rfl, rfl, ?_, ?_, rfl, rfl, rfl, rfl⟩
  · rintro ⟨h1, h2⟩
    rw [if_pos ⟨h2, h1⟩, if_pos ⟨h2, h1⟩]
    exact ⟨rfl, rfl⟩
  · intro hn
    have hn2 : ¬ (kb.layer_index ≠ kb.last_abc_index ∧ (kb.layouts kb.layout).abc = true) :=
      fun h2 => hn ⟨h2.2, h2.1⟩
    rw [if_neg hn2, if_neg hn2]
    exact ⟨rfl, rfl⟩

/-- C6 at the sample keyboard: switching from `full` to `cyrillic` at index 2
records `full` as the previous layout and leaves the alphabetic fallback at
layer 0 alone. -/
theorem kbd_switch_layout_bookkeeping_witness :
    ∃ kb', kbd_switch_layout nav_kbd 2 2 = .ok kb' ∧
      kb'.prevlayout = some 1 ∧ kb'.layout = 2 ∧ kb'.layer_index = 2 ∧
      kb'.last_abc_layout = some 1 ∧ kb'.last_abc_index = 0 := by
  obtain ⟨kb', hok, h1, h2, h3, -, h5, -⟩ :=
    kbd_switch_layout_bookkeeping nav_kbd 2 2 (Or.inr ⟨rfl, by decide⟩)
  exact ⟨kb', hok, h1, h2, h3, (h5 (by decide)).1, (h5 (by decide)).2⟩

/-- C7: `kbd_switch_layout` uploads no keymap when the new layout's keymap name
is that of the layout current before the call; when the names differ (and the
new name is in the keymap table, the protocol object present) it uploads
exactly one keymap, the new layout's, with the compose pair (0, 0). -/
theorem kbd_switch_layout_upload (kb : kbd) (l i : Nat) :
    ((kb.layouts l).keymap_name = (kb.layouts kb.layout).keymap_name →
      ∃ kb', kbd_switch_layout kb l i = .ok kb' ∧ kb'.out = kb.out) ∧
    ((kb.layouts l).keymap_name ≠ (kb.layouts kb.layout).keymap_name →
      kb.vkbd = true → (kb.layouts l).keymap_name ∈ kb.keymap_names →
      ∃ kb', kbd_switch_layout kb l i = .ok kb' ∧
        kb'.out = kb.out ++ [.keymap (kb.layouts l).keymap_name 0 0]) := by
  constructor
  · intro hsame
    rw [kbd_switch_layout_eq kb l i (Or.inl hsame)]
    refine ⟨_, rfl, ?_⟩
    rw [kbd_draw_layout_eq]
    dsimp only
    rw [if_neg (fun hne => hne hsame.symm), List.append_nil]
  · intro hdiff hv hm
    rw [kbd_switch_layout_eq kb l i (Or.inr ⟨hv, hm⟩)]
    refine ⟨_, rfl, ?_⟩
    rw [kbd_draw_layout_eq]
    dsimp only
    rw [if_pos (fun heq => hdiff heq.symm)]

/-! ### Reachable states of the key handlers -/

/-- A sequenced call returns exactly when both parts return. -/
theorem except_bind_ok {α β : Type} (x : Except Fault α) (f : α → Except Fault β) (b : β) :
    (x >>= f) = .ok b ↔ ∃ a, x = .ok a ∧ f a = .ok b := by
  cases x <;> simp [bind, Except.bind]

theorem same_setup_refl (a : kbd) : same_setup a a :=
  ⟨rfl, rfl, rfl, rfl, rfl, rfl, rfl, rfl⟩

theorem same_setup_trans (a b c : kbd) (h1 : same_setup a b) (h2 : same_setup b c) :
    same_setup a c := by
  obtain ⟨a1, a2, a3, a4, a5, a6, a7, a8⟩ := h1
  obtain ⟨b1, b2, b3, b4, b5, b6, b7, b8⟩ := h2
  exact ⟨b1.trans a1, b2.trans a2, b3.trans a3, b4.trans a4, b5.trans a5, b6.trans a6,
    b7.trans a7, b8.trans a8⟩

theorem nav_frame_refl (a : kbd) : nav_frame a a :=
  ⟨same_setup_refl a, rfl, rfl⟩

theorem nav_frame_trans (a b c : kbd) (h1 : nav_frame a b) (h2 : nav_frame b c) :
    nav_frame a c :=
  ⟨same_setup_trans a b c h1.1 h2.1, h2.2.1.trans h1.2.1, h2.2.2.trans h1.2.2⟩

/-- The index bound carries over to a state with the same navigation fields. -/
theorem layer_index_bounded_of_frame (a b : kbd) (n : Nat) (h : nav_frame a b)
    (hb : layer_index_bounded a n) : layer_index_bounded b n := by
  obtain ⟨⟨_, _, _, _, h5, _, _, _⟩, hi, hl⟩ := h
  unfold layer_index_bounded at hb ⊢
  rw [hi, hl, h5]
  exact hb

/-- A protocol request that returns has only extended the trace. -/
theorem vkbd_request_frame (kb kb' : kbd) (e : Event) (h : vkbd_request kb e = .ok kb') :
    nav_frame kb kb' ∧ kb'.mods = kb.mods ∧ kb'.compose = kb.compose ∧
      kb'.last_abc_layout = kb.last_abc_layout := by
  unfold vkbd_request at h
  split_ifs at h
  cases h
  exact ⟨nav_frame_refl _, rfl, rfl, rfl⟩

/-- A keymap upload that returns has only extended the trace. -/
theorem create_and_upload_keymap_frame (kb kb' : kbd) (name : String) (c1 c2 : Nat)
    (h : create_and_upload_keymap kb name c1 c2 = .ok kb') :
    nav_frame kb kb' ∧ kb'.mods = kb.mods ∧ kb'.compose = kb.compose ∧
      kb'.last_abc_layout = kb.last_abc_layout := by
  unfold create_and_upload_keymap at h
  split_ifs at h
  cases h
  exact ⟨nav_frame_refl _, rfl, rfl, rfl⟩

/-- The function `kbd_print_key_stdout` appends to the printed bytes, or it
meets a NULL label. -/
theorem kbd_print_key_stdout_cases (kb : kbd) (k : key) :
    (∃ bytes, kbd_print_key_stdout kb k = .ok { kb with stdout := bytes }) ∨
    (kbd_print_key_stdout kb k = .error .undefined ∧
      (k.label = none ∨ k.shift_label = none)) := by
  have hput : ∀ (text : Option (List Nat)) (r : Except Fault kbd),
      r = (match text with
        | none => .error .undefined
        | some text => .ok { kb with stdout := kb.stdout ++ text }) →
      (∃ bytes, r = .ok { kb with stdout := bytes }) ∨ (r = .error .undefined ∧ text = none) := by
    intro text r hr
    cases text with
    | none => exact Or.inr ⟨hr, rfl⟩
    | some text => exact Or.inl ⟨_, hr⟩
  have hsame : ∃ bytes, (Except.ok kb : Except Fault kbd) = .ok { kb with stdout := bytes } :=
    ⟨kb.stdout, rfl⟩
  unfold kbd_print_key_stdout
  dsimp only
  by_cases h1 : k.type = .Code
  · rw [if_pos h1]
    by_cases h2 : k.code = KEY_SPACE
    · rw [if_pos h2]
      exact Or.inl ⟨_, rfl⟩
    rw [if_neg h2]
    by_cases h3 : k.code = KEY_ENTER
    · rw [if_pos h3]
      exact Or.inl ⟨_, rfl⟩
    rw [if_neg h3]
    by_cases h4 : k.code = KEY_BACKSPACE
    · rw [if_pos h4]
      exact Or.inl ⟨_, rfl⟩
    rw [if_neg h4]
    by_cases h5 : k.code = KEY_TAB
    · rw [if_pos h5]
      exact Or.inl ⟨_, rfl⟩
    rw [if_neg h5]
    by_cases h6 : kb.mods &&& Shift ≠ 0
    · rw [if_pos h6]
      exact (hput k.shift_label _ rfl).imp_right (fun h => ⟨h.1, Or.inr h.2⟩)
    rw [if_neg h6]
    cases hl : k.label with
    | none => exact Or.inr ⟨rfl, Or.inl rfl⟩
    | some label =>
      dsimp only
      by_cases h7 : (kb.mods &&& CapsLock) &&&
          (if label.length = 1 ∧ isalpha (label.headD 0) = true then 1 else 0) ≠ 0
      · rw [if_pos h7]
        exact (hput k.shift_label _ rfl).imp_right (fun h => ⟨h.1, Or.inr h.2⟩)
      rw [if_neg h7]
      by_cases h8 : kb.mods &&& Ctrl = 0 ∧ kb.mods &&& Alt = 0 ∧ kb.mods &&& Super = 0
      · rw [if_pos h8]
        exact Or.inl ⟨_, rfl⟩
      rw [if_neg h8]
      exact Or.inl hsame
  · rw [if_neg h1]
    by_cases h2 : k.type ≠ .Copy
    · rw [if_pos h2]
      exact Or.inl hsame
    · rw [if_neg h2]
      exact Or.inl hsame

/-- Printing a key changes nothing but the printed bytes. -/
theorem kbd_print_key_stdout_frame (kb kb' : kbd) (k : key)
    (h : kbd_print_key_stdout kb k = .ok kb') :
    nav_frame kb kb' ∧ kb'.mods = kb.mods ∧ kb'.compose = kb.compose ∧
      kb'.last_abc_layout = kb.last_abc_layout := by
  rcases kbd_print_key_stdout_cases kb k with ⟨bytes, hb⟩ | ⟨he, -⟩
  · rw [hb] at h
    cases h
    exact ⟨nav_frame_refl _, rfl, rfl, rfl⟩
  · rw [he] at h
    cases h

/-- A call of `kbd_switch_layout` that returns met the condition of
`kbd_switch_layout_eq`. -/
theorem kbd_switch_layout_returns (kb kb' : kbd) (l i : Nat)
    (h : kbd_switch_layout kb l i = .ok kb') :
    (kb.layouts l).keymap_name = (kb.layouts kb.layout).keymap_name ∨
      (kb.vkbd = true ∧ (kb.layouts l).keymap_name ∈ kb.keymap_names) := by
  by_contra hcon
  rw [not_or] at hcon
  obtain ⟨hne, hnk⟩ := hcon
  have hne2 : ¬ (kb.layouts kb.layout).keymap_name = (kb.layouts l).keymap_name :=
    fun h2 => hne h2.symm
  unfold kbd_switch_layout create_and_upload_keymap at h
  by_cases hm : (kb.layouts l).keymap_name ∈ kb.keymap_names
  · have hv : kb.vkbd = false := by
      cases hvk : kb.vkbd
      · rfl
      · exact absurd ⟨hvk, hm⟩ hnk
    by_cases hc : kb.layer_index ≠ kb.last_abc_index ∧ (kb.layouts kb.layout).abc = true
    · simp [hc, hne2, hm, hv, bind, Except.bind] at h
    · simp [hc, hne2, hm, hv, bind, Except.bind] at h
  · by_cases hc : kb.layer_index ≠ kb.last_abc_index ∧ (kb.layouts kb.layout).abc = true
    · simp [hc, hne2, hm, bind, Except.bind] at h
    · simp [hc, hne2, hm, bind, Except.bind] at h

/-- The navigation fields after a call of `kbd_switch_layout` that returns. -/
theorem kbd_switch_layout_nav (kb kb' : kbd) (l i : Nat)
    (h : kbd_switch_layout kb l i = .ok kb') :
    same_setup kb kb' ∧ kb'.layer_index = i ∧ kb'.layout = l ∧
      (kb'.last_abc_index = kb.last_abc_index ∨ kb'.last_abc_index = kb.layer_index) ∧
      kb'.mods = kb.mods ∧ kb'.compose = kb.compose := by
  rw [kbd_switch_layout_eq kb l i (kbd_switch_layout_returns kb kb' l i h)] at h
  cases h
  rw [kbd_draw_layout_eq]
  dsimp only
  refine ⟨same_setup_refl _, rfl, rfl, ?_, rfl, rfl⟩
  split_ifs
  · exact Or.inr rfl
  · exact Or.inl rfl

/-- The index bound after a call of `kbd_switch_layout` that returns, when the
index handed over is bounded. -/
theorem kbd_switch_layout_bounded (kb kb' : kbd) (l i n : Nat)
    (h : kbd_switch_layout kb l i = .ok kb') (hb : layer_index_bounded kb n)
    (hi : i < n ∨ i + 1 < kb.NumLayouts) :
    same_setup kb kb' ∧ layer_index_bounded kb' n := by
  obtain ⟨hs, h1, -, h3, -, -⟩ := kbd_switch_layout_nav kb kb' l i h
  refine ⟨hs, ?_⟩
  unfold layer_index_bounded at hb ⊢
  rw [h1, hs.2.2.2.2.1]
  refine ⟨hi, ?_⟩
  rcases h3 with h3 | h3 <;> rw [h3]
  · exact hb.2
  · exact hb.1

/-- The reset of the alphabetic fallback keeps the layer index and sets the
fallback index to 0. -/
theorem reset_last_abc_bounded (kb kb' : kbd) (n : Nat) (hn : 0 < n)
    (h : reset_last_abc kb = .ok kb') (hb : layer_index_bounded kb n) :
    same_setup kb kb' ∧ layer_index_bounded kb' n := by
  unfold reset_last_abc at h
  split at h
  · cases h
  · cases h
    exact ⟨same_setup_refl _, hb.1, Or.inl hn⟩

/-- The index `kbd_get_layer_index` returns is a position of the registry, or
0, when there is at least one layout. -/
theorem kbd_get_layer_index_bounded (kb : kbd) (l n : Nat) (hn : 0 < n)
    (hN : 0 < kb.NumLayouts) :
    kbd_get_layer_index kb l < n ∨ kbd_get_layer_index kb l + 1 < kb.NumLayouts := by
  unfold kbd_get_layer_index
  split_ifs with h
  · rcases h with h | h
    · omega
    · exact Or.inr h
  · exact Or.inl hn

/-- After a call of `kbd_next_layer` that returns, the layer index is a valid
index of the active layer sequence. -/
theorem kbd_next_layer_bounded (kb kb' : kbd) (k : Option key) (invert : Bool)
    (seq : List Nat) (hseq : layer_sequence kb seq)
    (h : kbd_next_layer kb k invert = .ok kb') (hb : layer_index_bounded kb seq.length) :
    same_setup kb kb' ∧ kb'.layer_index < seq.length ∧ layer_index_bounded kb' seq.length := by
  rw [kbd_next_layer_eq kb k invert seq hseq] at h
  have hlt := next_layer_index_lt kb invert seq.length (List.length_pos.mpr hseq.1)
  obtain ⟨hs, hbd⟩ := kbd_switch_layout_bounded (next_layer_state kb k invert) kb' _ _
    seq.length h hb (Or.inl hlt)
  obtain ⟨-, h1, -⟩ := kbd_switch_layout_nav _ kb' _ _ h
  exact ⟨hs, by rw [h1]; exact hlt, hbd⟩

/-- The `print` statement of the press handlers changes nothing the navigation
reads. -/
theorem press_print_frame (kb kb' : kbd) (k : key) (h : press_print kb k = .ok kb') :
    nav_frame kb kb' ∧ kb'.mods = kb.mods ∧ kb'.compose = kb.compose ∧
      kb'.last_abc_layout = kb.last_abc_layout := by
  unfold press_print at h
  split_ifs at h
  · exact kbd_print_key_stdout_frame kb kb' k h
  · cases h
    exact ⟨nav_frame_refl _, rfl, rfl, rfl⟩

/-- The `Code` case changes nothing the navigation reads. -/
theorem press_code_frame (kb kb' : kbd) (k : key) (time : Nat)
    (h : press_code kb k time = .ok kb') : nav_frame kb kb' := by
  unfold press_code at h
  rw [except_bind_ok] at h
  obtain ⟨kb1, h1, h⟩ := h
  have f1 : nav_frame kb kb1 := by
    unfold press_code_modifiers at h1
    split_ifs at h1 <;> exact (vkbd_request_frame _ _ _ h1).1
  rw [except_bind_ok] at h
  obtain ⟨kb2, h2, h⟩ := h
  have f2 : nav_frame kb1 kb2 := by
    unfold press_code_key at h2
    split_ifs at h2
    · rw [except_bind_ok] at h2
      obtain ⟨kba, ha, h2⟩ := h2
      exact nav_frame_trans _ _ _
        (vkbd_request_frame { kb1 with last_swipe := some k, last_press := some k } _ _ ha).1
        (vkbd_request_frame _ _ _ h2).1
    · exact (vkbd_request_frame { kb1 with last_swipe := some k, last_press := some k }
        _ _ h2).1
  rw [except_bind_ok] at h
  obtain ⟨kb3, h3, h⟩ := h
  have f3 := (press_print_frame _ _ _ h3).1
  have f4 : nav_frame kb3 kb' := by
    cases h
    split_ifs
    · exact ⟨same_setup_refl _, rfl, rfl⟩
    · exact nav_frame_refl _
  exact nav_frame_trans _ _ _ (nav_frame_trans _ _ _ (nav_frame_trans _ _ _ f1 f2) f3) f4

/-- The `Mod` case changes nothing the navigation reads. -/
theorem press_mod_frame (kb kb' : kbd) (k : key) (h : press_mod kb k = .ok kb') :
    nav_frame kb kb' := by
  unfold press_mod at h
  split_ifs at h
  · have h2 := (vkbd_request_frame _ _ _ h).1
    rw [kbd_draw_layout_eq] at h2
    exact h2
  · exact (vkbd_request_frame { kb with mods := (kb.mods ^^^ k.code) % 256 } _ _ h).1

/-- The `Copy` case changes nothing the navigation reads. -/
theorem press_copy_frame (kb kb' : kbd) (k : key) (time : Nat)
    (h : press_copy kb k time = .ok kb') : nav_frame kb kb' := by
  unfold press_copy at h
  rw [except_bind_ok] at h
  obtain ⟨kb1, h1, h⟩ := h
  have f1 : nav_frame kb kb1 :=
    (create_and_upload_keymap_frame { kb with last_swipe := some k, last_press := some k }
      _ _ _ _ h1).1
  rw [except_bind_ok] at h
  obtain ⟨kb2, h2, h⟩ := h
  have f2 := (vkbd_request_frame _ _ _ h2).1
  rw [except_bind_ok] at h
  obtain ⟨kb3, h3, h⟩ := h
  have f3 := (vkbd_request_frame _ _ _ h3).1
  have f4 := (press_print_frame _ _ _ h).1
  exact nav_frame_trans _ _ _ (nav_frame_trans _ _ _ (nav_frame_trans _ _ _ f1 f2) f3) f4

/-- A returning call of `kbd_press_key` keeps the static setup and the bound
on the layer indices. -/
theorem kbd_press_key_bounded (kb kb' : kbd) (k : key) (time : Nat) (seq : List Nat)
    (hseq : layer_sequence kb seq) (hN : 0 < kb.NumLayouts)
    (hb : layer_index_bounded kb seq.length) (h : kbd_press_key kb k time = .ok kb') :
    same_setup kb kb' ∧ layer_index_bounded kb' seq.length := by
  have hpos : 0 < seq.length := List.length_pos.mpr hseq.1
  unfold kbd_press_key at h
  by_cases hc : kb.compose = 1 ∧ k.type ≠ .Compose ∧ k.type ≠ .Mod
  · rw [if_pos hc] at h
    unfold press_composing at h
    split_ifs at h
    · exact kbd_switch_layout_bounded { kb with compose := 0 } kb' _ _ seq.length h hb
        (Or.inl hpos)
    · split at h
      · exact kbd_switch_layout_bounded { kb with compose := (kb.compose + 1) % 256 } kb' _ _
          seq.length h hb
          (kbd_get_layer_index_bounded { kb with compose := (kb.compose + 1) % 256 } _ _
            hpos hN)
      · cases h
        exact ⟨same_setup_refl _, hb⟩
  · rw [if_neg hc] at h
    split at h
    · have f := press_code_frame kb kb' k time h
      exact ⟨f.1, layer_index_bounded_of_frame kb kb' _ f hb⟩
    · have f := press_mod_frame kb kb' k h
      exact ⟨f.1, layer_index_bounded_of_frame kb kb' _ f hb⟩
    · unfold press_layout at h
      split at h
      · cases h
      · rw [except_bind_ok] at h
        obtain ⟨kb1, h1, h⟩ := h
        obtain ⟨hs1, hb1⟩ := kbd_switch_layout_bounded kb kb1 _ _ seq.length h1 hb
          (kbd_get_layer_index_bounded kb _ _ hpos hN)
        obtain ⟨hs2, hb2⟩ := reset_last_abc_bounded kb1 kb' seq.length hpos h hb1
        exact ⟨same_setup_trans _ _ _ hs1 hs2, hb2⟩
    · cases h
      exact ⟨same_setup_refl _, hb⟩
    · obtain ⟨hs, -, hb'⟩ := kbd_next_layer_bounded kb kb' _ _ seq hseq h hb
      exact ⟨hs, hb'⟩
    · unfold press_back_layer at h
      split at h
      · cases h
        exact ⟨same_setup_refl _, hb⟩
      · rw [except_bind_ok] at h
        obtain ⟨kb1, h1, h⟩ := h
        obtain ⟨hs1, hb1⟩ := kbd_switch_layout_bounded { kb with compose := 0 } kb1 _ _
          seq.length h1 hb hb.2
        obtain ⟨hs2, hb2⟩ := reset_last_abc_bounded kb1 kb' seq.length hpos h hb1
        exact ⟨same_setup_trans _ _ _ hs1 hs2, hb2⟩
    · have f := press_copy_frame kb kb' k time h
      exact ⟨f.1, layer_index_bounded_of_frame kb kb' _ f hb⟩
    · cases h
      exact ⟨same_setup_refl _, hb⟩

/-- A conditional toggle of the modifiers changes no field but the modifier
mask. -/
theorem toggle_mods_eq (kb a : kbd) (c : Prop) [Decidable c] (m : Nat)
    (h : a = { kb with mods := a.mods }) :
    (if c then { a with mods := m } else a) =
      { kb with mods := (if c then { a with mods := m } else a).mods } := by
  split_ifs
  · rw [h]
  · exact h

/-- The modifier toggles change no field but the modifier mask. -/
theorem unlatch_mods_eq (kb : kbd) :
    unlatch_mods kb = { kb with mods := (unlatch_mods kb).mods } := by
  unfold unlatch_mods
  dsimp only
  exact toggle_mods_eq kb _ _ _ (toggle_mods_eq kb _ _ _ (toggle_mods_eq kb _ _ _
    (toggle_mods_eq kb _ _ _ (toggle_mods_eq kb kb _ _ rfl))))

/-- A returning call of `kbd_unpress_key` keeps the static setup and the bound
on the layer indices. -/
theorem kbd_unpress_key_bounded (kb kb' : kbd) (time n : Nat)
    (hb : layer_index_bounded kb n) (h : kbd_unpress_key kb time = .ok kb') :
    same_setup kb kb' ∧ layer_index_bounded kb' n := by
  unfold kbd_unpress_key at h
  split at h
  · cases h
    exact ⟨same_setup_refl _, hb⟩
  · rw [except_bind_ok] at h
    obtain ⟨kb1, h1, h⟩ := h
    have f0 : nav_frame kb (unlatch_mods kb) := by
      rw [unlatch_mods_eq]
      exact ⟨same_setup_refl _, rfl, rfl⟩
    have f1 : nav_frame (unlatch_mods kb) kb1 := by
      split_ifs at h1
      · exact (vkbd_request_frame _ _ _ h1).1
      · cases h1
        exact nav_frame_refl _
    rw [except_bind_ok] at h
    obtain ⟨kb2, h2, h⟩ := h
    have f2 : nav_frame kb1 kb2 := by
      unfold unpress_release at h2
      split_ifs at h2 <;> exact (vkbd_request_frame _ _ _ h2).1
    have f := nav_frame_trans _ _ _ (nav_frame_trans _ _ _ f0 f1) f2
    have hb2 := layer_index_bounded_of_frame kb kb2 n f hb
    rw [except_bind_ok] at h
    obtain ⟨kb3, h3, h⟩ := h
    cases h
    have h4 : same_setup kb2 kb3 ∧ layer_index_bounded kb3 n := by
      unfold unpress_finish at h3
      split_ifs at h3
      · split at h3
        · cases h3
        · exact kbd_switch_layout_bounded { kb2 with compose := 0 } kb3 _ _ n h3 hb2 hb2.2
      · cases h3
        rw [kbd_draw_layout_eq]
        exact ⟨same_setup_refl _, hb2⟩
      · cases h3
        exact ⟨same_setup_refl _, hb2⟩
    exact ⟨same_setup_trans _ _ _ f.1 h4.1, h4.2⟩

/-- The entries the loop of `kbd_init_layers` writes are positions of the
registry below `NumLayouts - 1`, one for each name. -/
theorem kbd_init_layers_loop_ok (layouts : Nat → layout) (N : Nat) :
    ∀ (names : List String) (acc ls : List Nat),
    kbd_init_layers_loop layouts N names acc = .ok ls →
    ∃ ids, ls = acc ++ ids ∧ ids.length = names.length ∧ ∀ i ∈ ids, i + 1 < N := by
  intro names
  induction names with
  | nil =>
    intro acc ls h
    simp only [kbd_init_layers_loop] at h
    cases h
    exact ⟨[], by simp, rfl, by simp⟩
  | cons s rest ih =>
    intro acc ls h
    simp only [kbd_init_layers_loop] at h
    split_ifs at h
    split at h
    · rename_i i hfind
      obtain ⟨ids, hls, hlen, hall⟩ := ih (acc ++ [i]) ls h
      have hi : i ∈ List.range (N - 1) := List.mem_of_find?_eq_some hfind
      rw [List.mem_range] at hi
      refine ⟨i :: ids, by simp [hls], by simp [hlen], ?_⟩
      intro j hj
      rcases List.mem_cons.mp hj with hj | hj
      · omega
      · exact hall j hj
    · cases h

/-- A layer array `kbd_init_layers` returns is a non-empty list of registry
positions below `NumLayouts - 1` followed by `NumLayouts`. -/
theorem kbd_init_layers_ok (layouts : Nat → layout) (N : Nat) (names : List String)
    (ls : List Nat) (h : kbd_init_layers layouts N names = .ok ls) :
    ∃ ids, ls = ids ++ [N] ∧ ids ≠ [] ∧ ∀ i ∈ ids, i + 1 < N := by
  unfold kbd_init_layers at h
  rw [except_bind_ok] at h
  obtain ⟨l0, h0, h⟩ := h
  obtain ⟨ids, hl0, -, hall⟩ := kbd_init_layers_loop_ok layouts N names [] l0 h0
  rw [List.nil_append] at hl0
  subst hl0
  split_ifs at h with hlen
  cases h
  exact ⟨l0, rfl, fun h0 => hlen (by simp [h0]), hall⟩

/-- After `kbd_init` with both name lists, the active layer array holds a
well-formed layer sequence, both layer indices are 0 and the registry has at
least one layout. -/
theorem kbd_init_ok (kb s0 : kbd) (layouts : Nat → layout) (names lnames : List String)
    (h : kbd_init kb layouts (some names) (some lnames) = .ok s0) :
    ∃ seq, layer_sequence s0 seq ∧ s0.layer_index = 0 ∧ s0.last_abc_index = 0 ∧
      0 < s0.NumLayouts := by
  unfold kbd_init at h
  rw [except_bind_ok] at h
  obtain ⟨kb1, h1, h⟩ := h
  rw [except_bind_ok] at h
  obtain ⟨kb2, h2, h⟩ := h
  unfold init_layers at h1
  simp only [except_bind_ok] at h1
  obtain ⟨ls, hls, h1⟩ := h1
  cases h1
  unfold init_landscape_layers at h2
  simp only [except_bind_ok] at h2
  obtain ⟨lls, hlls, h2⟩ := h2
  cases h2
  obtain ⟨ids, hids, hne, hall⟩ := kbd_init_layers_ok _ _ _ _ hls
  obtain ⟨lids, hlids, hlne, hlall⟩ := kbd_init_layers_ok _ _ _ _ hlls
  split_ifs at h
  split at h
  · cases h
  · unfold create_and_upload_keymap at h
    split_ifs at h
    cases h
    have hN : 0 < kb.NumLayouts := by
      obtain ⟨i, hi⟩ := List.exists_mem_of_ne_nil ids hne
      have := hall i hi
      omega
    cases hland : kb.landscape
    · refine ⟨ids, ⟨hne, ?_, [], ?_⟩, rfl, rfl, hN⟩
      · intro hmem
        have := hall _ hmem
        exact absurd this (by simp [init_fields])
      · simp [active_layers, init_fields, hland, hids]
    · refine ⟨lids, ⟨hlne, ?_, [], ?_⟩, rfl, rfl, hN⟩
      · intro hmem
        have := hlall _ hmem
        exact absurd this (by simp [init_fields])
      · simp [active_layers, init_fields, hland, hlids]

/-- Every state the key handlers reach keeps the static setup of the start
state and the bound on the layer indices. -/
theorem reachable_bounded (s0 s : kbd) (seq : List Nat) (hseq : layer_sequence s0 seq)
    (hN : 0 < s0.NumLayouts) (hb0 : layer_index_bounded s0 seq.length)
    (hr : reachable s0 s) : same_setup s0 s ∧ layer_index_bounded s seq.length := by
  induction hr with
  | start => exact ⟨same_setup_refl _, hb0⟩
  | press a b k time _ hstep ih =>
    obtain ⟨hs, hb⟩ := ih
    have hseqa := layer_sequence_of_same_setup s0 a seq hs hseq
    have hNa : 0 < a.NumLayouts := by rw [hs.2.2.2.2.1]; exact hN
    obtain ⟨hs2, hb2⟩ := kbd_press_key_bounded a b k time seq hseqa hNa hb hstep
    exact ⟨same_setup_trans _ _ _ hs hs2, hb2⟩
  | unpress a b time _ hstep ih =>
    obtain ⟨hs, hb⟩ := ih
    obtain ⟨hs2, hb2⟩ := kbd_unpress_key_bounded a b time seq.length hb hstep
    exact ⟨same_setup_trans _ _ _ hs hs2, hb2⟩
  | next_layer a b k invert _ hstep ih =>
    obtain ⟨hs, hb⟩ := ih
    have hseqa := layer_sequence_of_same_setup s0 a seq hs hseq
    obtain ⟨hs2, -, hb2⟩ := kbd_next_layer_bounded a b k invert seq hseqa hstep hb
    exact ⟨same_setup_trans _ _ _ hs hs2, hb2⟩

/-- C8, as stated, fails: on the sample keyboard (layer sequence `full,
special`, length 2) a press of the `Layout` key for `cyrillic` right after
`kbd_init` leaves `layer_index` at 2, the position of `cyrillic` in the
registry, which is no index of the layer sequence. -/
theorem layer_index_reachable_counterexample :
    ∃ s0 s, kbd_init boot_kbd nav_layouts (some ["full", "special"]) (some ["full"]) = .ok s0 ∧
      kbd_press_key s0 cyrillic_key 0 = .ok s ∧ reachable s0 s ∧
      layer_sequence s [1, 0] ∧ s.layer_index = 2 ∧ ¬ s.layer_index < [1, 0].length :=
  ⟨_, _, rfl, rfl, reachable.press _ _ cyrillic_key 0 reachable.start rfl,
    ⟨by decide, by decide, [], rfl⟩, rfl, by decide⟩

/-- C8, as amended: in every state the key handlers reach from a state `s0`
returned by `kbd_init`, the active layer array holds a layer sequence of
length at least 1, and `layer_index` is either a valid index into it or a
position of the layout registry below `NumLayouts - 1` (what
`kbd_get_layer_index` gives for the target of a `Layout` or compose key);
it is a valid index right after `kbd_init` and after every returning call of
`kbd_next_layer`. -/
theorem layer_index_reachable_bound (kb s0 s : kbd) (layouts : Nat → layout)
    (names lnames : List String)
    (hinit : kbd_init kb layouts (some names) (some lnames) = .ok s0)
    (hr : reachable s0 s) :
    ∃ seq, layer_sequence s seq ∧ s0.layer_index < seq.length ∧
      (s.layer_index < seq.length ∨ s.layer_index + 1 < s.NumLayouts) ∧
      ∀ k invert s', kbd_next_layer s k invert = .ok s' → s'.layer_index < seq.length := by
  obtain ⟨seq, hseq, hi0, hl0, hN⟩ := kbd_init_ok kb s0 layouts names lnames hinit
  have hpos : 0 < seq.length := List.length_pos.mpr hseq.1
  have hb0 : layer_index_bounded s0 seq.length := by
    unfold layer_index_bounded
    rw [hi0, hl0]
    exact ⟨Or.inl hpos, Or.inl hpos⟩
  obtain ⟨hs, hb⟩ := reachable_bounded s0 s seq hseq hN hb0 hr
  have hseqs := layer_sequence_of_same_setup s0 s seq hs hseq
  refine ⟨seq, hseqs, by rw [hi0]; exact hpos, hb.1, ?_⟩
  intro k invert s' hstep
  exact (kbd_next_layer_bounded s s' k invert seq hseqs hstep hb).2.1

/-- C8 at the sample keyboard after `kbd_init` and a press of the `Layout` key
for `cyrillic`: the layer index 2 is a position of the registry of four
layouts. -/
theorem layer_index_reachable_bound_witness :
    ∃ s0 s, kbd_init boot_kbd nav_layouts (some ["full", "special"]) (some ["full"]) = .ok s0 ∧
      kbd_press_key s0 cyrillic_key 0 = .ok s ∧
      ∃ seq, layer_sequence s seq ∧ s0.layer_index < seq.length ∧
        (s.layer_index < seq.length ∨ s.layer_index + 1 < s.NumLayouts) ∧
        ∀ k invert s', kbd_next_layer s k invert = .ok s' → s'.layer_index < seq.length :=
  ⟨_, _, rfl, rfl,
    layer_index_reachable_bound boot_kbd _ _ nav_layouts ["full", "special"] ["full"] rfl
      (reachable.press _ _ cyrillic_key 0 reachable.start rfl)⟩

/-! ### Rows of a layout -/

theorem pixel_width_append (a b : List key) :
    pixel_width (a ++ b) = pixel_width a + pixel_width b := by
  simp [pixel_width]

theorem row_rest_cons_key (k : key) (ks : List key) (h1 : k.type ≠ .Last)
    (h2 : k.type ≠ .EndRow) : row_rest (k :: ks) = k :: row_rest ks := by
  simp [row_rest, List.takeWhile, h1, h2]

theorem row_rest_cons_end (k : key) (ks : List key) (h : k.type = .Last ∨ k.type = .EndRow) :
    row_rest (k :: ks) = [] := by
  rcases h with h | h <;> simp [row_rest, List.takeWhile, h]

/-- On a key array with a `Last` key `kbd_get_rows` returns. -/
theorem kbd_get_rows_from_returns : ∀ (ks : List key) (rows : Nat),
    (∃ k ∈ ks, k.type = .Last) → ∃ r, kbd_get_rows_from ks rows = .ok r := by
  intro ks
  induction ks with
  | nil =>
    intro rows h
    obtain ⟨k, hk, -⟩ := h
    simp at hk
  | cons k ks ih =>
    intro rows h
    unfold kbd_get_rows_from
    by_cases hlast : k.type = .Last
    · exact ⟨_, by rw [if_pos hlast]⟩
    · have hrest : ∃ k' ∈ ks, k'.type = .Last := by
        obtain ⟨k', hk', hl⟩ := h
        rcases List.mem_cons.mp hk' with hk' | hk'
        · rw [hk'] at hl
          exact absurd hl hlast
        · exact ⟨k', hk', hl⟩
      rw [if_neg hlast]
      split_ifs
      · exact ih _ hrest
      · exact ih _ hrest

/-! ### Token -/

theorem token_frame_refl (a : kbd) : token_frame a a := ⟨rfl, rfl⟩

theorem token_frame_trans (a b c : kbd) (h1 : token_frame a b) (h2 : token_frame b c) :
    token_frame a c :=
  ⟨h2.1.trans h1.1, h2.2.trans h1.2⟩

/-- A well-formed token stays well formed in a state with the same token. -/
theorem token_ok_of_frame (a b : kbd) (h : token_frame a b) (ha : token_ok a) : token_ok b := by
  unfold token_ok at ha ⊢
  rw [h.1, h.2]
  exact ha

/-- A protocol request leaves the token alone. -/
theorem vkbd_request_token (kb kb' : kbd) (e : Event) (h : vkbd_request kb e = .ok kb') :
    token_frame kb kb' := by
  unfold vkbd_request at h
  split_ifs at h
  cases h
  exact token_frame_refl _

/-- A keymap upload leaves the token alone. -/
theorem create_and_upload_keymap_token (kb kb' : kbd) (name : String) (c1 c2 : Nat)
    (h : create_and_upload_keymap kb name c1 c2 = .ok kb') : token_frame kb kb' := by
  unfold create_and_upload_keymap at h
  split_ifs at h
  cases h
  exact token_frame_refl _

/-- Building the suggestion list leaves the token alone. -/
theorem kbd_suggestions_from_candidates_token (kb : kbd) (cands : List wvkbd_candidate) :
    token_frame kb (kbd_suggestions_from_candidates kb cands) := by
  unfold kbd_suggestions_from_candidates
  dsimp only
  split_ifs <;> exact token_frame_refl _

/-- A prefix refresh leaves the token alone. -/
theorem kbd_update_suggestions_prefix_token (kb : kbd) :
    token_frame kb ( kbd_update_suggestions_prefix kb) := by
  unfold kbd_update_suggestions_prefix
  split
  · exact token_frame_refl _
  · rw [kbd_draw_layout_eq]
    exact kbd_suggestions_from_candidates_token kb _

/-- A next-word refresh leaves the token alone. -/
theorem kbd_update_suggestions_next_word_token (kb kb' : kbd)
    (h : kbd_update_suggestions_next_word kb = .ok kb') : token_frame kb kb' := by
  unfold kbd_update_suggestions_next_word at h
  split at h
  · cases h
    exact token_frame_refl _
  · rw [except_bind_ok] at h
    obtain ⟨lw, -, h⟩ := h
    cases h
    rw [kbd_draw_layout_eq]
    exact kbd_suggestions_from_candidates_token kb _

/-- Pushing a context word leaves the token alone. -/
theorem kbd_context_push_word_token (kb kb' : kbd) (word : List Nat)
    (h : kbd_context_push_word kb word = .ok kb') : token_frame kb kb' := by
  unfold kbd_context_push_word at h
  dsimp only at h
  split_ifs at h <;> cases h <;> exact token_frame_refl _

/-- Typing a text key by key leaves the token alone. -/
theorem kbd_type_text_mapped_loop_token (map : char_keymap) :
    ∀ (text : List Nat) (t : Nat) (kb : kbd) (r : Bool × kbd),
    kbd_type_text_mapped_loop map text t kb = .ok r → token_frame kb r.2 := by
  intro text
  induction text with
  | nil =>
    intro t kb r h
    unfold kbd_type_text_mapped_loop at h
    rw [except_bind_ok] at h
    obtain ⟨kb1, h1, h⟩ := h
    cases h
    exact vkbd_request_token _ _ _ h1
  | cons c cs ih =>
    intro t kb r h
    unfold kbd_type_text_mapped_loop at h
    split at h
    · cases h
      exact token_frame_refl _
    · rw [except_bind_ok] at h
      obtain ⟨kb1, h1, h⟩ := h
      rw [except_bind_ok] at h
      obtain ⟨kb2, h2, h⟩ := h
      rw [except_bind_ok] at h
      obtain ⟨kb3, h3, h⟩ := h
      exact token_frame_trans _ _ _
        (token_frame_trans _ _ _
          (token_frame_trans _ _ _ (vkbd_request_token _ _ _ h1) (vkbd_request_token _ _ _ h2))
          (vkbd_request_token _ _ _ h3))
        (ih _ _ _ h)

/-- The direct typing path leaves the token alone. -/
theorem kbd_type_text_mapped_token (kb : kbd) (time_ms : Nat) (text : List Nat)
    (r : Bool × kbd) (h : kbd_type_text_mapped kb time_ms text = .ok r) :
    token_frame kb r.2 := by
  unfold kbd_type_text_mapped at h
  split_ifs at h
  · cases h
    exact token_frame_refl _
  · rw [except_bind_ok] at h
    obtain ⟨map, -, h⟩ := h
    exact kbd_type_text_mapped_loop_token map text time_ms kb r h

/-- Typing one code point leaves the token alone. -/
theorem kbd_type_codepoint_token (kb kb' : kbd) (t cp : Nat)
    (h : kbd_type_codepoint kb t cp = .ok kb') : token_frame kb kb' := by
  unfold kbd_type_codepoint at h
  rw [except_bind_ok] at h
  obtain ⟨kb1, h1, h⟩ := h
  rw [except_bind_ok] at h
  obtain ⟨kb2, h2, h⟩ := h
  rw [except_bind_ok] at h
  obtain ⟨kb3, h3, h⟩ := h
  exact token_frame_trans _ _ _
    (token_frame_trans _ _ _
      (token_frame_trans _ _ _ (create_and_upload_keymap_token _ _ _ _ _ h1)
        (vkbd_request_token _ _ _ h2))
      (vkbd_request_token _ _ _ h3))
    (vkbd_request_token _ _ _ h)

/-- Typing code points one after the other leaves the token alone. -/
theorem kbd_type_codepoints_token : ∀ (cps : List Nat) (t : Nat) (kb kb' : kbd),
    kbd_type_codepoints cps t kb = .ok kb' → token_frame kb kb' := by
  intro cps
  induction cps with
  | nil =>
    intro t kb kb' h
    unfold kbd_type_codepoints at h
    cases h
    exact token_frame_refl _
  | cons cp cps ih =>
    intro t kb kb' h
    unfold kbd_type_codepoints at h
    rw [except_bind_ok] at h
    obtain ⟨kb1, h1, h⟩ := h
    exact token_frame_trans _ _ _ (kbd_type_codepoint_token _ _ _ _ h1) (ih _ _ _ h)

/-- The fallback typing path leaves the token alone. -/
theorem kbd_type_text_utf8_token (kb kb' : kbd) (time_ms : Nat) (text : List Nat)
    (h : kbd_type_text_utf8 kb time_ms text = .ok kb') : token_frame kb kb' := by
  unfold kbd_type_text_utf8 at h
  split_ifs at h
  · cases h
    exact token_frame_refl _
  · rw [except_bind_ok] at h
    obtain ⟨kb1, h1, h⟩ := h
    exact token_frame_trans _ _ _ (kbd_type_codepoints_token _ _ _ _ h1)
      (create_and_upload_keymap_token _ _ _ _ _ h)

/-- Typing a text, by either path, leaves the token alone. -/
theorem kbd_type_text_token (kb kb' : kbd) (time_ms : Nat) (text : List Nat)
    (h : kbd_type_text kb time_ms text = .ok kb') : token_frame kb kb' := by
  unfold kbd_type_text at h
  rw [except_bind_ok] at h
  obtain ⟨r, hr, h⟩ := h
  have f1 := kbd_type_text_mapped_token kb time_ms text r hr
  split_ifs at h
  · cases h
    exact f1
  · exact token_frame_trans _ _ _ f1 (kbd_type_text_utf8_token _ _ _ _ h)

/-- Popping the last code point does not lengthen a string. -/
theorem utf8_pop_last_length (s : List Nat) : (utf8_pop_last s).length ≤ s.length := by
  unfold utf8_pop_last
  rw [List.length_reverse, List.length_drop]
  have h := List.Sublist.length_le
    (List.dropWhile_sublist (fun c => decide (c &&& 0xC0 = 0x80)) (l := s.reverse))
  rw [List.length_reverse] at h
  omega

/-- The copy into the token buffer holds at most 127 bytes. -/
theorem strncpy_token_length (s : List Nat) :
    (strncpy_token s).length ≤ WVKBD_MAX_TOKEN_BYTES - 1 := by
  unfold strncpy_token
  rw [List.length_take]
  exact Nat.min_le_left _ _

/-- Committing the token keeps it well formed. -/
theorem kbd_commit_token_if_needed_token_ok (kb kb' : kbd) (htok : token_ok kb)
    (h : kbd_commit_token_if_needed kb = .ok kb') : token_ok kb' := by
  unfold kbd_commit_token_if_needed at h
  split_ifs at h
  · cases h
    exact htok
  · rw [except_bind_ok] at h
    obtain ⟨kb1, -, h⟩ := h
    cases h
    exact ⟨rfl, Nat.zero_le _⟩

/-- The separator branch keeps the token well formed. -/
theorem committed_separator_token_ok (kb kb' : kbd) (htok : token_ok kb)
    (h : committed_separator kb = .ok kb') : token_ok kb' := by
  unfold committed_separator at h
  rw [except_bind_ok] at h
  obtain ⟨kb1, h1, h⟩ := h
  have h2 := kbd_commit_token_if_needed_token_ok (clear_pending_swipe kb) kb1 htok h1
  exact token_ok_of_frame _ _ (kbd_update_suggestions_next_word_token _ _ h) h2

/-- The token-character branch keeps the token well formed. -/
theorem committed_token_char_token_ok (kb kb' : kbd) (label : List Nat) (htok : token_ok kb)
    (h : committed_token_char kb label = .ok kb') : token_ok kb' := by
  unfold committed_token_char at h
  dsimp only at h
  split_ifs at h with h1 h2
  · cases h
    refine token_ok_of_frame _ _ ( kbd_update_suggestions_prefix_token _) ?_
    refine ⟨rfl, ?_⟩
    have h3 : (clear_pending_swipe kb).current_token = kb.current_token := rfl
    rw [h3] at h2 ⊢
    simp only [WVKBD_MAX_TOKEN_BYTES, List.length_append] at h2 ⊢
    omega
  · cases h
    exact htok

/-- The label tests keep the token well formed. -/
theorem committed_label_token_ok (kb kb' : kbd) (label : Option (List Nat))
    (htok : token_ok kb) (h : committed_label kb label = .ok kb') : token_ok kb' := by
  unfold committed_label at h
  split at h
  · cases h
    exact htok
  · split_ifs at h
    · exact committed_separator_token_ok kb kb' htok h
    · exact committed_token_char_token_ok kb kb' _ htok h
    · cases h
      exact htok

/-- A committed key keeps the token well formed. -/
theorem kbd_handle_committed_key_token_ok (kb kb' : kbd) (k : key) (mods_before : Nat)
    (htok : token_ok kb) (h : kbd_handle_committed_key kb k mods_before = .ok kb') :
    token_ok kb' := by
  unfold kbd_handle_committed_key at h
  split_ifs at h
  · cases h
    refine token_ok_of_frame _ _ ( kbd_update_suggestions_prefix_token _) ?_
    refine ⟨rfl, ?_⟩
    have := utf8_pop_last_length kb.current_token
    have h2 := htok.2
    show (utf8_pop_last kb.current_token).length ≤ WVKBD_MAX_TOKEN_BYTES - 1
    omega
  · exact committed_separator_token_ok kb kb' htok h
  · exact committed_label_token_ok kb kb' _ htok h
  · exact committed_label_token_ok kb kb' _ htok h
  · cases h
    exact htok

/-- A committed suggestion keeps the token well formed. -/
theorem kbd_commit_suggestion_token_ok (kb kb' : kbd) (time_ms : Nat)
    (word : Option (List Nat)) (htok : token_ok kb)
    (h : kbd_commit_suggestion kb time_ms word = .ok kb') : token_ok kb' := by
  unfold kbd_commit_suggestion at h
  split at h
  · cases h
    exact htok
  · cases h
    exact htok
  · dsimp only at h
    split_ifs at h
    · cases h
      exact htok
    · unfold kbd_commit_suggestion_typed at h
      rw [except_bind_ok] at h
      obtain ⟨kb1, h1, h⟩ := h
      cases h
      refine token_ok_of_frame _ _ ( kbd_update_suggestions_prefix_token _) ?_
      exact ⟨rfl, strncpy_token_length _⟩

/-- The state `kbd_init` returns has the empty token, which is well formed. -/
theorem kbd_init_token_ok (kb s0 : kbd) (layouts : Nat → layout)
    (names lnames : Option (List String))
    (h : kbd_init kb layouts names lnames = .ok s0) :
    s0.current_token = [] ∧ token_ok s0 := by
  unfold kbd_init at h
  rw [except_bind_ok] at h
  obtain ⟨kb1, -, h⟩ := h
  rw [except_bind_ok] at h
  obtain ⟨kb2, -, h⟩ := h
  split_ifs at h
  split at h
  · cases h
  · rename_i layer _
    have hf := create_and_upload_keymap_token _ _ _ _ _ h
    have h0 : token_ok (init_fields kb2 layer) := ⟨rfl, Nat.zero_le _⟩
    refine ⟨?_, token_ok_of_frame _ _ hf h0⟩
    rw [hf.1]
    rfl

/-- A token character is no separator. -/
theorem token_char_not_separator (label : List Nat) (h : kbd_is_token_char_label label = true) :
    kbd_is_separator_label label = false := by
  unfold kbd_is_token_char_label at h
  unfold kbd_is_separator_label
  split at h
  · cases h
  · rename_i c
    by_cases h32 : c = 32
    · subst h32
      simp [isalnum, isalpha] at h
    · by_cases h10 : c = 10
      · subst h10
        simp [isalnum, isalpha] at h
      · simp only [h32, h10, if_false]
        split_ifs at h with ha hq
        · simp [ha]
        · simp [ha, hq]
  · cases h

/-- A token character is a single byte. -/
theorem token_char_length (label : List Nat) (h : kbd_is_token_char_label label = true) :
    label.length = 1 := by
  unfold kbd_is_token_char_label at h
  split at h
  · cases h
  · rfl
  · cases h

/-- C10: from a state whose token is well formed (`current_token_len` is the
byte length of `current_token`, at most 127), every operation that touches the
token returns with a well-formed token: a committed key (token-character
append, Backspace, separator commit), a committed suggestion and the commit of
the token; and the append of a token character that does not fit into the 127
bytes returns with the token unchanged. -/
theorem current_token_bounded (kb : kbd) (htok : token_ok kb) :
    (∀ k mods_before kb', kbd_handle_committed_key kb k mods_before = .ok kb' →
      kb'.current_token_len = (kb'.current_token.length : Int) ∧
      kb'.current_token.length ≤ 127) ∧
    (∀ time_ms word kb', kbd_commit_suggestion kb time_ms word = .ok kb' →
      kb'.current_token_len = (kb'.current_token.length : Int) ∧
      kb'.current_token.length ≤ 127) ∧
    (∀ kb', kbd_commit_token_if_needed kb = .ok kb' →
      kb'.current_token_len = (kb'.current_token.length : Int) ∧
      kb'.current_token.length ≤ 127) ∧
    (∀ label, kbd_is_token_char_label label = true →
      127 < kb.current_token.length + label.length →
      ∃ kb', committed_label kb (some label) = .ok kb' ∧
        kb'.current_token = kb.current_token ∧
        kb'.current_token_len = kb.current_token_len) := by
  refine ⟨?_, ?_, ?_, ?_⟩
  · intro k mods_before kb' h
    exact kbd_handle_committed_key_token_ok kb kb' k mods_before htok h
  · intro time_ms word kb' h
    exact kbd_commit_suggestion_token_ok kb kb' time_ms word htok h
  · intro kb' h
    exact kbd_commit_token_if_needed_token_ok kb kb' htok h
  · intro label hchar hfit
    have hlen := token_char_length label hchar
    have hsep := token_char_not_separator label hchar
    obtain ⟨h1, h2⟩ := htok
    simp only [WVKBD_MAX_TOKEN_BYTES] at h2
    have h127 : kb.current_token.length = 127 := by omega
    have hlen127 : kb.current_token_len = 127 := by
      rw [h1, h127]
      rfl
    refine ⟨clear_pending_swipe kb, ?_, rfl, rfl⟩
    unfold committed_label
    simp only [hsep, hchar, if_true, Bool.false_eq_true, if_false]
    unfold committed_token_char
    have h3 : (clear_pending_swipe kb).current_token_len = 127 := hlen127
    simp only [h3, hlen, WVKBD_MAX_TOKEN_BYTES]
    rfl

/-- The token of 127 bytes of the sample keyboard `full_kbd` is well formed. -/
theorem full_kbd_token_ok : token_ok full_kbd := by
  refine ⟨?_, ?_⟩
  · show (127 : Int) = (((List.replicate 127 97 : List Nat).length : Nat) : Int)
    rw [List.length_replicate]
    rfl
  · show (List.replicate 127 97 : List Nat).length ≤ 127
    rw [List.length_replicate]

set_option maxRecDepth 10000 in
/-- C10 at the sample keyboard with the token `th`: the key `e` makes the token
`the` of length 3, and on a token that fills the buffer it changes nothing. -/
theorem current_token_bounded_witness :
    (∃ kb', kbd_handle_committed_key typing_kbd e_key 0 = .ok kb' ∧
      kb'.current_token = [116, 104, 101] ∧
      kb'.current_token_len = (kb'.current_token.length : Int) ∧
      kb'.current_token.length ≤ 127) ∧
    (∃ kb', committed_label full_kbd (some [101]) = .ok kb' ∧
      kb'.current_token = full_kbd.current_token ∧
      kb'.current_token_len = full_kbd.current_token_len) :=
  ⟨⟨_, rfl, rfl, (current_token_bounded typing_kbd (by decide)).1 e_key 0 _ rfl⟩,
    (current_token_bounded full_kbd full_kbd_token_ok).2.2.2 [101] (by decide)
      (by
        show 127 < (List.replicate 127 97 : List Nat).length + 1
        rw [List.length_replicate]
        decide)⟩
/-! ### Context ring -/

theorem context_frame_refl (a : kbd) : context_frame a a := ⟨rfl, rfl, rfl, rfl⟩

theorem context_frame_trans (a b c : kbd) (h1 : context_frame a b) (h2 : context_frame b c) :
    context_frame a c :=
  ⟨h2.1.trans h1.1, h2.2.1.trans h1.2.1, h2.2.2.1.trans h1.2.2.1, h2.2.2.2.trans h1.2.2.2⟩

/-- A well-formed ring stays well formed in a state with the same ring. -/
theorem context_ok_of_frame (a b : kbd) (h : context_frame a b) (ha : context_ok a) :
    context_ok b := by
  unfold context_ok at ha ⊢
  rw [h.1, h.2.1, h.2.2.1, h.2.2.2]
  exact ha

/-- The write position after a push, without the remainder. -/
theorem context_pos_step (pos max : Int) (h0 : 0 ≤ pos) (h1 : pos < max) :
    Int.tmod (pos + 1) max = if pos + 1 < max then pos + 1 else 0 := by
  split_ifs with h
  · exact Int.tmod_eq_of_lt (by omega) h
  · have : pos + 1 = max := by omega
    rw [this]
    exact Int.tmod_self

/-- On a well-formed ring the push of a non-empty word returns: the lowercase
copy of the word goes to the slot at the write position, the position moves on
by one, back to 0 at the capacity, and the count grows up to the capacity. -/
theorem kbd_context_push_word_ok (kb : kbd) (word : List Nat) (hok : context_ok kb)
    (hw : word ≠ []) :
    kbd_context_push_word kb word = .ok { kb with
      context_words := kb.context_words.set kb.context_words_pos.toNat
        (some (ascii_lower_inplace (strncpy_token word)))
      context_words_pos :=
        if kb.context_words_pos + 1 < kb.context_words_max then kb.context_words_pos + 1 else 0
      context_words_len :=
        if kb.context_words_len < kb.context_words_max then kb.context_words_len + 1
        else kb.context_words_len } := by
  obtain ⟨hlen, hmax1, hmax2, hpos0, hpos1, -, -⟩ := hok
  simp only [WVKBD_MAX_CONTEXT_WORDS] at hlen hmax2
  have htmod : Int.tmod kb.context_words_pos ((WVKBD_MAX_CONTEXT_WORDS : Nat) : Int) =
      kb.context_words_pos := Int.tmod_eq_of_lt hpos0 (by simp only [WVKBD_MAX_CONTEXT_WORDS]; omega)
  unfold kbd_context_push_word
  have h1 : ¬ (word = [] ∨ kb.context_words_max ≤ 0) := by
    rintro (h | h)
    · exact hw h
    · omega
  rw [if_neg h1]
  dsimp only
  rw [htmod, context_pos_step _ _ hpos0 hpos1]
  have h2 : ¬ (kb.context_words_pos < 0 ∨ kb.context_words.length ≤ kb.context_words_pos.toNat) := by
    rw [hlen]
    omega
  rw [if_neg h2]
/-- On a well-formed ring that holds a word, `kbd_last_context_word` returns the
entry written by the last push. -/
theorem kbd_last_context_word_eq (kb : kbd) (hok : context_ok kb)
    (hlen : 0 < kb.context_words_len) :
    kbd_last_context_word kb = .ok (context_word_back kb 0) := by
  obtain ⟨hl, hmax1, hmax2, hpos0, hpos1, -, -⟩ := hok
  simp only [WVKBD_MAX_CONTEXT_WORDS] at hl hmax2
  unfold kbd_last_context_word context_word_back
  rw [if_neg (by omega)]
  dsimp only
  by_cases h : kb.context_words_pos - 1 < 0
  · have h' : kb.context_words_pos - 1 - ((0 : Nat) : Int) < 0 := by omega
    rw [if_pos h, if_pos h', if_neg (by omega)]
    have hi : (kb.context_words_max - 1).toNat < kb.context_words.length := by omega
    have he : (kb.context_words_pos - 1 - ((0 : Nat) : Int) + kb.context_words_max).toNat =
        (kb.context_words_max - 1).toNat := by omega
    rw [he, List.getD_eq_getElem?_getD, List.getElem?_eq_getElem hi]
    rfl
  · have h' : ¬ kb.context_words_pos - 1 - ((0 : Nat) : Int) < 0 := by omega
    rw [if_neg h, if_neg h', if_neg (by omega)]
    have hi : (kb.context_words_pos - 1).toNat < kb.context_words.length := by omega
    have he : (kb.context_words_pos - 1 - ((0 : Nat) : Int)).toNat =
        (kb.context_words_pos - 1).toNat := by omega
    rw [he, List.getD_eq_getElem?_getD, List.getElem?_eq_getElem hi]
    rfl
/-- What a push does to a well-formed ring: the ring stays well formed, the
new word is the entry 0 pushes back, the entry `j` pushes back becomes the entry
`j + 1` pushes back while `j + 1` is below the capacity, the slot written is
the only one that changes, and the count grows by one up to the capacity. -/
theorem kbd_context_push_word_ring (kb kb' : kbd) (word : List Nat) (hok : context_ok kb)
    (hw : word ≠ []) (h : kbd_context_push_word kb word = .ok kb') :
    context_ok kb' ∧
    kb'.context_words_max = kb.context_words_max ∧
    kb'.context_words_len =
      (if kb.context_words_len < kb.context_words_max then kb.context_words_len + 1
       else kb.context_words_len) ∧
    kb'.context_words_pos =
      (if kb.context_words_pos + 1 < kb.context_words_max then kb.context_words_pos + 1
       else 0) ∧
    context_word_back kb' 0 = some (ascii_lower_inplace (strncpy_token word)) ∧
    (∀ j : Nat, (j : Int) + 1 < kb.context_words_max →
      context_word_back kb' (j + 1) = context_word_back kb j) ∧
    (∀ i : Nat, (kb'.context_words.getD i none).isSome =
      (decide (i = kb.context_words_pos.toNat) || (kb.context_words.getD i none).isSome)) := by
  rw [kbd_context_push_word_ok kb word hok hw] at h
  cases h
  obtain ⟨hl, hmax1, hmax2, hpos0, hpos1, hlen0, hlen1⟩ := hok
  simp only [WVKBD_MAX_CONTEXT_WORDS] at hl hmax2
  have hp : kb.context_words_pos.toNat < kb.context_words.length := by omega
  refine ⟨?_, rfl, rfl, rfl, ?_, ?_, ?_⟩
  · unfold context_ok
    simp only [WVKBD_MAX_CONTEXT_WORDS, List.length_set]
    refine ⟨hl, hmax1, hmax2, ?_⟩
    split_ifs <;> omega
  · unfold context_word_back
    dsimp only
    have he : (if (if kb.context_words_pos + 1 < kb.context_words_max then
          kb.context_words_pos + 1 else 0) - 1 - ((0 : Nat) : Int) < 0 then
        (if kb.context_words_pos + 1 < kb.context_words_max then kb.context_words_pos + 1
          else 0) - 1 - ((0 : Nat) : Int) + kb.context_words_max
        else (if kb.context_words_pos + 1 < kb.context_words_max then
          kb.context_words_pos + 1 else 0) - 1 - ((0 : Nat) : Int)).toNat =
        kb.context_words_pos.toNat := by
      split_ifs <;> omega
    rw [he, List.getD_eq_getElem?_getD, List.getElem?_set_self hp]
    rfl
  · intro j hj
    unfold context_word_back
    dsimp only
    have he : (if (if kb.context_words_pos + 1 < kb.context_words_max then
          kb.context_words_pos + 1 else 0) - 1 - ((j + 1 : Nat) : Int) < 0 then
        (if kb.context_words_pos + 1 < kb.context_words_max then kb.context_words_pos + 1
          else 0) - 1 - ((j + 1 : Nat) : Int) + kb.context_words_max
        else (if kb.context_words_pos + 1 < kb.context_words_max then
          kb.context_words_pos + 1 else 0) - 1 - ((j + 1 : Nat) : Int)).toNat =
        (if kb.context_words_pos - 1 - (j : Int) < 0 then
          kb.context_words_pos - 1 - (j : Int) + kb.context_words_max
         else kb.context_words_pos - 1 - (j : Int)).toNat := by
      split_ifs <;> omega
    have hne : kb.context_words_pos.toNat ≠
        (if kb.context_words_pos - 1 - (j : Int) < 0 then
          kb.context_words_pos - 1 - (j : Int) + kb.context_words_max
         else kb.context_words_pos - 1 - (j : Int)).toNat := by
      split_ifs <;> omega
    rw [he, List.getD_eq_getElem?_getD, List.getD_eq_getElem?_getD, List.getElem?_set_ne hne]
  · intro i
    dsimp only
    rw [List.getD_eq_getElem?_getD, List.getD_eq_getElem?_getD]
    by_cases hi : i = kb.context_words_pos.toNat
    · subst hi
      rw [List.getElem?_set_self hp]
      simp
    · rw [List.getElem?_set_ne (Ne.symm hi)]
      simp [hi]
/-- A push onto a ring that holds `hist` gives a ring that holds the lowercase
copy of the word and then `hist`. -/
theorem kbd_context_push_word_holds (kb kb' : kbd) (word : List Nat) (hist : List (List Nat))
    (hinv : context_ring_holds kb hist) (hw : word ≠ [])
    (h : kbd_context_push_word kb word = .ok kb') :
    context_ring_holds kb' (ascii_lower_inplace (strncpy_token word) :: hist) ∧
    kb'.context_words_max = kb.context_words_max := by
  obtain ⟨hok, hlen, hpos, hposn, hslots, hocc⟩ := hinv
  obtain ⟨hok', hmax', hlen', hpos', h0, hback, hocc'⟩ :=
    kbd_context_push_word_ring kb kb' word hok hw h
  obtain ⟨hl, hmax1, hmax2, hpos0, hpos1, hlen0, hlen1⟩ := hok
  refine ⟨⟨hok', ?_, ?_, ?_, ?_, ?_⟩, hmax'⟩
  · rw [hlen', hmax', List.length_cons]
    split_ifs <;> omega
  · rw [hpos', List.length_cons]
    split_ifs <;> omega
  · rw [hpos', hmax', List.length_cons]
    intro hn
    split_ifs <;> omega
  · intro j hj
    rw [hmax', List.length_cons] at hj
    cases j with
    | zero => rw [h0, List.getElem?_cons_zero]
    | succ j0 =>
      rw [hback j0 (by omega), List.getElem?_cons_succ]
      exact hslots j0 (by omega)
  · intro i
    rw [hocc' i, hocc i, hmax', List.length_cons]
    rw [Bool.eq_iff_iff]
    simp only [Bool.or_eq_true, decide_eq_true_eq]
    constructor
    · rintro (h1 | h1) <;> omega
    · intro h1
      by_cases hi : i = kb.context_words_pos.toNat
      · exact Or.inl hi
      · right
        by_cases hn : (hist.length : Int) < kb.context_words_max
        · have := hposn hn
          omega
        · omega
/-- Pushing the words of a list onto a ring that holds `hist` returns, and the
ring then holds the lowercase copies of the words, the last pushed first, and
then `hist`. -/
theorem kbd_context_push_words_holds : ∀ (ws hist : List (List Nat)) (kb : kbd),
    context_ring_holds kb hist → (∀ w ∈ ws, w ≠ []) →
    ∃ kb', kbd_context_push_words ws kb = .ok kb' ∧
      context_ring_holds kb'
        ((ws.map (fun w => ascii_lower_inplace (strncpy_token w))).reverse ++ hist) ∧
      kb'.context_words_max = kb.context_words_max := by
  intro ws
  induction ws with
  | nil =>
    intro hist kb hinv _
    exact ⟨kb, rfl, by simpa using hinv, rfl⟩
  | cons w ws ih =>
    intro hist kb hinv hne
    have hw : w ≠ [] := hne w (List.mem_cons_self _ _)
    have hpush := kbd_context_push_word_ok kb w hinv.1 hw
    obtain ⟨hinv1, hmax1⟩ := kbd_context_push_word_holds kb _ w hist hinv hw hpush
    obtain ⟨kb', hrun, hinv', hmax'⟩ :=
      ih _ _ hinv1 (fun x hx => hne x (List.mem_cons_of_mem _ hx))
    refine ⟨kb', ?_, ?_, hmax'.trans hmax1⟩
    · unfold kbd_context_push_words
      rw [hpush]
      exact hrun
    · simpa [List.map_cons, List.reverse_cons, List.append_assoc] using hinv'
/-- C12, as stated, fails: a word of 128 bytes `A`, pushed onto the empty ring
of capacity 2, is stored as 127 bytes `a`, which is not its lowercase form of
128 bytes; `kbd_context_push_word` copies at most 127 bytes of the word. -/
theorem kbd_context_push_words_counterexample :
    ∃ kb', kbd_context_push_words [List.replicate 128 65] ring_kbd = .ok kb' ∧
      kbd_last_context_word kb' = .ok (some (List.replicate 127 97)) ∧
      ascii_lower_inplace (List.replicate 128 65) ≠ List.replicate 127 97 := by
  refine ⟨_, rfl, ?_, ?_⟩
  · rfl
  · decide

/-- C12 (amended): for a capacity `m` with `1 ≤ m ≤ 64`, pushing any non-empty
words `w1..wn` with `kbd_context_push_word` onto an empty ring returns;
afterwards `context_words_len` is `min n m`, the entry `j` pushes back is the
lowercase form of the first 127 bytes of the word pushed `j` before the last,
for every `j` below `min n m`, exactly the slots below `min n m` hold a word (so
the older words are gone), and `kbd_last_context_word` returns the lowercase
form of the first 127 bytes of `wn`. -/
theorem kbd_context_push_words_ring (kb : kbd) (m : Nat) (ws : List (List Nat))
    (hm : 1 ≤ m ∧ m ≤ 64) (hmax : kb.context_words_max = (m : Int))
    (hempty : kb.context_words = List.replicate 64 none ∧ kb.context_words_len = 0 ∧
      kb.context_words_pos = 0)
    (hne : ∀ w ∈ ws, w ≠ []) :
    ∃ kb', kbd_context_push_words ws kb = .ok kb' ∧
      kb'.context_words_len = ((min ws.length m : Nat) : Int) ∧
      (∀ j : Nat, j < min ws.length m →
        context_word_back kb' j =
          (ws.reverse[j]?).map (fun w => ascii_lower_inplace (w.take 127))) ∧
      (∀ i : Nat, (kb'.context_words.getD i none).isSome = decide (i < min ws.length m)) ∧
      (∀ w, ws.getLast? = some w →
        kbd_last_context_word kb' = .ok (some (ascii_lower_inplace (w.take 127)))) := by
  obtain ⟨he1, he2, he3⟩ := hempty
  have hinit : context_ring_holds kb [] := by
    refine ⟨?_, ?_, ?_, ?_, ?_, ?_⟩
    · unfold context_ok
      rw [he1, he2, he3, hmax]
      simp only [WVKBD_MAX_CONTEXT_WORDS, List.length_replicate]
      exact ⟨trivial, by omega, by omega, by omega, by omega, by omega, by omega⟩
    · rw [he2]; simp
    · rw [he3]; simp
    · intro _; rw [he3]; rfl
    · intro j hj; simp at hj
    · intro i
      rw [he1, List.getD_eq_getElem?_getD, List.getElem?_replicate]
      split_ifs <;> simp
  obtain ⟨kb', hrun, hinv, hmax'⟩ := kbd_context_push_words_holds ws [] kb hinit hne
  rw [List.append_nil] at hinv
  obtain ⟨hok, hlen, -, -, hslots, hocc⟩ := hinv
  have hm' : kb'.context_words_max.toNat = m := by rw [hmax', hmax]; rfl
  rw [List.length_reverse, List.length_map, hm'] at hlen hslots hocc
  have hslots' : ∀ j : Nat, j < min ws.length m →
      context_word_back kb' j =
        (ws.reverse[j]?).map (fun w => ascii_lower_inplace (w.take 127)) := by
    intro j hj
    rw [hslots j hj, ← List.map_reverse, List.getElem?_map]
    rfl
  refine ⟨kb', hrun, hlen, hslots', hocc, ?_⟩
  intro w hw
  have hpos : 0 < ws.length := by
    cases ws with
    | nil => simp at hw
    | cons _ _ => simp
  rw [kbd_last_context_word_eq kb' hok (by rw [hlen]; omega), hslots' 0 (by omega)]
  rw [List.getLast?_eq_head?_reverse] at hw
  rw [← List.head?_eq_getElem?, hw]
  rfl

/-- C12 (amended) on the ring of capacity 2 with the words `Hi`, `A` and `BC`:
two words are stored, and the last context word is `bc`. -/
theorem kbd_context_push_words_ring_witness :
    ∃ kb', kbd_context_push_words [[72, 105], [65], [66, 67]] ring_kbd = .ok kb' ∧
      kb'.context_words_len = 2 ∧
      context_word_back kb' 1 = some [97] ∧
      kbd_last_context_word kb' = .ok (some [98, 99]) := by
  obtain ⟨kb', h1, h2, h3, -, h5⟩ :=
    kbd_context_push_words_ring ring_kbd 2 [[72, 105], [65], [66, 67]] (by decide) rfl
      ⟨rfl, rfl, rfl⟩ (by decide)
  exact ⟨kb', h1, h2, h3 1 (by decide), h5 _ rfl⟩
/-- Building the suggestion list leaves the context ring alone. -/
theorem kbd_suggestions_from_candidates_context (kb : kbd) (cands : List wvkbd_candidate) :
    context_frame kb (kbd_suggestions_from_candidates kb cands) := by
  unfold kbd_suggestions_from_candidates
  dsimp only
  split_ifs <;> exact context_frame_refl _

/-- A prefix refresh leaves the context ring alone. -/
theorem kbd_update_suggestions_prefix_context (kb : kbd) :
    context_frame kb ( kbd_update_suggestions_prefix kb) := by
  unfold kbd_update_suggestions_prefix
  split
  · exact context_frame_refl _
  · rw [kbd_draw_layout_eq]
    exact kbd_suggestions_from_candidates_context kb _

/-- On a well-formed ring `kbd_last_context_word` returns. -/
theorem kbd_last_context_word_returns (kb : kbd) (hok : context_ok kb) :
    ∃ lw, kbd_last_context_word kb = .ok lw := by
  by_cases hlen : 0 < kb.context_words_len
  · exact ⟨_, kbd_last_context_word_eq kb hok hlen⟩
  · refine ⟨none, ?_⟩
    unfold kbd_last_context_word
    rw [if_pos (by omega)]

/-- On a well-formed ring a next-word refresh returns, and it leaves the ring
and the token alone. -/
theorem kbd_update_suggestions_next_word_context (kb : kbd) (hok : context_ok kb) :
    ∃ kb', kbd_update_suggestions_next_word kb = .ok kb' ∧ context_frame kb kb' ∧
      token_frame kb kb' := by
  obtain ⟨lw, hlw⟩ := kbd_last_context_word_returns kb hok
  unfold kbd_update_suggestions_next_word
  split
  · exact ⟨_, rfl, context_frame_refl _, token_frame_refl _⟩
  · rw [hlw]
    refine ⟨_, rfl, ?_, ?_⟩
    · rw [kbd_draw_layout_eq]
      exact kbd_suggestions_from_candidates_context kb _
    · rw [kbd_draw_layout_eq]
      exact kbd_suggestions_from_candidates_token kb _

/-- The commit of a non-empty well-formed token onto a well-formed ring returns
with the empty token, and the lowercase token is the entry of the last push. -/
theorem kbd_commit_token_if_needed_context (kb : kbd) (htok : token_ok kb)
    (hctx : context_ok kb) (hne : kb.current_token ≠ []) :
    ∃ kb1, kbd_commit_token_if_needed kb = .ok kb1 ∧
      kb1.current_token = [] ∧ kb1.current_token_len = 0 ∧ context_ok kb1 ∧
      0 < kb1.context_words_len ∧
      context_word_back kb1 0 = some (ascii_lower_inplace kb.current_token) := by
  obtain ⟨hlen, hfit⟩ := htok
  have hpos : 0 < kb.current_token.length := List.length_pos.mpr hne
  have hcopy : strncpy_token kb.current_token = kb.current_token :=
    List.take_of_length_le hfit
  have hpush := kbd_context_push_word_ok kb kb.current_token hctx hne
  rw [hcopy] at hpush
  obtain ⟨hok1, -, hlen1, -, hback, -, -⟩ :=
    kbd_context_push_word_ring kb _ kb.current_token hctx hne hpush
  rw [hcopy] at hback
  unfold kbd_commit_token_if_needed
  rw [if_neg (by rw [hlen]; omega), hpush]
  refine ⟨_, rfl, rfl, rfl, hok1, ?_, hback⟩
  show 0 < (if kb.context_words_len < kb.context_words_max then kb.context_words_len + 1
    else kb.context_words_len)
  obtain ⟨-, hmax1, -, -, -, hl0, -⟩ := hctx
  split_ifs <;> omega

/-- The commit of an empty token changes nothing. -/
theorem kbd_commit_token_if_needed_empty (kb : kbd) (htok : token_ok kb)
    (he : kb.current_token = []) : kbd_commit_token_if_needed kb = .ok kb := by
  unfold kbd_commit_token_if_needed
  rw [if_pos (by rw [htok.1, he]; rfl)]

/-- The separator branch: with a well-formed token and ring it returns with the
empty token; a non-empty token has become the last context word, in lowercase,
and with an empty token the ring is as before. -/
theorem committed_separator_context (kb : kbd) (htok : token_ok kb) (hctx : context_ok kb) :
    ∃ kb', committed_separator kb = .ok kb' ∧
      kb'.current_token = [] ∧ kb'.current_token_len = 0 ∧
      (kb.current_token ≠ [] →
        kbd_last_context_word kb' = .ok (some (ascii_lower_inplace kb.current_token))) ∧
      (kb.current_token = [] → context_frame kb kb') := by
  have htok0 : token_ok (clear_pending_swipe kb) := htok
  have hctx0 : context_ok (clear_pending_swipe kb) := hctx
  unfold committed_separator
  by_cases hempty : kb.current_token = []
  · rw [kbd_commit_token_if_needed_empty _ htok0 hempty]
    obtain ⟨kb', hrun, hcf, htf⟩ := kbd_update_suggestions_next_word_context _ hctx0
    refine ⟨kb', hrun, ?_, ?_, fun h => absurd hempty h, fun _ => hcf⟩
    · rw [htf.1]; exact hempty
    · rw [htf.2]
      show kb.current_token_len = 0
      rw [htok.1, hempty]
      rfl
  · obtain ⟨kb1, h1, ht1, ht2, hok1, hl1, hb1⟩ :=
      kbd_commit_token_if_needed_context _ htok0 hctx0 hempty
    rw [h1]
    obtain ⟨kb', hrun, hcf, htf⟩ := kbd_update_suggestions_next_word_context kb1 hok1
    refine ⟨kb', hrun, ?_, ?_, fun _ => ?_, fun h => absurd h hempty⟩
    · rw [htf.1]; exact ht1
    · rw [htf.2]; exact ht2
    · have hok' := context_ok_of_frame _ _ hcf hok1
      rw [kbd_last_context_word_eq kb' hok' (by rw [hcf.2.1]; exact hl1)]
      have hb' : context_word_back kb' 0 = context_word_back kb1 0 := by
        unfold context_word_back
        rw [hcf.1, hcf.2.2.1, hcf.2.2.2]
      rw [hb', hb1]
      rfl

/-- A separator key other than Backspace takes the separator branch of
`kbd_handle_committed_key`. -/
theorem kbd_handle_committed_key_eq_separator (kb : kbd) (k : key) (mods_before : Nat)
    (hsep : separator_key k mods_before) :
    kbd_handle_committed_key kb k mods_before = committed_separator kb := by
  obtain ⟨hs, hb⟩ := hsep
  unfold kbd_key_is_separator at hs
  unfold kbd_handle_committed_key
  by_cases hcode : k.type = .Code
  · have hbs : ¬ k.code = KEY_BACKSPACE := fun h => hb ⟨hcode, h⟩
    rw [if_pos hcode] at hs ⊢
    rw [if_neg hbs]
    by_cases hse : k.code = KEY_SPACE ∨ k.code = KEY_ENTER
    · rw [if_pos hse]
    · rw [if_neg hse] at hs ⊢
      unfold committed_label
      split at hs
      · rename_i label hl
        rw [hl]
        dsimp only
        rw [if_pos hs]
      · cases hs
  · rw [if_neg hcode] at hs ⊢
    split_ifs at hs with hcopy
    rw [if_pos hcopy]
    unfold committed_label
    split at hs
    · rename_i label hl
      rw [hl]
      dsimp only
      rw [if_pos hs]
    · cases hs

/-- C11 (amended): a separator key other than a key that sends Backspace (the
Space or Enter key, or a `Code` or `Copy` key whose effective label is a
separator), processed by `kbd_handle_committed_key` in a state with a
well-formed token and context ring, returns with the empty token; when the
token was non-empty, the ASCII-lowercased token is then the value
`kbd_last_context_word` returns, and when it was empty the context ring is
unchanged. -/
theorem kbd_handle_committed_key_separator (kb : kbd) (k : key) (mods_before : Nat)
    (hsep : separator_key k mods_before) (htok : token_ok kb) (hctx : context_ok kb) :
    ∃ kb', kbd_handle_committed_key kb k mods_before = .ok kb' ∧
      kb'.current_token = [] ∧ kb'.current_token_len = 0 ∧
      (kb.current_token ≠ [] →
        kbd_last_context_word kb' = .ok (some (ascii_lower_inplace kb.current_token))) ∧
      (kb.current_token = [] →
        kb'.context_words = kb.context_words ∧ kb'.context_words_len = kb.context_words_len ∧
        kb'.context_words_pos = kb.context_words_pos ∧
        kb'.context_words_max = kb.context_words_max) := by
  rw [kbd_handle_committed_key_eq_separator kb k mods_before hsep]
  exact committed_separator_context kb htok hctx

/-- C11, as stated, fails: the key that sends Backspace and is labelled with a
full stop is a separator key for `kbd_key_is_separator`, but
`kbd_handle_committed_key` tests the Backspace code first: with the token `Th`
it takes the last character off the token, which is then `T`, and pushes
nothing onto the empty context ring. -/
theorem kbd_handle_committed_key_separator_counterexample :
    kbd_key_is_separator dot_backspace 0 = true ∧
    caps_token_kbd.current_token = [84, 104] ∧
    kbd_last_context_word caps_token_kbd = .ok none ∧
    ∃ kb', kbd_handle_committed_key caps_token_kbd dot_backspace 0 = .ok kb' ∧
      kb'.current_token = [84] ∧ kbd_last_context_word kb' = .ok none :=
  ⟨by decide, rfl, rfl, _, rfl, rfl, rfl⟩

/-- C11 (amended) on the sample keyboard with the token `Th`: the Space key empties the
token and makes `th` the last context word. -/
theorem kbd_handle_committed_key_separator_witness :
    ∃ kb', kbd_handle_committed_key caps_token_kbd space_key 0 = .ok kb' ∧
      kb'.current_token = [] ∧ kbd_last_context_word kb' = .ok (some [116, 104]) := by
  obtain ⟨kb', h1, h2, -, h4, -⟩ :=
    kbd_handle_committed_key_separator caps_token_kbd space_key 0 (by decide) (by decide)
      (by decide)
  exact ⟨kb', h1, h2, h4 (by decide)⟩

/-- A keymap upload leaves the context ring alone. -/
theorem create_and_upload_keymap_context (kb kb' : kbd) (name : String) (c1 c2 : Nat)
    (h : create_and_upload_keymap kb name c1 c2 = .ok kb') : context_frame kb kb' := by
  unfold create_and_upload_keymap at h
  split_ifs at h
  cases h
  exact context_frame_refl _

/-- The state `kbd_init` returns has a well-formed, empty context ring when the
array has its 64 entries and the configured capacity is at most 64. -/
theorem kbd_init_context_ok (kb s0 : kbd) (layouts : Nat → layout)
    (names lnames : Option (List String))
    (hl : kb.context_words.length = 64) (hm : kb.context_words_max ≤ 64)
    (h : kbd_init kb layouts names lnames = .ok s0) :
    context_ok s0 ∧ s0.context_words_len = 0 := by
  unfold kbd_init at h
  rw [except_bind_ok] at h
  obtain ⟨kb1, h1, h⟩ := h
  rw [except_bind_ok] at h
  obtain ⟨kb2, h2, h⟩ := h
  have e1 : kb1.context_words = kb.context_words ∧ kb1.context_words_max = kb.context_words_max := by
    unfold init_layers at h1
    split at h1
    · rw [except_bind_ok] at h1
      obtain ⟨ls, -, h1⟩ := h1
      cases h1
      exact ⟨rfl, rfl⟩
    · cases h1
      exact ⟨rfl, rfl⟩
  have e2 : kb2.context_words = kb1.context_words ∧
      kb2.context_words_max = kb1.context_words_max := by
    unfold init_landscape_layers at h2
    split at h2
    · rw [except_bind_ok] at h2
      obtain ⟨ls, -, h2⟩ := h2
      cases h2
      exact ⟨rfl, rfl⟩
    · cases h2
      exact ⟨rfl, rfl⟩
  split_ifs at h
  split at h
  · cases h
  · rename_i layer _
    have hf := create_and_upload_keymap_context _ _ _ _ _ h
    have h0 : context_ok (init_fields kb2 layer) := by
      unfold context_ok init_fields
      simp only [WVKBD_MAX_CONTEXT_WORDS]
      rw [e2.1, e1.1, e2.2, e1.2, hl]
      refine ⟨rfl, ?_, ?_, le_refl _, ?_, le_refl _, ?_⟩ <;> split_ifs <;> omega
    refine ⟨context_ok_of_frame _ _ hf h0, ?_⟩
    rw [hf.2.1]
    rfl
/-! ### Token round trip -/

/-- On a string of ASCII bytes `utf8_pop_last` removes the last byte. -/
theorem utf8_pop_last_ascii (s : List Nat) (h : ∀ c ∈ s, c < 128) :
    utf8_pop_last s = s.dropLast := by
  unfold utf8_pop_last
  rcases List.eq_nil_or_concat s with hs | ⟨t, c, hs⟩
  · subst hs
    rfl
  · subst hs
    have hc : c < 128 := h c (by simp)
    have hnc : ¬ (c &&& 0xC0 = 0x80) := by
      have := Nat.and_le_left (n := c) (m := 0xC0)
      omega
    rw [List.concat_eq_append, List.reverse_append, List.reverse_singleton,
      List.singleton_append, List.dropWhile_cons_of_neg (by simpa using hnc), List.drop_one,
      List.tail_cons, List.reverse_reverse, List.dropLast_concat]

/-- A token character is one ASCII byte. -/
theorem token_char_byte (label : List Nat) (h : kbd_is_token_char_label label = true) :
    ∃ c, label = [c] ∧ c < 128 := by
  unfold kbd_is_token_char_label at h
  split at h
  · cases h
  · rename_i c
    refine ⟨c, rfl, ?_⟩
    by_contra hc
    have h1 : isalnum c = false := by
      simp only [isalnum, isalpha, Bool.or_eq_false_iff, Bool.and_eq_false_iff,
        decide_eq_false_iff_not]
      omega
    rw [h1] at h
    simp only [Bool.false_eq_true, if_false] at h
    split_ifs at h with hq
    omega
  · cases h
/-- The token-character branch on a well-formed ASCII token returns with a
well-formed ASCII token that is at most one byte longer. -/
theorem committed_token_char_step (kb : kbd) (label : List Nat) (htok : token_ok kb)
    (hasc : token_ascii kb) (hl : kbd_is_token_char_label label = true) :
    ∃ kb', committed_token_char kb label = .ok kb' ∧ token_ok kb' ∧ token_ascii kb' ∧
      kb'.current_token.length ≤ kb.current_token.length + 1 := by
  obtain ⟨c, hc, hc128⟩ := token_char_byte label hl
  subst hc
  have hret : ∃ kb', committed_token_char kb [c] = .ok kb' ∧
      (kb'.current_token = kb.current_token ∨ kb'.current_token = kb.current_token ++ [c]) := by
    obtain ⟨h1, h2⟩ := htok
    simp only [WVKBD_MAX_TOKEN_BYTES] at h2
    unfold committed_token_char
    dsimp only
    have e1 : (clear_pending_swipe kb).current_token_len = (kb.current_token.length : Int) := h1
    have e2 : (clear_pending_swipe kb).current_token = kb.current_token := rfl
    rw [e1, e2]
    simp only [WVKBD_MAX_TOKEN_BYTES, List.length_singleton]
    split_ifs with ha hb
    · exfalso
      omega
    · exact ⟨_, rfl, Or.inr ( kbd_update_suggestions_prefix_token _).1⟩
    · exact ⟨_, rfl, Or.inl rfl⟩
  obtain ⟨kb', hrun, hcase⟩ := hret
  refine ⟨kb', hrun, committed_token_char_token_ok kb kb' _ htok hrun, ?_, ?_⟩
  · unfold token_ascii at hasc ⊢
    rcases hcase with h | h <;> rw [h]
    · exact hasc
    · intro x hx
      rcases List.mem_append.mp hx with hx | hx
      · exact hasc x hx
      · rw [List.mem_singleton] at hx
        omega
  · rcases hcase with h | h <;> rw [h]
    · omega
    · simp
/-- The label tests on a token character take the token-character branch. -/
theorem committed_label_token_char (kb : kbd) (label : Option (List Nat))
    (h : label_is_token_char label = true) :
    ∃ l, kbd_is_token_char_label l = true ∧
      committed_label kb label = committed_token_char kb l := by
  unfold label_is_token_char at h
  split at h
  · rename_i l
    refine ⟨l, h, ?_⟩
    unfold committed_label
    dsimp only
    rw [if_neg (by rw [token_char_not_separator l h]; simp), if_pos h]
  · cases h

/-- A token-character key press on a well-formed ASCII token returns with a
well-formed ASCII token that is at most one byte longer. -/
theorem kbd_handle_committed_key_token_char (kb : kbd) (k : key) (mods_before : Nat)
    (htok : token_ok kb) (hasc : token_ascii kb) (hk : token_char_key k mods_before) :
    ∃ kb', kbd_handle_committed_key kb k mods_before = .ok kb' ∧ token_ok kb' ∧
      token_ascii kb' ∧ kb'.current_token.length ≤ kb.current_token.length + 1 := by
  have hrun : ∃ l, kbd_is_token_char_label l = true ∧
      kbd_handle_committed_key kb k mods_before = committed_token_char kb l := by
    unfold kbd_handle_committed_key
    rcases hk with ⟨hcode, hb, hs, he, hl⟩ | ⟨hcopy, hl⟩
    · rw [if_pos hcode, if_neg hb, if_neg (by rintro (h | h); exact hs h; exact he h)]
      exact committed_label_token_char kb _ hl
    · rw [if_neg (by rw [hcopy]; decide), if_pos hcopy]
      exact committed_label_token_char kb _ hl
  obtain ⟨l, hl, hrun⟩ := hrun
  rw [hrun]
  exact committed_token_char_step kb l htok hasc hl

/-- A Backspace key press on a well-formed ASCII token returns with a
well-formed ASCII token that is one byte shorter, or empty as before. -/
theorem kbd_handle_committed_key_backspace (kb : kbd) (k : key) (mods_before : Nat)
    (htok : token_ok kb) (hasc : token_ascii kb) (hk : backspace_key k) :
    ∃ kb', kbd_handle_committed_key kb k mods_before = .ok kb' ∧ token_ok kb' ∧
      token_ascii kb' ∧ kb'.current_token.length = kb.current_token.length - 1 := by
  have hrun : kbd_handle_committed_key kb k mods_before = .ok ( kbd_update_suggestions_prefix
      { clear_pending_swipe kb with
        current_token := utf8_pop_last kb.current_token,
        current_token_len := (utf8_pop_last kb.current_token).length }) := by
    unfold kbd_handle_committed_key
    rw [if_pos hk.1, if_pos hk.2]
  refine ⟨_, hrun, kbd_handle_committed_key_token_ok kb _ k mods_before htok hrun, ?_, ?_⟩
  · unfold token_ascii at hasc ⊢
    rw [( kbd_update_suggestions_prefix_token _).1]
    show ∀ c ∈ utf8_pop_last kb.current_token, c < 128
    rw [utf8_pop_last_ascii _ hasc]
    intro c hc
    exact hasc c (List.mem_of_mem_dropLast hc)
  · rw [( kbd_update_suggestions_prefix_token _).1]
    show (utf8_pop_last kb.current_token).length = kb.current_token.length - 1
    rw [utf8_pop_last_ascii _ hasc, List.length_dropLast]

/-- Token-character key presses on a well-formed ASCII token return with a
well-formed ASCII token that is at most one byte longer for each press. -/
theorem kbd_handle_committed_keys_token_chars : ∀ (presses : List (key × Nat)) (kb : kbd),
    token_ok kb → token_ascii kb → (∀ p ∈ presses, token_char_key p.1 p.2) →
    ∃ kb', kbd_handle_committed_keys presses kb = .ok kb' ∧ token_ok kb' ∧ token_ascii kb' ∧
      kb'.current_token.length ≤ kb.current_token.length + presses.length := by
  intro presses
  induction presses with
  | nil =>
    intro kb htok hasc _
    exact ⟨kb, rfl, htok, hasc, Nat.le_refl _⟩
  | cons p rest ih =>
    intro kb htok hasc hp
    obtain ⟨kb1, h1, htok1, hasc1, hlen1⟩ :=
      kbd_handle_committed_key_token_char kb p.1 p.2 htok hasc (hp p (List.mem_cons_self _ _))
    obtain ⟨kb', h2, htok', hasc', hlen'⟩ :=
      ih kb1 htok1 hasc1 (fun q hq => hp q (List.mem_cons_of_mem _ hq))
    refine ⟨kb', ?_, htok', hasc', ?_⟩
    · unfold kbd_handle_committed_keys
      rw [h1]
      exact h2
    · rw [List.length_cons]
      omega

/-- Backspace key presses on a well-formed ASCII token return with a well-formed
token that is one byte shorter for each press, down to the empty token. -/
theorem kbd_handle_committed_keys_backspaces : ∀ (backs : List (key × Nat)) (kb : kbd),
    token_ok kb → token_ascii kb → (∀ p ∈ backs, backspace_key p.1) →
    ∃ kb', kbd_handle_committed_keys backs kb = .ok kb' ∧ token_ok kb' ∧
      kb'.current_token.length = kb.current_token.length - backs.length := by
  intro backs
  induction backs with
  | nil =>
    intro kb htok hasc _
    exact ⟨kb, rfl, htok, rfl⟩
  | cons p rest ih =>
    intro kb htok hasc hp
    obtain ⟨kb1, h1, htok1, hasc1, hlen1⟩ :=
      kbd_handle_committed_key_backspace kb p.1 p.2 htok hasc (hp p (List.mem_cons_self _ _))
    obtain ⟨kb', h2, htok', hlen'⟩ :=
      ih kb1 htok1 hasc1 (fun q hq => hp q (List.mem_cons_of_mem _ hq))
    refine ⟨kb', ?_, htok', ?_⟩
    · unfold kbd_handle_committed_keys
      rw [h1]
      exact h2
    · rw [List.length_cons]
      omega

/-- The keys of two lists are handled one list after the other. -/
theorem kbd_handle_committed_keys_append : ∀ (a b : List (key × Nat)) (kb kb1 : kbd),
    kbd_handle_committed_keys a kb = .ok kb1 →
    kbd_handle_committed_keys (a ++ b) kb = kbd_handle_committed_keys b kb1 := by
  intro a
  induction a with
  | nil =>
    intro b kb kb1 h
    cases h
    rfl
  | cons p rest ih =>
    intro b kb kb1 h
    unfold kbd_handle_committed_keys at h
    rw [except_bind_ok] at h
    obtain ⟨kb2, h2, h⟩ := h
    have hcons : kbd_handle_committed_keys (p :: (rest ++ b)) kb =
        (kbd_handle_committed_key kb p.1 p.2 >>= kbd_handle_committed_keys (rest ++ b)) := rfl
    rw [List.cons_append, hcons, h2]
    exact ih b kb2 kb1 h

/-- C13: from the empty token, any `n` token-character key presses followed by
`n` Backspace key presses, each processed by `kbd_handle_committed_key`, return
and leave the token empty with `current_token_len = 0`; Backspace removes the
last UTF-8 code point with `utf8_pop_last`. -/
theorem token_append_backspace_round_trip (kb : kbd) (presses backs : List (key × Nat))
    (hempty : kb.current_token = [] ∧ kb.current_token_len = 0)
    (hpress : ∀ p ∈ presses, token_char_key p.1 p.2)
    (hback : ∀ p ∈ backs, backspace_key p.1)
    (hn : backs.length = presses.length) :
    ∃ kb', kbd_handle_committed_keys (presses ++ backs) kb = .ok kb' ∧
      kb'.current_token = [] ∧ kb'.current_token_len = 0 := by
  have htok : token_ok kb := by
    unfold token_ok
    rw [hempty.1, hempty.2]
    exact ⟨rfl, Nat.zero_le _⟩
  have hasc : token_ascii kb := by
    unfold token_ascii
    rw [hempty.1]
    intro c hc
    cases hc
  obtain ⟨kb1, h1, htok1, hasc1, hlen1⟩ :=
    kbd_handle_committed_keys_token_chars presses kb htok hasc hpress
  obtain ⟨kb', h2, htok', hlen'⟩ :=
    kbd_handle_committed_keys_backspaces backs kb1 htok1 hasc1 hback
  rw [hempty.1, List.length_nil] at hlen1
  have h0 : kb'.current_token.length = 0 := by omega
  refine ⟨kb', ?_, List.length_eq_zero.mp h0, ?_⟩
  · rw [kbd_handle_committed_keys_append presses backs kb kb1 h1]
    exact h2
  · rw [htok'.1, h0]
    rfl

/-- C13 on the sample keyboard: the key `e` twice, with and without Shift, then
Backspace twice, leaves the empty token. -/
theorem token_append_backspace_round_trip_witness :
    ∃ kb', kbd_handle_committed_keys
        ([(e_key, 0), (e_key, Shift)] ++ [(backspace, 0), (backspace, 0)]) nav_kbd = .ok kb' ∧
      kb'.current_token = [] ∧ kb'.current_token_len = 0 :=
  token_append_backspace_round_trip nav_kbd [(e_key, 0), (e_key, Shift)]
    [(backspace, 0), (backspace, 0)] ⟨rfl, rfl⟩ (by decide) (by decide) rfl
/-! ### Suggestions -/

/-- The first loop of `kbd_suggestions_from_candidates` adds to the suggestions
it has the `Word` suggestions of the candidates not dismissed, in order, while
there is room in the array. -/
theorem suggestions_from_loop_eq (kb : kbd) :
    ∀ (cands : List wvkbd_candidate) (acc : List wvkbd_suggestion),
    suggestions_from_loop kb cands acc =
      acc ++ ((cands.filter (fun c => !candidate_dismissed kb c)).take
        (WVKBD_MAX_SUGGESTIONS - acc.length)).map word_suggestion := by
  intro cands
  induction cands with
  | nil =>
    intro acc
    simp [suggestions_from_loop]
  | cons c cs ih =>
    intro acc
    unfold suggestions_from_loop
    by_cases hroom : acc.length < WVKBD_MAX_SUGGESTIONS
    · rw [if_pos hroom]
      by_cases hd : candidate_dismissed kb c = true
      · rw [if_pos hd, ih, List.filter_cons_of_neg (by simp [hd])]
      · rw [if_neg hd, ih, List.filter_cons_of_pos (by simpa using hd)]
        have hlen : WVKBD_MAX_SUGGESTIONS - acc.length =
            (WVKBD_MAX_SUGGESTIONS - (acc ++ [word_suggestion c]).length) + 1 := by
          rw [List.length_append, List.length_singleton]
          omega
        rw [hlen, List.take_succ_cons, List.map_cons, List.append_assoc]
        rfl
    · rw [if_neg hroom]
      have h0 : WVKBD_MAX_SUGGESTIONS - acc.length = 0 := by omega
      rw [h0, List.take_zero, List.map_nil, List.append_nil]

/-- With a well-formed dismissed-word list the test of the first loop is the
membership of the lowercase word, on its first 127 bytes, in the list. -/
theorem candidate_dismissed_eq (kb : kbd) (c : wvkbd_candidate) (hd : dismissed_ok kb) :
    candidate_dismissed kb c = word_dismissed kb c := by
  unfold candidate_dismissed word_dismissed
  split
  · rename_i word _
    have hcopy : strncpy_token word = word.take 127 := rfl
    rw [hcopy, decide_eq_decide]
    constructor
    · exact fun h => h.2.2
    · intro h
      refine ⟨?_, List.length_pos_of_mem h, h⟩
      intro hw
      subst hw
      exact (hd _ h).1 rfl
  · rfl

/-- The suggestion list `kbd_suggestions_from_candidates` builds: the `Word`
suggestions of the candidates not dismissed, up to 64, and the `Add word`
suggestion when `can_add` holds. -/
theorem kbd_suggestions_from_candidates_eq (kb : kbd) (cands : List wvkbd_candidate) :
    (kbd_suggestions_from_candidates kb cands).suggestions =
      ((cands.filter (fun c => !candidate_dismissed kb c)).take
          WVKBD_MAX_SUGGESTIONS).map word_suggestion ++
        (if can_add_word kb (((cands.filter (fun c => !candidate_dismissed kb c)).take
            WVKBD_MAX_SUGGESTIONS).map word_suggestion) = true
         then [add_word_suggestion kb] else []) := by
  unfold kbd_suggestions_from_candidates
  rw [suggestions_from_loop_eq]
  simp only [List.nil_append, List.length_nil, Nat.sub_zero]
  split_ifs
  · rfl
  · simp

/-- The suggestion list is at most one longer than the candidate list, and it
fits the array of 64 entries. -/
theorem kbd_suggestions_from_candidates_length (kb : kbd) (cands : List wvkbd_candidate) :
    (kbd_suggestions_from_candidates kb cands).suggestions.length ≤ cands.length + 1 ∧
    (kbd_suggestions_from_candidates kb cands).suggestions.length ≤ WVKBD_MAX_SUGGESTIONS := by
  rw [kbd_suggestions_from_candidates_eq]
  have h1 : ((cands.filter (fun c => !candidate_dismissed kb c)).take
      WVKBD_MAX_SUGGESTIONS).length ≤ cands.length := by
    rw [List.length_take]
    exact le_trans (Nat.min_le_right _ _) (List.length_filter_le _ _)
  have h2 : ((cands.filter (fun c => !candidate_dismissed kb c)).take
      WVKBD_MAX_SUGGESTIONS).length ≤ WVKBD_MAX_SUGGESTIONS := by
    rw [List.length_take]
    exact Nat.min_le_left _ _
  rw [List.length_append, List.length_map]
  split_ifs with hadd
  · have h3 : ((cands.filter (fun c => !candidate_dismissed kb c)).take
        WVKBD_MAX_SUGGESTIONS).length < WVKBD_MAX_SUGGESTIONS := by
      unfold can_add_word at hadd
      simp only [Bool.and_eq_true, decide_eq_true_eq, List.length_map] at hadd
      exact hadd.1.1.2
    rw [List.length_singleton]
    omega
  · rw [List.length_nil]
    omega
/-- The redraw leaves the suggestion list alone. -/
theorem kbd_draw_layout_suggestions (kb : kbd) :
    (kbd_draw_layout kb).suggestions = kb.suggestions := by
  rw [kbd_draw_layout_eq]

/-- The choice of the pending swipe word leaves the suggestion list alone. -/
theorem kbd_set_pending_swipe_from_suggestions_suggestions (kb : kbd) :
    (kbd_set_pending_swipe_from_suggestions kb).suggestions = kb.suggestions := by
  unfold kbd_set_pending_swipe_from_suggestions
  split <;> rfl

/-- C14, as stated, fails: with a visible count of 3 and the token `th`, five
candidates handed to `kbd_suggestions_from_candidates`, directly or by a prefix
refresh with a predictor that returns five, give six suggestions, five `Word`
suggestions and the `Add word` suggestion, more than 3 + 1. -/
theorem suggestions_length_counterexample :
    wide_kbd.suggest_visible_count = 3 ∧
    (kbd_suggestions_from_candidates wide_kbd five_candidates).suggestions.length = 6 ∧
    ( kbd_update_suggestions_prefix wide_kbd).suggestions.length = 6 := by
  refine ⟨rfl, ?_, ?_⟩ <;> decide

/-- C14 (amended): the suggestion list `kbd_suggestions_from_candidates` builds
is at most one entry longer than the candidate list handed to it and has at
most 64 entries; when the predictor returns no more candidates than the
`suggest_visible_count` it is asked for, the list has at most
`suggest_visible_count + 1` entries after every refresh: prefix, next-word and
swipe mode, and the refresh `kbd_refresh_suggestions` chooses by mode. -/
theorem suggestions_length_after_refresh (kb : kbd) (hp : predictor_honours_max kb)
    (hv : 0 ≤ kb.suggest_visible_count)
    (hs : (kb.suggestions.length : Int) ≤ kb.suggest_visible_count + 1) :
    (∀ cands, (kbd_suggestions_from_candidates kb cands).suggestions.length ≤ cands.length + 1 ∧
      (kbd_suggestions_from_candidates kb cands).suggestions.length ≤ 64) ∧
    ((( kbd_update_suggestions_prefix kb).suggestions.length : Int) ≤
      kb.suggest_visible_count + 1) ∧
    (∀ kb', kbd_update_suggestions_next_word kb = .ok kb' →
      (kb'.suggestions.length : Int) ≤ kb.suggest_visible_count + 1) ∧
    (∀ kb', kbd_update_suggestions_swipe kb = .ok kb' →
      (kb'.suggestions.length : Int) ≤ kb.suggest_visible_count + 1) ∧
    (∀ kb', kbd_refresh_suggestions kb = .ok kb' →
      (kb'.suggestions.length : Int) ≤ kb.suggest_visible_count + 1) := by
  have hbound : ∀ cands : List wvkbd_candidate,
      (cands.length : Int) ≤ kb.suggest_visible_count →
      ((kbd_suggestions_from_candidates kb cands).suggestions.length : Int) ≤
        kb.suggest_visible_count + 1 := by
    intro cands hc
    have := (kbd_suggestions_from_candidates_length kb cands).1
    omega
  have hpre : ((( kbd_update_suggestions_prefix kb).suggestions.length : Int) ≤
      kb.suggest_visible_count + 1) := by
    unfold kbd_update_suggestions_prefix
    split
    · show ((0 : Nat) : Int) ≤ _
      omega
    · rename_i p hpred
      rw [kbd_draw_layout_suggestions]
      exact hbound _ ((hp p hpred _ hv).1 _)
  have hnext : ∀ kb', kbd_update_suggestions_next_word kb = .ok kb' →
      (kb'.suggestions.length : Int) ≤ kb.suggest_visible_count + 1 := by
    intro kb' h
    unfold kbd_update_suggestions_next_word at h
    split at h
    · cases h
      show ((0 : Nat) : Int) ≤ _
      omega
    · rename_i p hpred
      rw [except_bind_ok] at h
      obtain ⟨lw, -, h⟩ := h
      cases h
      rw [kbd_draw_layout_suggestions]
      exact hbound _ ((hp p hpred _ hv).2.1 _)
  have hswipe : ∀ kb', kbd_update_suggestions_swipe kb = .ok kb' →
      (kb'.suggestions.length : Int) ≤ kb.suggest_visible_count + 1 := by
    intro kb' h
    unfold kbd_update_suggestions_swipe at h
    split at h
    · cases h
      exact hs
    · rename_i p hpred
      split_ifs at h
      · cases h
        exact hs
      · rw [except_bind_ok] at h
        obtain ⟨pos, -, h⟩ := h
        rw [except_bind_ok] at h
        obtain ⟨lw, -, h⟩ := h
        cases h
        rw [kbd_draw_layout_suggestions, kbd_set_pending_swipe_from_suggestions_suggestions]
        exact hbound _ ((hp p hpred _ hv).2.2 _ _ _ _)
  refine ⟨fun cands => kbd_suggestions_from_candidates_length kb cands, hpre, hnext, hswipe,
    ?_⟩
  intro kb' h
  unfold kbd_refresh_suggestions at h
  split at h
  · exact hswipe kb' h
  · exact hnext kb' h
  · cases h
    exact hpre
/-- The predictor of the sample keyboard `capped_kbd` honours `max`. -/
theorem capped_kbd_honours_max : predictor_honours_max capped_kbd := by
  intro p hpred max hmax
  have hp : p = capped_predictor := by
    have h : some capped_predictor = some p := hpred
    cases h
    rfl
  subst hp
  have hlen : ((five_candidates.take max.toNat).length : Int) ≤ max := by
    have := List.length_take_le max.toNat five_candidates
    omega
  exact ⟨fun _ => hlen, fun _ => hlen, fun _ _ _ _ => hlen⟩

/-- C14 (amended) on the sample keyboard with a visible count of 3 and a
predictor that honours it: the prefix refresh for the token `th` gives four
suggestions, three `Word` suggestions and the `Add word` suggestion. -/
theorem suggestions_length_after_refresh_witness :
    ((( kbd_update_suggestions_prefix capped_kbd).suggestions.length : Int) ≤
      capped_kbd.suggest_visible_count + 1) ∧
    ( kbd_update_suggestions_prefix capped_kbd).suggestions.length = 4 :=
  ⟨(suggestions_length_after_refresh capped_kbd capped_kbd_honours_max (by decide)
      (by decide)).2.1, by decide⟩
/-- The texts of the `Word` suggestions of the list
`kbd_suggestions_from_candidates` builds are the words of the candidates kept. -/
theorem kbd_suggestions_from_candidates_texts (kb : kbd) (cands : List wvkbd_candidate) :
    (kbd_suggestions_from_candidates kb cands).suggestions.filterMap word_text =
      ((cands.filter (fun c => !candidate_dismissed kb c)).take
        WVKBD_MAX_SUGGESTIONS).filterMap (fun c => c.word) := by
  rw [kbd_suggestions_from_candidates_eq, List.filterMap_append, List.filterMap_map]
  have h1 : (word_text ∘ word_suggestion) = (fun c : wvkbd_candidate => c.word) := by
    funext c
    rfl
  have h2 : List.filterMap word_text
      (if can_add_word kb (((cands.filter (fun c => !candidate_dismissed kb c)).take
            WVKBD_MAX_SUGGESTIONS).map word_suggestion) = true
         then [add_word_suggestion kb] else []) = [] := by
    split_ifs <;> rfl
  rw [h1, h2, List.append_nil]

/-- C15, as stated, fails: for the candidates `the` and `The` the suggestion
list holds two `Word` suggestions whose lowercase texts are both `the`;
`kbd_suggestions_from_candidates` removes no duplicate. -/
theorem suggestions_duplicate_counterexample :
    (kbd_suggestions_from_candidates typing_kbd
        [ { word := some [116, 104, 101], score := 2 },
          { word := some [84, 104, 101], score := 1 } ]).suggestions.map
      (fun s => (s.kind, s.word.map ascii_lower_inplace)) =
      [ (.WVKBD_SUGGEST_WORD, some [116, 104, 101]),
        (.WVKBD_SUGGEST_WORD, some [116, 104, 101]),
        (.WVKBD_SUGGEST_ADD_WORD, none) ] := by
  decide

/-- C15 (amended): when no two candidates handed to
`kbd_suggestions_from_candidates` have equal ASCII-lowercased words, no two
`Word` suggestions of the list it builds have equal ASCII-lowercased texts, and
so it is after a prefix refresh whose predictor returned such candidates; the
function itself removes no duplicate. -/
theorem suggestions_no_duplicate (kb : kbd) (cands : List wvkbd_candidate)
    (hdistinct : ((cands.filterMap (fun c => c.word)).map ascii_lower_inplace).Nodup) :
    (((kbd_suggestions_from_candidates kb cands).suggestions.filterMap word_text).map
      ascii_lower_inplace).Nodup ∧
    (∀ p, kb.predictor = some p →
      p.predict_prefix kb.current_token kb.suggest_visible_count = cands →
      ((( kbd_update_suggestions_prefix kb).suggestions.filterMap word_text).map
        ascii_lower_inplace).Nodup) := by
  have h1 : (((kbd_suggestions_from_candidates kb cands).suggestions.filterMap word_text).map
      ascii_lower_inplace).Nodup := by
    rw [kbd_suggestions_from_candidates_texts]
    refine List.Nodup.sublist ?_ hdistinct
    exact List.Sublist.map _
      (List.Sublist.filterMap _ ((List.take_sublist _ _).trans (List.filter_sublist _)))
  refine ⟨h1, ?_⟩
  intro p hpred hc
  unfold kbd_update_suggestions_prefix
  rw [hpred]
  dsimp only
  rw [kbd_draw_layout_suggestions, hc]
  exact h1

/-- C15 (amended) for the three candidates `the`, `then` and `there`: the texts
of the `Word` suggestions are these three words, without duplicate. -/
theorem suggestions_no_duplicate_witness :
    (((kbd_suggestions_from_candidates typing_kbd
        (demo_predictor.predict_prefix [116, 104] 3)).suggestions.filterMap word_text).map
      ascii_lower_inplace).Nodup :=
  (suggestions_no_duplicate typing_kbd (demo_predictor.predict_prefix [116, 104] 3)
    (by decide)).1
/-- With a well-formed dismissed-word list the candidates the first loop keeps
are those whose lowercase word, on its first 127 bytes, is not in the list. -/
theorem kept_candidates_eq (kb : kbd) (cands : List wvkbd_candidate) (hd : dismissed_ok kb) :
    (cands.filter (fun c => !candidate_dismissed kb c)).take WVKBD_MAX_SUGGESTIONS =
      kept_candidates kb cands := by
  unfold kept_candidates
  have h : (fun c => !candidate_dismissed kb c) = (fun c => !word_dismissed kb c) := by
    funext c
    rw [candidate_dismissed_eq kb c hd]
  rw [h]

/-- C16, as stated, fails: after the word of 127 bytes `a` and a `b` was
dismissed, the candidate of 127 bytes `a` and a `c`, whose lowercase form is
not in the dismissed-word list, is not among the suggestions; the words are
compared on their first 127 bytes. -/
theorem kbd_suggestions_from_candidates_words_counterexample :
    ascii_lower_inplace (List.replicate 127 97 ++ [99]) ∉ long_dismissed_kbd.dismissed_words ∧
    (kbd_suggestions_from_candidates long_dismissed_kbd
      [ { word := some (List.replicate 127 97 ++ [99]), score := 1 } ]).suggestions = [] := by
  refine ⟨?_, ?_⟩ <;> decide

/-- C16 (amended): with a well-formed dismissed-word list, the `Word`
suggestions `kbd_suggestions_from_candidates` produces are exactly the
candidates whose ASCII-lowercased word, compared on its first 127 bytes, is not
in the dismissed-word list, in the order of the candidate list and with their
scores, up to the 64 entries of the array; and no `Word` suggestion of the
result equals a dismissed word case-insensitively. -/
theorem kbd_suggestions_from_candidates_words (kb : kbd) (cands : List wvkbd_candidate)
    (hd : dismissed_ok kb) :
    (kbd_suggestions_from_candidates kb cands).suggestions.filter
        (fun s => decide (s.kind = .WVKBD_SUGGEST_WORD)) =
      ((cands.filter (fun c => !word_dismissed kb c)).take 64).map
        (fun c => { kind := .WVKBD_SUGGEST_WORD, word := c.word, inline_word := [],
                    score := c.score }) ∧
    (∀ s ∈ (kbd_suggestions_from_candidates kb cands).suggestions,
      s.kind = .WVKBD_SUGGEST_WORD → ∀ w, s.word = some w →
      ∀ d ∈ kb.dismissed_words, ascii_lower_inplace w ≠ ascii_lower_inplace d) := by
  have heq := kbd_suggestions_from_candidates_eq kb cands
  rw [kept_candidates_eq kb cands hd] at heq
  constructor
  · rw [heq, List.filter_append]
    have h1 : List.filter (fun s => decide (s.kind = .WVKBD_SUGGEST_WORD))
        ((kept_candidates kb cands).map word_suggestion) =
        (kept_candidates kb cands).map word_suggestion := by
      rw [List.filter_eq_self]
      intro s hs
      obtain ⟨c, -, hc⟩ := List.mem_map.mp hs
      subst hc
      rfl
    have h2 : List.filter (fun s => decide (s.kind = .WVKBD_SUGGEST_WORD))
        (if can_add_word kb ((kept_candidates kb cands).map word_suggestion) = true
         then [add_word_suggestion kb] else []) = [] := by
      split_ifs <;> rfl
    rw [h1, h2, List.append_nil]
    rfl
  · intro s hs hkind w hw d hdm hlow
    rw [heq, List.mem_append] at hs
    rcases hs with hs | hs
    · obtain ⟨c, hc, hcs⟩ := List.mem_map.mp hs
      subst hcs
      have hcw : c.word = some w := hw
      have hkept : word_dismissed kb c = false := by
        have := List.mem_of_mem_take hc
        have := (List.mem_filter.mp this).2
        simpa using this
      obtain ⟨-, hdl, hdlen⟩ := hd d hdm
      have hwlen : w.length ≤ 127 := by
        have : (ascii_lower_inplace w).length = (ascii_lower_inplace d).length := by rw [hlow]
        unfold ascii_lower_inplace at this
        rw [List.length_map, List.length_map] at this
        omega
      unfold word_dismissed at hkept
      rw [hcw] at hkept
      dsimp only at hkept
      rw [List.take_of_length_le hwlen, hlow, hdl] at hkept
      simp only [decide_eq_false_iff_not] at hkept
      exact hkept hdm
    · split_ifs at hs
      · rw [List.mem_singleton] at hs
        subst hs
        cases hkind
      · cases hs
/-- C16 (amended) on the sample keyboard after `Then` was dismissed: of the
candidates `the`, `then` and `there` the words `the` and `there` become `Word`
suggestions. -/
theorem kbd_suggestions_from_candidates_words_witness :
    ((kbd_suggestions_from_candidates then_dismissed_kbd
        (demo_predictor.predict_prefix [116, 104] 3)).suggestions.filter
        (fun s => decide (s.kind = .WVKBD_SUGGEST_WORD)) =
      (((demo_predictor.predict_prefix [116, 104] 3).filter
        (fun c => !word_dismissed then_dismissed_kbd c)).take 64).map
        (fun c => { kind := .WVKBD_SUGGEST_WORD, word := c.word, inline_word := [],
                    score := c.score })) ∧
    ((kbd_suggestions_from_candidates then_dismissed_kbd
        (demo_predictor.predict_prefix [116, 104] 3)).suggestions.filter
        (fun s => decide (s.kind = .WVKBD_SUGGEST_WORD))).map (fun s => s.word) =
      [some [116, 104, 101], some [116, 104, 101, 114, 101]] :=
  ⟨(kbd_suggestions_from_candidates_words then_dismissed_kbd
      (demo_predictor.predict_prefix [116, 104] 3) (by decide)).1, by decide⟩

/-- Lowercasing twice is lowercasing once. -/
theorem ascii_lower_inplace_idem (s : List Nat) :
    ascii_lower_inplace (ascii_lower_inplace s) = ascii_lower_inplace s := by
  unfold ascii_lower_inplace
  rw [List.map_map]
  apply List.map_congr_left
  intro c _
  simp only [Function.comp, tolower]
  split_ifs <;> first | rfl | omega

/-- The list `kbd_dismiss_word` leaves is well formed when the list it started
from is. -/
theorem kbd_dismiss_word_ok (kb : kbd) (word : Option (List Nat)) (hd : dismissed_ok kb) :
    dismissed_ok (kbd_dismiss_word kb word) := by
  unfold kbd_dismiss_word
  split
  · exact hd
  · exact hd
  · rename_i w hne
    have hnew : strncpy_token (ascii_lower_inplace (strncpy_token w)) ≠ [] ∧
        ascii_lower_inplace (strncpy_token (ascii_lower_inplace (strncpy_token w))) =
          strncpy_token (ascii_lower_inplace (strncpy_token w)) ∧
        (strncpy_token (ascii_lower_inplace (strncpy_token w))).length ≤ 127 := by
      have hlen : (ascii_lower_inplace (strncpy_token w)).length ≤ 127 := by
        unfold ascii_lower_inplace
        rw [List.length_map]
        exact strncpy_token_length w
      have hid : strncpy_token (ascii_lower_inplace (strncpy_token w)) =
          ascii_lower_inplace (strncpy_token w) := List.take_of_length_le hlen
      rw [hid]
      refine ⟨?_, ascii_lower_inplace_idem _, hlen⟩
      intro h0
      cases w with
      | nil => exact hne rfl
      | cons c cs => simp [ascii_lower_inplace, strncpy_token, WVKBD_MAX_TOKEN_BYTES] at h0
    dsimp only
    split_ifs
    · exact hd
    · intro d hdm
      rcases List.mem_append.mp hdm with h | h
      · exact hd d ((List.drop_sublist 1 _).subset (List.mem_of_mem_take h))
      · rw [List.mem_singleton] at h
        subst h
        exact hnew
    · intro d hdm
      rcases List.mem_append.mp hdm with h | h
      · exact hd d h
      · rw [List.mem_singleton] at h
        subst h
        exact hnew
/-- With a well-formed token, `can_add` holds for the `Word` suggestions of the
kept candidates exactly when an `Add word` suggestion is due. -/
theorem can_add_word_iff (kb : kbd) (cands : List wvkbd_candidate) (htok : token_ok kb) :
    can_add_word kb ((kept_candidates kb cands).map word_suggestion) = true ↔
      add_word_due kb cands := by
  obtain ⟨hlen, hfit⟩ := htok
  have hcopy : strncpy_token kb.current_token = kb.current_token :=
    List.take_of_length_le hfit
  have hpos : kb.current_token_len > 0 ↔ kb.current_token ≠ [] := by
    rw [hlen, ← List.length_pos]
    omega
  unfold can_add_word add_word_due
  rw [hcopy]
  simp only [Bool.and_eq_true, decide_eq_true_eq, List.length_map, Bool.not_eq_true',
    List.all_eq_true, List.mem_map, forall_exists_index, and_imp, forall_apply_eq_imp_iff₂]
  constructor
  · rintro ⟨⟨⟨h1, h2⟩, h3⟩, h4⟩
    refine ⟨hpos.mp h1, h2, ?_, ?_⟩
    · intro p hp
      rw [hp] at h3
      exact h3
    · intro c hc w hw heq
      have := h4 c hc
      unfold word_suggestion at this
      dsimp only at this
      rw [hw] at this
      dsimp only at this
      simp only [true_and, decide_eq_false_iff_not] at this
      exact this heq
  · rintro ⟨h1, h2, h3, h4⟩
    refine ⟨⟨⟨hpos.mpr h1, h2⟩, ?_⟩, ?_⟩
    · split
      · rename_i p hp
        exact h3 p hp
      · rfl
    · intro c hc
      unfold word_suggestion
      dsimp only
      split
      · rename_i w hw
        simp only [true_and, decide_eq_false_iff_not]
        exact h4 c hc w hw
      · rfl
/-- C17, as stated, fails: with the token `the` typed after `The` was dismissed,
the candidates `the`, `then` and `there` hold the token, yet the result ends in
the `Add word` suggestion `+ the`: the token is compared with the `Word`
suggestions, and the dismissed candidate `the` is not among them. -/
theorem kbd_suggestions_from_candidates_add_word_counterexample :
    (∃ c ∈ demo_predictor.predict_prefix [116, 104, 101] 3,
      c.word = some the_dismissed_kbd.current_token) ∧
    (kbd_suggestions_from_candidates the_dismissed_kbd
        (demo_predictor.predict_prefix [116, 104, 101] 3)).suggestions.map
      (fun s => (s.kind, s.word, s.inline_word)) =
      [ (.WVKBD_SUGGEST_WORD, some [116, 104, 101, 110], []),
        (.WVKBD_SUGGEST_WORD, some [116, 104, 101, 114, 101], []),
        (.WVKBD_SUGGEST_ADD_WORD, none, [43, 32, 116, 104, 101]) ] := by
  refine ⟨?_, ?_⟩ <;> decide

/-- C17 (amended): with a well-formed token and dismissed-word list,
`kbd_suggestions_from_candidates` appends an `Add word` suggestion, as the last
entry after the `Word` suggestions, if and only if the token is non-empty, fewer
than 64 `Word` suggestions were made, the predictor does not know the token as a
user word, and the token is not the word of any `Word` suggestion, that is of
any candidate not dismissed, compared case-insensitively on the first 127
bytes; otherwise the result is the `Word` suggestions alone. -/
theorem kbd_suggestions_from_candidates_add_word (kb : kbd) (cands : List wvkbd_candidate)
    (htok : token_ok kb) (hd : dismissed_ok kb) :
    (add_word_due kb cands →
      (kbd_suggestions_from_candidates kb cands).suggestions =
        (kept_candidates kb cands).map word_suggestion ++ [add_word_suggestion kb]) ∧
    (¬ add_word_due kb cands →
      (kbd_suggestions_from_candidates kb cands).suggestions =
        (kept_candidates kb cands).map word_suggestion) := by
  have heq := kbd_suggestions_from_candidates_eq kb cands
  rw [kept_candidates_eq kb cands hd] at heq
  constructor
  · intro hdue
    rw [heq, if_pos ((can_add_word_iff kb cands htok).mpr hdue)]
  · intro hdue
    rw [heq, if_neg (fun h => hdue ((can_add_word_iff kb cands htok).mp h)), List.append_nil]

/-- C17 (amended) for the token `the` and the candidates `the`, `then` and
`there`, none dismissed: the result is exactly these three `Word` suggestions
and no `Add word` entry; for the token `th` the `Add word` suggestion `+ th`
comes last. -/
theorem kbd_suggestions_from_candidates_add_word_witness :
    (kbd_suggestions_from_candidates the_kbd
        (demo_predictor.predict_prefix [116, 104, 101] 3)).suggestions =
      [ { kind := .WVKBD_SUGGEST_WORD, word := some [116, 104, 101], inline_word := [],
          score := 3 },
        { kind := .WVKBD_SUGGEST_WORD, word := some [116, 104, 101, 110], inline_word := [],
          score := 2 },
        { kind := .WVKBD_SUGGEST_WORD, word := some [116, 104, 101, 114, 101],
          inline_word := [], score := 1 } ] ∧
    (kbd_suggestions_from_candidates typing_kbd
        (demo_predictor.predict_prefix [116, 104] 3)).suggestions.getLast? =
      some { kind := .WVKBD_SUGGEST_ADD_WORD, word := none, inline_word := [43, 32, 116, 104],
             score := 0 } := by
  constructor
  · exact (kbd_suggestions_from_candidates_add_word the_kbd
      (demo_predictor.predict_prefix [116, 104, 101] 3) (by decide) (by decide)).2
      (fun h => h.2.2.2 { word := some [116, 104, 101], score := 3 } (by decide)
        [116, 104, 101] rfl rfl)
  · rw [(kbd_suggestions_from_candidates_add_word typing_kbd
      (demo_predictor.predict_prefix [116, 104] 3) (by decide) (by decide)).1
      ⟨by decide, by decide, fun p hp => by cases hp; rfl, by decide⟩]
    rfl
/-! ### Commit engine -/

/-- A word whose first 127 bytes start with a string starts with it. -/
theorem utf8_startswith_of_copy (word pre : List Nat)
    (h : utf8_startswith (ascii_lower_inplace (strncpy_token (strncpy_token word))) pre = true) :
    utf8_startswith (ascii_lower_inplace word) pre = true := by
  unfold utf8_startswith at h ⊢
  rw [ List.isPrefixOf_iff_prefix] at h ⊢
  refine h.trans ?_
  unfold ascii_lower_inplace strncpy_token
  rw [List.take_take, List.map_take]
  exact List.take_prefix _ _

/-- C18: when the token is non-empty and the ASCII-lowercased word does not
start with the ASCII-lowercased token, `kbd_commit_suggestion` returns without
a protocol request (no key event, no modifier change, no keymap upload), and
the modifier mask, the token, the context ring and the suggestion list are as
before. -/
theorem kbd_commit_suggestion_mismatch (kb : kbd) (time_ms : Nat) (word : List Nat)
    (htok : token_ok kb) (hne : kb.current_token ≠ [])
    (hmis : utf8_startswith (ascii_lower_inplace word)
      (ascii_lower_inplace kb.current_token) = false) :
    ∃ kb', kbd_commit_suggestion kb time_ms (some word) = .ok kb' ∧
      kb'.out = kb.out ∧ kb'.mods = kb.mods ∧
      kb'.current_token = kb.current_token ∧ kb'.current_token_len = kb.current_token_len ∧
      kb'.context_words = kb.context_words ∧ kb'.context_words_len = kb.context_words_len ∧
      kb'.context_words_pos = kb.context_words_pos ∧
      kb'.suggestions = kb.suggestions ∧ kb'.suggest_mode = kb.suggest_mode := by
  obtain ⟨hlen, hfit⟩ := htok
  have hcopy : strncpy_token kb.current_token = kb.current_token :=
    List.take_of_length_le hfit
  have hpos : kb.current_token_len > 0 := by
    have := List.length_pos.mpr hne
    rw [hlen]
    omega
  unfold kbd_commit_suggestion
  split
  · rename_i h
    cases h
  · exact ⟨kb, rfl, rfl, rfl, rfl, rfl, rfl, rfl, rfl, rfl, rfl⟩
  · rename_i w hw hsome
    cases hsome
    dsimp only
    rw [hcopy]
    have hcond : kb.current_token_len > 0 ∧
        utf8_startswith (ascii_lower_inplace (strncpy_token (strncpy_token word)))
          (ascii_lower_inplace kb.current_token) = false := by
      refine ⟨hpos, ?_⟩
      by_contra hc
      rw [Bool.not_eq_false] at hc
      rw [utf8_startswith_of_copy word _ hc] at hmis
      cases hmis
    rw [if_pos hcond]
    exact ⟨_, rfl, rfl, rfl, rfl, rfl, rfl, rfl, rfl, rfl, rfl⟩

/-- C18 on the sample keyboard with the token `th`: the word `and` is dropped,
nothing is sent and the token stays `th`. -/
theorem kbd_commit_suggestion_mismatch_witness :
    ∃ kb', kbd_commit_suggestion typing_kbd 0 (some [97, 110, 100]) = .ok kb' ∧
      kb'.out = typing_kbd.out ∧ kb'.current_token = [116, 104] := by
  obtain ⟨kb', h1, h2, -, h4, -⟩ :=
    kbd_commit_suggestion_mismatch typing_kbd 0 [97, 110, 100] (by decide) (by decide)
      (by decide)
  exact ⟨kb', h1, h2, h4⟩
/-- The flags the loop of `kbd_adjust_suggestion_case` ends with. -/
theorem token_case_flags_eq : ∀ (cs : List Nat) (i : Nat) (fu sa au : Bool),
    token_case_flags cs i (fu, sa, au) =
      (if i = 0 then (fu || token_first_upper cs) else fu, sa || cs.any isalpha,
       au && cs.all (fun c => !isalpha c || isupper c)) := by
  intro cs
  induction cs with
  | nil =>
    intro i fu sa au
    simp [token_case_flags, token_first_upper]
  | cons c cs ih =>
    intro i fu sa au
    unfold token_case_flags
    by_cases ha : isalpha c = true
    · rw [if_pos ha, ih]
      by_cases hu : isupper c = true
      · by_cases hi : i = 0
        · simp [ha, hu, hi, token_first_upper]
        · simp [ha, hu, hi, token_first_upper]
      · by_cases hi : i = 0
        · simp [ha, hu, hi, token_first_upper]
        · simp [ha, hu, hi, token_first_upper]
    · rw [if_neg ha, ih]
      by_cases hi : i = 0
      · simp [ha, hi, token_first_upper]
      · simp [ha, hi, token_first_upper]

/-- Uppercasing the lowercase form of a byte is uppercasing the byte. -/
theorem toupper_tolower (c : Nat) : toupper (tolower c) = toupper c := by
  unfold toupper tolower
  split_ifs <;> omega

/-- Lowercasing the uppercase form of a byte is lowercasing the byte. -/
theorem tolower_toupper (c : Nat) : tolower (toupper c) = tolower c := by
  unfold toupper tolower
  split_ifs <;> omega

/-- The uppercasing of the bytes below 128 of a lowercase string is the
uppercasing of its bytes. -/
theorem upper_of_lower (w : List Nat) :
    (ascii_lower_inplace w).map (fun c => if c < 0x80 then toupper c else c) =
      w.map toupper := by
  unfold ascii_lower_inplace
  rw [List.map_map]
  apply List.map_congr_left
  intro c _
  simp only [Function.comp]
  split_ifs with h
  · exact toupper_tolower c
  · unfold toupper tolower at *
    split_ifs at * <;> omega
/-- With a well-formed token `kbd_adjust_suggestion_case` computes the casing the
specification words. -/
theorem kbd_adjust_suggestion_case_eq (kb : kbd) (word : List Nat) (mods : Nat)
    (htok : token_ok kb) :
    kbd_adjust_suggestion_case kb (some word) mods =
      adjusted_case_spec kb.current_token mods word := by
  obtain ⟨hlen, -⟩ := htok
  cases word with
  | nil =>
    unfold adjusted_case_spec
    split_ifs <;> rfl
  | cons c cs =>
    unfold kbd_adjust_suggestion_case adjusted_case_spec
    dsimp only
    rw [token_case_flags_eq]
    have hcopy : strncpy_token (c :: cs) = (c :: cs).take 127 := rfl
    rw [hcopy]
    have hup : List.map (fun c => if c < 128 then toupper c else c)
        (ascii_lower_inplace (c :: List.take 126 cs)) =
        toupper c :: List.take 126 (List.map toupper cs) := by
      rw [upper_of_lower (c :: List.take 126 cs)]
      simp [List.map_take]
    have hlow : ascii_lower_inplace (c :: List.take 126 cs) =
        tolower c :: List.take 126 (List.map tolower cs) := by
      simp [ascii_lower_inplace, List.map_take]
    by_cases he : kb.current_token = []
    · have hl0 : kb.current_token_len ≤ 0 := by rw [hlen, he]; rfl
      rw [he]
      simp only [if_pos hl0, List.any_nil, List.all_nil, token_first_upper]
      by_cases hcaps : mods &&& CapsLock = 0
      · by_cases hshift : mods &&& Shift = 0
        · simp [hcaps, hshift, hlow]
        · simp [hcaps, hshift, hlow, toupper_tolower]
      · simp [hcaps, hup]
    · have hl0 : ¬ kb.current_token_len ≤ 0 := by
        have := List.length_pos.mpr he
        rw [hlen]
        omega
      simp only [if_neg hl0, he, false_and, or_false]
      by_cases hany : kb.current_token.any isalpha = true
      · by_cases hall : kb.current_token.all (fun c => !isalpha c || isupper c) = true
        · simp [hany, hall, hup]
        · by_cases hfirst : token_first_upper kb.current_token = true
          · simp [hany, hall, hfirst, hlow, toupper_tolower]
          · simp [hany, hall, hfirst, hlow]
      · by_cases hfirst : token_first_upper kb.current_token = true
        · simp [hany, hfirst, hlow, toupper_tolower]
        · simp [hany, hfirst, hlow]

/-- The casing of the specification keeps the length of the word cut to 127
bytes and its lowercase form. -/
theorem adjusted_case_spec_lower (token : List Nat) (mods : Nat) (word : List Nat) :
    (adjusted_case_spec token mods word).length = (word.take 127).length ∧
    ascii_lower_inplace (adjusted_case_spec token mods word) =
      ascii_lower_inplace (word.take 127) := by
  have hupper : ∀ w : List Nat, ascii_lower_inplace (w.map toupper) = ascii_lower_inplace w := by
    intro w
    unfold ascii_lower_inplace
    rw [List.map_map]
    apply List.map_congr_left
    intro c _
    exact tolower_toupper c
  have hlower : ∀ w : List Nat, ascii_lower_inplace (w.map tolower) = ascii_lower_inplace w :=
    fun w => ascii_lower_inplace_idem w
  unfold adjusted_case_spec
  split_ifs
  · exact ⟨List.length_map _ _, hupper _⟩
  · cases hw : word.take 127 with
    | nil => exact ⟨rfl, rfl⟩
    | cons c cs =>
      refine ⟨by simp, ?_⟩
      have h2 := hlower cs
      unfold ascii_lower_inplace at h2 ⊢
      rw [List.map_cons, List.map_cons, tolower_toupper, h2]
  · exact ⟨List.length_map _ _, hlower _⟩

/-- C19: with a well-formed token, `kbd_adjust_suggestion_case` returns the
word, cut to 127 bytes, in the casing the specification words: all ASCII
letters uppercase if the token contains an alphabetic character and every
alphabetic character of it is uppercase, or if the token is empty and CapsLock
is set; otherwise lowercase with only the first character uppercased if the
first character of the token is an uppercase letter, or if the token is empty
and Shift is set without CapsLock; otherwise lowercase.  The result has the
length of the cut word and equals it case-insensitively. -/
theorem kbd_adjust_suggestion_case_spec (kb : kbd) (word : List Nat) (mods : Nat)
    (htok : token_ok kb) :
    kbd_adjust_suggestion_case kb (some word) mods =
      adjusted_case_spec kb.current_token mods word ∧
    (kbd_adjust_suggestion_case kb (some word) mods).length = (word.take 127).length ∧
    ascii_lower_inplace (kbd_adjust_suggestion_case kb (some word) mods) =
      ascii_lower_inplace (word.take 127) := by
  rw [kbd_adjust_suggestion_case_eq kb word mods htok]
  exact ⟨rfl, adjusted_case_spec_lower _ _ _⟩

/-- C19 on the sample keyboard: with the token `Th` the word `there` becomes
`There`, and with the token `th` it stays `there`. -/
theorem kbd_adjust_suggestion_case_spec_witness :
    kbd_adjust_suggestion_case caps_token_kbd (some [116, 104, 101, 114, 101]) 0 =
      [84, 104, 101, 114, 101] ∧
    kbd_adjust_suggestion_case typing_kbd (some [116, 104, 101, 114, 101]) 0 =
      [116, 104, 101, 114, 101] :=
  ⟨(kbd_adjust_suggestion_case_spec caps_token_kbd [116, 104, 101, 114, 101] 0
      (by decide)).1.trans (by decide),
   (kbd_adjust_suggestion_case_spec typing_kbd [116, 104, 101, 114, 101] 0
      (by decide)).1.trans (by decide)⟩
/-- C20 at a failing input: with the token `a` and the word `abc` the suffix to
type is `bc`; the key of `b` is pressed and released on the direct path before
`c` turns out to have no key, and the fallback then types `b` and `c` again, so
`b` goes out twice. -/
theorem kbd_commit_suggestion_partial_fallback :
    ∃ kb', kbd_commit_suggestion a_token_kbd 0 (some [97, 98, 99]) = .ok kb' ∧
      kb'.out =
        [ .modifiers 0, .keyev 0 48 true, .keyev 0 48 false,
          .keymap "latin" 98 98, .modifiers 0, .keyev 0 127 true, .keyev 0 127 false,
          .keymap "latin" 99 99, .modifiers 0, .keyev 1 127 true, .keyev 1 127 false,
          .keymap "latin" 0 0 ] :=
  ⟨_, rfl, rfl⟩
/-! ### Fatal misconfigurations -/

/-- The loop of `kbd_init_layers` ends the process with status 3 whenever it
does not return. -/
theorem kbd_init_layers_loop_fault (layouts : Nat → layout) (NumLayouts : Nat) :
    ∀ (names : List String) (layers : List Nat) (f : Fault),
    kbd_init_layers_loop layouts NumLayouts names layers = .error f → f = .exit 3 := by
  intro names
  induction names with
  | nil =>
    intro layers f h
    cases h
  | cons s rest ih =>
    intro layers f h
    unfold kbd_init_layers_loop at h
    split_ifs at h
    · cases h
      rfl
    · split at h
      · exact ih _ _ h
      · cases h
        rfl

/-- The loop of `kbd_init_layers` does not return when a name is not the name
of a layout. -/
theorem kbd_init_layers_loop_unresolved (layouts : Nat → layout) (NumLayouts : Nat) :
    ∀ (names : List String) (layers : List Nat) (s : String), s ∈ names →
    (List.range (NumLayouts - 1)).find? (fun i => (layouts i).name = some s) = none →
    ∀ r, kbd_init_layers_loop layouts NumLayouts names layers ≠ .ok r := by
  intro names
  induction names with
  | nil =>
    intro layers s hs
    cases hs
  | cons t rest ih =>
    intro layers s hs hfind r h
    unfold kbd_init_layers_loop at h
    split_ifs at h
    split at h
    · rcases List.mem_cons.mp hs with he | hm
      · subst he
        rename_i i hi
        rw [hfind] at hi
        cases hi
      · exact ih _ s hm hfind r h
    · cases h

/-- C26, as stated, fails: a layer list with a name that is no layout and an
empty layer list end the process with the same status 3. -/
theorem fatal_exit_statuses_counterexample :
    kbd_init_layers nav_layouts 4 ["nosuch"] = .error (.exit 3) ∧
    kbd_init_layers nav_layouts 4 [] = .error (.exit 3) :=
  ⟨rfl, rfl⟩

/-- C26 (amended): the fatal misconfigurations end the process with two
distinct nonzero statuses: `create_and_upload_keymap` exits with status 9 for a
keymap name that is not in the keymap table, and `kbd_init_layers` exits with
status 3 both for a layer list with a name that is no layout and for an empty
layer list. -/
theorem fatal_exit_statuses (kb : kbd) (name : String) (c1 c2 : Nat)
    (layouts : Nat → layout) (NumLayouts : Nat) (names : List String) (s : String)
    (hname : name ∉ kb.keymap_names) (hs : s ∈ names)
    (hfind : (List.range (NumLayouts - 1)).find? (fun i => (layouts i).name = some s) = none) :
    create_and_upload_keymap kb name c1 c2 = .error (.exit 9) ∧
    kbd_init_layers layouts NumLayouts names = .error (.exit 3) ∧
    kbd_init_layers layouts NumLayouts [] = .error (.exit 3) ∧
    (9 : Nat) ≠ 3 ∧ (9 : Nat) ≠ 0 ∧ (3 : Nat) ≠ 0 := by
  refine ⟨?_, ?_, rfl, by decide, by decide, by decide⟩
  · unfold create_and_upload_keymap
    rw [if_pos hname]
  · unfold kbd_init_layers
    cases hloop : kbd_init_layers_loop layouts NumLayouts names [] with
    | error f =>
      rw [kbd_init_layers_loop_fault layouts NumLayouts names [] f hloop]
      rfl
    | ok r =>
      exact absurd hloop (kbd_init_layers_loop_unresolved layouts NumLayouts names [] s hs hfind r)

/-- C26 (amended) on the sample registry: the keymap `dvorak` is not in the
table, the layer `nosuch` is no layout. -/
theorem fatal_exit_statuses_witness :
    create_and_upload_keymap nav_kbd "dvorak" 0 0 = .error (.exit 9) ∧
    kbd_init_layers nav_layouts 4 ["full", "nosuch"] = .error (.exit 3) ∧
    kbd_init_layers nav_layouts 4 [] = .error (.exit 3) :=
  let h := fatal_exit_statuses nav_kbd "dvorak" 0 0 nav_layouts 4 ["full", "nosuch"] "nosuch"
    (by decide) (by decide) (by decide)
  ⟨h.1, h.2.1, h.2.2.1⟩
/-- The suggestion list built from no candidate: the `Add word` suggestion when
the token is non-empty and not known to the predictor, nothing otherwise. -/
theorem kbd_suggestions_from_candidates_nil (kb : kbd) :
    (kbd_suggestions_from_candidates kb []).suggestions =
      if kb.current_token_len > 0 ∧
          (match kb.predictor with
            | some p => p.user_has_word kb.current_token
            | none => false) = false
      then [add_word_suggestion kb] else [] := by
  rw [kbd_suggestions_from_candidates_eq]
  simp only [List.filter_nil, List.take_nil, List.map_nil, List.nil_append]
  unfold can_add_word
  simp only [List.length_nil, List.all_nil, Bool.and_true, WVKBD_MAX_SUGGESTIONS]
  by_cases h1 : kb.current_token_len > 0
  · cases hp : kb.predictor with
    | none => simp [h1]
    | some p => cases h2 : p.user_has_word kb.current_token <;> simp [h1, h2]
  · simp [h1]

/-- C27, as stated, fails: with the token `th` and a predictor that returns no
candidate, the prefix refresh ends with one suggestion, the `Add word`
suggestion `+ th`. -/
theorem refresh_without_candidates_counterexample :
    silent_predictor.predict_prefix silent_kbd.current_token silent_kbd.suggest_visible_count
      = [] ∧
    ( kbd_update_suggestions_prefix silent_kbd).suggestions =
      [ { kind := .WVKBD_SUGGEST_ADD_WORD, word := none, inline_word := [43, 32, 116, 104],
          score := 0 } ] := by
  refine ⟨rfl, ?_⟩
  decide

/-- C27 (amended): with no predictor configured a prefix refresh and a next-word
refresh end with the empty suggestion list, for every token; when the predictor
returns no candidate they end with no `Word` suggestion: the list is empty if
the token is empty or the predictor knows it as a user word, and otherwise it
holds the one `Add word` suggestion for the token. -/
theorem refresh_without_candidates (kb : kbd) :
    (kb.predictor = none →
      ( kbd_update_suggestions_prefix kb).suggestions = [] ∧
      ∃ kb', kbd_update_suggestions_next_word kb = .ok kb' ∧ kb'.suggestions = []) ∧
    (∀ p, kb.predictor = some p →
      p.predict_prefix kb.current_token kb.suggest_visible_count = [] →
      ( kbd_update_suggestions_prefix kb).suggestions =
        if kb.current_token_len > 0 ∧ p.user_has_word kb.current_token = false
        then [add_word_suggestion kb] else []) ∧
    (∀ p lw, kb.predictor = some p → kbd_last_context_word kb = .ok lw →
      p.predict_next_word lw kb.suggest_visible_count = [] →
      ∃ kb', kbd_update_suggestions_next_word kb = .ok kb' ∧
        kb'.suggestions =
          if kb.current_token_len > 0 ∧ p.user_has_word kb.current_token = false
          then [add_word_suggestion kb] else []) := by
  refine ⟨?_, ?_, ?_⟩
  · intro hnone
    unfold kbd_update_suggestions_prefix kbd_update_suggestions_next_word
    rw [hnone]
    exact ⟨rfl, _, rfl, rfl⟩
  · intro p hp hcands
    have hnil := kbd_suggestions_from_candidates_nil kb
    rw [hp] at hnil
    unfold kbd_update_suggestions_prefix
    rw [hp]
    dsimp only
    rw [kbd_draw_layout_suggestions, hcands]
    exact hnil
  · intro p lw hp hlw hcands
    have hnil := kbd_suggestions_from_candidates_nil kb
    rw [hp] at hnil
    unfold kbd_update_suggestions_next_word
    rw [hp]
    dsimp only
    rw [hlw]
    refine ⟨_, rfl, ?_⟩
    rw [kbd_draw_layout_suggestions, hcands]
    exact hnil

/-- C27 (amended) on the sample keyboard with the token `th` and a predictor
that returns no candidate: the prefix refresh ends with the one `Add word`
suggestion for `th`. -/
theorem refresh_without_candidates_witness :
    ( kbd_update_suggestions_prefix silent_kbd).suggestions = [add_word_suggestion silent_kbd] :=
  ((refresh_without_candidates silent_kbd).2.1 silent_predictor rfl rfl).trans
    (if_pos ⟨by decide, rfl⟩)

/-! ### Committed characters -/

/-- The token-character branch appends a byte to a well-formed token that has
room for it. -/
theorem committed_token_char_append (kb : kbd) (c : Nat) (htok : token_ok kb)
    (hroom : kb.current_token.length + 2 < 128) :
    ∃ kb', committed_token_char kb [c] = .ok kb' ∧
      kb'.current_token = kb.current_token ++ [c] := by
  obtain ⟨h1, h2⟩ := htok
  unfold committed_token_char
  dsimp only
  have e1 : (clear_pending_swipe kb).current_token_len = (kb.current_token.length : Int) := h1
  have e2 : (clear_pending_swipe kb).current_token = kb.current_token := rfl
  rw [e1, e2]
  simp only [WVKBD_MAX_TOKEN_BYTES, List.length_singleton]
  rw [if_pos (by omega), if_neg (by omega)]
  exact ⟨_, rfl, ( kbd_update_suggestions_prefix_token _).1⟩

/-- C28: for a `Code` key other than Backspace, Space and Enter with the
one-byte label `c` and the one-byte shifted label `C`, tapped with the modifier
mask `m`, the label `kbd_handle_committed_key` selects is the shifted label
when Shift is set or when CapsLock is set and `c` is alphabetic (the boolean OR
of the two conditions: CapsLock alone, Shift alone and both together select
`C`), and the plain label otherwise (neither set, or CapsLock alone on a label
that is not alphabetic); the selected label, when it is a token character, is
appended to a well-formed token that has room for it. -/
theorem committed_letter_case (kb : kbd) (k : key) (m c C : Nat)
    (hk : k.type = .Code ∧ k.code ≠ KEY_BACKSPACE ∧ k.code ≠ KEY_SPACE ∧ k.code ≠ KEY_ENTER)
    (hlabel : k.label = some [c] ∧ k.shift_label = some [C])
    (htok : token_ok kb) (hroom : kb.current_token.length + 2 < 128) :
    effective_label k m =
      some (if m &&& Shift ≠ 0 ∨ (m &&& CapsLock ≠ 0 ∧ isalpha c = true) then [C] else [c]) ∧
    (kbd_is_token_char_label
        (if m &&& Shift ≠ 0 ∨ (m &&& CapsLock ≠ 0 ∧ isalpha c = true) then [C] else [c]) = true →
      ∃ kb', kbd_handle_committed_key kb k m = .ok kb' ∧
        kb'.current_token = kb.current_token ++
          (if m &&& Shift ≠ 0 ∨ (m &&& CapsLock ≠ 0 ∧ isalpha c = true) then [C] else [c])) := by
  obtain ⟨hcode, hb, hs, he⟩ := hk
  obtain ⟨hl, hsl⟩ := hlabel
  have heff : effective_label k m =
      some (if m &&& Shift ≠ 0 ∨ (m &&& CapsLock ≠ 0 ∧ isalpha c = true) then [C] else [c]) := by
    unfold effective_label single_alpha
    rw [hl, hsl]
    dsimp only
    split_ifs <;> rfl
  refine ⟨heff, ?_⟩
  intro hchar
  unfold kbd_handle_committed_key
  rw [if_pos hcode, if_neg hb, if_neg (by rintro (h | h); exact hs h; exact he h), heff]
  unfold committed_label
  dsimp only
  rw [if_neg (by rw [token_char_not_separator _ hchar]; simp), if_pos hchar]
  split_ifs
  · exact committed_token_char_append kb C htok hroom
  · exact committed_token_char_append kb c htok hroom

/-- C28 on the sample keyboard with the key `e` / `E`: CapsLock alone, Shift
alone and both together append `E` to the token `th`, and no modifier appends
`e`. -/
theorem committed_letter_case_witness :
    (∃ kb', kbd_handle_committed_key typing_kbd e_key CapsLock = .ok kb' ∧
      kb'.current_token = [116, 104, 69]) ∧
    (∃ kb', kbd_handle_committed_key typing_kbd e_key Shift = .ok kb' ∧
      kb'.current_token = [116, 104, 69]) ∧
    (∃ kb', kbd_handle_committed_key typing_kbd e_key (Shift ||| CapsLock) = .ok kb' ∧
      kb'.current_token = [116, 104, 69]) ∧
    (∃ kb', kbd_handle_committed_key typing_kbd e_key 0 = .ok kb' ∧
      kb'.current_token = [116, 104, 101]) :=
  ⟨(committed_letter_case typing_kbd e_key CapsLock 101 69 (by decide) ⟨rfl, rfl⟩ (by decide)
      (by decide)).2 (by decide),
   (committed_letter_case typing_kbd e_key Shift 101 69 (by decide) ⟨rfl, rfl⟩ (by decide)
      (by decide)).2 (by decide),
   (committed_letter_case typing_kbd e_key (Shift ||| CapsLock) 101 69 (by decide) ⟨rfl, rfl⟩
      (by decide) (by decide)).2 (by decide),
   (committed_letter_case typing_kbd e_key 0 101 69 (by decide) ⟨rfl, rfl⟩ (by decide)
      (by decide)).2 (by decide)⟩
/-- C30, as stated, fails: for the token of 126 bytes `a` the `Add word`
suggestion has the label `+ ` followed by 125 bytes `a`, not by the whole
token; `strncat` appends at most 125 bytes to the two of `+ `. -/
theorem add_word_label_counterexample :
    (kbd_suggestions_from_candidates long_token_kbd []).suggestions.map
        (fun s => (s.kind, s.inline_word)) =
      [ (.WVKBD_SUGGEST_ADD_WORD, [43, 32] ++ List.replicate 125 97) ] ∧
    [43, 32] ++ List.replicate 125 97 ≠ [43, 32] ++ long_token_kbd.current_token := by
  refine ⟨?_, ?_⟩ <;> decide

/-- C30 (amended): whenever `kbd_suggestions_from_candidates` produces an
`Add word` suggestion, its inline label is the two characters `+ ` followed by
the first 125 bytes of the current token: by the whole token for every token of
up to 125 bytes. -/
theorem add_word_label (kb : kbd) (cands : List wvkbd_candidate) (s : wvkbd_suggestion)
    (hs : s ∈ (kbd_suggestions_from_candidates kb cands).suggestions)
    (hkind : s.kind = .WVKBD_SUGGEST_ADD_WORD) :
    s.inline_word = [43, 32] ++ kb.current_token.take 125 ∧
    (kb.current_token.length ≤ 125 → s.inline_word = [43, 32] ++ kb.current_token) := by
  have hadd : s = add_word_suggestion kb := by
    rw [kbd_suggestions_from_candidates_eq, List.mem_append] at hs
    rcases hs with hs | hs
    · obtain ⟨c, -, hc⟩ := List.mem_map.mp hs
      subst hc
      cases hkind
    · split_ifs at hs
      · exact List.mem_singleton.mp hs
      · cases hs
  subst hadd
  refine ⟨rfl, ?_⟩
  intro hlen
  show [43, 32] ++ kb.current_token.take 125 = [43, 32] ++ kb.current_token
  rw [List.take_of_length_le hlen]

/-- C30 (amended) on the sample keyboard with the token `th`: the `Add word`
suggestion of the list has the label `+ th`. -/
theorem add_word_label_witness :
    ({ kind := .WVKBD_SUGGEST_ADD_WORD, word := none, inline_word := [43, 32, 116, 104],
       score := 0 } : wvkbd_suggestion) ∈
      (kbd_suggestions_from_candidates typing_kbd
        (demo_predictor.predict_prefix [116, 104] 3)).suggestions ∧
    ({ kind := .WVKBD_SUGGEST_ADD_WORD, word := none, inline_word := [43, 32, 116, 104],
       score := 0 } : wvkbd_suggestion).inline_word = [43, 32] ++ typing_kbd.current_token :=
  ⟨by decide,
   (add_word_label typing_kbd (demo_predictor.predict_prefix [116, 104] 3)
    { kind := .WVKBD_SUGGEST_ADD_WORD, word := none, inline_word := [43, 32, 116, 104],
      score := 0 } (by decide) rfl).2 (by decide)⟩
/-! ### Dismissed words -/

set_option maxRecDepth 100000 in
/-- C25, as stated, fails: dismissing the word of 128 bytes `A`, which is not in
the full list, appends 127 bytes `a`, not the lowercased word of 128 bytes;
`kbd_dismiss_word` copies at most 127 bytes of the word. -/
theorem kbd_dismiss_word_fifo_counterexample :
    full_dismissed_kbd.dismissed_words.length = 256 ∧
    ascii_lower_inplace (List.replicate 128 65) ∉ full_dismissed_kbd.dismissed_words ∧
    (kbd_dismiss_word full_dismissed_kbd (some (List.replicate 128 65))).dismissed_words.getLast?
      = some (List.replicate 127 97) ∧
    ascii_lower_inplace (List.replicate 128 65) ≠ List.replicate 127 97 := by
  refine ⟨?_, ?_, ?_, ?_⟩ <;> decide

/-- The word `kbd_dismiss_word` looks for and stores is the lowercase form of
the first 127 bytes of the word. -/
theorem kbd_dismiss_word_eq (kb : kbd) (word : List Nat) (hw : word ≠ []) :
    kbd_dismiss_word kb (some word) =
      if ascii_lower_inplace (word.take 127) ∈ kb.dismissed_words then kb
      else if kb.dismissed_words.length ≥ 256 then
        { kb with dismissed_words :=
            (kb.dismissed_words.drop 1).take 255 ++ [ascii_lower_inplace (word.take 127)] }
      else { kb with dismissed_words :=
            kb.dismissed_words ++ [ascii_lower_inplace (word.take 127)] } := by
  have hlen : (ascii_lower_inplace (word.take 127)).length ≤ 127 := by
    unfold ascii_lower_inplace
    rw [List.length_map, List.length_take]
    exact Nat.min_le_left _ _
  have hid : strncpy_token (ascii_lower_inplace (word.take 127)) =
      ascii_lower_inplace (word.take 127) := List.take_of_length_le hlen
  cases word with
  | nil => exact absurd rfl hw
  | cons c cs =>
    unfold kbd_dismiss_word
    dsimp only
    have hcopy : strncpy_token (c :: cs) = (c :: cs).take 127 := rfl
    rw [hcopy, hid]
    rfl

/-- C25 (amended): with a well-formed dismissed-word list, `kbd_dismiss_word`
called with a non-empty word whose lowercase form, on its first 127 bytes, is
not in the list case-insensitively, removes the oldest entry of a list of 256,
keeps the other 255 in order and appends the lowercase form of the first 127
bytes of the word last, so the list again holds 256 entries; on a shorter list
it only appends; a word already present leaves the list unchanged, so a list
without duplicates stays without duplicates. -/
theorem kbd_dismiss_word_fifo (kb : kbd) (word : List Nat) (hw : word ≠ [])
    (hd : dismissed_ok kb) :
    ((∀ d ∈ kb.dismissed_words,
          ascii_lower_inplace d ≠ ascii_lower_inplace (word.take 127)) →
        kb.dismissed_words.length = 256 →
        (kbd_dismiss_word kb (some word)).dismissed_words =
          kb.dismissed_words.tail ++ [ascii_lower_inplace (word.take 127)] ∧
        (kbd_dismiss_word kb (some word)).dismissed_words.length = 256) ∧
    ((∀ d ∈ kb.dismissed_words,
          ascii_lower_inplace d ≠ ascii_lower_inplace (word.take 127)) →
        kb.dismissed_words.length < 256 →
        (kbd_dismiss_word kb (some word)).dismissed_words =
          kb.dismissed_words ++ [ascii_lower_inplace (word.take 127)]) ∧
    ((∃ d ∈ kb.dismissed_words,
          ascii_lower_inplace d = ascii_lower_inplace (word.take 127)) →
        (kbd_dismiss_word kb (some word)).dismissed_words = kb.dismissed_words) ∧
    (kb.dismissed_words.Nodup → (kbd_dismiss_word kb (some word)).dismissed_words.Nodup) := by
  have hmem : ascii_lower_inplace (word.take 127) ∈ kb.dismissed_words ↔
      ∃ d ∈ kb.dismissed_words, ascii_lower_inplace d = ascii_lower_inplace (word.take 127) := by
    constructor
    · intro h
      exact ⟨_, h, (hd _ h).2.1⟩
    · rintro ⟨d, hdm, he⟩
      rw [← he, (hd d hdm).2.1]
      exact hdm
  have hnot : (∀ d ∈ kb.dismissed_words,
      ascii_lower_inplace d ≠ ascii_lower_inplace (word.take 127)) →
      ascii_lower_inplace (word.take 127) ∉ kb.dismissed_words := by
    intro h hm
    obtain ⟨d, hdm, he⟩ := hmem.mp hm
    exact h d hdm he
  rw [kbd_dismiss_word_eq kb word hw]
  refine ⟨?_, ?_, ?_, ?_⟩
  · intro hnew hfull
    rw [if_neg (hnot hnew), if_pos (by omega)]
    have htake : (kb.dismissed_words.drop 1).take 255 = kb.dismissed_words.tail := by
      rw [List.drop_one]
      apply List.take_of_length_le
      rw [List.length_tail]
      omega
    dsimp only
    rw [htake]
    refine ⟨rfl, ?_⟩
    rw [List.length_append, List.length_tail, List.length_singleton]
    omega
  · intro hnew hroom
    rw [if_neg (hnot hnew), if_neg (by omega)]
  · intro hold
    rw [if_pos (hmem.mpr hold)]
  · intro hnd
    split_ifs with h1 h2
    · exact hnd
    · dsimp only
      have hsub : ((kb.dismissed_words.drop 1).take 255).Sublist kb.dismissed_words :=
        (List.take_sublist _ _).trans (List.drop_sublist _ _)
      refine List.Nodup.append (hnd.sublist hsub) (List.nodup_singleton _) ?_
      intro x hx hx'
      rw [List.mem_singleton] at hx'
      subst hx'
      exact h1 (hsub.subset hx)
    · dsimp only
      refine List.Nodup.append hnd (List.nodup_singleton _) ?_
      intro x hx hx'
      rw [List.mem_singleton] at hx'
      subst hx'
      exact h1 hx

set_option maxRecDepth 100000 in
/-- C25 (amended) on the full sample list `aa`, `ab`, ...: dismissing `Zz` drops
`aa` and appends `zz`, and the list holds 256 entries again. -/
theorem kbd_dismiss_word_fifo_witness :
    (kbd_dismiss_word full_dismissed_kbd (some [90, 122])).dismissed_words =
      full_dismissed_kbd.dismissed_words.tail ++ [[122, 122]] ∧
    (kbd_dismiss_word full_dismissed_kbd (some [90, 122])).dismissed_words.length = 256 :=
  (kbd_dismiss_word_fifo full_dismissed_kbd [90, 122] (by decide) (by decide)).1 (by decide)
    (by decide)
/-! ### Typing -/

theorem typed_refl (a : kbd) : typed a a :=
  ⟨[], by rw [List.append_nil]⟩

theorem typed_trans (a b c : kbd) (h1 : typed a b) (h2 : typed b c) : typed a c := by
  obtain ⟨e1, rfl⟩ := h1
  obtain ⟨e2, rfl⟩ := h2
  exact ⟨e1 ++ e2, by rw [List.append_assoc]⟩

/-- With the protocol object present a request returns and extends the trace. -/
theorem vkbd_request_typed (kb : kbd) (e : Event) (hv : kb.vkbd = true) :
    vkbd_request kb e = .ok { kb with out := kb.out ++ [e] } := by
  unfold vkbd_request
  rw [if_neg (by rw [hv]; decide)]

/-- With the protocol object present and the name in the keymap table a keymap
upload returns and extends the trace. -/
theorem create_and_upload_keymap_typed (kb : kbd) (name : String) (c1 c2 : Nat)
    (hv : kb.vkbd = true) (hn : name ∈ kb.keymap_names) :
    create_and_upload_keymap kb name c1 c2 =
      .ok { kb with out := kb.out ++ [.keymap name c1 c2] } := by
  unfold create_and_upload_keymap
  rw [if_neg (by simpa using hn), if_neg (by rw [hv]; decide)]

/-- With the protocol object present the loop of the direct typing path returns
and has only extended the trace. -/
theorem kbd_type_text_mapped_loop_typed (map : char_keymap) :
    ∀ (text : List Nat) (t : Nat) (kb : kbd), kb.vkbd = true →
    ∃ r, kbd_type_text_mapped_loop map text t kb = .ok r ∧ typed kb r.2 := by
  intro text
  induction text with
  | nil =>
    intro t kb hv
    unfold kbd_type_text_mapped_loop
    rw [vkbd_request_typed kb _ hv]
    exact ⟨_, rfl, _, rfl⟩
  | cons c cs ih =>
    intro t kb hv
    unfold kbd_type_text_mapped_loop
    split
    · exact ⟨_, rfl, typed_refl kb⟩
    · rename_i code mods _
      rw [vkbd_request_typed kb _ hv]
      have hv1 : ({ kb with out := kb.out ++ [Event.modifiers mods] } : kbd).vkbd = true := hv
      have hv2 : ({ kb with out := kb.out ++ [Event.modifiers mods] ++
          [.keyev t code true] } : kbd).vkbd = true := hv
      have h1 : (Except.ok { kb with out := kb.out ++ [Event.modifiers mods] } >>= fun kb =>
          (vkbd_request kb (.keyev t code true) >>= fun kb =>
            (vkbd_request kb (.keyev t code false) >>= fun kb =>
              kbd_type_text_mapped_loop map cs ((t + 1) % 2 ^ 32) kb))) =
          kbd_type_text_mapped_loop map cs ((t + 1) % 2 ^ 32)
            { kb with out := kb.out ++ [Event.modifiers mods] ++ [.keyev t code true] ++
                [.keyev t code false] } := by
        show (vkbd_request { kb with out := kb.out ++ [Event.modifiers mods] }
            (.keyev t code true) >>= fun kb =>
            (vkbd_request kb (.keyev t code false) >>= fun kb =>
              kbd_type_text_mapped_loop map cs ((t + 1) % 2 ^ 32) kb)) = _
        rw [vkbd_request_typed _ _ hv1]
        show (vkbd_request
            { kb with out := kb.out ++ [Event.modifiers mods] ++ [.keyev t code true] }
            (.keyev t code false) >>= fun kb =>
              kbd_type_text_mapped_loop map cs ((t + 1) % 2 ^ 32) kb) = _
        rw [vkbd_request_typed _ _ hv2]
        rfl
      obtain ⟨r, hr, es, hes⟩ := ih ((t + 1) % 2 ^ 32)
        { kb with out := kb.out ++ [Event.modifiers mods] ++ [.keyev t code true] ++
            [.keyev t code false] } hv
      refine ⟨r, ?_, ?_⟩
      · exact h1.trans hr
      · refine ⟨[Event.modifiers mods] ++ [.keyev t code true] ++ [.keyev t code false] ++ es, ?_⟩
        rw [hes]
        simp only [List.append_assoc]
/-- Protocol requests leave the keymap setup alone. -/
theorem keymaps_defined_of_typed (a b : kbd) (h : typed a b) (ha : keymaps_defined a) :
    keymaps_defined b := by
  obtain ⟨es, rfl⟩ := h
  exact ha

/-- With the keymaps defined, typing one code point returns and has only
extended the trace. -/
theorem kbd_type_codepoint_typed (kb : kbd) (t cp : Nat) (hk : keymaps_defined kb) :
    ∃ kb', kbd_type_codepoint kb t cp = .ok kb' ∧ typed kb kb' := by
  obtain ⟨hv, hn⟩ := hk
  have hv1 : ({ kb with out := kb.out ++
      [.keymap (kb.layouts kb.layout).keymap_name cp cp] } : kbd).vkbd = true := hv
  have hv2 : ({ kb with out := kb.out ++
      [.keymap (kb.layouts kb.layout).keymap_name cp cp] ++ [.modifiers 0] } : kbd).vkbd =
      true := hv
  have hv3 : ({ kb with out := kb.out ++
      [.keymap (kb.layouts kb.layout).keymap_name cp cp] ++ [.modifiers 0] ++
      [.keyev t 127 true] } : kbd).vkbd = true := hv
  refine ⟨{ kb with out := kb.out ++
      [.keymap (kb.layouts kb.layout).keymap_name cp cp] ++ [.modifiers 0] ++
      [.keyev t 127 true] ++ [.keyev t 127 false] }, ?_, ?_⟩
  · unfold kbd_type_codepoint
    rw [create_and_upload_keymap_typed kb _ cp cp hv (hn _)]
    show (vkbd_request { kb with out := kb.out ++
      [.keymap (kb.layouts kb.layout).keymap_name cp cp] } (.modifiers 0) >>= fun kb =>
        (vkbd_request kb (.keyev t 127 true) >>= fun kb =>
          vkbd_request kb (.keyev t 127 false))) = _
    rw [vkbd_request_typed _ _ hv1]
    show (vkbd_request { kb with out := kb.out ++
      [.keymap (kb.layouts kb.layout).keymap_name cp cp] ++ [.modifiers 0] }
        (.keyev t 127 true) >>= fun kb => vkbd_request kb (.keyev t 127 false)) = _
    rw [vkbd_request_typed _ _ hv2]
    show vkbd_request { kb with out := kb.out ++
      [.keymap (kb.layouts kb.layout).keymap_name cp cp] ++ [.modifiers 0] ++
      [.keyev t 127 true] } (.keyev t 127 false) = _
    rw [vkbd_request_typed _ _ hv3]
  · refine ⟨[.keymap (kb.layouts kb.layout).keymap_name cp cp] ++ [.modifiers 0] ++
      [.keyev t 127 true] ++ [.keyev t 127 false], ?_⟩
    simp only [List.append_assoc]

/-- With the keymaps defined, typing code points one after the other returns
and has only extended the trace. -/
theorem kbd_type_codepoints_typed : ∀ (cps : List Nat) (t : Nat) (kb : kbd),
    keymaps_defined kb → ∃ kb', kbd_type_codepoints cps t kb = .ok kb' ∧ typed kb kb' := by
  intro cps
  induction cps with
  | nil =>
    intro t kb _
    exact ⟨kb, rfl, typed_refl kb⟩
  | cons cp cps ih =>
    intro t kb hk
    obtain ⟨kb1, h1, t1⟩ := kbd_type_codepoint_typed kb t cp hk
    obtain ⟨kb', h2, t2⟩ := ih ((t + 1) % 2 ^ 32) kb1 (keymaps_defined_of_typed _ _ t1 hk)
    refine ⟨kb', ?_, typed_trans _ _ _ t1 t2⟩
    unfold kbd_type_codepoints
    rw [h1]
    exact h2

/-- With the keymaps defined, the fallback typing path returns and has only
extended the trace. -/
theorem kbd_type_text_utf8_typed (kb : kbd) (t : Nat) (text : List Nat)
    (hk : keymaps_defined kb) :
    ∃ kb', kbd_type_text_utf8 kb t text = .ok kb' ∧ typed kb kb' := by
  obtain ⟨kb1, h1, t1⟩ := kbd_type_codepoints_typed (utf8_codepoints text) t kb hk
  have hk1 := keymaps_defined_of_typed _ _ t1 hk
  unfold kbd_type_text_utf8
  rw [if_neg (by rw [hk.1]; decide), h1]
  refine ⟨_, create_and_upload_keymap_typed kb1 _ 0 0 hk1.1 (hk1.2 _), ?_⟩
  exact typed_trans _ _ _ t1 ⟨_, rfl⟩

/-- The derived character map depends on the last alphabetic layout alone. -/
theorem kbd_build_char_keymap_of_typed (a b : kbd) (h : typed a b) :
    kbd_build_char_keymap b = kbd_build_char_keymap a := by
  obtain ⟨es, rfl⟩ := h
  rfl

/-- With the keymaps defined and a last alphabetic layout that ends in a `Last`
key, typing a text by either path returns and has only extended the trace. -/
theorem kbd_type_text_typed (kb : kbd) (t : Nat) (text : List Nat) (map : char_keymap)
    (hk : keymaps_defined kb) (hmap : kbd_build_char_keymap kb = .ok map) :
    ∃ kb', kbd_type_text kb t text = .ok kb' ∧ typed kb kb' := by
  obtain ⟨r, hr, tr⟩ := kbd_type_text_mapped_loop_typed map text t kb hk.1
  have hm : kbd_type_text_mapped kb t text = .ok r := by
    unfold kbd_type_text_mapped
    rw [if_neg (by rw [hk.1]; decide), hmap]
    exact hr
  unfold kbd_type_text
  rw [hm]
  by_cases hb : r.1 = true
  · refine ⟨r.2, ?_, tr⟩
    show (if r.1 = true then pure r.2 else kbd_type_text_utf8 r.2 t text) = _
    rw [if_pos hb]
    rfl
  · obtain ⟨kb', h2, t2⟩ := kbd_type_text_utf8_typed r.2 t text
      (keymaps_defined_of_typed _ _ tr hk)
    refine ⟨kb', ?_, typed_trans _ _ _ tr t2⟩
    show (if r.1 = true then pure r.2 else kbd_type_text_utf8 r.2 t text) = _
    rw [if_neg hb]
    exact h2
/-! ### The typed token and the committed word -/

/-- A prefix refresh changes the suggestion list, the suggestion mode and the
swipe trail, and nothing else. -/
theorem kbd_update_suggestions_prefix_eq (kb : kbd) :
    kbd_update_suggestions_prefix kb =
      { kb with
        suggestions := ( kbd_update_suggestions_prefix kb).suggestions,
        suggest_mode := ( kbd_update_suggestions_prefix kb).suggest_mode,
        swipe_points := ( kbd_update_suggestions_prefix kb).swipe_points } := by
  unfold kbd_update_suggestions_prefix
  split
  · rfl
  · rw [kbd_draw_layout_eq]
    unfold kbd_suggestions_from_candidates
    dsimp only
    split_ifs <;> rfl

/-- Two lists with the same lowercase form are equal after a change of case
that gives back each byte of the first list. -/
theorem map_eq_of_lower_eq (g : Nat → Nat) : ∀ (t v : List Nat),
    t.map tolower = v.map tolower →
    (∀ a ∈ t, ∀ b, tolower a = tolower b → g b = a) → v.map g = t := by
  intro t
  induction t with
  | nil =>
    intro v h _
    cases v with
    | nil => rfl
    | cons b v => cases h
  | cons a t ih =>
    intro v h hg
    cases v with
    | nil => cases h
    | cons b v =>
      rw [List.map_cons, List.map_cons, List.cons.injEq] at h
      rw [List.map_cons, hg a (List.mem_cons_self _ _) b h.1,
        ih v h.2 (fun a ha => hg a (List.mem_cons_of_mem _ ha))]

/-- Uppercasing gives back a byte that is no lowercase letter from any byte
with the same lowercase form. -/
theorem toupper_of_lower_eq (a b : Nat) (h : tolower a = tolower b)
    (ha : isalpha a = true → isupper a = true) : toupper b = a := by
  unfold tolower at h
  unfold toupper
  simp only [isalpha, isupper, Bool.or_eq_true, Bool.and_eq_true, decide_eq_true_eq] at ha
  split_ifs at h ⊢ <;> omega

/-- Lowercasing gives back a byte that is no uppercase letter from any byte
with the same lowercase form. -/
theorem tolower_of_lower_eq (a b : Nat) (h : tolower a = tolower b)
    (ha : isupper a = false) : tolower b = a := by
  rw [← h]
  unfold tolower
  simp only [isupper, Bool.and_eq_false_iff, decide_eq_false_iff_not] at ha
  split_ifs <;> omega

/-- An uppercase letter is a letter. -/
theorem isalpha_of_isupper (c : Nat) (h : isupper c = true) : isalpha c = true := by
  simp only [isalpha, isupper, Bool.or_eq_true, Bool.and_eq_true, decide_eq_true_eq] at h ⊢
  omega

/-- With a token of regular casing that starts the word case-insensitively,
the casing of the specification gives a word that starts with the token as it
was typed. -/
theorem adjusted_case_spec_take (token : List Nat) (mods : Nat) (word : List Nat)
    (hne : token ≠ []) (hfit : token.length ≤ 127) (hreg : token_case_regular token)
    (hpre : utf8_startswith (ascii_lower_inplace word) (ascii_lower_inplace token) = true) :
    (adjusted_case_spec token mods word).take token.length = token := by
  unfold utf8_startswith ascii_lower_inplace at hpre
  rw [ List.isPrefixOf_iff_prefix, List.prefix_iff_eq_take, List.length_map,
    ← List.map_take] at hpre
  have hmin : min token.length 127 = token.length := Nat.min_eq_left hfit
  have hupper_alpha : ∀ c, isupper c = true → isalpha c = true := isalpha_of_isupper
  unfold adjusted_case_spec
  split_ifs with h1 h2
  · rcases h1 with ⟨-, hall⟩ | ⟨he, -⟩
    · rw [← List.map_take, List.take_take, hmin]
      refine map_eq_of_lower_eq toupper token _ hpre (fun a ha b h => ?_)
      refine toupper_of_lower_eq a b h (fun hal => ?_)
      have := List.all_eq_true.mp hall a ha
      rw [hal] at this
      simpa using this
    · exact absurd he hne
  · rcases h2 with hfirst | ⟨he, -⟩
    · cases token with
      | nil => exact absurd rfl hne
      | cons a t =>
        cases word with
        | nil => cases hpre
        | cons b w =>
          have hfa : isalpha a = true ∧ isupper a = true := by
            simpa [token_first_upper] using hfirst
          have htail : ∀ c ∈ t, isupper c = false := by
            rcases hreg with hr | hr
            · exfalso
              apply h1
              left
              refine ⟨List.any_eq_true.mpr ⟨a, List.mem_cons_self _ _, hfa.1⟩, ?_⟩
              rw [List.all_eq_true]
              intro c hc
              by_cases hal : isalpha c = true
              · rw [hr c hc hal]
                simp
              · simp [hal]
            · exact hr
          simp only [List.length_cons, List.take_succ_cons, List.map_cons, List.cons.injEq]
            at hpre hfit ⊢
          have h126 : min t.length 126 = t.length := Nat.min_eq_left (by omega)
          refine ⟨toupper_of_lower_eq a b hpre.1 (fun _ => hfa.2), ?_⟩
          rw [← List.map_take, List.take_take, h126]
          exact map_eq_of_lower_eq tolower t _ hpre.2
            (fun a ha b h => tolower_of_lower_eq a b h (htail a ha))
    · exact absurd he hne
  · rw [← List.map_take, List.take_take, hmin]
    refine map_eq_of_lower_eq tolower token _ hpre (fun a ha b h => ?_)
    refine tolower_of_lower_eq a b h ?_
    cases token with
    | nil => cases ha
    | cons a0 t =>
      have hnf : ¬ (isalpha a0 = true ∧ isupper a0 = true) := by
        intro hc
        apply h2
        left
        simpa [token_first_upper] using hc
      have hn0 : isupper a0 = false := by
        by_contra hc
        rw [Bool.not_eq_false] at hc
        exact hnf ⟨hupper_alpha _ hc, hc⟩
      rcases hreg with hr | hr
      · by_contra hc
        rw [Bool.not_eq_false] at hc
        apply h1
        left
        refine ⟨List.any_eq_true.mpr ⟨a, ha, hupper_alpha _ hc⟩, ?_⟩
        rw [List.all_eq_true]
        intro c hc
        by_cases hal : isalpha c = true
        · rw [hr c hc hal]
          simp
        · simp [hal]
      · rcases List.mem_cons.mp ha with he | hm
        · rw [he]
          exact hn0
        · exact hr a hm

/-- The casing of the specification reads the first 127 bytes of the word. -/
theorem adjusted_case_spec_copy (token : List Nat) (mods : Nat) (word : List Nat) :
    adjusted_case_spec token mods (strncpy_token word) = adjusted_case_spec token mods word := by
  unfold adjusted_case_spec strncpy_token
  rw [List.take_take]
  rfl

/-- With the keymaps defined, `kbd_type_codepoint` returns after four requests:
the upload of the keymap that carries the code point, the modifiers 0 and the
press and release of key 127. -/
theorem kbd_type_codepoint_events (kb : kbd) (t cp : Nat) (hk : keymaps_defined kb) :
    kbd_type_codepoint kb t cp = .ok { kb with out := kb.out ++
      [.keymap (kb.layouts kb.layout).keymap_name cp cp, .modifiers 0,
        .keyev t 127 true, .keyev t 127 false] } := by
  obtain ⟨hv, hn⟩ := hk
  have hv1 : ({ kb with out := kb.out ++
      [.keymap (kb.layouts kb.layout).keymap_name cp cp] } : kbd).vkbd = true := hv
  have hv2 : ({ kb with out := kb.out ++
      [.keymap (kb.layouts kb.layout).keymap_name cp cp] ++ [.modifiers 0] } : kbd).vkbd =
      true := hv
  have hv3 : ({ kb with out := kb.out ++
      [.keymap (kb.layouts kb.layout).keymap_name cp cp] ++ [.modifiers 0] ++
      [.keyev t 127 true] } : kbd).vkbd = true := hv
  unfold kbd_type_codepoint
  rw [create_and_upload_keymap_typed kb _ cp cp hv (hn _)]
  show (vkbd_request { kb with out := kb.out ++
    [.keymap (kb.layouts kb.layout).keymap_name cp cp] } (.modifiers 0) >>= fun kb =>
      (vkbd_request kb (.keyev t 127 true) >>= fun kb =>
        vkbd_request kb (.keyev t 127 false))) = _
  rw [vkbd_request_typed _ _ hv1]
  show (vkbd_request { kb with out := kb.out ++
    [.keymap (kb.layouts kb.layout).keymap_name cp cp] ++ [.modifiers 0] }
      (.keyev t 127 true) >>= fun kb => vkbd_request kb (.keyev t 127 false)) = _
  rw [vkbd_request_typed _ _ hv2]
  show vkbd_request { kb with out := kb.out ++
    [.keymap (kb.layouts kb.layout).keymap_name cp cp] ++ [.modifiers 0] ++
    [.keyev t 127 true] } (.keyev t 127 false) = _
  rw [vkbd_request_typed _ _ hv3]
  simp only [List.append_assoc, List.cons_append, List.nil_append]

/-- With the keymaps defined, typing code points one after the other returns
after the requests of each in order. -/
theorem kbd_type_codepoints_events : ∀ (cps : List Nat) (t : Nat) (kb : kbd),
    keymaps_defined kb →
    kbd_type_codepoints cps t kb =
      .ok { kb with out := kb.out ++ codepoint_events (kb.layouts kb.layout).keymap_name t cps } := by
  intro cps
  induction cps with
  | nil =>
    intro t kb _
    show Except.ok kb = _
    simp only [codepoint_events, List.append_nil]
  | cons cp cps ih =>
    intro t kb hk
    unfold kbd_type_codepoints
    rw [kbd_type_codepoint_events kb t cp hk]
    show kbd_type_codepoints cps ((t + 1) % 2 ^ 32) _ = _
    rw [ih ((t + 1) % 2 ^ 32) _ (by exact hk)]
    simp only [codepoint_events, List.append_assoc]

/-- With the keymaps defined, `kbd_type_text_utf8` returns after the requests of
each code point its loop reads, in order, and one last upload of the keymap of
the layout with the compose pair (0, 0). -/
theorem kbd_type_text_utf8_trace (kb : kbd) (t : Nat) (text : List Nat)
    (hk : keymaps_defined kb) :
    kbd_type_text_utf8 kb t text = .ok { kb with out := kb.out ++
      (codepoint_events (kb.layouts kb.layout).keymap_name t (utf8_codepoints text) ++
        [.keymap (kb.layouts kb.layout).keymap_name 0 0]) } := by
  unfold kbd_type_text_utf8
  rw [if_neg (by rw [hk.1]; decide), kbd_type_codepoints_events _ t kb hk]
  refine (create_and_upload_keymap_typed
    ({ kb with out := kb.out ++
        codepoint_events (kb.layouts kb.layout).keymap_name t (utf8_codepoints text) } : kbd)
    (kb.layouts kb.layout).keymap_name 0 0 hk.1 (hk.2 _)).trans ?_
  simp only [List.append_assoc]

/-- With the protocol object present, on a text whose bytes all have a key in
the character map the loop of the direct typing path returns true after the
requests of each byte in order and the request that restores the modifier
mask. -/
theorem kbd_type_text_mapped_loop_events (map : char_keymap) :
    ∀ (text : List Nat) (t : Nat) (kb : kbd), kb.vkbd = true →
    (∀ c ∈ text, c < 128 ∧ map.getD c none ≠ none) →
    kbd_type_text_mapped_loop map text t kb =
      .ok (true, { kb with out := kb.out ++ mapped_events map t text ++ [.modifiers kb.mods] }) := by
  intro text
  induction text with
  | nil =>
    intro t kb hv _
    unfold kbd_type_text_mapped_loop
    rw [vkbd_request_typed kb _ hv]
    simp only [mapped_events, List.append_nil]
    rfl
  | cons c cs ih =>
    intro t kb hv hall
    obtain ⟨hc, hm⟩ := hall c (List.mem_cons_self _ _)
    unfold kbd_type_text_mapped_loop
    rw [if_neg (by omega)]
    cases hcm : map.getD c none with
    | none => exact absurd hcm hm
    | some p =>
      obtain ⟨code, mods⟩ := p
      dsimp only
      rw [vkbd_request_typed kb _ hv]
      show (vkbd_request _ _ >>= fun kb2 => vkbd_request kb2 (.keyev t code false) >>=
        fun kb3 => kbd_type_text_mapped_loop map cs ((t + 1) % 2 ^ 32) kb3) = _
      rw [vkbd_request_typed _ _ (by exact hv)]
      show (vkbd_request _ _ >>= fun kb3 =>
        kbd_type_text_mapped_loop map cs ((t + 1) % 2 ^ 32) kb3) = _
      rw [vkbd_request_typed _ _ (by exact hv)]
      show kbd_type_text_mapped_loop map cs ((t + 1) % 2 ^ 32) _ = _
      rw [ih ((t + 1) % 2 ^ 32) _ (by exact hv)
        (fun c' h' => hall c' (List.mem_cons_of_mem _ h'))]
      simp only [mapped_events, hcm, List.append_assoc, List.cons_append, List.nil_append]

/-- With the keymaps defined, a text whose bytes all have a key in the derived
character map is typed by the direct path alone: each byte once, in order. -/
theorem kbd_type_text_mapped_events (kb : kbd) (t : Nat) (text : List Nat) (map : char_keymap)
    (hk : keymaps_defined kb) (hmap : kbd_build_char_keymap kb = .ok map)
    (hall : ∀ c ∈ text, c < 128 ∧ map.getD c none ≠ none) :
    kbd_type_text kb t text =
      .ok { kb with out := kb.out ++ mapped_events map t text ++ [.modifiers kb.mods] } := by
  unfold kbd_type_text kbd_type_text_mapped
  rw [if_neg (by rw [hk.1]; decide), hmap]
  show (kbd_type_text_mapped_loop map text t kb >>= fun r =>
    if r.1 = true then pure r.2 else kbd_type_text_utf8 r.2 t text) = _
  rw [kbd_type_text_mapped_loop_events map text t kb hk.1 hall]
  rfl

/-- With the keymaps defined, a text whose first byte has no key in the derived
character map is typed by the fallback path alone: each code point once, in
order. -/
theorem kbd_type_text_fallback_events (kb : kbd) (t c : Nat) (cs : List Nat)
    (map : char_keymap)
    (hk : keymaps_defined kb) (hmap : kbd_build_char_keymap kb = .ok map)
    (hc : 128 ≤ c ∨ map.getD c none = none) :
    kbd_type_text kb t (c :: cs) =
      .ok { kb with out := kb.out ++
        (codepoint_events (kb.layouts kb.layout).keymap_name t (utf8_codepoints (c :: cs)) ++
          [.keymap (kb.layouts kb.layout).keymap_name 0 0]) } := by
  have hloop : kbd_type_text_mapped_loop map (c :: cs) t kb = .ok (false, kb) := by
    unfold kbd_type_text_mapped_loop
    have : (if c ≥ 128 then none else map.getD c none) = none := by
      rcases hc with h | h
      · rw [if_pos h]
      · split_ifs
        · rfl
        · exact h
    rw [this]
  unfold kbd_type_text kbd_type_text_mapped
  rw [if_neg (by rw [hk.1]; decide), hmap]
  show (kbd_type_text_mapped_loop map (c :: cs) t kb >>= fun r =>
    if r.1 = true then pure r.2 else kbd_type_text_utf8 r.2 t (c :: cs)) = _
  rw [hloop]
  exact kbd_type_text_utf8_trace kb t (c :: cs) hk

/-- C29 (amended): for a non-empty token of regular casing (every letter of it is
uppercase, or no character after the first is an uppercase letter) and a word
that has it as a case-insensitive prefix, the case-adjusted word begins with the
token exactly as it was typed, `kbd_commit_suggestion` returns, and the new
`current_token` is the already-typed token followed by the suffix, the rest of
the adjusted word.  What the call emits is what `kbd_type_text` emits for the
suffix, nothing when the suffix is empty: when every byte of the suffix has a
key in the derived character map, the modifiers, press and release of the key
of each byte in order, then the modifier mask; when the first byte of the
suffix has no such key, the keymap upload, modifiers 0 and press and release of
key 127 for each code point of the suffix in order, then the last keymap
upload.  In both cases each character of the suffix is emitted once, so the
token followed by what is emitted is the new `current_token`. -/
theorem kbd_commit_suggestion_keeps_token (kb : kbd) (time_ms : Nat) (word : List Nat)
    (map : char_keymap)
    (htok : token_ok kb) (hne : kb.current_token ≠ [])
    (hreg : token_case_regular kb.current_token)
    (hpre : utf8_startswith (ascii_lower_inplace word)
      (ascii_lower_inplace kb.current_token) = true)
    (hk : keymaps_defined kb) (hmap : kbd_build_char_keymap kb = .ok map) :
    (kbd_adjust_suggestion_case kb (some word) kb.mods).take kb.current_token.length =
      kb.current_token ∧
    ∃ kb', kbd_commit_suggestion kb time_ms (some word) = .ok kb' ∧
      kb'.current_token = kb.current_token ++
        (kbd_adjust_suggestion_case kb (some word) kb.mods).drop kb.current_token.length ∧
      ((kbd_adjust_suggestion_case kb (some word) kb.mods).drop kb.current_token.length = [] →
        kb'.out = kb.out) ∧
      ((kbd_adjust_suggestion_case kb (some word) kb.mods).drop kb.current_token.length ≠ [] →
        ∃ kb1, kbd_type_text (clear_pending_swipe kb) time_ms
          ((kbd_adjust_suggestion_case kb (some word) kb.mods).drop kb.current_token.length) =
            .ok kb1 ∧ kb'.out = kb1.out) ∧
      ((kbd_adjust_suggestion_case kb (some word) kb.mods).drop kb.current_token.length ≠ [] →
        (∀ c ∈ (kbd_adjust_suggestion_case kb (some word) kb.mods).drop kb.current_token.length,
          c < 128 ∧ map.getD c none ≠ none) →
        kb'.out = kb.out ++ mapped_events map time_ms
          ((kbd_adjust_suggestion_case kb (some word) kb.mods).drop kb.current_token.length) ++
          [.modifiers kb.mods]) ∧
      (∀ c cs,
        (kbd_adjust_suggestion_case kb (some word) kb.mods).drop kb.current_token.length =
          c :: cs →
        128 ≤ c ∨ map.getD c none = none →
        kb'.out = kb.out ++
          (codepoint_events (kb.layouts kb.layout).keymap_name time_ms (utf8_codepoints (c :: cs)) ++
            [.keymap (kb.layouts kb.layout).keymap_name 0 0])) := by
  have hadj := kbd_adjust_suggestion_case_eq kb word kb.mods htok
  have hadj2 : kbd_adjust_suggestion_case (clear_pending_swipe kb) (some (strncpy_token word))
      kb.mods = adjusted_case_spec kb.current_token kb.mods word := by
    rw [kbd_adjust_suggestion_case_eq (clear_pending_swipe kb) _ kb.mods htok]
    exact adjusted_case_spec_copy _ _ _
  have htake := adjusted_case_spec_take kb.current_token kb.mods word hne htok.2 hreg hpre
  rw [hadj]
  refine ⟨htake, ?_⟩
  obtain ⟨hlen, hfit⟩ := htok
  have hcopy : strncpy_token kb.current_token = kb.current_token :=
    List.take_of_length_le hfit
  have hpos : kb.current_token_len > 0 := by
    have := List.length_pos.mpr hne
    rw [hlen]
    omega
  have hfull : kb.current_token ++ (adjusted_case_spec kb.current_token kb.mods word).drop
      kb.current_token.length = adjusted_case_spec kb.current_token kb.mods word := by
    have := List.take_append_drop kb.current_token.length
      (adjusted_case_spec kb.current_token kb.mods word)
    rw [htake] at this
    exact this
  have hcut : strncpy_token (adjusted_case_spec kb.current_token kb.mods word) =
      adjusted_case_spec kb.current_token kb.mods word := by
    apply List.take_of_length_le
    rw [(adjusted_case_spec_lower _ _ _).1, List.length_take]
    exact Nat.min_le_left _ _
  unfold kbd_commit_suggestion
  split
  · rename_i h
    cases h
  · rename_i h
    cases h
    unfold utf8_startswith ascii_lower_inplace at hpre
    cases hc : kb.current_token with
    | nil => exact absurd hc hne
    | cons a t =>
      rw [hc] at hpre
      cases hpre
  · rename_i w hw hsome
    cases hsome
    dsimp only
    rw [hcopy]
    have hstart : utf8_startswith (ascii_lower_inplace (strncpy_token (strncpy_token word)))
        (ascii_lower_inplace kb.current_token) = true := by
      unfold utf8_startswith ascii_lower_inplace at hpre
      unfold utf8_startswith ascii_lower_inplace strncpy_token
      rw [ List.isPrefixOf_iff_prefix] at hpre ⊢
      rw [List.take_take, List.map_take, List.prefix_take_iff]
      exact ⟨hpre, by rw [List.length_map]; exact hfit.trans (by decide)⟩
    rw [if_neg (by rw [hstart]; simp)]
    show ∃ kb', kbd_commit_suggestion_typed (clear_pending_swipe kb) time_ms (strncpy_token word) =
      .ok kb' ∧ _
    unfold kbd_commit_suggestion_typed
    show ∃ kb', ((if kb.current_token_len > 0 then
        (if (kbd_adjust_suggestion_case (clear_pending_swipe kb) (some (strncpy_token word))
            kb.mods).drop kb.current_token.length ≠ [] then
          kbd_type_text (clear_pending_swipe kb) time_ms
            ((kbd_adjust_suggestion_case (clear_pending_swipe kb) (some (strncpy_token word))
              kb.mods).drop kb.current_token.length)
        else .ok (clear_pending_swipe kb))
      else kbd_type_text (clear_pending_swipe kb) time_ms
        (kbd_adjust_suggestion_case (clear_pending_swipe kb) (some (strncpy_token word))
          kb.mods)) >>= fun kb1 =>
      Except.ok ( kbd_update_suggestions_prefix
        { kb1 with
          current_token := strncpy_token
            (kbd_adjust_suggestion_case (clear_pending_swipe kb) (some (strncpy_token word))
              kb.mods),
          current_token_len := (strncpy_token
            (kbd_adjust_suggestion_case (clear_pending_swipe kb) (some (strncpy_token word))
              kb.mods)).length })) = .ok kb' ∧ _
    rw [hadj2, if_pos hpos, hcut, hfull]
    by_cases hs : (adjusted_case_spec kb.current_token kb.mods word).drop
        kb.current_token.length = []
    · rw [if_neg (not_not.mpr hs)]
      refine ⟨_, rfl, ( kbd_update_suggestions_prefix_token _).1, fun _ => ?_,
        fun h => absurd hs h, fun h => absurd hs h, fun c cs h => ?_⟩
      · rw [ kbd_update_suggestions_prefix_eq]
        rfl
      · rw [hs] at h
        cases h
    · rw [if_pos hs]
      obtain ⟨kb1, h1, -⟩ := kbd_type_text_typed (clear_pending_swipe kb) time_ms
        ((adjusted_case_spec kb.current_token kb.mods word).drop kb.current_token.length)
        map hk hmap
      have hk0 : keymaps_defined (clear_pending_swipe kb) := hk
      have hmap0 : kbd_build_char_keymap (clear_pending_swipe kb) = .ok map := hmap
      rw [h1]
      refine ⟨_, rfl, ( kbd_update_suggestions_prefix_token _).1, fun h => absurd h hs,
        fun _ => ⟨kb1, rfl, ?_⟩, fun _ hall => ?_, fun c cs hcs hc => ?_⟩
      · rw [ kbd_update_suggestions_prefix_eq]
      · rw [kbd_type_text_mapped_events (clear_pending_swipe kb) time_ms _ map hk0 hmap0 hall]
          at h1
        cases h1
        rw [ kbd_update_suggestions_prefix_eq]
        rfl
      · rw [hcs] at h1
        rw [kbd_type_text_fallback_events (clear_pending_swipe kb) time_ms c cs map hk0 hmap0 hc]
          at h1
        cases h1
        rw [ kbd_update_suggestions_prefix_eq]
        rfl

/-- C29, as stated, fails: with the token `tHe` and the word `there` the token
is a case-insensitive prefix of the word, the case-adjusted word is `there`,
which does not begin with `tHe`, and after the commit of the suffix `re` the
token is `there`, not `tHe` followed by `re`.  And with the token `a` and the
word `abc`, on a layout with keys for `a` and `b` and none for `c`, the suffix
is `bc` and the new token `abc`, but the call emits `b` by its key 48 and then
`b` and `c` by keymap uploads and key 127: `b` twice. -/
theorem kbd_commit_suggestion_keeps_token_counterexample :
    mixed_token_kbd.current_token = [116, 72, 101] ∧
    utf8_startswith (ascii_lower_inplace [116, 104, 101, 114, 101])
      (ascii_lower_inplace mixed_token_kbd.current_token) = true ∧
    kbd_adjust_suggestion_case mixed_token_kbd (some [116, 104, 101, 114, 101])
      mixed_token_kbd.mods = [116, 104, 101, 114, 101] ∧
    (∃ kb', kbd_commit_suggestion mixed_token_kbd 0 (some [116, 104, 101, 114, 101]) = .ok kb' ∧
      kb'.current_token = [116, 104, 101, 114, 101] ∧
      kb'.current_token ≠ mixed_token_kbd.current_token ++
        (kbd_adjust_suggestion_case mixed_token_kbd (some [116, 104, 101, 114, 101])
          mixed_token_kbd.mods).drop mixed_token_kbd.current_token.length) ∧
    a_token_kbd.current_token = [97] ∧
    (kbd_adjust_suggestion_case a_token_kbd (some [97, 98, 99]) a_token_kbd.mods).drop 1 =
      [98, 99] ∧
    ∃ kb', kbd_commit_suggestion a_token_kbd 0 (some [97, 98, 99]) = .ok kb' ∧
      kb'.current_token = [97, 98, 99] ∧
      kb'.out = [.modifiers 0, .keyev 0 48 true, .keyev 0 48 false,
        .keymap "latin" 98 98, .modifiers 0, .keyev 0 127 true, .keyev 0 127 false,
        .keymap "latin" 99 99, .modifiers 0, .keyev 1 127 true, .keyev 1 127 false,
        .keymap "latin" 0 0] :=
  ⟨rfl, by decide, by decide, ⟨_, rfl, by decide, by decide⟩, rfl, by decide, _, rfl, rfl, rfl⟩

/-- C29 (amended) on the sample keyboard with the token `Th`: the word `there` is adjusted
to `There`, which begins with `Th`, the commit leaves the token `There`, and,
the layout having no key for `e`, it emits the code points of `ere` once each,
through keymap uploads and key 127. -/
theorem kbd_commit_suggestion_keeps_token_witness :
    (kbd_adjust_suggestion_case caps_token_kbd (some [116, 104, 101, 114, 101])
      caps_token_kbd.mods).take 2 = [84, 104] ∧
    ∃ kb', kbd_commit_suggestion caps_token_kbd 0 (some [116, 104, 101, 114, 101]) = .ok kb' ∧
      kb'.current_token = [84, 104, 101, 114, 101] ∧
      kb'.out = [.keymap "latin" 101 101, .modifiers 0, .keyev 0 127 true, .keyev 0 127 false,
        .keymap "latin" 114 114, .modifiers 0, .keyev 1 127 true, .keyev 1 127 false,
        .keymap "latin" 101 101, .modifiers 0, .keyev 2 127 true, .keyev 2 127 false,
        .keymap "latin" 0 0] := by
  obtain ⟨h1, kb', h2, h3, -, -, -, h7⟩ :=
    kbd_commit_suggestion_keeps_token caps_token_kbd 0 [116, 104, 101, 114, 101]
      _ (by decide) (by decide) (by decide) (by decide) nav_kbd_keymaps_defined rfl
  exact ⟨h1, kb', h2, h3.trans (by decide),
    (h7 101 [114, 101] (by decide) (Or.inr (by decide))).trans (by decide)⟩
/-! ### Key handling -/

theorem key_frame_refl (a : kbd) : key_frame a a :=
  ⟨rfl, Or.inl rfl⟩

theorem key_frame_trans (a b c : kbd) (h1 : key_frame a b) (h2 : key_frame b c) :
    key_frame a c := by
  obtain ⟨e1, p1⟩ := h1
  obtain ⟨e2, p2⟩ := h2
  refine ⟨?_, ?_⟩
  · have h := e2
    rw [e1] at h
    exact h
  · rcases p2 with p2 | p2
    · rw [p2]
      exact p1
    · exact Or.inr p2

/-- Redrawing keeps the swipe trail or drops it. -/
theorem kbd_draw_layout_points (kb : kbd) :
    (kbd_draw_layout kb).swipe_points = kb.swipe_points ∨
      (kbd_draw_layout kb).swipe_points = [] := by
  unfold kbd_draw_layout kbd_draw_trail
  dsimp only
  split_ifs <;> first | exact Or.inl rfl | exact Or.inr rfl

theorem kbd_draw_layout_key_frame (kb : kbd) : key_frame kb (kbd_draw_layout kb) := by
  refine ⟨?_, kbd_draw_layout_points kb⟩
  rw [kbd_draw_layout_eq]

theorem vkbd_request_key_frame (kb kb' : kbd) (e : Event) (h : vkbd_request kb e = .ok kb') :
    key_frame kb kb' := by
  unfold vkbd_request at h
  split_ifs at h
  cases h
  exact key_frame_refl _

theorem create_and_upload_keymap_key_frame (kb kb' : kbd) (name : String) (c1 c2 : Nat)
    (h : create_and_upload_keymap kb name c1 c2 = .ok kb') : key_frame kb kb' := by
  unfold create_and_upload_keymap at h
  split_ifs at h
  cases h
  exact key_frame_refl _

theorem kbd_print_key_stdout_key_frame (kb kb' : kbd) (k : key)
    (h : kbd_print_key_stdout kb k = .ok kb') : key_frame kb kb' := by
  rcases kbd_print_key_stdout_cases kb k with ⟨bytes, hb⟩ | ⟨he, -⟩
  · rw [hb] at h
    cases h
    exact ⟨rfl, Or.inl rfl⟩
  · rw [he] at h
    cases h

theorem kbd_switch_layout_key_frame (kb kb' : kbd) (l i : Nat)
    (h : kbd_switch_layout kb l i = .ok kb') : key_frame kb kb' := by
  rw [kbd_switch_layout_eq kb l i (kbd_switch_layout_returns kb kb' l i h)] at h
  cases h
  exact key_frame_trans _ _ _ ⟨rfl, Or.inl rfl⟩ (kbd_draw_layout_key_frame _)

theorem reset_last_abc_key_frame (kb kb' : kbd) (h : reset_last_abc kb = .ok kb') :
    key_frame kb kb' := by
  unfold reset_last_abc at h
  split at h
  · cases h
  · cases h
    exact ⟨rfl, Or.inl rfl⟩

theorem kbd_next_layer_key_frame (kb kb' : kbd) (k : Option key) (invert : Bool)
    (h : kbd_next_layer kb k invert = .ok kb') : key_frame kb kb' := by
  unfold kbd_next_layer at h
  dsimp only at h
  split_ifs at h <;> simp only [bind, Except.bind, pure, Except.pure] at h <;>
    (repeat' split at h) <;>
    first
    | cases h
    | (refine key_frame_trans _ _ _ ?_ (kbd_switch_layout_key_frame _ _ _ _ h)
       exact ⟨rfl, Or.inl rfl⟩)

theorem press_print_key_frame (kb kb' : kbd) (k : key) (h : press_print kb k = .ok kb') :
    key_frame kb kb' := by
  unfold press_print at h
  split_ifs at h
  · exact kbd_print_key_stdout_key_frame kb kb' k h
  · cases h
    exact key_frame_refl _

theorem press_code_key_frame (kb kb' : kbd) (k : key) (time : Nat)
    (h : press_code kb k time = .ok kb') : key_frame kb kb' := by
  unfold press_code at h
  rw [except_bind_ok] at h
  obtain ⟨kb1, h1, h⟩ := h
  have f1 : key_frame kb kb1 := by
    unfold press_code_modifiers at h1
    split_ifs at h1 <;> exact vkbd_request_key_frame _ _ _ h1
  rw [except_bind_ok] at h
  obtain ⟨kb2, h2, h⟩ := h
  have f2 : key_frame kb1 kb2 := by
    refine key_frame_trans _ { kb1 with last_swipe := some k, last_press := some k } _
      ⟨rfl, Or.inl rfl⟩ ?_
    unfold press_code_key at h2
    split_ifs at h2
    · rw [except_bind_ok] at h2
      obtain ⟨kba, ha, h2⟩ := h2
      exact key_frame_trans _ _ _ (vkbd_request_key_frame _ _ _ ha)
        (vkbd_request_key_frame _ _ _ h2)
    · exact vkbd_request_key_frame _ _ _ h2
  rw [except_bind_ok] at h
  obtain ⟨kb3, h3, h⟩ := h
  have f3 := press_print_key_frame _ _ _ h3
  have f4 : key_frame kb3 kb' := by
    cases h
    split_ifs
    · exact ⟨rfl, Or.inl rfl⟩
    · exact key_frame_refl _
  exact key_frame_trans _ _ _ (key_frame_trans _ _ _ (key_frame_trans _ _ _ f1 f2) f3) f4

theorem press_mod_key_frame (kb kb' : kbd) (k : key) (h : press_mod kb k = .ok kb') :
    key_frame kb kb' := by
  unfold press_mod at h
  split_ifs at h
  · exact key_frame_trans _ { kb with mods := (kb.mods ^^^ k.code) % 256 } _ ⟨rfl, Or.inl rfl⟩
      (key_frame_trans _ _ _ (kbd_draw_layout_key_frame _) (vkbd_request_key_frame _ _ _ h))
  · exact key_frame_trans _ { kb with mods := (kb.mods ^^^ k.code) % 256 } _ ⟨rfl, Or.inl rfl⟩
      (vkbd_request_key_frame _ _ _ h)

theorem press_copy_key_frame (kb kb' : kbd) (k : key) (time : Nat)
    (h : press_copy kb k time = .ok kb') : key_frame kb kb' := by
  unfold press_copy at h
  rw [except_bind_ok] at h
  obtain ⟨kb1, h1, h⟩ := h
  have f1 : key_frame kb kb1 :=
    key_frame_trans _ { kb with last_swipe := some k, last_press := some k } _
      ⟨rfl, Or.inl rfl⟩ (create_and_upload_keymap_key_frame _ _ _ _ _ h1)
  rw [except_bind_ok] at h
  obtain ⟨kb2, h2, h⟩ := h
  have f2 := vkbd_request_key_frame _ _ _ h2
  rw [except_bind_ok] at h
  obtain ⟨kb3, h3, h⟩ := h
  have f3 := vkbd_request_key_frame _ _ _ h3
  have f4 := press_print_key_frame _ _ _ h
  exact key_frame_trans _ _ _ (key_frame_trans _ _ _ (key_frame_trans _ _ _ f1 f2) f3) f4

/-- A returning call of `kbd_press_key` changes nothing but what a key press
may change. -/
theorem kbd_press_key_key_frame (kb kb' : kbd) (k : key) (time : Nat)
    (h : kbd_press_key kb k time = .ok kb') : key_frame kb kb' := by
  unfold kbd_press_key at h
  by_cases hc : kb.compose = 1 ∧ k.type ≠ .Compose ∧ k.type ≠ .Mod
  · rw [if_pos hc] at h
    unfold press_composing at h
    split_ifs at h
    · exact key_frame_trans _ { kb with compose := 0 } _ ⟨rfl, Or.inl rfl⟩
        (kbd_switch_layout_key_frame _ _ _ _ h)
    · split at h
      · exact key_frame_trans _ { kb with compose := (kb.compose + 1) % 256 } _
          ⟨rfl, Or.inl rfl⟩ (kbd_switch_layout_key_frame _ _ _ _ h)
      · cases h
        exact key_frame_refl _
  · rw [if_neg hc] at h
    split at h
    · exact press_code_key_frame kb kb' k time h
    · exact press_mod_key_frame kb kb' k h
    · unfold press_layout at h
      split at h
      · cases h
      · rw [except_bind_ok] at h
        obtain ⟨kb1, h1, h⟩ := h
        exact key_frame_trans _ _ _ (kbd_switch_layout_key_frame _ _ _ _ h1)
          (reset_last_abc_key_frame _ _ h)
    · cases h
      exact ⟨rfl, Or.inl rfl⟩
    · exact kbd_next_layer_key_frame _ _ _ _ h
    · unfold press_back_layer at h
      split at h
      · cases h
        exact key_frame_refl _
      · rw [except_bind_ok] at h
        obtain ⟨kb1, h1, h⟩ := h
        exact key_frame_trans _ { kb with compose := 0 } _ ⟨rfl, Or.inl rfl⟩
          (key_frame_trans _ _ _ (kbd_switch_layout_key_frame _ _ _ _ h1)
            (reset_last_abc_key_frame _ _ h))
    · exact press_copy_key_frame kb kb' k time h
    · cases h
      exact key_frame_refl _

/-- A returning call of `kbd_unpress_key` changes nothing but what a key release
may change. -/
theorem kbd_unpress_key_key_frame (kb kb' : kbd) (time : Nat)
    (h : kbd_unpress_key kb time = .ok kb') : key_frame kb kb' := by
  unfold kbd_unpress_key at h
  split at h
  · cases h
    exact key_frame_refl _
  · rw [except_bind_ok] at h
    obtain ⟨kb1, h1, h⟩ := h
    have f0 : key_frame kb (unlatch_mods kb) := by
      rw [unlatch_mods_eq]
      exact ⟨rfl, Or.inl rfl⟩
    have f1 : key_frame (unlatch_mods kb) kb1 := by
      split_ifs at h1
      · exact vkbd_request_key_frame _ _ _ h1
      · cases h1
        exact key_frame_refl _
    rw [except_bind_ok] at h
    obtain ⟨kb2, h2, h⟩ := h
    have f2 : key_frame kb1 kb2 := by
      unfold unpress_release at h2
      split_ifs at h2 <;> exact vkbd_request_key_frame _ _ _ h2
    rw [except_bind_ok] at h
    obtain ⟨kb3, h3, h⟩ := h
    cases h
    have f3 : key_frame kb2 kb3 := by
      unfold unpress_finish at h3
      split_ifs at h3
      · split at h3
        · cases h3
        · exact key_frame_trans _ { kb2 with compose := 0 } _ ⟨rfl, Or.inl rfl⟩
            (kbd_switch_layout_key_frame _ _ _ _ h3)
      · cases h3
        exact kbd_draw_layout_key_frame _
      · cases h3
        exact key_frame_refl _
    exact key_frame_trans _ _ _ (key_frame_trans _ _ _ (key_frame_trans _ _ _
      (key_frame_trans _ _ _ f0 f1) f2) f3) ⟨rfl, Or.inl rfl⟩

/-- A returning call of `kbd_release_key` changes nothing but what a key release
may change. -/
theorem kbd_release_key_key_frame (kb kb' : kbd) (time : Nat)
    (h : kbd_release_key kb time = .ok kb') : key_frame kb kb' := by
  unfold kbd_release_key at h
  rw [except_bind_ok] at h
  obtain ⟨kb1, h1, h⟩ := h
  have f1 := kbd_unpress_key_key_frame kb kb1 time h1
  split_ifs at h
  · cases h
    exact key_frame_trans _ _ _ f1 (key_frame_trans _ { kb1 with stdout := kb1.stdout ++ [10] } _
      ⟨rfl, Or.inl rfl⟩ (key_frame_trans _ _ _ (kbd_draw_layout_key_frame _) ⟨rfl, Or.inl rfl⟩))
  · cases h
    exact f1
/-! ### Commits and the pending swipe -/

theorem edit_frame_refl (a : kbd) : edit_frame a a :=
  ⟨rfl, Or.inl rfl, Or.inl ⟨rfl, rfl⟩⟩

theorem edit_frame_trans (a b c : kbd) (h1 : edit_frame a b) (h2 : edit_frame b c) :
    edit_frame a c := by
  obtain ⟨e1, p1, q1⟩ := h1
  obtain ⟨e2, p2, q2⟩ := h2
  refine ⟨?_, ?_, ?_⟩
  · have h := e2
    rw [e1] at h
    exact h
  · rcases p2 with p2 | p2
    · rw [p2]
      exact p1
    · exact Or.inr p2
  · rcases q2 with q2 | q2
    · rw [q2.1, q2.2]
      exact q1
    · exact Or.inr q2

/-- Protocol requests alone are within what a commit may change. -/
theorem edit_frame_of_typed (a b : kbd) (h : typed a b) : edit_frame a b := by
  obtain ⟨es, rfl⟩ := h
  exact ⟨rfl, Or.inl rfl, Or.inl ⟨rfl, rfl⟩⟩

/-- With no swipe pending before a key is handled, none is pending after. -/
theorem swipe_cleared_of_key_frame (a b : kbd) (h : key_frame a b) (ha : swipe_cleared a) :
    swipe_cleared b := by
  obtain ⟨e, p⟩ := h
  obtain ⟨a1, a2, a3⟩ := ha
  refine ⟨?_, ?_, ?_⟩
  · rw [e]
    exact a1
  · rw [e]
    exact a2
  · rcases p with p | p
    · rw [p]
      exact a3
    · exact p

/-- With no swipe pending before a commit, none is pending after. -/
theorem swipe_cleared_of_edit_frame (a b : kbd) (h : edit_frame a b) (ha : swipe_cleared a) :
    swipe_cleared b := by
  obtain ⟨-, p, q⟩ := h
  obtain ⟨a1, a2, a3⟩ := ha
  refine ⟨?_, ?_, ?_⟩
  · rcases q with q | q
    · rw [q.1]
      exact a1
    · exact q.1
  · rcases q with q | q
    · rw [q.2]
      exact a2
    · exact q.2
  · rcases p with p | p
    · rw [p]
      exact a3
    · exact p

/-- A key press or release leaves the token alone. -/
theorem token_frame_of_key_frame (a b : kbd) (h : key_frame a b) : token_frame a b := by
  obtain ⟨e, -⟩ := h
  constructor
  · rw [e]
  · rw [e]

/-- A key press or release leaves the context ring alone. -/
theorem context_frame_of_key_frame (a b : kbd) (h : key_frame a b) : context_frame a b := by
  obtain ⟨e, -⟩ := h
  refine ⟨?_, ?_, ?_, ?_⟩ <;> rw [e]

/-- Redrawing is within what a commit may change, and sends nothing. -/
theorem kbd_draw_layout_edit_frame (kb : kbd) :
    edit_frame kb (kbd_draw_layout kb) ∧ (kbd_draw_layout kb).out = kb.out := by
  refine ⟨⟨?_, kbd_draw_layout_points kb, Or.inl ?_⟩, ?_⟩
  · rw [kbd_draw_layout_eq]
  · rw [kbd_draw_layout_eq]
    exact ⟨rfl, rfl⟩
  · rw [kbd_draw_layout_eq]

/-- Building the suggestion list changes the suggestion list alone. -/
theorem kbd_suggestions_from_candidates_sugs (kb : kbd) (cands : List wvkbd_candidate) :
    kbd_suggestions_from_candidates kb cands =
      { kb with suggestions := (kbd_suggestions_from_candidates kb cands).suggestions } := by
  unfold kbd_suggestions_from_candidates
  dsimp only
  split_ifs <;> rfl

/-- A prefix refresh is within what a commit may change, and sends nothing. -/
theorem kbd_update_suggestions_prefix_edit_frame (kb : kbd) :
    edit_frame kb ( kbd_update_suggestions_prefix kb) ∧
      ( kbd_update_suggestions_prefix kb).out = kb.out := by
  unfold kbd_update_suggestions_prefix
  split
  · exact ⟨⟨rfl, Or.inl rfl, Or.inl ⟨rfl, rfl⟩⟩, rfl⟩
  · rename_i p hp
    have f1 : edit_frame kb { (kbd_suggestions_from_candidates kb
        (p.predict_prefix kb.current_token kb.suggest_visible_count)) with
        suggest_mode := .WVKBD_SMODE_PREFIX } := by
      rw [kbd_suggestions_from_candidates_sugs]
      exact ⟨rfl, Or.inl rfl, Or.inl ⟨rfl, rfl⟩⟩
    have f2 := kbd_draw_layout_edit_frame { (kbd_suggestions_from_candidates kb
        (p.predict_prefix kb.current_token kb.suggest_visible_count)) with
        suggest_mode := .WVKBD_SMODE_PREFIX }
    refine ⟨edit_frame_trans _ _ _ f1 f2.1, ?_⟩
    rw [f2.2, kbd_suggestions_from_candidates_sugs]

/-- A next-word refresh that returns is within what a commit may change, and
sends nothing. -/
theorem kbd_update_suggestions_next_word_edit_frame (kb kb' : kbd)
    (h : kbd_update_suggestions_next_word kb = .ok kb') :
    edit_frame kb kb' ∧ kb'.out = kb.out := by
  unfold kbd_update_suggestions_next_word at h
  split at h
  · cases h
    exact ⟨⟨rfl, Or.inl rfl, Or.inl ⟨rfl, rfl⟩⟩, rfl⟩
  · rename_i p hp
    rw [except_bind_ok] at h
    obtain ⟨lw, -, h⟩ := h
    cases h
    have f1 : edit_frame kb { (kbd_suggestions_from_candidates kb
        (p.predict_next_word lw kb.suggest_visible_count)) with
        suggest_mode := .WVKBD_SMODE_NEXT_WORD } := by
      rw [kbd_suggestions_from_candidates_sugs]
      exact ⟨rfl, Or.inl rfl, Or.inl ⟨rfl, rfl⟩⟩
    have f2 := kbd_draw_layout_edit_frame { (kbd_suggestions_from_candidates kb
        (p.predict_next_word lw kb.suggest_visible_count)) with
        suggest_mode := .WVKBD_SMODE_NEXT_WORD }
    refine ⟨edit_frame_trans _ _ _ f1 f2.1, ?_⟩
    rw [f2.2, kbd_suggestions_from_candidates_sugs]

/-- A push onto the context ring that returns is within what a commit may
change, and sends nothing. -/
theorem kbd_context_push_word_edit_frame (kb kb' : kbd) (word : List Nat)
    (h : kbd_context_push_word kb word = .ok kb') :
    edit_frame kb kb' ∧ kb'.out = kb.out := by
  unfold kbd_context_push_word at h
  dsimp only at h
  split_ifs at h <;> cases h <;> exact ⟨⟨rfl, Or.inl rfl, Or.inl ⟨rfl, rfl⟩⟩, rfl⟩

theorem kbd_commit_token_if_needed_edit_frame (kb kb' : kbd)
    (h : kbd_commit_token_if_needed kb = .ok kb') :
    edit_frame kb kb' ∧ kb'.out = kb.out := by
  unfold kbd_commit_token_if_needed at h
  split_ifs at h
  · cases h
    exact ⟨edit_frame_refl _, rfl⟩
  · rw [except_bind_ok] at h
    obtain ⟨kb1, h1, h⟩ := h
    cases h
    obtain ⟨f1, o1⟩ := kbd_context_push_word_edit_frame _ _ _ h1
    exact ⟨edit_frame_trans _ _ _ f1 ⟨rfl, Or.inl rfl, Or.inl ⟨rfl, rfl⟩⟩, o1⟩

theorem clear_pending_swipe_edit_frame (kb : kbd) :
    edit_frame kb (clear_pending_swipe kb) :=
  ⟨rfl, Or.inl rfl, Or.inr ⟨rfl, rfl⟩⟩

theorem committed_separator_edit_frame (kb kb' : kbd)
    (h : committed_separator kb = .ok kb') :
    edit_frame kb kb' ∧ kb'.out = kb.out := by
  unfold committed_separator at h
  rw [except_bind_ok] at h
  obtain ⟨kb1, h1, h⟩ := h
  obtain ⟨f1, o1⟩ := kbd_commit_token_if_needed_edit_frame _ _ h1
  obtain ⟨f2, o2⟩ := kbd_update_suggestions_next_word_edit_frame _ _ h
  exact ⟨edit_frame_trans _ _ _ (clear_pending_swipe_edit_frame kb)
    (edit_frame_trans _ _ _ f1 f2), o2.trans o1⟩

theorem committed_token_char_edit_frame (kb kb' : kbd) (label : List Nat)
    (h : committed_token_char kb label = .ok kb') :
    edit_frame kb kb' ∧ kb'.out = kb.out := by
  unfold committed_token_char at h
  dsimp only at h
  split_ifs at h
  · cases h
    obtain ⟨f, o⟩ := kbd_update_suggestions_prefix_edit_frame
      { clear_pending_swipe kb with
        current_token := (clear_pending_swipe kb).current_token ++ label,
        current_token_len := ((clear_pending_swipe kb).current_token ++ label).length }
    refine ⟨edit_frame_trans _ _ _ ?_ f, o⟩
    exact ⟨rfl, Or.inl rfl, Or.inr ⟨rfl, rfl⟩⟩
  · cases h
    exact ⟨clear_pending_swipe_edit_frame kb, rfl⟩

theorem committed_label_edit_frame (kb kb' : kbd) (label : Option (List Nat))
    (h : committed_label kb label = .ok kb') :
    edit_frame kb kb' ∧ kb'.out = kb.out := by
  unfold committed_label at h
  split at h
  · cases h
    exact ⟨edit_frame_refl _, rfl⟩
  · split_ifs at h
    · exact committed_separator_edit_frame kb kb' h
    · exact committed_token_char_edit_frame kb kb' _ h
    · cases h
      exact ⟨edit_frame_refl _, rfl⟩

/-- A committed key changes nothing but what a commit may change, and sends
nothing. -/
theorem kbd_handle_committed_key_edit_frame (kb kb' : kbd) (k : key) (mods_before : Nat)
    (h : kbd_handle_committed_key kb k mods_before = .ok kb') :
    edit_frame kb kb' ∧ kb'.out = kb.out := by
  unfold kbd_handle_committed_key at h
  split_ifs at h
  · cases h
    obtain ⟨f, o⟩ := kbd_update_suggestions_prefix_edit_frame
      { clear_pending_swipe kb with
        current_token := utf8_pop_last kb.current_token,
        current_token_len := (utf8_pop_last kb.current_token).length }
    refine ⟨edit_frame_trans _ _ _ ?_ f, o⟩
    exact ⟨rfl, Or.inl rfl, Or.inr ⟨rfl, rfl⟩⟩
  · exact committed_separator_edit_frame kb kb' h
  · exact committed_label_edit_frame kb kb' _ h
  · exact committed_label_edit_frame kb kb' _ h
  · cases h
    exact ⟨edit_frame_refl _, rfl⟩

/-- With a well-formed token the token-character branch returns. -/
theorem committed_token_char_returns (kb : kbd) (label : List Nat) (htok : token_ok kb)
    (hl : kbd_is_token_char_label label = true) :
    ∃ kb', committed_token_char kb label = .ok kb' := by
  have hl1 := token_char_length label hl
  unfold committed_token_char
  dsimp only
  obtain ⟨hlen, hfit⟩ := htok
  have h1 : (clear_pending_swipe kb).current_token_len = (kb.current_token.length : Int) := hlen
  have h2 : (clear_pending_swipe kb).current_token = kb.current_token := rfl
  rw [h1, h2]
  split_ifs with ha hb
  · exfalso
    simp only [WVKBD_MAX_TOKEN_BYTES] at ha hb hfit
    have h3 : (((kb.current_token.length : Int) % 2 ^ 64).toNat) = kb.current_token.length := by
      omega
    rw [h3] at ha
    omega
  · exact ⟨_, rfl⟩
  · exact ⟨_, rfl⟩

/-- With a well-formed token, a key that is no separator is committed without
fault. -/
theorem kbd_handle_committed_key_returns (kb : kbd) (k : key) (mods_before : Nat)
    (htok : token_ok kb) (hns : kbd_key_is_separator k mods_before = false) :
    ∃ kb', kbd_handle_committed_key kb k mods_before = .ok kb' := by
  have hlabel : ∀ label : Option (List Nat),
      (match label with
        | some label => kbd_is_separator_label label
        | none => false) = false →
      ∃ kb', committed_label kb label = .ok kb' := by
    intro label hl
    unfold committed_label
    cases label with
    | none => exact ⟨_, rfl⟩
    | some label =>
      dsimp only at hl ⊢
      rw [if_neg (by rw [hl]; simp)]
      split_ifs with ht
      · exact committed_token_char_returns kb label htok ht
      · exact ⟨_, rfl⟩
  unfold kbd_key_is_separator at hns
  unfold kbd_handle_committed_key
  by_cases hcode : k.type = .Code
  · rw [if_pos hcode] at hns ⊢
    by_cases hbs : k.code = KEY_BACKSPACE
    · rw [if_pos hbs]
      exact ⟨_, rfl⟩
    · rw [if_neg hbs]
      by_cases hse : k.code = KEY_SPACE ∨ k.code = KEY_ENTER
      · rw [if_pos hse] at hns
        cases hns
      · rw [if_neg hse] at hns ⊢
        exact hlabel _ hns
  · rw [if_neg hcode] at hns ⊢
    by_cases hcopy : k.type = .Copy
    · rw [if_pos hcopy] at hns ⊢
      exact hlabel _ hns
    · rw [if_neg hcopy]
      exact ⟨_, rfl⟩
/-! ### A tap after a swipe -/

/-- In Tap mode `kbd_input_up` runs the tap case. -/
theorem kbd_input_up_tap (suggestion_tap : kbd → Nat → Nat → Nat → Except Fault kbd)
    (kb : kbd) (time_ms x y : Nat) (hmode : kb.input_mode = .KBD_INPUT_TAP) :
    kbd_input_up suggestion_tap kb time_ms x y =
      input_up_tap { kb with input_down := false } time_ms x y := by
  unfold kbd_input_up
  split <;> rename_i heq <;> rw [hmode] at heq <;> cases heq

/-- The tap case of `kbd_input_up` on a point that resolves to the key `k`. -/
theorem input_up_tap_key (kb : kbd) (time_ms x y : Nat) (hit : Option key) (k : key)
    (hhit : kbd_get_key_value kb x y = .ok hit) (hk : input_up_resolve kb hit = some k) :
    input_up_tap { kb with input_down := false } time_ms x y =
      (input_up_key { kb with input_down := false, preview_key := none } k time_ms >>=
        fun kb5 => Except.ok { (kbd_draw_layout kb5) with input_mode := .KBD_INPUT_NONE }) := by
  unfold input_up_tap
  have e3 : kbd_get_key_value { kb with input_down := false } x y = .ok hit := hhit
  have e4 : input_up_resolve { kb with input_down := false } hit = some k := hk
  rw [e3]
  simp only [bind, Except.bind]
  rw [e4]

/-- C22: when a tap in Tap mode resolves to a key that is no separator while a
swipe word is pending or the suggestion mode is Swipe, and the press and the
release of that key return, `kbd_input_up` returns and commits no suggestion:
the trace is the one the press and the release of the key leave, and afterwards
`pending_swipe` is false, `pending_swipe_word` is empty and the swipe point
buffer is empty. -/
theorem kbd_input_up_non_separator
    (suggestion_tap : kbd → Nat → Nat → Nat → Except Fault kbd)
    (kb : kbd) (time_ms x y : Nat) (hit : Option key) (k : key) (kb2 kb3 : kbd)
    (hmode : kb.input_mode = .KBD_INPUT_TAP)
    (hhit : kbd_get_key_value kb x y = .ok hit)
    (hk : input_up_resolve kb hit = some k)
    (hns : kbd_key_is_separator k kb.mods = false)
    (hpend : swipe_pending kb = true)
    (htok : token_ok kb)
    (hp : kbd_press_key (input_up_discard { kb with input_down := false, preview_key := none })
      k time_ms = .ok kb2)
    (hr : kbd_release_key kb2 time_ms = .ok kb3) :
    ∃ kb', kbd_input_up suggestion_tap kb time_ms x y = .ok kb' ∧
      kb'.out = kb3.out ∧
      kb'.pending_swipe = false ∧ kb'.pending_swipe_word = [] ∧ kb'.swipe_points = [] := by
  have f2 := kbd_press_key_key_frame _ _ _ _ hp
  have f3 := kbd_release_key_key_frame _ _ _ hr
  have f23 := key_frame_trans _ _ _ f2 f3
  have htok3 : token_ok kb3 := token_ok_of_frame _ _ (token_frame_of_key_frame _ _ f23) htok
  have hcl3 : swipe_cleared kb3 := swipe_cleared_of_key_frame _ _ f23 ⟨rfl, rfl, rfl⟩
  obtain ⟨kb4, h4⟩ := kbd_handle_committed_key_returns kb3 k kb.mods htok3 hns
  obtain ⟨f4, o4⟩ := kbd_handle_committed_key_edit_frame _ _ _ _ h4
  have hcl4 := swipe_cleared_of_edit_frame _ _ f4 hcl3
  obtain ⟨f5, o5⟩ := kbd_draw_layout_edit_frame kb4
  have hcl5 := swipe_cleared_of_edit_frame _ _ f5 hcl4
  refine ⟨{ (kbd_draw_layout kb4) with input_mode := .KBD_INPUT_NONE }, ?_,
    o5.trans o4, hcl5.1, hcl5.2.1, hcl5.2.2⟩
  have hkey : input_up_key { kb with input_down := false, preview_key := none } k time_ms =
      .ok kb4 := by
    unfold input_up_key
    have e1 : kbd_key_is_separator k
        ({ kb with input_down := false, preview_key := none } : kbd).mods = false := hns
    have e2 : swipe_pending { kb with input_down := false, preview_key := none } = true := hpend
    rw [if_neg (by rw [e1]; simp), if_pos e2]
    unfold input_up_press
    rw [hp]
    show (kbd_release_key kb2 time_ms >>= fun kb5 => kbd_handle_committed_key kb5 k kb.mods) = _
    rw [hr]
    exact h4
  rw [kbd_input_up_tap suggestion_tap kb time_ms x y hmode,
    input_up_tap_key kb time_ms x y hit k hhit hk, hkey]
  rfl

/-- With a well-formed token that is empty or starts the word
case-insensitively, and the keymaps defined, the commit of a non-empty word
returns: the token is the case-adjusted word, the trace has only grown, and
nothing but what a commit may change has changed; the context ring is as
before. -/
theorem kbd_commit_suggestion_returns (kb : kbd) (time_ms : Nat) (word : List Nat)
    (map : char_keymap)
    (htok : token_ok kb) (hw : word ≠ [])
    (hpre : kb.current_token = [] ∨ utf8_startswith (ascii_lower_inplace word)
      (ascii_lower_inplace kb.current_token) = true)
    (hk : keymaps_defined kb) (hmap : kbd_build_char_keymap kb = .ok map) :
    ∃ kb1, kbd_commit_suggestion kb time_ms (some word) = .ok kb1 ∧
      kb1.current_token = kbd_adjust_suggestion_case kb (some word) kb.mods ∧
      kb1.current_token ≠ [] ∧
      (∃ es, kb1.out = kb.out ++ es) ∧ edit_frame kb kb1 ∧ context_frame kb kb1 := by
  have hadj2 : kbd_adjust_suggestion_case (clear_pending_swipe kb) (some (strncpy_token word))
      kb.mods = adjusted_case_spec kb.current_token kb.mods word := by
    rw [kbd_adjust_suggestion_case_eq (clear_pending_swipe kb) _ kb.mods htok]
    exact adjusted_case_spec_copy _ _ _
  rw [kbd_adjust_suggestion_case_eq kb word kb.mods htok]
  have hcut : strncpy_token (adjusted_case_spec kb.current_token kb.mods word) =
      adjusted_case_spec kb.current_token kb.mods word := by
    apply List.take_of_length_le
    rw [(adjusted_case_spec_lower _ _ _).1, List.length_take]
    exact Nat.min_le_left _ _
  have hane : adjusted_case_spec kb.current_token kb.mods word ≠ [] := by
    intro h
    have h2 := (adjusted_case_spec_lower kb.current_token kb.mods word).1
    rw [h, List.length_take] at h2
    have h3 := List.length_pos.mpr hw
    simp only [List.length_nil] at h2
    omega
  obtain ⟨hlen, hfit⟩ := htok
  have hcopy : strncpy_token kb.current_token = kb.current_token :=
    List.take_of_length_le hfit
  have hstart : kb.current_token_len > 0 →
      utf8_startswith (ascii_lower_inplace (strncpy_token (strncpy_token word)))
        (ascii_lower_inplace kb.current_token) = true := by
    intro hpos
    rcases hpre with he | hpre
    · rw [hlen, he] at hpos
      exact absurd hpos (by decide)
    · unfold utf8_startswith ascii_lower_inplace at hpre
      unfold utf8_startswith ascii_lower_inplace strncpy_token
      rw [ List.isPrefixOf_iff_prefix] at hpre ⊢
      rw [List.take_take, List.map_take, List.prefix_take_iff]
      exact ⟨hpre, by rw [List.length_map]; exact hfit.trans (by decide)⟩
  have hfinish : ∀ kb2, typed (clear_pending_swipe kb) kb2 →
      ( kbd_update_suggestions_prefix
        { kb2 with
          current_token := adjusted_case_spec kb.current_token kb.mods word,
          current_token_len :=
            (adjusted_case_spec kb.current_token kb.mods word).length }).current_token =
        adjusted_case_spec kb.current_token kb.mods word ∧
      (∃ es, ( kbd_update_suggestions_prefix
        { kb2 with
          current_token := adjusted_case_spec kb.current_token kb.mods word,
          current_token_len :=
            (adjusted_case_spec kb.current_token kb.mods word).length }).out = kb.out ++ es) ∧
      edit_frame kb ( kbd_update_suggestions_prefix
        { kb2 with
          current_token := adjusted_case_spec kb.current_token kb.mods word,
          current_token_len := (adjusted_case_spec kb.current_token kb.mods word).length }) ∧
      context_frame kb ( kbd_update_suggestions_prefix
        { kb2 with
          current_token := adjusted_case_spec kb.current_token kb.mods word,
          current_token_len :=
            (adjusted_case_spec kb.current_token kb.mods word).length }) := by
    intro kb2 ht
    obtain ⟨es, rfl⟩ := ht
    obtain ⟨f, o⟩ := kbd_update_suggestions_prefix_edit_frame
      { ({ clear_pending_swipe kb with out := (clear_pending_swipe kb).out ++ es } : kbd) with
        current_token := adjusted_case_spec kb.current_token kb.mods word,
        current_token_len := (adjusted_case_spec kb.current_token kb.mods word).length }
    refine ⟨( kbd_update_suggestions_prefix_token _).1, ⟨es, o⟩, ?_, ?_⟩
    · refine edit_frame_trans _ _ _ ?_ f
      exact ⟨rfl, Or.inl rfl, Or.inr ⟨rfl, rfl⟩⟩
    · refine context_frame_trans _ _ _ ?_ ( kbd_update_suggestions_prefix_context _)
      exact ⟨rfl, rfl, rfl, rfl⟩
  unfold kbd_commit_suggestion
  split
  · rename_i h
    cases h
  · rename_i h
    cases h
    exact absurd rfl hw
  · rename_i w hne hsome
    cases hsome
    dsimp only
    rw [hcopy]
    have hcond : ¬ (kb.current_token_len > 0 ∧
        utf8_startswith (ascii_lower_inplace (strncpy_token (strncpy_token word)))
          (ascii_lower_inplace kb.current_token) = false) := by
      rintro ⟨hpos, hf⟩
      rw [hstart hpos] at hf
      cases hf
    rw [if_neg hcond]
    show ∃ kb', kbd_commit_suggestion_typed (clear_pending_swipe kb) time_ms (strncpy_token word) =
      .ok kb' ∧ _
    unfold kbd_commit_suggestion_typed
    show ∃ kb', ((if kb.current_token_len > 0 then
        (if (kbd_adjust_suggestion_case (clear_pending_swipe kb) (some (strncpy_token word))
            kb.mods).drop kb.current_token.length ≠ [] then
          kbd_type_text (clear_pending_swipe kb) time_ms
            ((kbd_adjust_suggestion_case (clear_pending_swipe kb) (some (strncpy_token word))
              kb.mods).drop kb.current_token.length)
        else .ok (clear_pending_swipe kb))
      else kbd_type_text (clear_pending_swipe kb) time_ms
        (kbd_adjust_suggestion_case (clear_pending_swipe kb) (some (strncpy_token word))
          kb.mods)) >>= fun kb1 =>
      Except.ok ( kbd_update_suggestions_prefix
        { kb1 with
          current_token := strncpy_token
            (kbd_adjust_suggestion_case (clear_pending_swipe kb) (some (strncpy_token word))
              kb.mods),
          current_token_len := (strncpy_token
            (kbd_adjust_suggestion_case (clear_pending_swipe kb) (some (strncpy_token word))
              kb.mods)).length })) = .ok kb' ∧ _
    rw [hadj2, hcut]
    have hrun : ∃ kb2, (if kb.current_token_len > 0 then
        (if (adjusted_case_spec kb.current_token kb.mods word).drop
            kb.current_token.length ≠ [] then
          kbd_type_text (clear_pending_swipe kb) time_ms
            ((adjusted_case_spec kb.current_token kb.mods word).drop kb.current_token.length)
        else .ok (clear_pending_swipe kb))
      else kbd_type_text (clear_pending_swipe kb) time_ms
        (adjusted_case_spec kb.current_token kb.mods word)) = .ok kb2 ∧
        typed (clear_pending_swipe kb) kb2 := by
      split_ifs
      · exact kbd_type_text_typed (clear_pending_swipe kb) time_ms _ map hk hmap
      · exact ⟨_, rfl, typed_refl _⟩
      · exact kbd_type_text_typed (clear_pending_swipe kb) time_ms _ map hk hmap
    obtain ⟨kb2, h2, t2⟩ := hrun
    rw [h2]
    obtain ⟨g1, g2, g3, g4⟩ := hfinish kb2 t2
    exact ⟨_, rfl, g1, by rw [g1]; exact hane, g2, g3, g4⟩
/-! ### The events of a key press and release -/

/-- Printing a key whose labels are there returns and changes the printed bytes
alone. -/
theorem kbd_print_key_stdout_returns (kb : kbd) (k : key)
    (hl : k.label ≠ none) (hs : k.shift_label ≠ none) :
    ∃ bytes, kbd_print_key_stdout kb k = .ok { kb with stdout := bytes } := by
  rcases kbd_print_key_stdout_cases kb k with h | ⟨-, h | h⟩
  · exact h
  · exact absurd h hl
  · exact absurd h hs

/-- The `print` statement of the press handlers returns when nothing is printed
or the labels of the key are there, and changes the printed bytes alone. -/
theorem press_print_returns (kb : kbd) (k : key)
    (hprint : (kb.print = false ∧ kb.print_intersect = false) ∨
      (k.label ≠ none ∧ k.shift_label ≠ none)) :
    ∃ bytes, press_print kb k = .ok { kb with stdout := bytes } := by
  unfold press_print
  split_ifs with h
  · rcases hprint with ⟨h1, h2⟩ | ⟨h1, h2⟩
    · rw [h1, h2] at h
      simp at h
    · exact kbd_print_key_stdout_returns kb k h1 h2
  · exact ⟨kb.stdout, rfl⟩

/-- The `Code` case of a key press returns: it sends modifier requests and then
one press event, and the key is the pressed key. -/
theorem press_code_returns (kb : kbd) (k : key) (time : Nat) (hv : kb.vkbd = true)
    (hprint : (kb.print = false ∧ kb.print_intersect = false) ∨
      (k.label ≠ none ∧ k.shift_label ≠ none)) :
    ∃ kb2 es c, press_code kb k time = .ok kb2 ∧
      kb2.out = kb.out ++ es ++ [.keyev time c true] ∧ (∀ e ∈ es, key_event e = false) ∧
      kb2.last_press = some k ∧ kb2.last_abc_layout = kb.last_abc_layout := by
  have h1 : ∃ m, press_code_modifiers kb k =
      .ok { kb with out := kb.out ++ [.modifiers m] } := by
    unfold press_code_modifiers
    split_ifs <;> exact ⟨_, vkbd_request_typed kb _ hv⟩
  obtain ⟨m, h1⟩ := h1
  have h2 : ∃ es c, (∀ e ∈ es, key_event e = false) ∧
      press_code_key (pressed kb k (kb.out ++ [.modifiers m])) k time =
        .ok (pressed kb k (kb.out ++ [.modifiers m] ++ es ++ [.keyev time c true])) := by
    unfold press_code_key
    split_ifs
    · refine ⟨[.modifiers 0], KEY_TAB, by decide, ?_⟩
      have hv1 : (pressed kb k (kb.out ++ [.modifiers m])).vkbd = true := hv
      have hv2 : (pressed kb k (kb.out ++ [.modifiers m] ++ [.modifiers 0])).vkbd = true := hv
      change (vkbd_request _ _ >>= fun kb5 => vkbd_request kb5 (.keyev time KEY_TAB true)) = _
      rw [vkbd_request_typed _ _ hv1]
      exact vkbd_request_typed (pressed kb k (kb.out ++ [.modifiers m] ++ [.modifiers 0])) _ hv2
    · refine ⟨[], k.code, by simp, ?_⟩
      have hv1 : (pressed kb k (kb.out ++ [.modifiers m])).vkbd = true := hv
      rw [vkbd_request_typed _ _ hv1, List.append_nil]
      rfl
  obtain ⟨es, c, hes, h2⟩ := h2
  obtain ⟨bytes, h3⟩ := press_print_returns
    (pressed kb k (kb.out ++ [.modifiers m] ++ es ++ [.keyev time c true])) k hprint
  have hrun : press_code kb k time = .ok
      (if kb.compose ≠ 0 then
        { pressed kb k (kb.out ++ [.modifiers m] ++ es ++ [.keyev time c true]) with
          stdout := bytes, compose := (kb.compose + 1) % 256 }
      else
        { pressed kb k (kb.out ++ [.modifiers m] ++ es ++ [.keyev time c true]) with
          stdout := bytes }) := by
    unfold press_code
    rw [h1]
    change (press_code_key (pressed kb k (kb.out ++ [.modifiers m])) k time >>= fun kb5 =>
      press_print kb5 k >>= fun kb6 =>
        Except.ok (if kb6.compose ≠ 0 then { kb6 with compose := (kb6.compose + 1) % 256 }
          else kb6)) = _
    rw [h2]
    change (press_print _ k >>= fun kb6 =>
        Except.ok (if kb6.compose ≠ 0 then { kb6 with compose := (kb6.compose + 1) % 256 }
          else kb6)) = _
    rw [h3]
    rfl
  refine ⟨_, .modifiers m :: es, c, hrun, ?_, ?_, ?_, ?_⟩
  · split_ifs <;> simp [pressed]
  · intro e he
    rcases List.mem_cons.mp he with rfl | he
    · rfl
    · exact hes e he
  · split_ifs <;> rfl
  · split_ifs <;> rfl

/-- The `Copy` case of a key press returns: it uploads a keymap, sends the
modifiers and then one press event, and the key is the pressed key. -/
theorem press_copy_returns (kb : kbd) (k : key) (time : Nat) (hk : keymaps_defined kb)
    (hprint : (kb.print = false ∧ kb.print_intersect = false) ∨
      (k.label ≠ none ∧ k.shift_label ≠ none)) :
    ∃ kb2 es c, press_copy kb k time = .ok kb2 ∧
      kb2.out = kb.out ++ es ++ [.keyev time c true] ∧ (∀ e ∈ es, key_event e = false) ∧
      kb2.last_press = some k ∧ kb2.last_abc_layout = kb.last_abc_layout := by
  obtain ⟨hv, hn⟩ := hk
  have hv0 : (pressed kb k kb.out).vkbd = true := hv
  have h1 := create_and_upload_keymap_typed (pressed kb k kb.out)
    (kb.layouts kb.layout).keymap_name k.code k.code_mod hv0 (hn _)
  have hv1 : (pressed kb k (kb.out ++
      [.keymap (kb.layouts kb.layout).keymap_name k.code k.code_mod])).vkbd = true := hv
  have hv2 : (pressed kb k (kb.out ++
      [.keymap (kb.layouts kb.layout).keymap_name k.code k.code_mod] ++
      [.modifiers kb.mods])).vkbd = true := hv
  obtain ⟨bytes, h3⟩ := press_print_returns
    (pressed kb k (kb.out ++ [.keymap (kb.layouts kb.layout).keymap_name k.code k.code_mod] ++
      [.modifiers kb.mods] ++ [.keyev time 127 true])) k hprint
  have hrun : press_copy kb k time = .ok
      { pressed kb k (kb.out ++ [.keymap (kb.layouts kb.layout).keymap_name k.code k.code_mod] ++
          [.modifiers kb.mods] ++ [.keyev time 127 true]) with stdout := bytes } := by
    unfold press_copy
    change (create_and_upload_keymap (pressed kb k kb.out) _ _ _ >>= fun kb4 =>
      vkbd_request kb4 (.modifiers kb4.mods) >>= fun kb5 =>
      vkbd_request kb5 (.keyev time 127 true) >>= fun kb6 => press_print kb6 k) = _
    rw [h1]
    change (vkbd_request (pressed kb k (kb.out ++
        [.keymap (kb.layouts kb.layout).keymap_name k.code k.code_mod]))
      (.modifiers kb.mods) >>= fun kb5 =>
      vkbd_request kb5 (.keyev time 127 true) >>= fun kb6 => press_print kb6 k) = _
    rw [vkbd_request_typed _ _ hv1]
    change (vkbd_request (pressed kb k (kb.out ++
        [.keymap (kb.layouts kb.layout).keymap_name k.code k.code_mod] ++
        [.modifiers kb.mods])) (.keyev time 127 true) >>= fun kb6 => press_print kb6 k) = _
    rw [vkbd_request_typed _ _ hv2]
    exact h3
  refine ⟨_, [.keymap (kb.layouts kb.layout).keymap_name k.code k.code_mod, .modifiers kb.mods],
    127, hrun, ?_, ?_, rfl, rfl⟩
  · simp [pressed]
  · intro e he
    simp only [List.mem_cons, List.mem_singleton, List.not_mem_nil, or_false] at he
    rcases he with rfl | rfl <;> rfl

/-- A key that `kbd_key_is_separator` accepts is a `Code` or a `Copy` key. -/
theorem separator_key_type (k : key) (mods_before : Nat)
    (h : kbd_key_is_separator k mods_before = true) : k.type = .Code ∨ k.type = .Copy := by
  unfold kbd_key_is_separator at h
  by_cases hc : k.type = .Code
  · exact Or.inl hc
  · rw [if_neg hc] at h
    by_cases hp : k.type = .Copy
    · exact Or.inr hp
    · rw [if_neg hp] at h
      cases h

/-- With no compose selection pending, the press of a `Code` or `Copy` key
returns: it sends requests that are no key events and then one press event, the
key is the pressed key, and nothing but what a key press may change has
changed. -/
theorem kbd_press_key_returns (kb : kbd) (k : key) (time : Nat) (hk : keymaps_defined kb)
    (hcomp : kb.compose ≠ 1) (htype : k.type = .Code ∨ k.type = .Copy)
    (hprint : (kb.print = false ∧ kb.print_intersect = false) ∨
      (k.label ≠ none ∧ k.shift_label ≠ none)) :
    ∃ kb2 es c, kbd_press_key kb k time = .ok kb2 ∧
      kb2.out = kb.out ++ es ++ [.keyev time c true] ∧ (∀ e ∈ es, key_event e = false) ∧
      kb2.last_press = some k ∧ kb2.last_abc_layout = kb.last_abc_layout ∧
      key_frame kb kb2 := by
  have hrun : kbd_press_key kb k time =
      if k.type = .Code then press_code kb k time else press_copy kb k time := by
    unfold kbd_press_key
    rw [if_neg (fun h => hcomp h.1)]
    rcases htype with h | h
    · rw [h]
      rfl
    · rw [h]
      rfl
  by_cases hc : k.type = .Code
  · rw [if_pos hc] at hrun
    obtain ⟨kb2, es, c, h1, h2, h3, h4, h5⟩ := press_code_returns kb k time hk.1 hprint
    rw [← hrun] at h1
    exact ⟨kb2, es, c, h1, h2, h3, h4, h5, kbd_press_key_key_frame _ _ _ _ h1⟩
  · rw [if_neg hc] at hrun
    obtain ⟨kb2, es, c, h1, h2, h3, h4, h5⟩ := press_copy_returns kb k time hk hprint
    rw [← hrun] at h1
    exact ⟨kb2, es, c, h1, h2, h3, h4, h5, kbd_press_key_key_frame _ _ _ _ h1⟩

/-- With the keymaps defined and, when a compose sequence has run, a last
alphabetic layout to go back to, the end of `kbd_unpress_key` returns and
sends no key event. -/
theorem unpress_finish_returns (kb : kbd) (was_unlatched : Bool) (hk : keymaps_defined kb)
    (hlast : kb.compose ≥ 2 → kb.last_abc_layout ≠ none) :
    ∃ kb3 es3, unpress_finish kb was_unlatched = .ok kb3 ∧ kb3.out = kb.out ++ es3 ∧
      (∀ e ∈ es3, key_event e = false) := by
  have key : ∀ r, unpress_finish kb was_unlatched = r →
      ∃ kb3 es3, r = .ok kb3 ∧ kb3.out = kb.out ++ es3 ∧
        (∀ e ∈ es3, key_event e = false) := by
    intro r hr
    unfold unpress_finish at hr
    by_cases hc : kb.compose ≥ 2
    · rw [if_pos hc] at hr
      split at hr
      · rename_i hl
        exact absurd hl (hlast hc)
      · rename_i l hl
        rw [kbd_switch_layout_eq { kb with compose := 0 } l kb.last_abc_index
          (Or.inr ⟨hk.1, hk.2 l⟩)] at hr
        subst hr
        refine ⟨_, (if (kb.layouts kb.layout).keymap_name ≠ (kb.layouts l).keymap_name then
          [.keymap (kb.layouts l).keymap_name 0 0] else []), rfl, ?_, ?_⟩
        · rw [kbd_draw_layout_eq]
        · intro e he
          split_ifs at he
          · rw [List.mem_singleton] at he
            rw [he]
            rfl
          · cases he
    · rw [if_neg hc] at hr
      split_ifs at hr
      · subst hr
        refine ⟨_, [], rfl, ?_, by simp⟩
        rw [kbd_draw_layout_eq, List.append_nil]
      · subst hr
        exact ⟨_, [], rfl, (List.append_nil _).symm, by simp⟩
  exact key _ rfl

/-- With a key pressed, the keymaps defined and, when a compose sequence has
run, a last alphabetic layout to go back to, `kbd_unpress_key` returns: it
sends requests that are no key events, then one release event, then requests
that are no key events. -/
theorem kbd_unpress_key_returns (kb : kbd) (lp : key) (time : Nat) (hk : keymaps_defined kb)
    (hlp : kb.last_press = some lp) (hlast : kb.compose ≥ 2 → kb.last_abc_layout ≠ none) :
    ∃ kb3 es2 c es3, kbd_unpress_key kb time = .ok kb3 ∧
      kb3.out = kb.out ++ es2 ++ [.keyev time c false] ++ es3 ∧
      (∀ e ∈ es2, key_event e = false) ∧ (∀ e ∈ es3, key_event e = false) := by
  have hu := unlatch_mods_eq kb
  have hvu : (unlatch_mods kb).vkbd = true := by
    rw [hu]
    exact hk.1
  obtain ⟨K1, es2, h1, e1, n1⟩ : ∃ K1 es2,
      (if decide (unlatched kb) = true then
        vkbd_request (unlatch_mods kb) (.modifiers (unlatch_mods kb).mods)
      else .ok (unlatch_mods kb)) = .ok K1 ∧
      K1 = { kb with mods := K1.mods, out := kb.out ++ es2 } ∧
      (∀ e ∈ es2, key_event e = false) := by
    split_ifs
    · refine ⟨_, [.modifiers (unlatch_mods kb).mods], vkbd_request_typed _ _ hvu, ?_, ?_⟩
      · rw [hu]
      · intro e he
        rw [List.mem_singleton] at he
        rw [he]
        rfl
    · refine ⟨_, [], rfl, ?_, by simp⟩
      rw [hu, List.append_nil]
  have hv1 : K1.vkbd = true := by
    rw [e1]
    exact hk.1
  obtain ⟨K2, c, h2, e2⟩ : ∃ K2 c,
      unpress_release K1 lp (decide (kb.mods &&& Shift = Shift)) time = .ok K2 ∧
      K2 = { K1 with out := K1.out ++ [.keyev time c false] } := by
    unfold unpress_release
    split_ifs <;> exact ⟨_, _, vkbd_request_typed _ _ hv1, rfl⟩
  have hk2 : keymaps_defined K2 := by
    rw [e2, e1]
    exact hk
  have hl2 : K2.compose ≥ 2 → K2.last_abc_layout ≠ none := by
    rw [e2, e1]
    exact hlast
  obtain ⟨K3, es3, h3, e3, n3⟩ := unpress_finish_returns K2 (decide (unlatched kb)) hk2 hl2
  refine ⟨{ K3 with last_press := none }, es2, c, es3, ?_, ?_, n1, n3⟩
  · unfold kbd_unpress_key
    rw [hlp]
    dsimp only
    rw [except_bind_ok]
    refine ⟨K1, h1, ?_⟩
    rw [except_bind_ok]
    refine ⟨K2, h2, ?_⟩
    rw [except_bind_ok]
    exact ⟨K3, h3, rfl⟩
  · show K3.out = _
    rw [e3, e2]
    show K1.out ++ [Event.keyev time c false] ++ es3 = _
    rw [e1]

/-- With a key pressed, the keymaps defined and, when a compose sequence has
run, a last alphabetic layout to go back to, `kbd_release_key` returns: it
sends requests that are no key events, then one release event, then requests
that are no key events, and nothing but what a key release may change has
changed. -/
theorem kbd_release_key_returns (kb : kbd) (lp : key) (time : Nat) (hk : keymaps_defined kb)
    (hlp : kb.last_press = some lp) (hlast : kb.compose ≥ 2 → kb.last_abc_layout ≠ none) :
    ∃ kb3 es2 c es3, kbd_release_key kb time = .ok kb3 ∧
      kb3.out = kb.out ++ es2 ++ [.keyev time c false] ++ es3 ∧
      (∀ e ∈ es2, key_event e = false) ∧ (∀ e ∈ es3, key_event e = false) ∧
      key_frame kb kb3 := by
  obtain ⟨K3, es2, c, es3, h3, e3, n2, n3⟩ := kbd_unpress_key_returns kb lp time hk hlp hlast
  have hrun : ∃ kb3, kbd_release_key kb time = .ok kb3 ∧ kb3.out = K3.out := by
    unfold kbd_release_key
    rw [h3]
    show ∃ kb3, (if K3.print_intersect = true ∧ K3.last_swipe.isSome = true then
      Except.ok { (kbd_draw_layout { K3 with stdout := K3.stdout ++ [10] }) with last_swipe := none }
      else .ok K3) = .ok kb3 ∧ _
    split_ifs
    · refine ⟨_, rfl, ?_⟩
      rw [kbd_draw_layout_eq]
    · exact ⟨_, rfl, rfl⟩
  obtain ⟨kb3, hr, ho⟩ := hrun
  exact ⟨kb3, es2, c, es3, hr, ho.trans e3, n2, n3, kbd_release_key_key_frame _ _ _ hr⟩
/-- The Shift bit is set in a mask exactly when masking with it gives Shift. -/
theorem shift_set_iff (m : Nat) : m &&& Shift ≠ 0 ↔ m &&& Shift = Shift := by
  unfold Shift
  rw [Nat.and_one_is_mod]
  omega

/-- The `Code` case of a key press returns: it sends modifier requests and then
the press event with the code of the key (Tab for Shift and Space when
`shift_space_is_tab` is set); the key is the pressed key and the modifier mask
is as before. -/
theorem press_code_event (kb : kbd) (k : key) (time : Nat) (hv : kb.vkbd = true)
    (hcode : k.type = .Code)
    (hprint : (kb.print = false ∧ kb.print_intersect = false) ∨
      (k.label ≠ none ∧ k.shift_label ≠ none)) :
    ∃ kb2 es, press_code kb k time = .ok kb2 ∧
      kb2.out = kb.out ++ es ++ [.keyev time (key_event_code kb k) true] ∧
      (∀ e ∈ es, key_event e = false) ∧
      kb2.last_press = some k ∧ kb2.last_abc_layout = kb.last_abc_layout ∧
      kb2.mods = kb.mods ∧ kb2.shift_space_is_tab = kb.shift_space_is_tab := by
  have h1 : ∃ m, press_code_modifiers kb k =
      .ok { kb with out := kb.out ++ [.modifiers m] } := by
    unfold press_code_modifiers
    split_ifs <;> exact ⟨_, vkbd_request_typed kb _ hv⟩
  obtain ⟨m, h1⟩ := h1
  have h2 : ∃ es, (∀ e ∈ es, key_event e = false) ∧
      press_code_key (pressed kb k (kb.out ++ [.modifiers m])) k time =
        .ok (pressed kb k (kb.out ++ [.modifiers m] ++ es ++
          [.keyev time (key_event_code kb k) true])) := by
    unfold press_code_key key_event_code
    rw [if_neg (show ¬ k.type = .Copy by rw [hcode]; decide)]
    by_cases h : kb.shift_space_is_tab = true ∧ k.code = KEY_SPACE ∧ kb.mods &&& Shift ≠ 0
    · have h' : (pressed kb k (kb.out ++ [.modifiers m])).shift_space_is_tab = true ∧
          k.code = KEY_SPACE ∧ (pressed kb k (kb.out ++ [.modifiers m])).mods &&& Shift ≠ 0 := h
      rw [if_pos h', if_pos h]
      refine ⟨[.modifiers 0], by decide, ?_⟩
      have hv1 : (pressed kb k (kb.out ++ [.modifiers m])).vkbd = true := hv
      have hv2 : (pressed kb k (kb.out ++ [.modifiers m] ++ [.modifiers 0])).vkbd = true := hv
      change (vkbd_request _ _ >>= fun kb5 => vkbd_request kb5 (.keyev time KEY_TAB true)) = _
      rw [vkbd_request_typed _ _ hv1]
      exact vkbd_request_typed (pressed kb k (kb.out ++ [.modifiers m] ++ [.modifiers 0])) _ hv2
    · have h' : ¬ ((pressed kb k (kb.out ++ [.modifiers m])).shift_space_is_tab = true ∧
          k.code = KEY_SPACE ∧ (pressed kb k (kb.out ++ [.modifiers m])).mods &&& Shift ≠ 0) := h
      rw [if_neg h', if_neg h]
      refine ⟨[], by simp, ?_⟩
      have hv1 : (pressed kb k (kb.out ++ [.modifiers m])).vkbd = true := hv
      rw [vkbd_request_typed _ _ hv1, List.append_nil]
      rfl
  obtain ⟨es, hes, h2⟩ := h2
  obtain ⟨bytes, h3⟩ := press_print_returns
    (pressed kb k (kb.out ++ [.modifiers m] ++ es ++ [.keyev time (key_event_code kb k) true]))
    k hprint
  have hrun : press_code kb k time = .ok
      (if kb.compose ≠ 0 then
        { pressed kb k (kb.out ++ [.modifiers m] ++ es ++
            [.keyev time (key_event_code kb k) true]) with
          stdout := bytes, compose := (kb.compose + 1) % 256 }
      else
        { pressed kb k (kb.out ++ [.modifiers m] ++ es ++
            [.keyev time (key_event_code kb k) true]) with
          stdout := bytes }) := by
    unfold press_code
    rw [h1]
    change (press_code_key (pressed kb k (kb.out ++ [.modifiers m])) k time >>= fun kb5 =>
      press_print kb5 k >>= fun kb6 =>
        Except.ok (if kb6.compose ≠ 0 then { kb6 with compose := (kb6.compose + 1) % 256 }
          else kb6)) = _
    rw [h2]
    change (press_print _ k >>= fun kb6 =>
        Except.ok (if kb6.compose ≠ 0 then { kb6 with compose := (kb6.compose + 1) % 256 }
          else kb6)) = _
    rw [h3]
    rfl
  refine ⟨_, .modifiers m :: es, hrun, ?_, ?_, ?_, ?_, ?_, ?_⟩
  · split_ifs <;> simp [pressed]
  · intro e he
    rcases List.mem_cons.mp he with rfl | he
    · rfl
    · exact hes e he
  · split_ifs <;> rfl
  · split_ifs <;> rfl
  · split_ifs <;> rfl
  · split_ifs <;> rfl

/-- The `Copy` case of a key press returns: it uploads a keymap, sends the
modifiers and then the press event with the code 127; the key is the pressed
key and the modifier mask is as before. -/
theorem press_copy_event (kb : kbd) (k : key) (time : Nat) (hk : keymaps_defined kb)
    (hcopy : k.type = .Copy)
    (hprint : (kb.print = false ∧ kb.print_intersect = false) ∨
      (k.label ≠ none ∧ k.shift_label ≠ none)) :
    ∃ kb2 es, press_copy kb k time = .ok kb2 ∧
      kb2.out = kb.out ++ es ++ [.keyev time (key_event_code kb k) true] ∧
      (∀ e ∈ es, key_event e = false) ∧
      kb2.last_press = some k ∧ kb2.last_abc_layout = kb.last_abc_layout ∧
      kb2.mods = kb.mods ∧ kb2.shift_space_is_tab = kb.shift_space_is_tab := by
  have hc : key_event_code kb k = 127 := by
    unfold key_event_code
    rw [if_pos hcopy]
  rw [hc]
  obtain ⟨hv, hn⟩ := hk
  have hv0 : (pressed kb k kb.out).vkbd = true := hv
  have h1 := create_and_upload_keymap_typed (pressed kb k kb.out)
    (kb.layouts kb.layout).keymap_name k.code k.code_mod hv0 (hn _)
  have hv1 : (pressed kb k (kb.out ++
      [.keymap (kb.layouts kb.layout).keymap_name k.code k.code_mod])).vkbd = true := hv
  have hv2 : (pressed kb k (kb.out ++
      [.keymap (kb.layouts kb.layout).keymap_name k.code k.code_mod] ++
      [.modifiers kb.mods])).vkbd = true := hv
  obtain ⟨bytes, h3⟩ := press_print_returns
    (pressed kb k (kb.out ++ [.keymap (kb.layouts kb.layout).keymap_name k.code k.code_mod] ++
      [.modifiers kb.mods] ++ [.keyev time 127 true])) k hprint
  have hrun : press_copy kb k time = .ok
      { pressed kb k (kb.out ++ [.keymap (kb.layouts kb.layout).keymap_name k.code k.code_mod] ++
          [.modifiers kb.mods] ++ [.keyev time 127 true]) with stdout := bytes } := by
    unfold press_copy
    change (create_and_upload_keymap (pressed kb k kb.out) _ _ _ >>= fun kb4 =>
      vkbd_request kb4 (.modifiers kb4.mods) >>= fun kb5 =>
      vkbd_request kb5 (.keyev time 127 true) >>= fun kb6 => press_print kb6 k) = _
    rw [h1]
    change (vkbd_request (pressed kb k (kb.out ++
        [.keymap (kb.layouts kb.layout).keymap_name k.code k.code_mod]))
      (.modifiers kb.mods) >>= fun kb5 =>
      vkbd_request kb5 (.keyev time 127 true) >>= fun kb6 => press_print kb6 k) = _
    rw [vkbd_request_typed _ _ hv1]
    change (vkbd_request (pressed kb k (kb.out ++
        [.keymap (kb.layouts kb.layout).keymap_name k.code k.code_mod] ++
        [.modifiers kb.mods])) (.keyev time 127 true) >>= fun kb6 => press_print kb6 k) = _
    rw [vkbd_request_typed _ _ hv2]
    exact h3
  refine ⟨_, [.keymap (kb.layouts kb.layout).keymap_name k.code k.code_mod, .modifiers kb.mods],
    hrun, ?_, ?_, rfl, rfl, rfl, rfl⟩
  · simp [pressed]
  · intro e he
    simp only [List.mem_cons, List.mem_singleton, List.not_mem_nil, or_false] at he
    rcases he with rfl | rfl <;> rfl

/-- With no compose selection pending, the press of a `Code` or `Copy` key
returns: it sends requests that are no key events and then the press event of
the key, the key is the pressed key, the modifier mask is as before, and
nothing but what a key press may change has changed. -/
theorem kbd_press_key_event (kb : kbd) (k : key) (time : Nat) (hk : keymaps_defined kb)
    (hcomp : kb.compose ≠ 1) (htype : k.type = .Code ∨ k.type = .Copy)
    (hprint : (kb.print = false ∧ kb.print_intersect = false) ∨
      (k.label ≠ none ∧ k.shift_label ≠ none)) :
    ∃ kb2 es, kbd_press_key kb k time = .ok kb2 ∧
      kb2.out = kb.out ++ es ++ [.keyev time (key_event_code kb k) true] ∧
      (∀ e ∈ es, key_event e = false) ∧
      kb2.last_press = some k ∧ kb2.last_abc_layout = kb.last_abc_layout ∧
      kb2.mods = kb.mods ∧ kb2.shift_space_is_tab = kb.shift_space_is_tab ∧
      key_frame kb kb2 := by
  have hrun : kbd_press_key kb k time =
      if k.type = .Code then press_code kb k time else press_copy kb k time := by
    unfold kbd_press_key
    rw [if_neg (fun h => hcomp h.1)]
    rcases htype with h | h
    · rw [h]
      rfl
    · rw [h]
      rfl
  by_cases hc : k.type = .Code
  · rw [if_pos hc] at hrun
    obtain ⟨kb2, es, h1, h2, h3, h4, h5, h6, h7⟩ := press_code_event kb k time hk.1 hc hprint
    rw [← hrun] at h1
    exact ⟨kb2, es, h1, h2, h3, h4, h5, h6, h7, kbd_press_key_key_frame _ _ _ _ h1⟩
  · rw [if_neg hc] at hrun
    obtain ⟨kb2, es, h1, h2, h3, h4, h5, h6, h7⟩ :=
      press_copy_event kb k time hk (htype.resolve_left hc) hprint
    rw [← hrun] at h1
    exact ⟨kb2, es, h1, h2, h3, h4, h5, h6, h7, kbd_press_key_key_frame _ _ _ _ h1⟩

/-- With a key pressed, the keymaps defined and, when a compose sequence has
run, a last alphabetic layout to go back to, `kbd_unpress_key` returns: it
sends requests that are no key events, then the release event of the pressed
key, then requests that are no key events. -/
theorem kbd_unpress_key_event (kb : kbd) (lp : key) (time : Nat) (hk : keymaps_defined kb)
    (hlp : kb.last_press = some lp) (hlast : kb.compose ≥ 2 → kb.last_abc_layout ≠ none) :
    ∃ kb3 es2 es3, kbd_unpress_key kb time = .ok kb3 ∧
      kb3.out = kb.out ++ es2 ++ [.keyev time (key_event_code kb lp) false] ++ es3 ∧
      (∀ e ∈ es2, key_event e = false) ∧ (∀ e ∈ es3, key_event e = false) := by
  have hu := unlatch_mods_eq kb
  have hvu : (unlatch_mods kb).vkbd = true := by
    rw [hu]
    exact hk.1
  obtain ⟨K1, es2, h1, e1, n1⟩ : ∃ K1 es2,
      (if decide (unlatched kb) = true then
        vkbd_request (unlatch_mods kb) (.modifiers (unlatch_mods kb).mods)
      else .ok (unlatch_mods kb)) = .ok K1 ∧
      K1 = { kb with mods := K1.mods, out := kb.out ++ es2 } ∧
      (∀ e ∈ es2, key_event e = false) := by
    split_ifs
    · refine ⟨_, [.modifiers (unlatch_mods kb).mods], vkbd_request_typed _ _ hvu, ?_, ?_⟩
      · rw [hu]
      · intro e he
        rw [List.mem_singleton] at he
        rw [he]
        rfl
    · refine ⟨_, [], rfl, ?_, by simp⟩
      rw [hu, List.append_nil]
  have hv1 : K1.vkbd = true := by
    rw [e1]
    exact hk.1
  have hs1 : K1.shift_space_is_tab = kb.shift_space_is_tab := by
    rw [e1]
  obtain ⟨K2, h2, e2⟩ : ∃ K2,
      unpress_release K1 lp (decide (kb.mods &&& Shift = Shift)) time = .ok K2 ∧
      K2 = { K1 with out := K1.out ++ [.keyev time (key_event_code kb lp) false] } := by
    unfold unpress_release key_event_code
    by_cases hc : lp.type = .Copy
    · rw [if_pos hc, if_pos hc]
      exact ⟨_, vkbd_request_typed _ _ hv1, rfl⟩
    · rw [if_neg hc, if_neg hc]
      by_cases h : kb.shift_space_is_tab = true ∧ lp.code = KEY_SPACE ∧ kb.mods &&& Shift ≠ 0
      · have h' : K1.shift_space_is_tab = true ∧ lp.code = KEY_SPACE ∧
            decide (kb.mods &&& Shift = Shift) = true :=
          ⟨hs1.trans h.1, h.2.1, decide_eq_true ((shift_set_iff _).mp h.2.2)⟩
        rw [if_pos h', if_pos h]
        exact ⟨_, vkbd_request_typed _ _ hv1, rfl⟩
      · have h' : ¬ (K1.shift_space_is_tab = true ∧ lp.code = KEY_SPACE ∧
            decide (kb.mods &&& Shift = Shift) = true) :=
          fun g => h ⟨hs1.symm.trans g.1, g.2.1, (shift_set_iff _).mpr (of_decide_eq_true g.2.2)⟩
        rw [if_neg h', if_neg h]
        exact ⟨_, vkbd_request_typed _ _ hv1, rfl⟩
  have hk2 : keymaps_defined K2 := by
    rw [e2, e1]
    exact hk
  have hl2 : K2.compose ≥ 2 → K2.last_abc_layout ≠ none := by
    rw [e2, e1]
    exact hlast
  obtain ⟨K3, es3, h3, e3, n3⟩ := unpress_finish_returns K2 (decide (unlatched kb)) hk2 hl2
  refine ⟨{ K3 with last_press := none }, es2, es3, ?_, ?_, n1, n3⟩
  · unfold kbd_unpress_key
    rw [hlp]
    dsimp only
    rw [except_bind_ok]
    refine ⟨K1, h1, ?_⟩
    rw [except_bind_ok]
    refine ⟨K2, h2, ?_⟩
    rw [except_bind_ok]
    exact ⟨K3, h3, rfl⟩
  · show K3.out = _
    rw [e3, e2]
    show K1.out ++ [Event.keyev time (key_event_code kb lp) false] ++ es3 = _
    rw [e1]

/-- With a key pressed, the keymaps defined and, when a compose sequence has
run, a last alphabetic layout to go back to, `kbd_release_key` returns: it
sends requests that are no key events, then the release event of the pressed
key, then requests that are no key events, and nothing but what a key release
may change has changed. -/
theorem kbd_release_key_event (kb : kbd) (lp : key) (time : Nat) (hk : keymaps_defined kb)
    (hlp : kb.last_press = some lp) (hlast : kb.compose ≥ 2 → kb.last_abc_layout ≠ none) :
    ∃ kb3 es2 es3, kbd_release_key kb time = .ok kb3 ∧
      kb3.out = kb.out ++ es2 ++ [.keyev time (key_event_code kb lp) false] ++ es3 ∧
      (∀ e ∈ es2, key_event e = false) ∧ (∀ e ∈ es3, key_event e = false) ∧
      key_frame kb kb3 := by
  obtain ⟨K3, es2, es3, h3, e3, n2, n3⟩ := kbd_unpress_key_event kb lp time hk hlp hlast
  have hrun : ∃ kb3, kbd_release_key kb time = .ok kb3 ∧ kb3.out = K3.out := by
    unfold kbd_release_key
    rw [h3]
    show ∃ kb3, (if K3.print_intersect = true ∧ K3.last_swipe.isSome = true then
      Except.ok { (kbd_draw_layout { K3 with stdout := K3.stdout ++ [10] }) with last_swipe := none }
      else .ok K3) = .ok kb3 ∧ _
    split_ifs
    · refine ⟨_, rfl, ?_⟩
      rw [kbd_draw_layout_eq]
    · exact ⟨_, rfl, rfl⟩
  obtain ⟨kb3, hr, ho⟩ := hrun
  exact ⟨kb3, es2, es3, hr, ho.trans e3, n2, n3, kbd_release_key_key_frame _ _ _ hr⟩

/-! ### A tap on a separator after a swipe -/

/-- The automatic commit of `kbd_input_up` with a pending swipe word commits
that word. -/
theorem input_up_autocommit_pending (kb kb1 : kbd) (time_ms : Nat)
    (hpend : kb.pending_swipe = true) (hw : kb.pending_swipe_word ≠ [])
    (hc : kbd_commit_suggestion kb time_ms (some kb.pending_swipe_word) = .ok kb1) :
    input_up_autocommit kb time_ms = .ok (kb1, true) := by
  unfold input_up_autocommit input_up_word
  rw [if_pos hpend]
  cases hword : kb.pending_swipe_word with
  | nil => exact absurd hword hw
  | cons a w =>
    rw [hword] at hc
    dsimp only
    rw [hc]
    rfl

/-- C21 (amended): when a tap is released in Tap mode on a separator key (other than a
Backspace key with a separator label) with no compose selection pending
(`compose` is not 1), while a swipe word is pending and the token is empty or a
case-insensitive prefix of that word, in a state with a well-formed token and
context ring, the keymaps defined and the labels of the key there when keys are
printed, `kbd_input_up` returns: the requests of `kbd_commit_suggestion` for
the pending word come first, then the requests of `kbd_press_key` on the
separator and of `kbd_release_key`, which are, at `time_ms + 32`, requests that
are no key events, the press event with the code of the separator (127 for a
`Copy` key, Tab for Space with Shift under `shift_space_is_tab`), requests that
are no key events, the release event with the same code and requests that are
no key events; and the last word of the context ring is the lowercase form of
the committed word, the case-adjusted pending word, not the earlier token. -/
theorem kbd_input_up_separator
    (suggestion_tap : kbd → Nat → Nat → Nat → Except Fault kbd)
    (kb : kbd) (time_ms x y : Nat) (hit : Option key) (k : key) (map : char_keymap)
    (hmode : kb.input_mode = .KBD_INPUT_TAP)
    (hhit : kbd_get_key_value kb x y = .ok hit)
    (hres : input_up_resolve kb hit = some k)
    (hsep : separator_key k kb.mods)
    (hcomp : kb.compose ≠ 1)
    (hpend : kb.pending_swipe = true) (hw : kb.pending_swipe_word ≠ [])
    (hpre : kb.current_token = [] ∨
      utf8_startswith (ascii_lower_inplace kb.pending_swipe_word)
        (ascii_lower_inplace kb.current_token) = true)
    (htok : token_ok kb) (hctx : context_ok kb)
    (hk : keymaps_defined kb) (hmap : kbd_build_char_keymap kb = .ok map)
    (hlast : kb.last_abc_layout ≠ none)
    (hprint : (kb.print = false ∧ kb.print_intersect = false) ∨
      (k.label ≠ none ∧ k.shift_label ≠ none)) :
    ∃ kb1 kb2 kb3 kb' es1 es2 es3,
      kbd_commit_suggestion { kb with input_down := false, preview_key := none } time_ms
        (some kb.pending_swipe_word) = .ok kb1 ∧
      kbd_press_key kb1 k ((time_ms + 32) % 2 ^ 32) = .ok kb2 ∧
      kbd_release_key kb2 ((time_ms + 32) % 2 ^ 32) = .ok kb3 ∧
      kbd_input_up suggestion_tap kb time_ms x y = .ok kb' ∧
      (∃ es, kb1.out = kb.out ++ es) ∧
      kb'.out = kb3.out ∧
      kb'.out = kb1.out ++ es1 ++
        [.keyev ((time_ms + 32) % 2 ^ 32) (key_event_code kb k) true] ++ es2 ++
        [.keyev ((time_ms + 32) % 2 ^ 32) (key_event_code kb k) false] ++ es3 ∧
      (∀ e ∈ es1 ++ es2 ++ es3, key_event e = false) ∧
      kb1.current_token =
        kbd_adjust_suggestion_case kb (some kb.pending_swipe_word) kb.mods ∧
      kbd_last_context_word kb' = .ok (some (ascii_lower_inplace kb1.current_token)) := by
  obtain ⟨kb1, hc, htokeq, hne1, hout1, fe1, fc1⟩ :=
    kbd_commit_suggestion_returns { kb with input_down := false, preview_key := none } time_ms
      kb.pending_swipe_word map htok hw hpre hk hmap
  have htok0 : token_ok ({ kb with input_down := false, preview_key := none } : kbd) := htok
  have hctx0 : context_ok ({ kb with input_down := false, preview_key := none } : kbd) := hctx
  have htok1 : token_ok kb1 := kbd_commit_suggestion_token_ok _ _ _ _ htok0 hc
  have hctx1 : context_ok kb1 := context_ok_of_frame _ _ fc1 hctx0
  have hk1 : keymaps_defined kb1 := by
    rw [fe1.1]
    exact hk
  have hcomp1 : kb1.compose ≠ 1 := by
    rw [fe1.1]
    exact hcomp
  have hprint1 : (kb1.print = false ∧ kb1.print_intersect = false) ∨
      (k.label ≠ none ∧ k.shift_label ≠ none) := by
    rw [fe1.1]
    exact hprint
  have hlast1 : kb1.last_abc_layout ≠ none := by
    rw [fe1.1]
    exact hlast
  have hc1 : key_event_code kb1 k = key_event_code kb k :=
    (congrArg (fun s => key_event_code s k) fe1.1).trans rfl
  obtain ⟨kb2, es1, hp, o2, n1, lp2, la2, hm2, hs2, f2⟩ :=
    kbd_press_key_event kb1 k ((time_ms + 32) % 2 ^ 32) hk1 hcomp1
      (separator_key_type k kb.mods hsep.1) hprint1
  have hk2 : keymaps_defined kb2 := by
    rw [f2.1]
    exact hk1
  have hc2 : key_event_code kb2 k = key_event_code kb k := by
    rw [← hc1]
    unfold key_event_code
    rw [hm2, hs2]
  obtain ⟨kb3, es2, es3, hr, o3, n2, n3, f3⟩ :=
    kbd_release_key_event kb2 k ((time_ms + 32) % 2 ^ 32) hk2 lp2
      (fun _ => by rw [la2]; exact hlast1)
  rw [hc2] at o3
  rw [hc1] at o2
  have f23 := key_frame_trans _ _ _ f2 f3
  have htf := token_frame_of_key_frame _ _ f23
  have htok3 : token_ok kb3 := token_ok_of_frame _ _ htf htok1
  have hctx3 : context_ok kb3 :=
    context_ok_of_frame _ _ (context_frame_of_key_frame _ _ f23) hctx1
  obtain ⟨kb4, h4, -, -, hlw, -⟩ : ∃ kb4, kbd_handle_committed_key kb3 k kb.mods = .ok kb4 ∧
      kb4.current_token = [] ∧ kb4.current_token_len = 0 ∧
      (kb3.current_token ≠ [] →
        kbd_last_context_word kb4 = .ok (some (ascii_lower_inplace kb3.current_token))) ∧
      (kb3.current_token = [] → context_frame kb3 kb4) := by
    rw [kbd_handle_committed_key_eq_separator kb3 k kb.mods hsep]
    exact committed_separator_context kb3 htok3 hctx3
  obtain ⟨-, o4⟩ := kbd_handle_committed_key_edit_frame _ _ _ _ h4
  have hkey : input_up_key { kb with input_down := false, preview_key := none } k time_ms =
      .ok kb4 := by
    unfold input_up_key
    have e1 : kbd_key_is_separator k
        ({ kb with input_down := false, preview_key := none } : kbd).mods = true := hsep.1
    have e2 : swipe_pending { kb with input_down := false, preview_key := none } = true := by
      unfold swipe_pending
      show (kb.pending_swipe || _) = true
      rw [hpend]
      rfl
    have hpend0 : ({ kb with input_down := false, preview_key := none } : kbd).pending_swipe =
        true := hpend
    have hw0 : ({ kb with input_down := false, preview_key := none } : kbd).pending_swipe_word ≠
        [] := hw
    rw [if_pos e1, if_pos e2, input_up_autocommit_pending _ kb1 time_ms hpend0 hw0 hc]
    show input_up_press kb1 k kb.mods ((time_ms + 32) % 2 ^ 32) = _
    unfold input_up_press
    rw [hp]
    show (kbd_release_key kb2 _ >>= fun kb5 => kbd_handle_committed_key kb5 k kb.mods) = _
    rw [hr]
    exact h4
  refine ⟨kb1, kb2, kb3, { (kbd_draw_layout kb4) with input_mode := .KBD_INPUT_NONE }, es1, es2,
    es3, hc, hp, hr, ?_, hout1, ?_, ?_, ?_, htokeq, ?_⟩
  · rw [kbd_input_up_tap suggestion_tap kb time_ms x y hmode,
      input_up_tap_key kb time_ms x y hit k hhit hres, hkey]
    rfl
  · show (kbd_draw_layout kb4).out = _
    rw [kbd_draw_layout_eq]
    exact o4
  · show (kbd_draw_layout kb4).out = _
    rw [kbd_draw_layout_eq]
    show kb4.out = _
    rw [o4, o3, o2]
  · intro e he
    rcases List.mem_append.mp he with he | he
    · rcases List.mem_append.mp he with he | he
      · exact n1 e he
      · exact n2 e he
    · exact n3 e he
  · have hne3 : kb3.current_token ≠ [] := by
      rw [htf.1]
      exact hne1
    have hl := hlw hne3
    rw [htf.1] at hl
    rw [← hl, kbd_draw_layout_eq]
    rfl

/-- C21, as stated, fails: with a compose selection pending (`compose` is 1),
the word `ab` pending after the token `a` and a tap that resolves to the Space
key, `kbd_input_up` types the suffix `b` of the pending word and then shows the
index layout instead of pressing Space: no press or release event of the Space
key follows.  And with a tap that resolves to a key that sends Backspace and is
labelled with a full stop, which `kbd_key_is_separator` accepts, the word is
committed, but the key then takes the last character off the token and nothing
is pushed onto the context ring. -/
theorem kbd_input_up_separator_counterexample :
    (composing_kbd.input_mode = .KBD_INPUT_TAP ∧
      kbd_get_key_value composing_kbd 100 100 = .ok none ∧
      input_up_resolve composing_kbd none = some space_key ∧
      kbd_key_is_separator space_key composing_kbd.mods = true ∧
      composing_kbd.pending_swipe = true ∧ composing_kbd.pending_swipe_word = [97, 98] ∧
      utf8_startswith (ascii_lower_inplace composing_kbd.pending_swipe_word)
        (ascii_lower_inplace composing_kbd.current_token) = true ∧
      ∃ kb', kbd_input_up (fun kb _ _ _ => .ok kb) composing_kbd 7 100 100 = .ok kb' ∧
        kb'.out = [.modifiers 0, .keyev 7 48 true, .keyev 7 48 false, .modifiers 0]) ∧
    (dot_kbd.input_mode = .KBD_INPUT_TAP ∧
      kbd_get_key_value dot_kbd 100 100 = .ok none ∧
      input_up_resolve dot_kbd none = some dot_backspace ∧
      kbd_key_is_separator dot_backspace dot_kbd.mods = true ∧
      dot_kbd.compose = 0 ∧
      dot_kbd.pending_swipe = true ∧ dot_kbd.pending_swipe_word = [97, 98] ∧
      ∃ kb', kbd_input_up (fun kb _ _ _ => .ok kb) dot_kbd 7 100 100 = .ok kb' ∧
        kb'.out = [.modifiers 0, .keyev 7 48 true, .keyev 7 48 false, .modifiers 0,
          .modifiers 0, .keyev 39 14 true, .keyev 39 14 false] ∧
        kb'.current_token = [97] ∧ kbd_last_context_word kb' = .ok none) :=
  ⟨⟨rfl, rfl, rfl, by decide, rfl, rfl, by decide, _, rfl, rfl⟩,
    ⟨rfl, rfl, rfl, by decide, rfl, rfl, rfl, _, rfl, rfl, rfl, rfl⟩⟩

/-- C21 (amended) on the sample keyboard: with the word `ab` pending after the token `a`,
a tap that resolves to the Space key commits `ab`, then presses and releases
Space, and `ab` is the last word of the context ring. -/
theorem kbd_input_up_separator_witness :
    ∃ kb1 kb2 kb3 kb' es1 es2 es3,
      kbd_commit_suggestion { swiped_kbd with input_down := false, preview_key := none } 7
        (some [97, 98]) = .ok kb1 ∧
      kbd_press_key kb1 space_key 39 = .ok kb2 ∧ kbd_release_key kb2 39 = .ok kb3 ∧
      kbd_input_up (fun kb _ _ _ => .ok kb) swiped_kbd 7 100 100 = .ok kb' ∧
      kb'.out = kb3.out ∧
      kb'.out = kb1.out ++ es1 ++ [.keyev 39 57 true] ++ es2 ++ [.keyev 39 57 false] ++ es3 ∧
      (∀ e ∈ es1 ++ es2 ++ es3, key_event e = false) ∧
      kb1.current_token = [97, 98] ∧
      kbd_last_context_word kb' = .ok (some (ascii_lower_inplace kb1.current_token)) := by
  obtain ⟨kb1, kb2, kb3, kb', es1, es2, es3, h1, hp, hr, h2, -, h3, h4, h5, h6, h7⟩ :=
    kbd_input_up_separator (fun kb _ _ _ => .ok kb) swiped_kbd 7 100 100 none space_key _
      rfl rfl rfl (by decide) (by decide) rfl (by decide) (Or.inr (by decide)) (by decide)
      (by decide) nav_kbd_keymaps_defined rfl (by decide) (Or.inl ⟨rfl, rfl⟩)
  exact ⟨kb1, kb2, kb3, kb', es1, es2, es3, h1, hp, hr, h2, h3, h4, h5, h6.trans (by decide), h7⟩

/-- C22 on the sample keyboard: with the word `ab` pending, a tap on the key `a`
sends the press and the release of that key and nothing else, and no swipe is
pending afterwards. -/
theorem kbd_input_up_non_separator_witness :
    ∃ kb', kbd_input_up (fun kb _ _ _ => .ok kb) swiped_kbd 7 15 5 = .ok kb' ∧
      kb'.out = [.modifiers 0, .keyev 7 30 true, .keyev 7 30 false] ∧
      kb'.pending_swipe = false ∧ kb'.pending_swipe_word = [] ∧ kb'.swipe_points = [] := by
  obtain ⟨kb', h1, h2, h3, h4, h5⟩ :=
    kbd_input_up_non_separator (fun kb _ _ _ => .ok kb) swiped_kbd 7 15 5 _ _ _ _
      rfl rfl rfl (by decide) (by decide) (by decide) rfl rfl
  exact ⟨kb', h1, h2.trans rfl, h3, h4, h5⟩
/-! ### Swipe points -/

/-- With the clock of the trail at 0 redrawing keeps the swipe points. -/
theorem kbd_draw_layout_points_now (kb : kbd) (h0 : kb.trail_now_ms = 0) :
    (kbd_draw_layout kb).swipe_points = kb.swipe_points := by
  unfold kbd_draw_layout kbd_draw_trail
  simp only [if_pos h0, gt_iff_lt, lt_self_iff_false, false_and, and_false, if_false]
  split_ifs <;> rfl

theorem refresh_frame_refl (a : kbd) : refresh_frame a a :=
  ⟨rfl, Or.inl rfl, fun _ => rfl⟩

/-- With a well-formed context ring and a last alphabetic layout whose key table
ends in `Last`, a swipe refresh returns, and changes nothing but the
suggestions, the pending swipe word and the swipe trail. -/
theorem kbd_update_suggestions_swipe_returns (kb : kbd) (pos : List key)
    (hctx : context_ok kb) (hpos : kbd_build_key_pos_map kb = .ok pos) :
    ∃ kb', kbd_update_suggestions_swipe kb = .ok kb' ∧ refresh_frame kb kb' := by
  obtain ⟨lw, hlw⟩ := kbd_last_context_word_returns kb hctx
  have key : ∀ r, kbd_update_suggestions_swipe kb = r →
      ∃ kb', r = .ok kb' ∧ refresh_frame kb kb' := by
    intro r hr
    unfold kbd_update_suggestions_swipe at hr
    split at hr
    · subst hr
      exact ⟨_, rfl, refresh_frame_refl _⟩
    · rename_i p hp
      split_ifs at hr
      · subst hr
        exact ⟨_, rfl, refresh_frame_refl _⟩
      · rw [hpos, hlw] at hr
        subst hr
        refine ⟨_, rfl, ?_, ?_, ?_⟩
        · rw [kbd_draw_layout_eq]
          unfold kbd_set_pending_swipe_from_suggestions
          split <;> rw [kbd_suggestions_from_candidates_sugs]
        · refine (kbd_draw_layout_points _).imp_left (fun h => h.trans ?_)
          unfold kbd_set_pending_swipe_from_suggestions
          split <;> rw [kbd_suggestions_from_candidates_sugs]
        · intro h0
          refine (kbd_draw_layout_points_now _ ?_).trans ?_
          · unfold kbd_set_pending_swipe_from_suggestions
            split <;> rw [kbd_suggestions_from_candidates_sugs] <;> exact h0
          · unfold kbd_set_pending_swipe_from_suggestions
            split <;> rw [kbd_suggestions_from_candidates_sugs]
  exact key _ rfl

/-- A swipe refresh that returns has raised the count of the refreshes by
one. -/
theorem kbd_update_suggestions_swipe_count (kb kb' : kbd)
    (h : kbd_update_suggestions_swipe kb = .ok kb') :
    kb'.swipe_refreshes = kb.swipe_refreshes + 1 := by
  unfold kbd_update_suggestions_swipe at h
  split at h
  · cases h
    rfl
  · split_ifs at h
    · cases h
      rfl
    · rw [except_bind_ok] at h
      obtain ⟨pos, -, h⟩ := h
      rw [except_bind_ok] at h
      obtain ⟨lw, -, h⟩ := h
      cases h
      rw [kbd_draw_layout_eq]
      unfold kbd_set_pending_swipe_from_suggestions
      split <;> rw [kbd_suggestions_from_candidates_sugs]

/-- The capture of a sample changes the swipe points alone. -/
theorem swipe_capture_eq (kb : kbd) (time_ms x y : Nat) :
    swipe_capture kb time_ms x y =
      { kb with swipe_points := (swipe_capture kb time_ms x y).swipe_points } := by
  unfold swipe_capture
  split_ifs <;> rfl

/-- The capture of a sample never stores more than 192 points. -/
theorem swipe_capture_length (kb : kbd) (time_ms x y : Nat)
    (hlen : kb.swipe_points.length ≤ WVKBD_MAX_SWIPE_POINTS) :
    (swipe_capture kb time_ms x y).swipe_points.length ≤ WVKBD_MAX_SWIPE_POINTS := by
  unfold swipe_capture
  split_ifs with h
  · simp only [List.length_append, List.length_singleton]
    omega
  · exact hlen

/-- With a well-formed context ring and a last alphabetic layout whose key table
ends in `Last`, the Swipe case of `kbd_input_motion` returns: the swipe points
are the captured ones, or none when a refresh was due and dropped the trail,
the time of the last refresh is the time of the event when a refresh was due,
and nothing else but the suggestions and the pending swipe word has changed. -/
theorem motion_swipe_returns (kb : kbd) (time_ms x y : Nat) (pos : List key)
    (hctx : context_ok kb) (hpos : kbd_build_key_pos_map kb = .ok pos) :
    ∃ kb', motion_swipe kb time_ms x y = .ok kb' ∧
      kb' = { kb with
              suggestions := kb'.suggestions, suggest_mode := kb'.suggest_mode,
              pending_swipe := kb'.pending_swipe,
              pending_swipe_word := kb'.pending_swipe_word,
              swipe_points := kb'.swipe_points,
              swipe_refreshes := kb'.swipe_refreshes,
              swipe_last_suggest_time :=
                if swipe_refresh_due kb time_ms = true then time_ms
                else kb.swipe_last_suggest_time } ∧
      (kb'.swipe_points = (swipe_capture kb time_ms x y).swipe_points ∨
        (swipe_refresh_due kb time_ms = true ∧ kb'.swipe_points = [])) ∧
      (swipe_refresh_due kb time_ms = false ∨ kb.trail_now_ms = 0 →
        kb'.swipe_points = (swipe_capture kb time_ms x y).swipe_points) := by
  unfold motion_swipe
  by_cases hdue : swipe_refresh_due kb time_ms = true
  · rw [if_pos hdue]
    have hS : ({ swipe_capture kb time_ms x y with swipe_last_suggest_time := time_ms } : kbd) =
        { kb with swipe_points := (swipe_capture kb time_ms x y).swipe_points,
                  swipe_last_suggest_time := time_ms } := by
      rw [swipe_capture_eq]
    rw [hS]
    obtain ⟨kb', hrun, hf, hp, hn⟩ := kbd_update_suggestions_swipe_returns
      { kb with swipe_points := (swipe_capture kb time_ms x y).swipe_points,
                swipe_last_suggest_time := time_ms } pos hctx hpos
    refine ⟨kb', hrun, ?_, ?_, ?_⟩
    · rw [if_pos hdue]
      exact hf
    · rcases hp with hp | hp
      · exact Or.inl hp
      · exact Or.inr ⟨hdue, hp⟩
    · rintro (h | h)
      · rw [hdue] at h
        cases h
      · exact hn h
  · rw [if_neg hdue]
    refine ⟨_, rfl, ?_, Or.inl rfl, fun _ => rfl⟩
    rw [if_neg hdue, swipe_capture_eq]

/-- The Swipe case of `kbd_input_motion` calls `kbd_update_suggestions_swipe`
once when the test of the 40 milliseconds holds, and not at all otherwise. -/
theorem motion_swipe_count (kb kb' : kbd) (time_ms x y : Nat)
    (h : motion_swipe kb time_ms x y = .ok kb') :
    kb'.swipe_refreshes =
      if swipe_refresh_due kb time_ms = true then kb.swipe_refreshes + 1
      else kb.swipe_refreshes := by
  unfold motion_swipe at h
  split_ifs at h with hdue
  · rw [if_pos hdue]
    refine (kbd_update_suggestions_swipe_count _ _ h).trans ?_
    show (swipe_capture kb time_ms x y).swipe_refreshes + 1 = _
    rw [swipe_capture_eq]
  · rw [if_neg hdue]
    cases h
    rw [swipe_capture_eq]

/-- In Swipe mode with the pointer down `kbd_input_motion` runs the Swipe case
after the displacement test. -/
theorem kbd_input_motion_swipe (kb : kbd) (time_ms x y : Nat) (d2 : Int)
    (hdown : kb.input_down = true) (hmode : kb.input_mode = .KBD_INPUT_SWIPE)
    (hd : motion_distance kb x y = .ok d2) :
    kbd_input_motion kb time_ms x y = motion_swipe (motion_moved kb d2 x y) time_ms x y := by
  unfold kbd_input_motion
  rw [if_neg (by rw [hdown]; simp), hd]
  show (match kb.input_mode with
    | .KBD_INPUT_SUGGEST_SCROLL => Except.ok (kbd_draw_layout (motion_moved kb d2 x y))
    | .KBD_INPUT_TAP => motion_tap (motion_moved kb d2 x y) time_ms x y
    | .KBD_INPUT_SWIPE => motion_swipe (motion_moved kb d2 x y) time_ms x y
    | .KBD_INPUT_NONE => .ok (motion_moved kb d2 x y)) = _
  rw [hmode]

/-- C23 (amended): in Swipe mode with the pointer down, a squared displacement that fits
an `int`, a well-formed context ring, a last alphabetic layout whose key table
ends in `Last` and at most 192 points stored, `kbd_input_motion` returns with
at most 192 points stored.  The capture appends the sample at the end when
fewer than 192 points are stored and leaves the points as they are when 192
are stored; the points after the call are the captured ones, unless a
prediction refresh was due in the call and its redraw dropped the trail, which
leaves none; they are the captured ones whenever no refresh was due or the
clock of the trail is 0. -/
theorem kbd_input_motion_swipe_points (kb : kbd) (time_ms x y : Nat) (d2 : Int)
    (pos : List key)
    (hdown : kb.input_down = true) (hmode : kb.input_mode = .KBD_INPUT_SWIPE)
    (hd : motion_distance kb x y = .ok d2)
    (hctx : context_ok kb) (hpos : kbd_build_key_pos_map kb = .ok pos)
    (hlen : kb.swipe_points.length ≤ WVKBD_MAX_SWIPE_POINTS) :
    ∃ kb', kbd_input_motion kb time_ms x y = .ok kb' ∧
      kb'.swipe_points.length ≤ WVKBD_MAX_SWIPE_POINTS ∧
      (kb'.swipe_points = (swipe_capture kb time_ms x y).swipe_points ∨
        (swipe_refresh_due kb time_ms = true ∧ kb'.swipe_points = [])) ∧
      (swipe_refresh_due kb time_ms = false ∨ kb.trail_now_ms = 0 →
        kb'.swipe_points = (swipe_capture kb time_ms x y).swipe_points) ∧
      (kb.swipe_points.length < WVKBD_MAX_SWIPE_POINTS →
        (swipe_capture kb time_ms x y).swipe_points =
          kb.swipe_points ++ [{ x := (x : Int), y := (y : Int), time_ms := time_ms }]) ∧
      (kb.swipe_points.length = WVKBD_MAX_SWIPE_POINTS →
        (swipe_capture kb time_ms x y).swipe_points = kb.swipe_points) := by
  have hcap : (swipe_capture (motion_moved kb d2 x y) time_ms x y).swipe_points =
      (swipe_capture kb time_ms x y).swipe_points := by
    unfold swipe_capture
    show (if kb.swipe_points.length < WVKBD_MAX_SWIPE_POINTS then _ else _ : kbd).swipe_points = _
    split_ifs <;> rfl
  obtain ⟨kb', hrun, -, hp, hn⟩ :=
    motion_swipe_returns (motion_moved kb d2 x y) time_ms x y pos hctx hpos
  rw [hcap] at hp hn
  refine ⟨kb', ?_, ?_, hp, hn, ?_, ?_⟩
  · rw [kbd_input_motion_swipe kb time_ms x y d2 hdown hmode hd]
    exact hrun
  · rcases hp with hp | ⟨-, hp⟩
    · rw [hp]
      exact swipe_capture_length kb time_ms x y hlen
    · rw [hp]
      exact Nat.zero_le _
  · intro h
    unfold swipe_capture
    rw [if_pos h]
  · intro h
    unfold swipe_capture
    rw [if_neg (by omega)]

set_option maxRecDepth 100000 in
/-- C23, as stated, fails: with 192 points stored, the last one taken at time 0,
and the clock of the trail at 2000 with a fade of 800 milliseconds, a motion in
Swipe mode at time 100 is due for a prediction refresh, whose redraw drops the
faded trail: no point is stored afterwards. -/
theorem kbd_input_motion_swipe_points_counterexample :
    faded_kbd.input_down = true ∧ faded_kbd.input_mode = .KBD_INPUT_SWIPE ∧
    faded_kbd.swipe_points.length = 192 ∧
    ∃ kb', kbd_input_motion faded_kbd 100 15 5 = .ok kb' ∧ kb'.swipe_points = [] :=
  ⟨rfl, rfl, rfl, _, rfl, rfl⟩

/-- C23 (amended) on the sample keyboard: with two points stored, a motion at time 10, when
no refresh is due, stores the sample as the third point. -/
theorem kbd_input_motion_swipe_points_witness :
    ∃ kb', kbd_input_motion swiping_kbd 10 6 16 = .ok kb' ∧
      kb'.swipe_points =
        [{ x := 15, y := 5, time_ms := 0 }, { x := 5, y := 15, time_ms := 0 },
         { x := 6, y := 16, time_ms := 10 }] := by
  obtain ⟨kb', h1, -, -, hn, happ, -⟩ :=
    kbd_input_motion_swipe_points swiping_kbd 10 6 16 _ _ rfl rfl rfl (by decide) rfl
      (by decide)
  exact ⟨kb', h1, (hn (Or.inl rfl)).trans (happ (by decide))⟩
/-! ### The throttle of the swipe refresh -/

/-- C24, as stated, fails: in a gesture that starts at time 1000, the motion at
time 1010 turns the tap into a swipe and refreshes the prediction from the two
points of the swipe, and the motion at time 1015 refreshes it again, from three
points, because the time of the last refresh is still the 0 that
`kbd_input_down` set: two calls of `kbd_update_suggestions_swipe` 5
milliseconds apart. -/
theorem swipe_refresh_throttle_counterexample :
    ∃ kb1 kb2 kb3,
      kbd_input_down gesture_kbd 1000 15 5 = .ok kb1 ∧
      kbd_input_motion kb1 1010 45 15 = .ok kb2 ∧
      kbd_input_motion kb2 1015 46 16 = .ok kb3 ∧
      kb1.swipe_refreshes = 0 ∧ kb2.swipe_refreshes = 1 ∧ kb3.swipe_refreshes = 2 ∧
      kb2.suggestions.map (fun s => s.word) = [some [97, 97]] ∧
      kb3.suggestions.map (fun s => s.word) = [some [97, 97, 97]] ∧
      (∃ kb', kbd_input_motions [(1010, 45, 15), (1015, 46, 16)] kb1 =
        .ok (kb', [1010, 1015])) :=
  ⟨_, _, _, rfl, rfl, rfl, rfl, rfl, rfl, rfl, rfl, _, rfl⟩

/-- The squared displacement depends on the origin of the gesture alone. -/
theorem motion_distance_congr (a b : kbd) (x y : Nat)
    (hx : b.input_down_x = a.input_down_x) (hy : b.input_down_y = a.input_down_y) :
    motion_distance b x y = motion_distance a x y := by
  unfold motion_distance
  rw [hx, hy]

/-- With timestamps that have not wrapped since the last refresh, a refresh is
due exactly when the event is more than 40 milliseconds later. -/
theorem swipe_refresh_due_iff (kb : kbd) (time_ms : Nat)
    (hle : kb.swipe_last_suggest_time ≤ time_ms) (hlt : time_ms < 2 ^ 32) :
    swipe_refresh_due kb time_ms = true ↔ kb.swipe_last_suggest_time + 40 < time_ms := by
  unfold swipe_refresh_due
  rw [decide_eq_true_eq]
  norm_num at hlt ⊢
  omega

/-- C24 (amended): for the motion events of a gesture that is in Swipe mode, with
timestamps that do not decrease, lie below `2 ^ 32` and are not before the time
of the last refresh, squared displacements that fit an `int`, a well-formed
context ring and a last alphabetic layout whose key table ends in `Last`,
`kbd_input_motion` returns for every event, and the events in whose handling
`kbd_update_suggestions_swipe` is called, each of them once, lie more than 40
milliseconds after the time of the last refresh and more than 40 milliseconds
apart from each other; the gesture stays in Swipe mode, and with the clock of
the trail at 0 and room for them among the 192 points every sample is stored,
in order. -/
theorem swipe_refresh_throttle (pos : List key) :
    ∀ (evs : List (Nat × Nat × Nat)) (kb : kbd),
    kb.input_down = true → kb.input_mode = .KBD_INPUT_SWIPE →
    context_ok kb → kbd_build_key_pos_map kb = .ok pos →
    (∀ e ∈ evs, ∃ d2, motion_distance kb e.2.1 e.2.2 = .ok d2) →
    evs.Pairwise (fun a b => a.1 ≤ b.1) →
    (∀ e ∈ evs, kb.swipe_last_suggest_time ≤ e.1 ∧ e.1 < 2 ^ 32) →
    ∃ kb' ts, kbd_input_motions evs kb = .ok (kb', ts) ∧
      kb'.swipe_refreshes = kb.swipe_refreshes + ts.length ∧
      ts.Pairwise (fun a b => a + 40 < b) ∧
      (∀ t ∈ ts, kb.swipe_last_suggest_time + 40 < t) ∧
      kb'.input_down = true ∧ kb'.input_mode = .KBD_INPUT_SWIPE ∧
      (kb.trail_now_ms = 0 → kb.swipe_points.length + evs.length ≤ WVKBD_MAX_SWIPE_POINTS →
        kb'.swipe_points = kb.swipe_points ++ evs.map motion_point) := by
  intro evs
  induction evs with
  | nil =>
    intro kb hdown hmode _ _ _ _ _
    exact ⟨kb, [], rfl, rfl, List.Pairwise.nil, fun t ht => absurd ht (List.not_mem_nil t),
      hdown, hmode, fun _ _ => (List.append_nil _).symm⟩
  | cons e rest ih =>
    intro kb hdown hmode hctx hpos hfit hsorted hlast
    obtain ⟨d2, hd⟩ := hfit e (List.mem_cons_self _ _)
    obtain ⟨hle, hlt⟩ := hlast e (List.mem_cons_self _ _)
    have hctxM : context_ok (motion_moved kb d2 e.2.1 e.2.2) := hctx
    have hposM : kbd_build_key_pos_map (motion_moved kb d2 e.2.1 e.2.2) = .ok pos := hpos
    obtain ⟨kb1, hrun, e1, -, hn⟩ :=
      motion_swipe_returns (motion_moved kb d2 e.2.1 e.2.2) e.1 e.2.1 e.2.2 pos hctxM hposM
    have hmot : kbd_input_motion kb e.1 e.2.1 e.2.2 = .ok kb1 := by
      rw [kbd_input_motion_swipe kb e.1 e.2.1 e.2.2 d2 hdown hmode hd]
      exact hrun
    have hdown1 : kb1.input_down = true := (congrArg kbd.input_down e1).trans hdown
    have hmode1 : kb1.input_mode = .KBD_INPUT_SWIPE := (congrArg kbd.input_mode e1).trans hmode
    have hctx1 : context_ok kb1 := by
      rw [e1]
      exact hctx
    have hpos1 : kbd_build_key_pos_map kb1 = .ok pos := by
      rw [e1]
      exact hpos
    have hL1 : kb1.swipe_last_suggest_time =
        if swipe_refresh_due kb e.1 = true then e.1 else kb.swipe_last_suggest_time :=
      congrArg kbd.swipe_last_suggest_time e1
    have hx1 : kb1.input_down_x = kb.input_down_x :=
      (congrArg kbd.input_down_x e1).trans rfl
    have hy1 : kb1.input_down_y = kb.input_down_y :=
      (congrArg kbd.input_down_y e1).trans rfl
    have hnow1 : kb1.trail_now_ms = kb.trail_now_ms :=
      (congrArg kbd.trail_now_ms e1).trans rfl
    have hfit1 : ∀ e' ∈ rest, ∃ d2, motion_distance kb1 e'.2.1 e'.2.2 = .ok d2 := by
      intro e' he'
      rw [motion_distance_congr kb kb1 _ _ hx1 hy1]
      exact hfit e' (List.mem_cons_of_mem _ he')
    have hsorted1 := (List.pairwise_cons.mp hsorted).2
    have hfirst := (List.pairwise_cons.mp hsorted).1
    have hlast1 : ∀ e' ∈ rest, kb1.swipe_last_suggest_time ≤ e'.1 ∧ e'.1 < 2 ^ 32 := by
      intro e' he'
      have h2 := hlast e' (List.mem_cons_of_mem _ he')
      refine ⟨?_, h2.2⟩
      rw [hL1]
      split_ifs
      · exact hfirst e' he'
      · exact h2.1
    obtain ⟨kb', ts, hruns, hcnt, hpw, hall, hd', hm', hpts⟩ :=
      ih kb1 hdown1 hmode1 hctx1 hpos1 hfit1 hsorted1 hlast1
    have hdue := swipe_refresh_due_iff kb e.1 hle hlt
    have hcount1 : kb1.swipe_refreshes =
        if swipe_refresh_due kb e.1 = true then kb.swipe_refreshes + 1
        else kb.swipe_refreshes :=
      motion_swipe_count (motion_moved kb d2 e.2.1 e.2.2) kb1 e.1 e.2.1 e.2.2 hrun
    have hlog : (if kb1.swipe_refreshes ≠ kb.swipe_refreshes then e.1 :: ts else ts) =
        if swipe_refresh_due kb e.1 = true then e.1 :: ts else ts := by
      rw [hcount1]
      by_cases h : swipe_refresh_due kb e.1 = true
      · rw [if_pos h, if_pos h, if_pos (by omega)]
      · rw [if_neg h, if_neg h, if_neg (by simp)]
    refine ⟨kb', (if kb1.swipe_refreshes ≠ kb.swipe_refreshes then e.1 :: ts else ts), ?_,
      ?_, ?_, ?_, hd', hm', ?_⟩
    · unfold kbd_input_motions
      rw [hmot]
      show (kbd_input_motions rest kb1 >>= fun r =>
        Except.ok (r.1, if kb1.swipe_refreshes ≠ kb.swipe_refreshes then e.1 :: r.2
          else r.2)) = _
      rw [hruns]
      rfl
    · rw [hlog, hcnt, hcount1]
      split_ifs with h
      · rw [List.length_cons]
        omega
      · rfl
    · rw [hlog]
      split_ifs with h
      · refine List.pairwise_cons.mpr ⟨fun t ht => ?_, hpw⟩
        have := hall t ht
        rw [hL1, if_pos h] at this
        exact this
      · exact hpw
    · rw [hlog]
      intro t ht
      split_ifs at ht with h
      · rcases List.mem_cons.mp ht with rfl | ht
        · exact hdue.mp h
        · have := hall t ht
          rw [hL1, if_pos h] at this
          have := hdue.mp h
          omega
      · have := hall t ht
        rw [hL1, if_neg h] at this
        exact this
    · intro h0 hlen
      have h0M : (motion_moved kb d2 e.2.1 e.2.2).trail_now_ms = 0 := h0
      have hcap := hn (Or.inr h0M)
      have hlt192 : kb.swipe_points.length < WVKBD_MAX_SWIPE_POINTS := by
        simp only [List.length_cons, WVKBD_MAX_SWIPE_POINTS] at hlen ⊢
        omega
      have hk1 : kb1.swipe_points = kb.swipe_points ++ [motion_point e] := by
        rw [hcap]
        unfold swipe_capture
        show (if kb.swipe_points.length < WVKBD_MAX_SWIPE_POINTS then _ else _ : kbd).swipe_points
          = _
        rw [if_pos hlt192]
        rfl
      have h2 := hpts (hnow1.trans h0) (by
        rw [hk1]
        simp only [List.length_append, List.length_cons, List.length_nil,
          WVKBD_MAX_SWIPE_POINTS] at hlen ⊢
        omega)
      rw [h2, hk1, List.map_cons, List.append_assoc]
      rfl

/-- C24 (amended) on the sample keyboard: of the motions at the times 10, 50, 60 and 100 in
Swipe mode, with the last refresh at time 0, those at 50 and 100 reach a
refresh, and the four samples are stored after the two points of the swipe. -/
theorem swipe_refresh_throttle_witness :
    ∃ kb', kbd_input_motions [(10, 6, 16), (50, 7, 17), (60, 8, 18), (100, 9, 19)]
        swiping_kbd = .ok (kb', [50, 100]) ∧
      kb'.swipe_refreshes = swiping_kbd.swipe_refreshes + 2 ∧
      kb'.swipe_points = swiping_kbd.swipe_points ++
        [(10, 6, 16), (50, 7, 17), (60, 8, 18), (100, 9, 19)].map motion_point := by
  obtain ⟨kb', ts, h1, hc, -, -, -, -, h6⟩ :=
    swipe_refresh_throttle _ [(10, 6, 16), (50, 7, 17), (60, 8, 18), (100, 9, 19)]
      swiping_kbd rfl rfl (by decide) rfl
      (by
        intro e he
        simp only [List.mem_cons, List.mem_singleton, List.not_mem_nil, or_false] at he
        rcases he with rfl | rfl | rfl | rfl <;> exact ⟨_, rfl⟩)
      (by decide) (by decide)
  have hts : ts = [50, 100] := by
    have hx : (kbd_input_motions [(10, 6, 16), (50, 7, 17), (60, 8, 18), (100, 9, 19)]
        swiping_kbd).toOption.map Prod.snd = some [50, 100] := rfl
    rw [h1] at hx
    exact Option.some.inj hx
  rw [hts] at h1 hc
  exact ⟨kb', h1, hc, h6 rfl (by decide)⟩

/-! ### Label classes -/

/-- The test of the two label functions on a single byte is the class
`[A-Za-z0-9'_]`. -/
theorem token_class_eq (c : Nat) :
    token_class c = (isalnum c || decide (c = 39 ∨ c = 95)) := by
  unfold token_class isalnum isalpha
  by_cases h1 : c = 39
  · subst h1; decide
  by_cases h2 : c = 95
  · subst h2; decide
  have e1 : (c == 39) = false := by rw [beq_eq_false_iff_ne]; exact h1
  have e2 : (c == 95) = false := by rw [beq_eq_false_iff_ne]; exact h2
  simp [h1, h2, e1, e2]

/-- C31: `kbd_is_token_char_label` holds exactly for the labels of one byte in
`[A-Za-z0-9'_]`, `kbd_is_separator_label` exactly for the labels of one byte
outside that class, space and newline included; of a single-byte label exactly
one of the two holds, of an empty label or one of several bytes neither. -/
theorem label_classes (label : List Nat) :
    (kbd_is_token_char_label label = true ↔ ∃ c, label = [c] ∧ token_class c = true) ∧
    (kbd_is_separator_label label = true ↔ ∃ c, label = [c] ∧ token_class c = false) ∧
    kbd_is_separator_label [32] = true ∧ kbd_is_separator_label [10] = true ∧
    (label.length = 1 →
      (kbd_is_token_char_label label = true ∧ kbd_is_separator_label label = false) ∨
      (kbd_is_token_char_label label = false ∧ kbd_is_separator_label label = true)) ∧
    (label.length ≠ 1 →
      kbd_is_token_char_label label = false ∧ kbd_is_separator_label label = false) := by
  have htok : ∀ c, kbd_is_token_char_label [c] = token_class c := by
    intro c
    rw [token_class_eq]
    unfold kbd_is_token_char_label
    by_cases h1 : isalnum c = true
    · simp [h1]
    · by_cases h2 : c = 39 ∨ c = 95
      · simp [h1, h2]
      · simp [h1, h2]
  have hsep : ∀ c, kbd_is_separator_label [c] = !token_class c := by
    intro c
    rw [token_class_eq]
    unfold kbd_is_separator_label
    by_cases h32 : c = 32
    · subst h32; decide
    by_cases h10 : c = 10
    · subst h10; decide
    by_cases h1 : isalnum c = true
    · simp [h1, h32, h10]
    · by_cases h2 : c = 39 ∨ c = 95
      · simp [h1, h2, h32, h10]
      · simp [h1, h2, h32, h10]
  refine ⟨?_, ?_, by decide, by decide, ?_, ?_⟩
  · constructor
    · intro h
      match label, h with
      | [c], h => exact ⟨c, rfl, by rw [← htok]; exact h⟩
    · rintro ⟨c, rfl, hc⟩
      rw [htok]; exact hc
  · constructor
    · intro h
      match label, h with
      | [c], h =>
        refine ⟨c, rfl, ?_⟩
        rw [hsep] at h
        cases hc : token_class c
        · rfl
        · rw [hc] at h; cases h
    · rintro ⟨c, rfl, hc⟩
      rw [hsep, hc]; rfl
  · intro hlen
    match label, hlen with
    | [c], _ =>
      rw [htok, hsep]
      cases token_class c
      · exact Or.inr ⟨rfl, rfl⟩
      · exact Or.inl ⟨rfl, rfl⟩
  · intro hlen
    match label, hlen with
    | [], _ => exact ⟨rfl, rfl⟩
    | _ :: _ :: _, _ => exact ⟨rfl, rfl⟩

/-- C31 on the labels `a`, `,` and `ab`: a token character, a separator, and
neither. -/
theorem label_classes_witness :
    kbd_is_token_char_label [97] = true ∧ kbd_is_separator_label [44] = true ∧
    kbd_is_token_char_label [97, 98] = false ∧ kbd_is_separator_label [97, 98] = false :=
  ⟨(label_classes [97]).1.mpr ⟨97, rfl, by decide⟩,
    (label_classes [44]).2.1.mpr ⟨44, rfl, by decide⟩,
    (label_classes [97, 98]).2.2.2.2.2 (by decide)⟩

/-! ### Pending swipe word -/

/-- The test of the loop of `kbd_set_pending_swipe_from_suggestions`. -/
theorem suggestion_has_word_iff (s : wvkbd_suggestion) :
    suggestion_has_word s = true ↔
      s.kind = .WVKBD_SUGGEST_WORD ∧ ∃ w, s.word = some w ∧ w ≠ [] := by
  unfold suggestion_has_word
  cases hw : s.word with
  | none => simp
  | some w => simp

/-- The first element of a list that passes a test, found by `find?`. -/
theorem find_first {α : Type} (p : α → Bool) (pre : List α) (s : α) (post : List α)
    (hpre : ∀ a ∈ pre, p a = false) (hs : p s = true) :
    (pre ++ s :: post).find? p = some s := by
  induction pre with
  | nil => simp [List.find?, hs]
  | cons a pre ih =>
    have ha : p a = false := hpre a (List.mem_cons_self _ _)
    simp only [List.cons_append, List.find?, ha]
    exact ih (fun b hb => hpre b (List.mem_cons_of_mem _ hb))

/-- The state redrawn after `kbd_set_pending_swipe_from_suggestions` is left as
it is by another call of the function. -/
theorem kbd_set_pending_swipe_from_suggestions_idem (a : kbd) :
    kbd_set_pending_swipe_from_suggestions
      (kbd_draw_layout (kbd_set_pending_swipe_from_suggestions a)) =
      kbd_draw_layout (kbd_set_pending_swipe_from_suggestions a) := by
  have hs : (kbd_draw_layout (kbd_set_pending_swipe_from_suggestions a)).suggestions =
      a.suggestions := by
    rw [kbd_draw_layout_suggestions, kbd_set_pending_swipe_from_suggestions_suggestions]
  generalize hb : kbd_draw_layout (kbd_set_pending_swipe_from_suggestions a) = b at hs
  have h1 : b.pending_swipe = (kbd_set_pending_swipe_from_suggestions a).pending_swipe := by
    rw [← hb, kbd_draw_layout_eq]
  have h2 : b.pending_swipe_word =
      (kbd_set_pending_swipe_from_suggestions a).pending_swipe_word := by
    rw [← hb, kbd_draw_layout_eq]
  clear hb
  have hf : b.suggestions.find? suggestion_has_word =
      a.suggestions.find? suggestion_has_word := by rw [hs]
  unfold kbd_set_pending_swipe_from_suggestions at h1 h2 ⊢
  split
  · rename_i s hfind
    rw [hf] at hfind
    simp only [hfind] at h1 h2
    have e : ({ b with pending_swipe := true,
                       pending_swipe_word := strncpy_token (s.word.getD []) } : kbd) =
        { b with pending_swipe := b.pending_swipe,
                 pending_swipe_word := b.pending_swipe_word } := by rw [h1, h2]
    exact e
  · rename_i hfind
    rw [hf] at hfind
    simp only [hfind] at h1 h2
    have e : ({ b with pending_swipe := false, pending_swipe_word := [] } : kbd) =
        { b with pending_swipe := b.pending_swipe,
                 pending_swipe_word := b.pending_swipe_word } := by rw [h1, h2]
    exact e

/-- The state a swipe refresh returns when it reaches the predictor: the
suggestions made of the candidates, the pending swipe word taken from them, and
the redraw. -/
theorem kbd_update_suggestions_swipe_eq (kb kb' : kbd)
    (hp : kb.predictor ≠ none) (hlen : 2 ≤ kb.swipe_points.length)
    (h : kbd_update_suggestions_swipe kb = .ok kb') :
    ∃ cands, kb' = kbd_draw_layout (kbd_set_pending_swipe_from_suggestions
      { (kbd_suggestions_from_candidates kb cands) with
        suggest_mode := .WVKBD_SMODE_SWIPE, swipe_refreshes := kb.swipe_refreshes + 1 }) := by
  unfold kbd_update_suggestions_swipe at h
  split at h
  · rename_i hnone
    exact absurd hnone hp
  · rw [if_neg (by omega), except_bind_ok] at h
    obtain ⟨pos, -, h⟩ := h
    rw [except_bind_ok] at h
    obtain ⟨lw, -, h⟩ := h
    cases h
    exact ⟨_, rfl⟩

/-- C32: `kbd_set_pending_swipe_from_suggestions` changes the pending swipe
word alone; it sets `pending_swipe` exactly when the suggestion list holds a
`Word` suggestion with a non-empty text, and then `pending_swipe_word` is the
first 127 bytes of the text of the first such suggestion; otherwise
`pending_swipe` is false and `pending_swipe_word` is empty.  The state a swipe
refresh returns has the pending swipe word of its suggestions, and
`kbd_input_up` in Swipe mode is the refresh, with the pointer up, followed by
the function. -/
theorem pending_swipe_from_suggestions (kb : kbd) :
    (kbd_set_pending_swipe_from_suggestions kb =
      { kb with
        pending_swipe := (kbd_set_pending_swipe_from_suggestions kb).pending_swipe,
        pending_swipe_word := (kbd_set_pending_swipe_from_suggestions kb).pending_swipe_word }) ∧
    ((kbd_set_pending_swipe_from_suggestions kb).pending_swipe = true ↔
      ∃ s ∈ kb.suggestions, s.kind = .WVKBD_SUGGEST_WORD ∧ ∃ w, s.word = some w ∧ w ≠ []) ∧
    (∀ pre s post w, kb.suggestions = pre ++ s :: post →
      (∀ p ∈ pre, ¬ (p.kind = .WVKBD_SUGGEST_WORD ∧ ∃ v, p.word = some v ∧ v ≠ [])) →
      s.kind = .WVKBD_SUGGEST_WORD → s.word = some w → w ≠ [] →
      (kbd_set_pending_swipe_from_suggestions kb).pending_swipe = true ∧
      (kbd_set_pending_swipe_from_suggestions kb).pending_swipe_word = w.take 127) ∧
    ((kbd_set_pending_swipe_from_suggestions kb).pending_swipe = false →
      (kbd_set_pending_swipe_from_suggestions kb).pending_swipe_word = []) ∧
    (∀ kb', kb.predictor ≠ none → 2 ≤ kb.swipe_points.length →
      kbd_update_suggestions_swipe kb = .ok kb' →
      kbd_set_pending_swipe_from_suggestions kb' = kb') ∧
    (∀ tap time_ms x y, kb.input_mode = .KBD_INPUT_SWIPE →
      kbd_input_up tap kb time_ms x y =
        kbd_update_suggestions_swipe { kb with input_down := false } >>= fun kb1 =>
          .ok { (kbd_set_pending_swipe_from_suggestions kb1) with
                input_mode := .KBD_INPUT_NONE }) := by
  refine ⟨?_, ?_, ?_, ?_, ?_, ?_⟩
  · unfold kbd_set_pending_swipe_from_suggestions
    split <;> rfl
  · constructor
    · intro h
      unfold kbd_set_pending_swipe_from_suggestions at h
      split at h
      · rename_i s hfind
        exact ⟨s, List.mem_of_find?_eq_some hfind,
          (suggestion_has_word_iff s).mp (List.find?_some hfind)⟩
      · cases h
    · rintro ⟨s, hmem, hs⟩
      unfold kbd_set_pending_swipe_from_suggestions
      split
      · rfl
      · rename_i hfind
        have := List.find?_eq_none.mp hfind s hmem
        exact absurd ((suggestion_has_word_iff s).mpr hs) this
  · intro pre s post w hsug hpre hkind hword hne
    have hfind : kb.suggestions.find? suggestion_has_word = some s := by
      rw [hsug]
      refine find_first _ pre s post ?_ ((suggestion_has_word_iff s).mpr ⟨hkind, w, hword, hne⟩)
      intro p hp
      cases hv : suggestion_has_word p
      · rfl
      · exact absurd ((suggestion_has_word_iff p).mp hv) (hpre p hp)
    unfold kbd_set_pending_swipe_from_suggestions
    rw [hfind]
    refine ⟨rfl, ?_⟩
    show strncpy_token (s.word.getD []) = w.take 127
    rw [hword]
    rfl
  · intro h
    unfold kbd_set_pending_swipe_from_suggestions at h ⊢
    split at h
    · cases h
    · rename_i hfind
      simp only [hfind]
  · intro kb' hp hlen hrun
    obtain ⟨cands, rfl⟩ := kbd_update_suggestions_swipe_eq kb kb' hp hlen hrun
    exact kbd_set_pending_swipe_from_suggestions_idem _
  · intro tap time_ms x y hmode
    unfold kbd_input_up
    split <;> rename_i heq <;> rw [hmode] at heq <;> cases heq
    rfl

/-- C32 on the sample suggestion list: the first `Word` suggestion with a text
is `the`, after an entry of another kind and a `Word` suggestion without
text. -/
theorem pending_swipe_from_suggestions_witness :
    (kbd_set_pending_swipe_from_suggestions
      { typing_kbd with suggestions := mixed_suggestions }).pending_swipe = true ∧
    (kbd_set_pending_swipe_from_suggestions
      { typing_kbd with suggestions := mixed_suggestions }).pending_swipe_word =
        [116, 104, 101] :=
  (pending_swipe_from_suggestions { typing_kbd with suggestions := mixed_suggestions }).2.2.1
    (mixed_suggestions.take 2) _ _ [116, 104, 101] rfl (by decide) rfl rfl (by decide)

/-! ### Modifiers at release -/

theorem vkbd_request_mods (kb kb' : kbd) (e : Event) (h : vkbd_request kb e = .ok kb') :
    kb'.mods = kb.mods := by
  unfold vkbd_request at h
  split_ifs at h
  cases h
  rfl

theorem kbd_switch_layout_mods (kb kb' : kbd) (l i : Nat)
    (h : kbd_switch_layout kb l i = .ok kb') : kb'.mods = kb.mods := by
  rw [kbd_switch_layout_eq kb l i (kbd_switch_layout_returns kb kb' l i h)] at h
  cases h
  rw [kbd_draw_layout_eq]

/-- The modifier mask after the toggles depends on the mask alone. -/
theorem unlatch_mods_mask (kb : kbd) :
    (unlatch_mods kb).mods = (unlatch_mods { kbd_zero with mods := kb.mods }).mods := by
  unfold unlatch_mods
  dsimp only
  simp only [apply_ite kbd.mods]

set_option maxRecDepth 100000 in
/-- On a mask of eight bits the toggles clear the bits of Shift, Ctrl, Alt,
Super and AltGr and keep the other three. -/
theorem unlatch_mods_byte :
    ∀ m < 256, (unlatch_mods { kbd_zero with mods := m }).mods = m &&& 50 := by
  decide

set_option maxRecDepth 100000 in
/-- The bits of a mask of eight bits without the one-shot modifiers. -/
theorem unlatched_bits :
    ∀ m < 256, (m &&& 50) &&& Shift = 0 ∧ (m &&& 50) &&& Ctrl = 0 ∧
      (m &&& 50) &&& Alt = 0 ∧ (m &&& 50) &&& Super = 0 ∧ (m &&& 50) &&& AltGr = 0 ∧
      (m &&& 50) &&& CapsLock = m &&& CapsLock := by
  decide

/-- A returning call of `kbd_unpress_key` with a key pressed leaves the mask the
toggles give and no key pressed. -/
theorem kbd_unpress_key_unlatched (kb kb' : kbd) (lp : key) (time : Nat)
    (hlp : kb.last_press = some lp) (h : kbd_unpress_key kb time = .ok kb') :
    kb'.mods = (unlatch_mods kb).mods ∧ kb'.last_press = none := by
  unfold kbd_unpress_key at h
  split at h
  · rename_i hnone
    rw [hlp] at hnone
    cases hnone
  · rw [except_bind_ok] at h
    obtain ⟨kb1, h1, h⟩ := h
    have f1 : kb1.mods = (unlatch_mods kb).mods := by
      split_ifs at h1
      · exact vkbd_request_mods _ _ _ h1
      · cases h1
        rfl
    rw [except_bind_ok] at h
    obtain ⟨kb2, h2, h⟩ := h
    have f2 : kb2.mods = kb1.mods := by
      unfold unpress_release at h2
      split_ifs at h2 <;> exact vkbd_request_mods _ _ _ h2
    rw [except_bind_ok] at h
    obtain ⟨kb3, h3, h⟩ := h
    cases h
    have f3 : kb3.mods = kb2.mods := by
      unfold unpress_finish at h3
      split_ifs at h3
      · split at h3
        · cases h3
        · exact kbd_switch_layout_mods { kb2 with compose := 0 } _ _ _ h3
      · cases h3
        rw [kbd_draw_layout_eq]
      · cases h3
        rfl
    exact ⟨f3.trans (f2.trans f1), rfl⟩

/-- C38: with a key pressed, `kbd_unpress_key` returns, clears the bits of the
one-shot modifiers Shift, Ctrl, Alt, Super and AltGr in the modifier mask, leaves
the CapsLock bit, and every other bit, as it was, and sets `last_press` to none;
with no key pressed it returns the state unchanged, trace included. -/
theorem kbd_unpress_key_modifiers (kb : kbd) (time : Nat) :
    (∀ lp, kb.last_press = some lp → kb.mods < 256 → keymaps_defined kb →
      (kb.compose ≥ 2 → kb.last_abc_layout ≠ none) →
      ∃ kb', kbd_unpress_key kb time = .ok kb' ∧
        kb'.mods &&& Shift = 0 ∧ kb'.mods &&& Ctrl = 0 ∧ kb'.mods &&& Alt = 0 ∧
        kb'.mods &&& Super = 0 ∧ kb'.mods &&& AltGr = 0 ∧
        kb'.mods &&& CapsLock = kb.mods &&& CapsLock ∧
        kb'.mods = kb.mods &&& 50 ∧ kb'.last_press = none) ∧
    (kb.last_press = none → kbd_unpress_key kb time = .ok kb) := by
  constructor
  · intro lp hlp hm hk hlast
    obtain ⟨kb', es2, c, es3, hrun, -⟩ := kbd_unpress_key_returns kb lp time hk hlp hlast
    obtain ⟨hmods, hnone⟩ := kbd_unpress_key_unlatched kb kb' lp time hlp hrun
    have hmask : kb'.mods = kb.mods &&& 50 := by
      rw [hmods, unlatch_mods_mask]
      exact unlatch_mods_byte kb.mods hm
    obtain ⟨b1, b2, b3, b4, b5, b6⟩ := unlatched_bits kb.mods hm
    refine ⟨kb', hrun, ?_, ?_, ?_, ?_, ?_, ?_, hmask, hnone⟩ <;> rw [hmask] <;> assumption
  · intro hnone
    unfold kbd_unpress_key
    rw [hnone]

/-- C38 on the sample keyboard with Ctrl, Shift and CapsLock set and the key `e`
pressed: the release leaves CapsLock alone. -/
theorem kbd_unpress_key_modifiers_witness :
    ∃ kb', kbd_unpress_key { ctrl_shift_kbd with mods := 7, last_press := some e_key } 0 =
        .ok kb' ∧
      kb'.mods &&& Shift = 0 ∧ kb'.mods &&& Ctrl = 0 ∧ kb'.mods &&& Alt = 0 ∧
      kb'.mods &&& Super = 0 ∧ kb'.mods &&& AltGr = 0 ∧
      kb'.mods &&& CapsLock = 7 &&& CapsLock ∧ kb'.mods = 7 &&& 50 ∧ kb'.last_press = none :=
  (kbd_unpress_key_modifiers { ctrl_shift_kbd with mods := 7, last_press := some e_key } 0).1
    e_key rfl (by decide) ⟨rfl, nav_kbd_keymaps_defined.2⟩ (fun h => absurd h (by decide))

/-! ### Printed and drawn label -/

/-- The CapsLock bit of a mask and a truth value, 0 or 1, have no bit in
common. -/
theorem capslock_land_truth (m : Nat) (b : Prop) [Decidable b] :
    (m &&& CapsLock) &&& (if b then 1 else 0) = 0 := by
  rw [Nat.land_assoc]
  split_ifs
  · show m &&& (2 &&& 1) = 0
    have : (2 : Nat) &&& 1 = 0 := by decide
    rw [this, Nat.and_zero]
  · exact Nat.and_zero _

/-- C35, as the code has it: for a `Code` key other than Space, Enter, Backspace
and Tab with both labels set, and a modifier mask without Ctrl, Alt and Super,
`kbd_print_key_stdout` prints the shifted label exactly when Shift is set, and
the plain label otherwise, while `kbd_draw_key` shows the shifted label when
Shift is set or when CapsLock is set and the label is a single alphabetic
character.  With CapsLock set, Shift clear and a label of one letter the key
shows the shifted label and the plain label is printed. -/
theorem kbd_print_key_stdout_label (kb : kbd) (k : key) (label shift_label : List Nat)
    (hcode : k.type = .Code) (h1 : k.code ≠ KEY_SPACE) (h2 : k.code ≠ KEY_ENTER)
    (h3 : k.code ≠ KEY_BACKSPACE) (h4 : k.code ≠ KEY_TAB)
    (hl : k.label = some label) (hs : k.shift_label = some shift_label)
    (hmods : kb.mods &&& Ctrl = 0 ∧ kb.mods &&& Alt = 0 ∧ kb.mods &&& Super = 0) :
    kbd_print_key_stdout kb k =
      .ok { kb with stdout := kb.stdout ++
              (if kb.mods &&& Shift ≠ 0 then shift_label else label) } ∧
    kbd_draw_key_label kb k =
      .ok (some (if kb.mods &&& Shift ≠ 0 ∨
          (kb.mods &&& CapsLock ≠ 0 ∧ label.length = 1 ∧ isalpha (label.headD 0) = true)
        then shift_label else label)) ∧
    (kb.mods &&& Shift = 0 → kb.mods &&& CapsLock ≠ 0 → label.length = 1 →
      isalpha (label.headD 0) = true →
      kbd_draw_key_label kb k = .ok (some shift_label) ∧
      kbd_print_key_stdout kb k = .ok { kb with stdout := kb.stdout ++ label }) := by
  have hprint : kbd_print_key_stdout kb k =
      .ok { kb with stdout := kb.stdout ++
              (if kb.mods &&& Shift ≠ 0 then shift_label else label) } := by
    unfold kbd_print_key_stdout
    dsimp only
    rw [if_pos hcode, if_neg h1, if_neg h2, if_neg h3, if_neg h4]
    by_cases h6 : kb.mods &&& Shift ≠ 0
    · rw [if_pos h6, if_pos h6, hs]
    · rw [if_neg h6, if_neg h6, hl]
      dsimp only
      rw [capslock_land_truth, if_neg (fun h => h rfl), if_pos hmods]
  have hdraw : kbd_draw_key_label kb k =
      .ok (some (if kb.mods &&& Shift ≠ 0 ∨
          (kb.mods &&& CapsLock ≠ 0 ∧ label.length = 1 ∧ isalpha (label.headD 0) = true)
        then shift_label else label)) := by
    unfold kbd_draw_key_label
    by_cases h6 : kb.mods &&& Shift ≠ 0
    · rw [if_pos h6, if_pos (Or.inl h6), hs]
    · rw [if_neg h6]
      by_cases h7 : kb.mods &&& CapsLock ≠ 0
      · rw [if_pos h7, hl]
        dsimp only
        by_cases h8 : label.length = 1 ∧ isalpha (label.headD 0) = true
        · rw [if_pos h8, if_pos (Or.inr ⟨h7, h8⟩), hs]
        · rw [if_neg h8, if_neg]
          rintro (h | ⟨-, h⟩)
          · exact h6 h
          · exact h8 h
      · rw [if_neg h7, if_neg, hl]
        rintro (h | ⟨h, -⟩)
        · exact h6 h
        · exact h7 h
  refine ⟨hprint, hdraw, ?_⟩
  intro hshift hcaps hlen halpha
  constructor
  · rw [hdraw, if_pos (Or.inr ⟨hcaps, hlen, halpha⟩)]
  · rw [hprint, if_neg (fun h => h hshift)]

/-- C35 at a failing input: on the sample keyboard with CapsLock alone the key
`e` shows `E`, and `e` is printed. -/
theorem kbd_print_key_stdout_label_witness :
    kbd_draw_key_label capslock_kbd e_key = .ok (some [69]) ∧
    kbd_print_key_stdout capslock_kbd e_key =
      .ok { capslock_kbd with stdout := capslock_kbd.stdout ++ [101] } :=
  (kbd_print_key_stdout_label capslock_kbd e_key [101] [69] rfl (by decide) (by decide)
    (by decide) (by decide) rfl rfl (by decide)).2.2 (by decide) (by decide) rfl (by decide)

/-! ### Compose sequence -/

theorem vkbd_request_eq (kb kb' : kbd) (e : Event) (h : vkbd_request kb e = .ok kb') :
    kb' = { kb with out := kb.out ++ [e] } := by
  unfold vkbd_request at h
  split_ifs at h
  cases h
  rfl

/-- A returning `Code` case of a key press changes the trace, the printed bytes,
the pressed key and, in a compose sequence, the compose counter. -/
theorem press_code_eq (kb kb' : kbd) (k : key) (time : Nat)
    (h : press_code kb k time = .ok kb') :
    ∃ out bytes, kb' =
      { kb with
        last_swipe := some k, last_press := some k, out := out, stdout := bytes
        compose := if kb.compose ≠ 0 then (kb.compose + 1) % 256 else kb.compose } := by
  unfold press_code at h
  rw [except_bind_ok] at h
  obtain ⟨kb1, h1, h⟩ := h
  have e1 : ∃ out, kb1 = { kb with out := out } := by
    unfold press_code_modifiers at h1
    split_ifs at h1 <;> exact ⟨_, vkbd_request_eq _ _ _ h1⟩
  obtain ⟨out1, rfl⟩ := e1
  rw [except_bind_ok] at h
  obtain ⟨kb2, h2, h⟩ := h
  have e2 : ∃ out, kb2 = { kb with last_swipe := some k, last_press := some k, out := out } := by
    unfold press_code_key at h2
    split_ifs at h2
    · rw [except_bind_ok] at h2
      obtain ⟨kbm, hm, h2⟩ := h2
      have em := vkbd_request_eq _ _ _ hm
      subst em
      exact ⟨_, vkbd_request_eq _ _ _ h2⟩
    · exact ⟨_, vkbd_request_eq _ _ _ h2⟩
  obtain ⟨out2, rfl⟩ := e2
  rw [except_bind_ok] at h
  obtain ⟨kb3, h3, h⟩ := h
  have e3 : ∃ bytes, kb3 =
      { kb with last_swipe := some k, last_press := some k, out := out2, stdout := bytes } := by
    unfold press_print at h3
    split_ifs at h3
    · rcases kbd_print_key_stdout_cases
        { kb with last_swipe := some k, last_press := some k, out := out2 } k with
        ⟨bytes, hb⟩ | ⟨he, -⟩
      · rw [hb] at h3
        cases h3
        exact ⟨bytes, rfl⟩
      · rw [he] at h3
        cases h3
    · cases h3
      exact ⟨kb.stdout, rfl⟩
  obtain ⟨bytes, rfl⟩ := e3
  cases h
  refine ⟨out2, bytes, ?_⟩
  dsimp only
  split_ifs <;> rfl

/-- A returning call of `kbd_unpress_key` that ends a compose sequence, a key
being pressed and the compose counter at 2 or more, shows the last alphabetic
layout at its index, with the compose counter back at 0. -/
theorem kbd_unpress_key_compose (kb kb' : kbd) (lp : key) (l : Nat) (time : Nat)
    (hlp : kb.last_press = some lp) (hc : kb.compose ≥ 2) (hl : kb.last_abc_layout = some l)
    (h : kbd_unpress_key kb time = .ok kb') :
    kb'.compose = 0 ∧ kb'.layout = l ∧ kb'.layer_index = kb.last_abc_index ∧
      kb'.print_intersect = kb.print_intersect := by
  unfold kbd_unpress_key at h
  split at h
  · rename_i hnone
    rw [hlp] at hnone
    cases hnone
  · rw [except_bind_ok] at h
    obtain ⟨kb1, h1, h⟩ := h
    have f1 : ∃ m out, kb1 = { kb with mods := m, out := out } := by
      split_ifs at h1
      · have := vkbd_request_eq _ _ _ h1
        rw [unlatch_mods_eq] at this
        exact ⟨_, _, this⟩
      · cases h1
        exact ⟨_, kb.out, unlatch_mods_eq kb⟩
    obtain ⟨m1, out1, e1⟩ := f1
    rw [except_bind_ok] at h
    obtain ⟨kb2, h2, h⟩ := h
    have f2 : ∃ out, kb2 = { kb with mods := m1, out := out } := by
      unfold unpress_release at h2
      split_ifs at h2 <;>
        exact ⟨_, (vkbd_request_eq _ _ _ h2).trans (by rw [e1])⟩
    obtain ⟨out2, e2⟩ := f2
    rw [except_bind_ok] at h
    obtain ⟨kb3, h3, h⟩ := h
    cases h
    have hc2 : kb2.compose ≥ 2 := by rw [e2]; exact hc
    have hl2 : kb2.last_abc_layout = some l := by rw [e2]; exact hl
    have hi2 : kb2.last_abc_index = kb.last_abc_index := by rw [e2]
    have hp2 : kb2.print_intersect = kb.print_intersect := by rw [e2]
    unfold unpress_finish at h3
    rw [if_pos hc2] at h3
    split at h3
    · cases h3
    · rename_i l2 hl3
      rw [hl2] at hl3
      cases hl3
      obtain ⟨hs, hli, hlo, -, -, hco⟩ :=
        kbd_switch_layout_nav { kb2 with compose := 0 } kb3 l kb2.last_abc_index h3
      have hpi : kb3.print_intersect = kb2.print_intersect := by
        rw [kbd_switch_layout_eq _ l _ (kbd_switch_layout_returns _ kb3 l _ h3)] at h3
        cases h3
        rw [kbd_draw_layout_eq]
      exact ⟨hco, hlo, hli.trans hi2, hpi.trans hp2⟩

/-- A returning call of `kbd_release_key` that ends a compose sequence shows the
last alphabetic layout at its index, with the compose counter back at 0. -/
theorem kbd_release_key_compose (kb kb' : kbd) (lp : key) (l : Nat) (time : Nat)
    (hlp : kb.last_press = some lp) (hc : kb.compose ≥ 2) (hl : kb.last_abc_layout = some l)
    (h : kbd_release_key kb time = .ok kb') :
    kb'.compose = 0 ∧ kb'.layout = l ∧ kb'.layer_index = kb.last_abc_index := by
  unfold kbd_release_key at h
  rw [except_bind_ok] at h
  obtain ⟨kb1, h1, h⟩ := h
  obtain ⟨a, b, c, -⟩ := kbd_unpress_key_compose kb kb1 lp l time hlp hc hl h1
  split_ifs at h
  · cases h
    rw [kbd_draw_layout_eq]
    exact ⟨a, b, c⟩
  · cases h
    exact ⟨a, b, c⟩

/-- C36, as stated, fails: on the keyboard with the layer sequence `simple,
full`, after `kbd_init` and a press of the `Layout` key for `full` (which
leaves the alphabetic layout `full` shown with compose 0), the press of a
`Compose` key, the press of the key `a`, which carries a compose layout, and
the press and release of the `Code` key `à` of that layout end on the layout
`simple` (1), not on the layout `full` (0) the sequence started from. -/
theorem compose_sequence_counterexample :
    ∃ s0 s1 s2 s3 s4 s5,
      kbd_init boot_kbd compose_layouts
        (some ["simple", "full"]) (some ["simple"]) = .ok s0 ∧
      kbd_press_key s0 full_key 0 = .ok s1 ∧
      s1.compose = 0 ∧ s1.layout = 0 ∧ (s1.layouts s1.layout).abc = true ∧
      kbd_press_key s1 compose_key 1 = .ok s2 ∧
      kbd_press_key s2 a_compose_key 2 = .ok s3 ∧ s3.layout = 2 ∧
      kbd_press_key s3 agrave_key 3 = .ok s4 ∧
      kbd_release_key s4 4 = .ok s5 ∧
      s5.compose = 0 ∧ s5.layout = 1 ∧ s5.layout ≠ s1.layout :=
  ⟨_, _, _, _, _, _, rfl, rfl, rfl, rfl, rfl, rfl, rfl, rfl, rfl, rfl, rfl, rfl, by decide⟩

/-- C36, as amended: on an alphabetic layout with compose 0 whose layer index is
not the index of the alphabetic fallback, or which is the alphabetic fallback
itself, and with the keymaps defined, the press of a `Compose` key, the press
of a key that carries an associated layout and is no `Compose`, `Mod`,
`NextLayer`, `BackLayer` or Space key, and the press and release of a `Code` key
all return; the middle press shows the associated layout and sends no key
event; at the end compose is 0 and the layout and the layer index are those the
sequence started from. -/
theorem compose_sequence (kb : kbd) (kc k2 k3 : key) (l2 t1 t2 t3 t4 : Nat)
    (hk : keymaps_defined kb) (hc0 : kb.compose = 0)
    (habc : (kb.layouts kb.layout).abc = true)
    (hlast : kb.layer_index ≠ kb.last_abc_index ∨ kb.last_abc_layout = some kb.layout)
    (hkc : kc.type = .Compose) (hk2 : k2.layout = some l2)
    (ht2 : k2.type ≠ .Compose ∧ k2.type ≠ .Mod ∧ k2.type ≠ .NextLayer ∧
      k2.type ≠ .BackLayer ∧ ¬ (k2.type = .Code ∧ k2.code = KEY_SPACE))
    (hk3 : k3.type = .Code)
    (hprint : (kb.print = false ∧ kb.print_intersect = false) ∨
      (k3.label ≠ none ∧ k3.shift_label ≠ none)) :
    ∃ kb1 kb2 kb3 kb4 es,
      kbd_press_key kb kc t1 = .ok kb1 ∧ kbd_press_key kb1 k2 t2 = .ok kb2 ∧
      kbd_press_key kb2 k3 t3 = .ok kb3 ∧ kbd_release_key kb3 t4 = .ok kb4 ∧
      kb2.layout = l2 ∧ kb2.out = kb.out ++ es ∧ (∀ e ∈ es, key_event e = false) ∧
      kb4.compose = 0 ∧ kb4.layout = kb.layout ∧ kb4.layer_index = kb.layer_index := by
  have h1 : kbd_press_key kb kc t1 = .ok { kb with compose := 1 } := by
    unfold kbd_press_key
    rw [if_neg (fun h => by rw [hc0] at h; exact absurd h.1 (by decide)), hkc]
    show Except.ok { kb with compose := if kb.compose = 0 then 1 else 0 } = _
    rw [if_pos hc0]
  have hcond : ¬ (k2.type = .NextLayer ∨ k2.type = .BackLayer ∨
      (k2.type = .Code ∧ k2.code = KEY_SPACE)) := by
    rintro (h | h | h)
    · exact ht2.2.2.1 h
    · exact ht2.2.2.2.1 h
    · exact ht2.2.2.2.2 h
  have h2 : kbd_press_key { kb with compose := 1 } k2 t2 =
      kbd_switch_layout { kb with compose := 2 } l2
        (kbd_get_layer_index { kb with compose := 2 } l2) := by
    unfold kbd_press_key
    rw [if_pos ⟨rfl, ht2.1, ht2.2.1⟩]
    unfold press_composing
    rw [if_neg hcond, hk2]
    rfl
  rw [kbd_switch_layout_eq { kb with compose := 2 } l2 _ (Or.inr ⟨hk.1, hk.2 l2⟩)] at h2
  generalize hkb2 : kbd_draw_layout
    { ({ kb with compose := 2 } : kbd) with
      prevlayout := some kb.layout
      last_abc_layout :=
        if kb.layer_index ≠ kb.last_abc_index ∧ (kb.layouts kb.layout).abc = true then
          some kb.layout else kb.last_abc_layout
      last_abc_index :=
        if kb.layer_index ≠ kb.last_abc_index ∧ (kb.layouts kb.layout).abc = true then
          kb.layer_index else kb.last_abc_index
      layer_index := kbd_get_layer_index { kb with compose := 2 } l2
      layout := l2
      out := kb.out ++
        if (kb.layouts kb.layout).keymap_name ≠ (kb.layouts l2).keymap_name then
          [.keymap (kb.layouts l2).keymap_name 0 0] else [] } = kb2 at h2
  have e2 := kbd_draw_layout_eq
    { ({ kb with compose := 2 } : kbd) with
      prevlayout := some kb.layout
      last_abc_layout :=
        if kb.layer_index ≠ kb.last_abc_index ∧ (kb.layouts kb.layout).abc = true then
          some kb.layout else kb.last_abc_layout
      last_abc_index :=
        if kb.layer_index ≠ kb.last_abc_index ∧ (kb.layouts kb.layout).abc = true then
          kb.layer_index else kb.last_abc_index
      layer_index := kbd_get_layer_index { kb with compose := 2 } l2
      layout := l2
      out := kb.out ++
        if (kb.layouts kb.layout).keymap_name ≠ (kb.layouts l2).keymap_name then
          [.keymap (kb.layouts l2).keymap_name 0 0] else [] }
  rw [hkb2] at e2
  have hlay2 : kb2.layout = l2 := by rw [e2]
  have hcomp2 : kb2.compose = 2 := by rw [e2]
  have hout2 : kb2.out = kb.out ++
      if (kb.layouts kb.layout).keymap_name ≠ (kb.layouts l2).keymap_name then
        [.keymap (kb.layouts l2).keymap_name 0 0] else [] := by rw [e2]
  have hpr2 : kb2.print = kb.print ∧ kb2.print_intersect = kb.print_intersect := by
    rw [e2]
    exact ⟨rfl, rfl⟩
  have hkd2 : keymaps_defined kb2 := by
    rw [e2]
    exact hk
  have habl2 : kb2.last_abc_layout = some kb.layout := by
    rw [e2]
    show (if kb.layer_index ≠ kb.last_abc_index ∧ (kb.layouts kb.layout).abc = true then
      some kb.layout else kb.last_abc_layout) = some kb.layout
    split_ifs with hc
    · rfl
    · rcases hlast with h | h
      · exact absurd ⟨h, habc⟩ hc
      · exact h
  have habi2 : kb2.last_abc_index = kb.layer_index := by
    rw [e2]
    show (if kb.layer_index ≠ kb.last_abc_index ∧ (kb.layouts kb.layout).abc = true then
      kb.layer_index else kb.last_abc_index) = kb.layer_index
    split_ifs with hc
    · rfl
    · by_contra hne
      exact hc ⟨fun h => hne h.symm, habc⟩
  have hprint2 : (kb2.print = false ∧ kb2.print_intersect = false) ∨
      (k3.label ≠ none ∧ k3.shift_label ≠ none) := by
    rw [hpr2.1, hpr2.2]
    exact hprint
  obtain ⟨kb3, es3, c3, h3, -, -, hlp3, -, -⟩ :=
    kbd_press_key_returns kb2 k3 t3 hkd2 (by rw [hcomp2]; decide) (Or.inl hk3) hprint2
  have h3c : press_code kb2 k3 t3 = .ok kb3 := by
    rw [← h3]
    unfold kbd_press_key
    rw [if_neg (fun h => by rw [hcomp2] at h; exact absurd h.1 (by decide)), hk3]
  obtain ⟨out3, bytes3, e3⟩ := press_code_eq kb2 kb3 k3 t3 h3c
  have hkd3 : keymaps_defined kb3 := by
    rw [e3]
    exact hkd2
  have hcomp3 : kb3.compose ≥ 2 := by
    rw [e3]
    show (if kb2.compose ≠ 0 then (kb2.compose + 1) % 256 else kb2.compose) ≥ 2
    rw [hcomp2]
    decide
  have habl3 : kb3.last_abc_layout = some kb.layout := by
    rw [e3]
    exact habl2
  have habi3 : kb3.last_abc_index = kb.layer_index := by
    rw [e3]
    exact habi2
  obtain ⟨kb4, -, -, -, h4, -⟩ := kbd_release_key_returns kb3 k3 t4 hkd3 hlp3
    (fun _ => by rw [habl3]; exact Option.some_ne_none _)
  obtain ⟨a, b, c⟩ := kbd_release_key_compose kb3 kb4 k3 kb.layout t4 hlp3 hcomp3 habl3 h4
  refine ⟨_, kb2, kb3, kb4, _, h1, h2, h3, h4, hlay2, hout2, ?_, a, b, c.trans habi3⟩
  intro e he
  split_ifs at he
  · rw [List.mem_singleton] at he
    subst he
    rfl
  · exact absurd he (List.not_mem_nil e)

/-- C36 on the keyboard with the registry `compose_layouts` showing `simple`:
the compose sequence over the key `a` and the key `à` ends on `simple` at layer
index 0. -/
theorem compose_sequence_witness :
    ∃ kb1 kb2 kb3 kb4 es,
      kbd_press_key compose_kbd compose_key 1 = .ok kb1 ∧
      kbd_press_key kb1 a_compose_key 2 = .ok kb2 ∧
      kbd_press_key kb2 agrave_key 3 = .ok kb3 ∧ kbd_release_key kb3 4 = .ok kb4 ∧
      kb2.layout = 2 ∧ kb2.out = compose_kbd.out ++ es ∧ (∀ e ∈ es, key_event e = false) ∧
      kb4.compose = 0 ∧ kb4.layout = compose_kbd.layout ∧
      kb4.layer_index = compose_kbd.layer_index :=
  compose_sequence compose_kbd compose_key a_compose_key agrave_key 2 1 2 3 4
    ⟨rfl, fun i => by
      show (compose_layouts i).keymap_name ∈ ["latin"]
      unfold compose_layouts
      split_ifs <;> decide⟩
    rfl rfl (Or.inl (by decide)) rfl rfl (by decide) rfl (Or.inl ⟨rfl, rfl⟩)

/-! ### Typing by code point -/

/-- A shifted value and a value below the shift join by `|||` as they add. -/
theorem shift_lor (a b i : Nat) (hb : b < 2 ^ i) : (a <<< i) ||| b = a * 2 ^ i + b := by
  rw [Nat.shiftLeft_eq, Nat.mul_comm a, ← Nat.mul_add_lt_is_or hb]

set_option maxRecDepth 100000 in
/-- The masks of the decoder on a continuation byte. -/
theorem continuation_masks :
    ∀ b < 64, (0x80 + b) &&& 0xC0 = 0x80 ∧ (0x80 + b) &&& 0x3F = b := by
  decide

set_option maxRecDepth 100000 in
/-- The masks of the decoder on the lead byte of two bytes. -/
theorem lead2_masks :
    ∀ a < 32, (0xC0 + a) &&& 0xE0 = 0xC0 ∧ (0xC0 + a) &&& 0x1F = a ∧ ¬ 0xC0 + a < 0x80 := by
  decide

set_option maxRecDepth 100000 in
/-- The masks of the decoder on the lead byte of three bytes. -/
theorem lead3_masks :
    ∀ a < 16, (0xE0 + a) &&& 0xE0 ≠ 0xC0 ∧ (0xE0 + a) &&& 0xF0 = 0xE0 ∧
      (0xE0 + a) &&& 0x0F = a ∧ ¬ 0xE0 + a < 0x80 := by
  decide

set_option maxRecDepth 100000 in
/-- The masks of the decoder on the lead byte of four bytes. -/
theorem lead4_masks :
    ∀ a < 8, (0xF0 + a) &&& 0xE0 ≠ 0xC0 ∧ (0xF0 + a) &&& 0xF0 ≠ 0xE0 ∧
      (0xF0 + a) &&& 0xF8 = 0xF0 ∧ (0xF0 + a) &&& 0x07 = a ∧ ¬ 0xF0 + a < 0x80 := by
  decide

/-- One round of the decoder on the encoding of a code point below U+110000
gives the code point back and takes the bytes of the encoding. -/
theorem utf8_next_encode (cp : Nat) (rest : List Nat) (h : cp < 0x110000) :
    utf8_next (utf8_encode cp ++ rest) = (cp, (utf8_encode cp).length) := by
  unfold utf8_encode
  by_cases h1 : cp < 0x80
  · rw [if_pos h1]
    unfold utf8_next
    simp only [List.singleton_append, List.getD_cons_zero]
    rw [if_pos h1]
    rfl
  rw [if_neg h1]
  by_cases h2 : cp < 0x800
  · rw [if_pos h2]
    obtain ⟨a1, a2, a3⟩ := lead2_masks (cp / 64) (by omega)
    obtain ⟨b1, b2⟩ := continuation_masks (cp % 64) (by omega)
    unfold utf8_next
    simp only [List.cons_append, List.nil_append, List.getD_cons_zero, List.getD_cons_succ]
    rw [if_neg a3, if_pos ⟨a1, b1⟩, a2, b2, shift_lor _ _ 6 (by omega)]
    simp only [List.length_cons, List.length_nil]
    congr 1
    omega
  rw [if_neg h2]
  by_cases h3 : cp < 0x10000
  · rw [if_pos h3]
    obtain ⟨a1, a2, a3, a4⟩ := lead3_masks (cp / 4096) (by omega)
    obtain ⟨b1, b2⟩ := continuation_masks (cp / 64 % 64) (by omega)
    obtain ⟨c1, c2⟩ := continuation_masks (cp % 64) (by omega)
    unfold utf8_next
    simp only [List.cons_append, List.nil_append, List.getD_cons_zero, List.getD_cons_succ]
    rw [if_neg a4, if_neg (fun h => a1 h.1), if_pos ⟨a2, b1, c1⟩, a3, b2, c2, Nat.lor_assoc,
      shift_lor (cp / 64 % 64) _ 6 (by omega), shift_lor _ _ 12 (by omega)]
    simp only [List.length_cons, List.length_nil]
    congr 1
    omega
  rw [if_neg h3]
  obtain ⟨a1, a2, a3, a4, a5⟩ := lead4_masks (cp / 262144) (by omega)
  obtain ⟨b1, b2⟩ := continuation_masks (cp / 4096 % 64) (by omega)
  obtain ⟨c1, c2⟩ := continuation_masks (cp / 64 % 64) (by omega)
  obtain ⟨d1, d2⟩ := continuation_masks (cp % 64) (by omega)
  unfold utf8_next
  simp only [List.cons_append, List.nil_append, List.getD_cons_zero, List.getD_cons_succ]
  rw [if_neg a5, if_neg (fun h => a1 h.1), if_neg (fun h => a2 h.1), if_pos ⟨a3, b1, c1, d1⟩,
    a4, b2, c2, d2, Nat.lor_assoc, Nat.lor_assoc,
    shift_lor (cp / 64 % 64) _ 6 (by omega), shift_lor (cp / 4096 % 64) _ 12 (by omega),
    shift_lor _ _ 18 (by omega)]
  simp only [List.length_cons, List.length_nil]
  congr 1
  omega

/-- The encoding of a code point other than 0 starts with a byte other than 0,
so it is a part of the text the decoding loop goes over. -/
theorem utf8_encode_cons (cp : Nat) :
    ∃ c tail, utf8_encode cp = c :: tail := by
  unfold utf8_encode
  split_ifs <;> exact ⟨_, _, rfl⟩

/-- With a round for each code point the decoding loop reads the code points
back from the text that encodes them. -/
theorem utf8_codepoints_fuel_text : ∀ (cps : List Nat) (fuel : Nat),
    (∀ cp ∈ cps, cp < 0x110000) → cps.length ≤ fuel →
    utf8_codepoints_fuel fuel (utf8_text cps) = cps := by
  intro cps
  induction cps with
  | nil =>
    intro fuel _ _
    cases fuel <;> rfl
  | cons cp cps ih =>
    intro fuel hcp hfuel
    cases fuel with
    | zero => simp at hfuel
    | succ fuel =>
      obtain ⟨c, tail, hc⟩ := utf8_encode_cons cp
      have hnext := utf8_next_encode cp (utf8_text cps) (hcp cp (List.mem_cons_self _ _))
      show utf8_codepoints_fuel (fuel + 1) (utf8_encode cp ++ utf8_text cps) = cp :: cps
      have hshape : utf8_encode cp ++ utf8_text cps = c :: (tail ++ utf8_text cps) := by
        rw [hc]
        rfl
      rw [hshape] at hnext ⊢
      unfold utf8_codepoints_fuel
      rw [hnext, ← hshape]
      dsimp only
      rw [List.drop_left,
        ih fuel (fun x hx => hcp x (List.mem_cons_of_mem _ hx)) (by simpa using hfuel)]

/-- The text that encodes code points has at least a byte for each. -/
theorem utf8_text_length (cps : List Nat) : cps.length ≤ (utf8_text cps).length := by
  induction cps with
  | nil => exact Nat.le_refl _
  | cons cp cps ih =>
    obtain ⟨c, tail, hc⟩ := utf8_encode_cons cp
    show (cp :: cps).length ≤ (utf8_encode cp ++ utf8_text cps).length
    rw [hc]
    simp only [List.length_cons, List.length_append]
    omega

set_option maxRecDepth 100000 in
/-- The masks of the decoder on a byte tell the ranges of the lead bytes and of
the continuation bytes. -/
theorem byte_masks :
    ∀ b < 256, (b &&& 0xE0 = 0xC0 ↔ 0xC0 ≤ b ∧ b < 0xE0) ∧
      (b &&& 0xF0 = 0xE0 ↔ 0xE0 ≤ b ∧ b < 0xF0) ∧
      (b &&& 0xF8 = 0xF0 ↔ 0xF0 ≤ b ∧ b < 0xF8) ∧
      (b &&& 0xC0 = 0x80 ↔ utf8_continuation b) := by
  unfold utf8_continuation
  decide

/-- A byte of a text, or the NUL past its end, is below 256. -/
theorem getD_byte : ∀ (s : List Nat) (i : Nat), (∀ c ∈ s, c < 256) → s.getD i 0 < 256 := by
  intro s
  induction s with
  | nil =>
    intro i _
    simp
  | cons a s ih =>
    intro i h
    cases i with
    | zero =>
      rw [List.getD_cons_zero]
      exact h a (List.mem_cons_self _ _)
    | succ i =>
      rw [List.getD_cons_succ]
      exact ih i (fun c hc => h c (List.mem_cons_of_mem _ hc))

/-- A round of the decoder on a text that does not start with a lead byte and
its continuation bytes takes one byte and gives it as the code point. -/
theorem utf8_next_single (s : List Nat) (h : ∀ c ∈ s, c < 256)
    (hno : ¬ utf8_lead_sequence s) : utf8_next s = (s.getD 0 0, 1) := by
  obtain ⟨a1, a2, a3, -⟩ := byte_masks (s.getD 0 0) (getD_byte s 0 h)
  obtain ⟨-, -, -, b⟩ := byte_masks (s.getD 1 0) (getD_byte s 1 h)
  obtain ⟨-, -, -, c⟩ := byte_masks (s.getD 2 0) (getD_byte s 2 h)
  obtain ⟨-, -, -, d⟩ := byte_masks (s.getD 3 0) (getD_byte s 3 h)
  unfold utf8_lead_sequence at hno
  rw [not_or, not_or] at hno
  obtain ⟨n2, n3, n4⟩ := hno
  unfold utf8_next
  dsimp only
  split_ifs with h1 h2 h3 h4
  · rfl
  · exact absurd ⟨(a1.mp h2.1).1, (a1.mp h2.1).2, b.mp h2.2⟩ n2
  · exact absurd ⟨(a2.mp h3.1).1, (a2.mp h3.1).2, b.mp h3.2.1, c.mp h3.2.2⟩ n3
  · exact absurd ⟨(a3.mp h4.1).1, (a3.mp h4.1).2, b.mp h4.2.1, c.mp h4.2.2.1,
      d.mp h4.2.2.2⟩ n4
  · rfl

/-- C34, as stated, fails: the byte `C0` starts the encoding of no code point,
yet with the continuation byte `AF` behind it the decoder reads the two bytes
as the code point U+002F, and `kbd_type_text_utf8` types that code point, not
the code point `C0`. -/
theorem kbd_type_text_utf8_events_counterexample :
    (∀ cp rest, utf8_encode cp ++ rest ≠ [0xC0, 0xAF]) ∧
    utf8_next [0xC0, 0xAF] = (0x2F, 2) ∧
    kbd_type_text_utf8 nav_kbd 0 [0xC0, 0xAF] =
      .ok { nav_kbd with out :=
              [.keymap "latin" 0x2F 0x2F, .modifiers 0, .keyev 0 127 true, .keyev 0 127 false,
                .keymap "latin" 0 0] } := by
  refine ⟨?_, by decide, rfl⟩
  intro cp rest h
  unfold utf8_encode at h
  split_ifs at h <;> simp at h <;> omega

/-- C34, as amended: with the keymaps defined, on the text that encodes the code
points `c1..cn`, each from 1 to U+10FFFF and 1 to 4 bytes long, the loop of
`kbd_type_text_utf8` reads `c1..cn`, and the call returns after exactly `n`
uploads of the keymap that carry `c1..cn` in order, each followed by the
modifiers 0 and one press and one release of key 127, and one last upload of
the keymap of the current layout with the compose pair (0, 0).  On any text, a
byte that does not start a lead byte with the continuation bytes it calls for
is typed as the code point equal to that byte, and the rest of the text after
it. -/
theorem kbd_type_text_utf8_events (kb : kbd) (time_ms : Nat) (hk : keymaps_defined kb) :
    (∀ cps : List Nat, (∀ cp ∈ cps, 0 < cp ∧ cp < 0x110000) →
      utf8_codepoints (utf8_text cps) = cps ∧
      kbd_type_text_utf8 kb time_ms (utf8_text cps) = .ok { kb with out := kb.out ++
        (codepoint_events (kb.layouts kb.layout).keymap_name time_ms cps ++
          [.keymap (kb.layouts kb.layout).keymap_name 0 0]) }) ∧
    (∀ (b : Nat) (rest : List Nat), (∀ c ∈ b :: rest, 0 < c ∧ c < 256) →
      ¬ utf8_lead_sequence (b :: rest) →
      utf8_codepoints (b :: rest) = b :: utf8_codepoints rest ∧
      kbd_type_text_utf8 kb time_ms (b :: rest) = .ok { kb with out := kb.out ++
        (codepoint_events (kb.layouts kb.layout).keymap_name time_ms
            (b :: utf8_codepoints rest) ++
          [.keymap (kb.layouts kb.layout).keymap_name 0 0]) }) := by
  constructor
  · intro cps hcp
    have hread : utf8_codepoints (utf8_text cps) = cps :=
      utf8_codepoints_fuel_text cps _ (fun cp h => (hcp cp h).2) (utf8_text_length cps)
    refine ⟨hread, ?_⟩
    rw [kbd_type_text_utf8_trace kb time_ms _ hk, hread]
  · intro b rest hbytes hno
    have hread : utf8_codepoints (b :: rest) = b :: utf8_codepoints rest := by
      have hnext := utf8_next_single (b :: rest) (fun c h => (hbytes c h).2) hno
      have e : utf8_codepoints (b :: rest) =
          (utf8_next (b :: rest)).1 ::
            utf8_codepoints_fuel rest.length ((b :: rest).drop (utf8_next (b :: rest)).2) := rfl
      rw [e, hnext]
      rfl
    refine ⟨hread, ?_⟩
    rw [kbd_type_text_utf8_trace kb time_ms _ hk, hread]

/-- C34 on the sample keyboard: the text of the code points U+0061, U+00E9,
U+20AC and U+1F600, of 1 + 2 + 3 + 4 bytes, is typed as its four code points,
and the byte `FF` before the byte `a` as the code point `FF`. -/
theorem kbd_type_text_utf8_events_witness :
    (kbd_type_text_utf8 nav_kbd 5 [0x61, 0xC3, 0xA9, 0xE2, 0x82, 0xAC, 0xF0, 0x9F, 0x98, 0x80] =
      .ok { nav_kbd with out :=
              [.keymap "latin" 0x61 0x61, .modifiers 0, .keyev 5 127 true, .keyev 5 127 false,
                .keymap "latin" 0xE9 0xE9, .modifiers 0, .keyev 6 127 true, .keyev 6 127 false,
                .keymap "latin" 0x20AC 0x20AC, .modifiers 0, .keyev 7 127 true,
                .keyev 7 127 false,
                .keymap "latin" 0x1F600 0x1F600, .modifiers 0, .keyev 8 127 true,
                .keyev 8 127 false,
                .keymap "latin" 0 0] }) ∧
    utf8_codepoints [0xFF, 0x61] = 0xFF :: utf8_codepoints [0x61] :=
  ⟨((kbd_type_text_utf8_events nav_kbd 5 nav_kbd_keymaps_defined).1
      [0x61, 0xE9, 0x20AC, 0x1F600] (by decide)).2,
    ((kbd_type_text_utf8_events nav_kbd 5 nav_kbd_keymaps_defined).2 0xFF [0x61]
      (by decide) (by decide)).1⟩

/-! ### The moved flag -/

theorem create_and_upload_keymap_out (kb kb' : kbd) (name : String) (c1 c2 : Nat)
    (h : create_and_upload_keymap kb name c1 c2 = .ok kb') : typed kb kb' := by
  unfold create_and_upload_keymap at h
  split_ifs at h
  cases h
  exact ⟨_, rfl⟩

theorem vkbd_request_out (kb kb' : kbd) (e : Event) (h : vkbd_request kb e = .ok kb') :
    typed kb kb' :=
  ⟨_, vkbd_request_eq kb kb' e h⟩

/-- Typing a text key by key, when it returns, has only extended the trace. -/
theorem kbd_type_text_mapped_loop_out (map : char_keymap) :
    ∀ (text : List Nat) (t : Nat) (kb : kbd) (r : Bool × kbd),
    kbd_type_text_mapped_loop map text t kb = .ok r → typed kb r.2 := by
  intro text
  induction text with
  | nil =>
    intro t kb r h
    unfold kbd_type_text_mapped_loop at h
    rw [except_bind_ok] at h
    obtain ⟨kb1, h1, h⟩ := h
    cases h
    exact vkbd_request_out _ _ _ h1
  | cons c cs ih =>
    intro t kb r h
    unfold kbd_type_text_mapped_loop at h
    split at h
    · cases h
      exact typed_refl _
    · rw [except_bind_ok] at h
      obtain ⟨kb1, h1, h⟩ := h
      rw [except_bind_ok] at h
      obtain ⟨kb2, h2, h⟩ := h
      rw [except_bind_ok] at h
      obtain ⟨kb3, h3, h⟩ := h
      exact typed_trans _ _ _
        (typed_trans _ _ _
          (typed_trans _ _ _ (vkbd_request_out _ _ _ h1) (vkbd_request_out _ _ _ h2))
          (vkbd_request_out _ _ _ h3))
        (ih _ _ _ h)

theorem kbd_type_text_mapped_out (kb : kbd) (time_ms : Nat) (text : List Nat)
    (r : Bool × kbd) (h : kbd_type_text_mapped kb time_ms text = .ok r) : typed kb r.2 := by
  unfold kbd_type_text_mapped at h
  split_ifs at h
  · cases h
    exact typed_refl _
  · rw [except_bind_ok] at h
    obtain ⟨map, -, h⟩ := h
    exact kbd_type_text_mapped_loop_out map text time_ms kb r h

theorem kbd_type_codepoint_out (kb kb' : kbd) (t cp : Nat)
    (h : kbd_type_codepoint kb t cp = .ok kb') : typed kb kb' := by
  unfold kbd_type_codepoint at h
  rw [except_bind_ok] at h
  obtain ⟨kb1, h1, h⟩ := h
  rw [except_bind_ok] at h
  obtain ⟨kb2, h2, h⟩ := h
  rw [except_bind_ok] at h
  obtain ⟨kb3, h3, h⟩ := h
  exact typed_trans _ _ _
    (typed_trans _ _ _
      (typed_trans _ _ _ (create_and_upload_keymap_out _ _ _ _ _ h1)
        (vkbd_request_out _ _ _ h2))
      (vkbd_request_out _ _ _ h3))
    (vkbd_request_out _ _ _ h)

theorem kbd_type_codepoints_out : ∀ (cps : List Nat) (t : Nat) (kb kb' : kbd),
    kbd_type_codepoints cps t kb = .ok kb' → typed kb kb' := by
  intro cps
  induction cps with
  | nil =>
    intro t kb kb' h
    unfold kbd_type_codepoints at h
    cases h
    exact typed_refl _
  | cons cp cps ih =>
    intro t kb kb' h
    unfold kbd_type_codepoints at h
    rw [except_bind_ok] at h
    obtain ⟨kb1, h1, h⟩ := h
    exact typed_trans _ _ _ (kbd_type_codepoint_out _ _ _ _ h1) (ih _ _ _ h)

theorem kbd_type_text_utf8_out (kb kb' : kbd) (time_ms : Nat) (text : List Nat)
    (h : kbd_type_text_utf8 kb time_ms text = .ok kb') : typed kb kb' := by
  unfold kbd_type_text_utf8 at h
  split_ifs at h
  · cases h
    exact typed_refl _
  · rw [except_bind_ok] at h
    obtain ⟨kb1, h1, h⟩ := h
    exact typed_trans _ _ _ (kbd_type_codepoints_out _ _ _ _ h1)
      (create_and_upload_keymap_out _ _ _ _ _ h)

/-- Typing a text, by either path, has only extended the trace when it
returns. -/
theorem kbd_type_text_out (kb kb' : kbd) (time_ms : Nat) (text : List Nat)
    (h : kbd_type_text kb time_ms text = .ok kb') : typed kb kb' := by
  unfold kbd_type_text at h
  rw [except_bind_ok] at h
  obtain ⟨r, hr, h⟩ := h
  have f1 := kbd_type_text_mapped_out kb time_ms text r hr
  split_ifs at h
  · cases h
    exact f1
  · exact typed_trans _ _ _ f1 (kbd_type_text_utf8_out _ _ _ _ h)

theorem typed_moved (a b : kbd) (h : typed a b) : b.input_moved = a.input_moved := by
  obtain ⟨es, rfl⟩ := h
  rfl

theorem key_frame_moved (a b : kbd) (h : key_frame a b) : b.input_moved = a.input_moved :=
  (congrArg kbd.input_moved h.1).trans rfl

theorem edit_frame_moved (a b : kbd) (h : edit_frame a b) : b.input_moved = a.input_moved :=
  (congrArg kbd.input_moved h.1).trans rfl

theorem kbd_draw_layout_moved (kb : kbd) : (kbd_draw_layout kb).input_moved = kb.input_moved := by
  rw [kbd_draw_layout_eq]

/-- A call of `kbd_commit_suggestion` that returns leaves the moved flag. -/
theorem kbd_commit_suggestion_moved (kb kb' : kbd) (time_ms : Nat)
    (word : Option (List Nat)) (h : kbd_commit_suggestion kb time_ms word = .ok kb') :
    kb'.input_moved = kb.input_moved := by
  unfold kbd_commit_suggestion at h
  split at h
  · cases h
    rfl
  · cases h
    rfl
  · dsimp only at h
    split_ifs at h
    · cases h
      rfl
    · unfold kbd_commit_suggestion_typed at h
      rw [except_bind_ok] at h
      obtain ⟨kb1, h1, h⟩ := h
      cases h
      have f1 : kb1.input_moved = kb.input_moved := by
        split_ifs at h1
        · exact (typed_moved _ _ (kbd_type_text_out _ _ _ _ h1)).trans rfl
        · cases h1
          rfl
        · exact (typed_moved _ _ (kbd_type_text_out _ _ _ _ h1)).trans rfl
      refine (edit_frame_moved _ _ ( kbd_update_suggestions_prefix_edit_frame _).1).trans ?_
      exact f1

/-- A swipe refresh that returns leaves the moved flag. -/
theorem kbd_update_suggestions_swipe_moved (kb kb' : kbd)
    (h : kbd_update_suggestions_swipe kb = .ok kb') : kb'.input_moved = kb.input_moved := by
  unfold kbd_update_suggestions_swipe at h
  split at h
  · cases h
    rfl
  · split_ifs at h
    · cases h
      rfl
    · rw [except_bind_ok] at h
      obtain ⟨pos, -, h⟩ := h
      rw [except_bind_ok] at h
      obtain ⟨lw, -, h⟩ := h
      cases h
      rw [kbd_draw_layout_eq]
      unfold kbd_set_pending_swipe_from_suggestions
      split <;> rw [kbd_suggestions_from_candidates_sugs]

theorem input_up_press_moved (kb kb' : kbd) (k : key) (mods_before key_time : Nat)
    (h : input_up_press kb k mods_before key_time = .ok kb') :
    kb'.input_moved = kb.input_moved := by
  unfold input_up_press at h
  rw [except_bind_ok] at h
  obtain ⟨kb1, h1, h⟩ := h
  rw [except_bind_ok] at h
  obtain ⟨kb2, h2, h⟩ := h
  exact (edit_frame_moved _ _ (kbd_handle_committed_key_edit_frame _ _ _ _ h).1).trans
    ((key_frame_moved _ _ (kbd_release_key_key_frame _ _ _ h2)).trans
      (key_frame_moved _ _ (kbd_press_key_key_frame _ _ _ _ h1)))

theorem input_up_key_moved (kb kb' : kbd) (k : key) (time_ms : Nat)
    (h : input_up_key kb k time_ms = .ok kb') : kb'.input_moved = kb.input_moved := by
  unfold input_up_key at h
  split_ifs at h
  · rw [except_bind_ok] at h
    obtain ⟨r, hr, h⟩ := h
    have f1 : r.1.input_moved = kb.input_moved := by
      unfold input_up_autocommit at hr
      split at hr
      · cases hr
        rfl
      · cases hr
        rfl
      · rw [except_bind_ok] at hr
        obtain ⟨kb1, h1, hr⟩ := hr
        cases hr
        exact kbd_commit_suggestion_moved _ _ _ _ h1
    exact (input_up_press_moved _ _ _ _ _ h).trans f1
  · exact input_up_press_moved _ _ _ _ _ h
  · exact (input_up_press_moved _ _ _ _ _ h).trans rfl
  · exact input_up_press_moved _ _ _ _ _ h

/-- A call of `kbd_input_up` that returns leaves the moved flag, when the
dispatch of a tap on the suggestion bar does. -/
theorem kbd_input_up_moved (suggestion_tap : kbd → Nat → Nat → Nat → Except Fault kbd)
    (htap : ∀ a b t x y, suggestion_tap a t x y = .ok b → b.input_moved = a.input_moved)
    (kb kb' : kbd) (time_ms x y : Nat)
    (h : kbd_input_up suggestion_tap kb time_ms x y = .ok kb') :
    kb'.input_moved = kb.input_moved := by
  unfold kbd_input_up at h
  split at h
  · rw [except_bind_ok] at h
    obtain ⟨kb1, h1, h⟩ := h
    cases h
    split_ifs at h1
    · exact (htap _ _ _ _ _ h1).trans rfl
    · cases h1
      rfl
  · unfold input_up_tap at h
    rw [except_bind_ok] at h
    obtain ⟨hit, -, h⟩ := h
    rw [except_bind_ok] at h
    obtain ⟨kb1, h1, h⟩ := h
    cases h
    refine (kbd_draw_layout_moved kb1).trans ?_
    split at h1
    · exact (input_up_key_moved _ _ _ _ h1).trans rfl
    · cases h1
      rfl
  · unfold input_up_swipe at h
    rw [except_bind_ok] at h
    obtain ⟨kb1, h1, h⟩ := h
    cases h
    refine Eq.trans ?_ ((kbd_update_suggestions_swipe_moved _ _ h1).trans rfl)
    unfold kbd_set_pending_swipe_from_suggestions
    split <;> rfl
  · cases h
    rfl

/-- The displacement `kbd_input_motion` computes, when it fits an `int`, is the
squared distance from the point the pointer went down at. -/
theorem motion_distance_eq (kb : kbd) (x y : Nat) (d2 : Int)
    (h : motion_distance kb x y = .ok d2) :
    d2 = (uint32_to_int x - kb.input_down_x) ^ 2 + (uint32_to_int y - kb.input_down_y) ^ 2 := by
  have hc : ∀ v w : Int, int_checked v = .ok w → w = v := by
    intro v w hv
    unfold int_checked at hv
    split_ifs at hv
    cases hv
    rfl
  unfold motion_distance at h
  rw [except_bind_ok] at h
  obtain ⟨dx, h1, h⟩ := h
  rw [except_bind_ok] at h
  obtain ⟨dy, h2, h⟩ := h
  rw [except_bind_ok] at h
  obtain ⟨dx2, h3, h⟩ := h
  rw [except_bind_ok] at h
  obtain ⟨dy2, h4, h⟩ := h
  rw [hc _ _ h, hc _ _ h3, hc _ _ h4, hc _ _ h1, hc _ _ h2]
  ring

/-- A motion event that returns with the pointer down leaves the moved flag the
displacement test gives. -/
theorem kbd_input_motion_moved (kb kb' : kbd) (time_ms x y : Nat)
    (hdown : kb.input_down = true) (h : kbd_input_motion kb time_ms x y = .ok kb') :
    ∃ d2, motion_distance kb x y = .ok d2 ∧
      kb'.input_moved = (motion_moved kb d2 x y).input_moved := by
  unfold kbd_input_motion at h
  rw [if_neg (by rw [hdown]; decide), except_bind_ok] at h
  obtain ⟨d2, hd, h⟩ := h
  refine ⟨d2, hd, ?_⟩
  split at h
  · cases h
    exact kbd_draw_layout_moved _
  · unfold motion_tap at h
    split_ifs at h
    · exact (kbd_update_suggestions_swipe_moved _ _ h).trans
        ((kbd_draw_layout_moved _).trans rfl)
    · rw [except_bind_ok] at h
      obtain ⟨k, -, h⟩ := h
      cases h
      unfold kbd_preview_set_key
      split_ifs
      · rfl
      · exact (kbd_draw_layout_moved _).trans rfl
  · unfold motion_swipe at h
    split_ifs at h
    · refine (kbd_update_suggestions_swipe_moved _ _ h).trans ?_
      show (swipe_capture (motion_moved kb d2 x y) time_ms x y).input_moved = _
      rw [swipe_capture_eq]
    · cases h
      rw [swipe_capture_eq]
  · cases h
    rfl

/-- C33, as stated, fails: with the swipe threshold at 65536, whose square
wraps to 0 in `uint32_t`, a motion event one pixel away from the point the
pointer went down at sets the moved flag, although the squared displacement 1
is not above the square of the threshold. -/
theorem input_moved_threshold_counterexample :
    ∃ kb', kbd_input_motion wide_threshold_kbd 0 16 5 = .ok kb' ∧
      wide_threshold_kbd.input_moved = false ∧ kb'.input_moved = true ∧
      ¬ (((16 : Int) - wide_threshold_kbd.input_down_x) ^ 2 +
          ((5 : Int) - wide_threshold_kbd.input_down_y) ^ 2 >
        (wide_threshold_kbd.swipe_threshold_px : Int) ^ 2) :=
  ⟨_, rfl, rfl, rfl, by decide⟩

/-- C33, as amended: for a swipe threshold below 46341, whose square fits an
`int`, and a point with coordinates below 2 ^ 31, after a motion event that
returns with the pointer down the moved flag is set exactly when it was set
before or the squared distance from the point the pointer went down at is above
the square of the threshold; `kbd_input_down`, when it returns, stores its point
as that point and clears the flag, and a call of `kbd_input_up` that returns
leaves the flag as it is, the dispatch of a tap on the suggestion bar being
taken to leave it. -/
theorem input_moved_threshold (suggestion_tap : kbd → Nat → Nat → Nat → Except Fault kbd)
    (htap : ∀ a b t x y, suggestion_tap a t x y = .ok b → b.input_moved = a.input_moved)
    (kb : kbd) (time_ms x y : Nat)
    (hthr : kb.swipe_threshold_px < 46341) (hx : x < 2 ^ 31) (hy : y < 2 ^ 31) :
    (∀ kb', kb.input_down = true → kbd_input_motion kb time_ms x y = .ok kb' →
      (kb'.input_moved = true ↔
        kb.input_moved = true ∨
          ((x : Int) - kb.input_down_x) ^ 2 + ((y : Int) - kb.input_down_y) ^ 2 >
            (kb.swipe_threshold_px : Int) ^ 2)) ∧
    (∀ kb', kbd_input_down kb time_ms x y = .ok kb' →
      kb'.input_moved = false ∧ kb'.input_down = true ∧
      kb'.input_down_x = (x : Int) ∧ kb'.input_down_y = (y : Int)) ∧
    (∀ kb', kbd_input_up suggestion_tap kb time_ms x y = .ok kb' →
      kb'.input_moved = kb.input_moved) := by
  have hcast : ∀ v : Nat, v < 2 ^ 31 → uint32_to_int v = (v : Int) := by
    intro v hv
    unfold uint32_to_int
    have hmod : v % 2 ^ 32 = v := Nat.mod_eq_of_lt (by omega)
    rw [hmod, if_pos hv]
  refine ⟨?_, ?_, ?_⟩
  · intro kb' hdown hrun
    obtain ⟨d2, hd, hm⟩ := kbd_input_motion_moved kb kb' time_ms x y hdown hrun
    have hd2 := motion_distance_eq kb x y d2 hd
    rw [hcast x hx, hcast y hy] at hd2
    have hsq : uint32_to_int (kb.swipe_threshold_px * kb.swipe_threshold_px) =
        (kb.swipe_threshold_px : Int) ^ 2 := by
      have hlt : kb.swipe_threshold_px * kb.swipe_threshold_px < 2 ^ 31 := by
        have h1 : kb.swipe_threshold_px ≤ 46340 := by omega
        calc kb.swipe_threshold_px * kb.swipe_threshold_px
            ≤ 46340 * 46340 := Nat.mul_le_mul h1 h1
          _ < 2 ^ 31 := by decide
      rw [hcast _ hlt]
      push_cast
      ring
    rw [hm]
    show (if d2 > uint32_to_int (kb.swipe_threshold_px * kb.swipe_threshold_px) then true
      else kb.input_moved) = true ↔ _
    rw [hsq, ← hd2]
    split_ifs with hgt
    · exact ⟨fun _ => Or.inr hgt, fun _ => rfl⟩
    · exact ⟨fun h => Or.inl h, fun h => h.resolve_right hgt⟩
  · intro kb' hrun
    unfold kbd_input_down at hrun
    split_ifs at hrun
    · cases hrun
      exact ⟨rfl, rfl, hcast x hx, hcast y hy⟩
    · rw [except_bind_ok] at hrun
      obtain ⟨k, -, hrun⟩ := hrun
      cases hrun
      unfold kbd_preview_set_key
      split_ifs
      · exact ⟨rfl, rfl, hcast x hx, hcast y hy⟩
      · rw [kbd_draw_layout_eq]
        exact ⟨rfl, rfl, hcast x hx, hcast y hy⟩
  · intro kb' hrun
    exact kbd_input_up_moved suggestion_tap htap kb kb' time_ms x y hrun

/-- C33 on the sample keyboard with the threshold 18 and a tap that started at
(0, 5): a motion event at (18, 5), exactly 18 pixels away, returns and leaves
the moved flag clear, and one at (19, 5) sets it. -/
theorem input_moved_threshold_witness :
    (∃ kb', kbd_input_motion tap_kbd 0 18 5 = .ok kb' ∧ kb'.input_moved = false) ∧
    (∃ kb', kbd_input_motion tap_kbd 0 19 5 = .ok kb' ∧ kb'.input_moved = true) :=
  ⟨⟨_, rfl, by
      have h := (input_moved_threshold (fun a _ _ _ => .ok a)
        (fun a b _ _ _ e => by cases e; rfl) tap_kbd 0 18 5 (by decide) (by decide)
        (by decide)).1 _ rfl rfl
      cases hm : (_ : kbd).input_moved
      · rfl
      · exact absurd (h.mp hm) (by decide)⟩,
    ⟨_, rfl,
      ((input_moved_threshold (fun a _ _ _ => .ok a)
        (fun a b _ _ _ e => by cases e; rfl) tap_kbd 0 19 5 (by decide) (by decide)
        (by decide)).1 _ rfl rfl).mpr (Or.inr (by decide))⟩⟩

/-! ### Disjoint key rectangles -/

/-- The row count `kbd_get_rows` returns is the number of `EndRow` keys before
the `Last` key plus 1, as a `uint8_t`. -/
theorem kbd_get_rows_from_eq : ∀ (ks : List key) (rows r : Nat),
    kbd_get_rows_from ks rows = .ok r → r = (rows + end_rows ks + 1) % 256 := by
  intro ks
  induction ks with
  | nil =>
    intro rows r h
    simp [kbd_get_rows_from] at h
  | cons k ks ih =>
    intro rows r h
    unfold kbd_get_rows_from at h
    unfold end_rows
    split_ifs at h ⊢ with h1 h2
    · cases h
      rfl
    · rw [ih _ _ h]
      omega
    · exact ih _ _ h

theorem before_last_tail (k : key) (ks : List key) (j : Nat)
    (h : before_last (k :: ks) (j + 1)) : before_last ks j := by
  intro m km hm hkm
  exact h (m + 1) km (by omega) (by simpa using hkm)

theorem before_last_head (k : key) (ks : List key) (j : Nat)
    (h : before_last (k :: ks) j) : k.type ≠ .Last :=
  h 0 k (Nat.zero_le _) (List.getElem?_cons_zero)

/-- Two keys of which one lies before the other have no point in common. -/
theorem key_apart_disjoint (a b : key) (x y : Nat) (h : key_apart a b) :
    ¬ (key_rect a x y ∧ key_rect b x y) := by
  unfold key_apart at h
  unfold key_rect
  omega

/-- A key `kbd_get_key` returns lies before the `Last` key, is neither `Pad` nor
`EndRow`, and its rectangle contains the point. -/
theorem kbd_get_key_from_some (x y : Nat) : ∀ (ks : List key) (i m : Nat),
    kbd_get_key_from x y ks i = .ok (some m) →
    ∃ j k, m = i + j ∧ ks[j]? = some k ∧ before_last ks j ∧ key_hit k x y := by
  intro ks
  induction ks with
  | nil =>
    intro i m h
    simp [kbd_get_key_from] at h
  | cons k ks ih =>
    intro i m h
    unfold kbd_get_key_from at h
    split_ifs at h with h1 h2
    · cases h
    · cases h
      refine ⟨0, k, rfl, List.getElem?_cons_zero, ?_, ?_⟩
      · intro m' k' hm' hk'
        have : m' = 0 := by omega
        subst this
        simp only [List.getElem?_cons_zero, Option.some.injEq] at hk'
        subst hk'
        exact h1
      · obtain ⟨t1, t2, -, t4, t5, t6, t7⟩ := h2
        have e1 := Nat.mod_le (k.x + k.w) (2 ^ 32)
        have e2 := Nat.mod_le (k.y + k.h) (2 ^ 32)
        exact ⟨t2, t1, t4, by omega, t5, by omega⟩
    · obtain ⟨j, kj, e, hj, hb, hh⟩ := ih (i + 1) m h
      refine ⟨j + 1, kj, by omega, by simpa using hj, ?_, hh⟩
      intro m' k' hm' hk'
      cases m' with
      | zero =>
        simp only [List.getElem?_cons_zero, Option.some.injEq] at hk'
        subst hk'
        exact h1
      | succ m' => exact hb m' k' (by omega) (by simpa using hk')

/-! ### The layout in `double` arithmetic -/

/-- A `double` that converts to `uint32_t` gives a value below `2 ^ 32`. -/
theorem double_to_uint32_lt (d : double) (w : Nat) (h : double_to_uint32 d = .ok w) :
    w < 2 ^ 32 := by
  cases d with
  | finite q =>
    simp only [double_to_uint32] at h
    split_ifs at h with hq
    cases h
    have h1 : ⌊q⌋ < 2 ^ 32 := by
      have : (⌊q⌋ : ℚ) ≤ q := Int.floor_le q
      have h2 : (⌊q⌋ : ℚ) < 2 ^ 32 := lt_of_le_of_lt this hq.2
      exact_mod_cast h2
    omega
  | infinite s => cases h
  | nan => cases h

/-- The position after a key of the row loop is the position before it plus the
width of the key, in `uint32_t`, whether or not the key was widened. -/
theorem layout_next_mod (x w : Nat) (bump : Bool) :
    (if bump = true then ((x + w) % 2 ^ 32 + 1) % 2 ^ 32 else (x + w) % 2 ^ 32) =
      (x + if bump = true then (w + 1) % 2 ^ 32 else w) % 2 ^ 32 := by
  cases bump
  · rfl
  · simp only [if_true]
    norm_num
    omega

/-- A key appended to a row that is laid out, at the position after the row,
leaves the row laid out. -/
theorem laid_out_mod_snoc (cur : List key) (k' : key) (h : laid_out_mod cur)
    (hx : 0 < k'.width → k'.x = pixel_width cur % 2 ^ 32) : laid_out_mod (cur ++ [k']) := by
  intro pre j post hrow hj
  rcases List.eq_nil_or_concat post with hp | ⟨post', last, hp⟩
  · subst hp
    obtain ⟨hcur, hlast⟩ := List.append_inj' hrow (by simp)
    have hjk : k' = j := by simpa using hlast
    rw [← hjk] at hj ⊢
    rw [← hcur]
    exact hx hj
  · subst hp
    have hrow2 : cur ++ [k'] = (pre ++ j :: post') ++ [last] := by
      rw [hrow]
      simp
    obtain ⟨hcur, -⟩ := List.append_inj' hrow2 (by simp)
    exact h pre j post' hcur hj

/-- Every row the loop of `kbd_init_layout` completes is laid out: each key of
positive relative width starts where the keys of positive relative width before
it in the row end, in `uint32_t`. -/
theorem kbd_init_layout_loop_laid_out (W kh : Nat) :
    ∀ (ks : List key) (x y : Nat) (rl rw : double) (out cur : List key),
    kbd_init_layout_loop W kh ks x y rl rw = .ok out →
    x = pixel_width cur % 2 ^ 32 → laid_out_mod cur →
    ∀ row ∈ layout_rows_from out cur, laid_out_mod row := by
  intro ks
  induction ks with
  | nil =>
    intro x y rl rw out cur h
    simp [kbd_init_layout_loop] at h
  | cons k ks ih =>
    intro x y rl rw out cur h hx hcur row hrow
    unfold kbd_init_layout_loop at h
    by_cases hlast : k.type = .Last
    · rw [if_pos hlast] at h
      cases h
      simp only [layout_rows_from, if_pos hlast, List.mem_singleton] at hrow
      subst hrow
      exact hcur
    · rw [if_neg hlast] at h
      by_cases hend : k.type = .EndRow
      · rw [if_pos hend, except_bind_ok] at h
        obtain ⟨rl', hrl', h⟩ := h
        rw [except_bind_ok] at h
        obtain ⟨ks', hks', h⟩ := h
        cases h
        simp only [layout_rows_from, if_neg hlast, if_pos hend, List.mem_cons] at hrow
        rcases hrow with hrow | hrow
        · subst hrow
          exact hcur
        · refine ih 0 _ rl' _ ks' [] hks' (by simp [pixel_width]) ?_ row hrow
          intro pre j post hnil
          exact absurd hnil (by simp)
      · rw [if_neg hend] at h
        by_cases hw : k.width > 0
        · rw [if_pos hw, except_bind_ok] at h
          obtain ⟨w, hconv, h⟩ := h
          rw [except_bind_ok] at h
          obtain ⟨ks', hks', h⟩ := h
          generalize hbump : double_lt (double_of_uint32 ((x + w) % 2 ^ 32))
            (double_mul (double_div (double_add rw (.finite k.width)) rl)
              (double_of_uint32 W)) = bump at hks' h
          cases h
          simp only [layout_rows_from, if_neg hlast, if_neg hend] at hrow
          refine ih _ y rl _ ks' _ hks' ?_ ?_ row hrow
          · rw [pixel_width_append]
            have hp1 : pixel_width
                [{ k with x := x, y := y, w := if bump = true then (w + 1) % 2 ^ 32 else w,
                          h := kh }] = if bump = true then (w + 1) % 2 ^ 32 else w := by
              simp [pixel_width, hw]
            rw [hp1, layout_next_mod, hx]
            norm_num
          · exact laid_out_mod_snoc cur _ hcur (fun _ => hx)
        · rw [if_neg hw, except_bind_ok] at h
          obtain ⟨ks', hks', h⟩ := h
          cases h
          simp only [layout_rows_from, if_neg hlast, if_neg hend] at hrow
          refine ih x y rl rw ks' _ hks' ?_ ?_ row hrow
          · rw [pixel_width_append]
            have hp1 : pixel_width [{ k with h := kh }] = 0 := by
              simp [pixel_width, hw]
            rw [hp1, Nat.add_zero]
            exact hx
          · exact laid_out_mod_snoc cur _ hcur (fun h0 => absurd h0 hw)

theorem before_last_cons (k : key) (ks : List key) (j : Nat) (hk : k.type ≠ .Last)
    (h : before_last ks j) : before_last (k :: ks) (j + 1) := by
  intro m km hm hkm
  cases m with
  | zero =>
    simp only [List.getElem?_cons_zero, Option.some.injEq] at hkm
    subst hkm
    exact hk
  | succ m => exact h m km (by omega) (by simpa using hkm)

theorem before_last_zero (k : key) (ks : List key) (hk : k.type ≠ .Last) :
    before_last (k :: ks) 0 := by
  intro m km hm hkm
  have : m = 0 := by omega
  subst this
  simp only [List.getElem?_cons_zero, Option.some.injEq] at hkm
  subst hkm
  exact hk

/-- The keys the loop of `kbd_init_layout` places from the state `x`, `y` on,
when the rows stay inside the `uint32_t` range and no placed key ends past it:
each has the key height, lies in the current row at `x` or right of it or in a
later row, and lies before every placed key that comes after it. -/
theorem kbd_init_layout_loop_placed (W kh : Nat) :
    ∀ (ks : List key) (x y : Nat) (rl rw : double) (out : List key),
    kbd_init_layout_loop W kh ks x y rl rw = .ok out →
    x < 2 ^ 32 → y + (end_rows ks + 1) * kh < 2 ^ 32 →
    (∀ j kj, out[j]? = some kj → before_last out j → placed kj → kj.x + kj.w < 2 ^ 32) →
    (∀ j kj, out[j]? = some kj → before_last out j → placed kj →
      kj.h = kh ∧ (∃ r, r ≤ end_rows ks ∧ kj.y = y + r * kh) ∧
      ((kj.y = y ∧ x ≤ kj.x) ∨ y + kh ≤ kj.y)) ∧
    (∀ i j ki kj, i < j → out[i]? = some ki → out[j]? = some kj → before_last out j →
      placed ki → placed kj → key_apart ki kj) := by
  intro ks
  induction ks with
  | nil =>
    intro x y rl rw out h
    simp [kbd_init_layout_loop] at h
  | cons k ks ih =>
    intro x y rl rw out h hx hy hrange
    unfold kbd_init_layout_loop at h
    by_cases hlast : k.type = .Last
    · rw [if_pos hlast] at h
      cases h
      constructor
      · intro j kj _ hb _
        exact absurd hlast (before_last_head k ks j hb)
      · intro i j ki kj _ _ _ hb _ _
        exact absurd hlast (before_last_head k ks j hb)
    · rw [if_neg hlast] at h
      by_cases hend : k.type = .EndRow
      · rw [if_pos hend, except_bind_ok] at h
        obtain ⟨rl', hrl', h⟩ := h
        rw [except_bind_ok] at h
        obtain ⟨ks', hks2, h⟩ := h
        cases h
        have hrows : end_rows (k :: ks) = end_rows ks + 1 := by
          rw [end_rows, if_neg hlast, if_pos hend]
        rw [hrows] at hy ⊢
        have hy2 : (y + kh) % 2 ^ 32 = y + kh := Nat.mod_eq_of_lt (by nlinarith)
        rw [hy2] at hks2
        have hrange2 : ∀ j kj, ks'[j]? = some kj → before_last ks' j → placed kj →
            kj.x + kj.w < 2 ^ 32 := by
          intro j kj hj hb hpl
          exact hrange (j + 1) kj (by simpa using hj)
            (before_last_cons _ _ _ (by exact hlast) hb) hpl
        obtain ⟨ha, hp⟩ := ih 0 (y + kh) rl' _ ks' hks2 (by norm_num) (by nlinarith) hrange2
        constructor
        · intro j kj hj hb hpl
          cases j with
          | zero =>
            simp only [List.getElem?_cons_zero, Option.some.injEq] at hj
            subst hj
            exact absurd hend hpl.1
          | succ j =>
            obtain ⟨a1, ⟨r, hr1, hr2⟩, a4⟩ := ha j kj (by simpa using hj)
              (before_last_tail _ _ _ hb) hpl
            refine ⟨a1, ⟨r + 1, by omega, by rw [hr2]; ring⟩, Or.inr ?_⟩
            rcases a4 with ⟨e, -⟩ | e
            · omega
            · omega
        · intro i j ki kj hij hi hj hb hpi hpj
          cases j with
          | zero => omega
          | succ j =>
            cases i with
            | zero =>
              simp only [List.getElem?_cons_zero, Option.some.injEq] at hi
              subst hi
              exact absurd hend hpi.1
            | succ i =>
              exact hp i j ki kj (by omega) (by simpa using hi) (by simpa using hj)
                (before_last_tail _ _ _ hb) hpi hpj
      · rw [if_neg hend] at h
        have hrows : end_rows (k :: ks) = end_rows ks := by
          rw [end_rows, if_neg hlast, if_neg hend]
        rw [hrows] at hy ⊢
        by_cases hw : k.width > 0
        · rw [if_pos hw, except_bind_ok] at h
          obtain ⟨w, hconv, h⟩ := h
          rw [except_bind_ok] at h
          obtain ⟨ks', hks2, h⟩ := h
          generalize hbump : double_lt (double_of_uint32 ((x + w) % 2 ^ 32))
            (double_mul (double_div (double_add rw (.finite k.width)) rl)
              (double_of_uint32 W)) = bump at hks2 h
          cases h
          have hw32 := double_to_uint32_lt _ w hconv
          have h0 := hrange 0
            { k with x := x, y := y, w := if bump = true then (w + 1) % 2 ^ 32 else w, h := kh }
            List.getElem?_cons_zero (before_last_zero _ _ (by exact hlast)) ⟨hend, hw⟩
          have h0' : x + (if bump = true then (w + 1) % 2 ^ 32 else w) < 2 ^ 32 := h0
          have ex2 : (if bump = true then ((x + w) % 2 ^ 32 + 1) % 2 ^ 32
              else (x + w) % 2 ^ 32) =
              x + (if bump = true then (w + 1) % 2 ^ 32 else w) := by
            rw [layout_next_mod]
            exact Nat.mod_eq_of_lt h0'
          rw [ex2] at hks2
          have hrange2 : ∀ j kj, ks'[j]? = some kj → before_last ks' j → placed kj →
              kj.x + kj.w < 2 ^ 32 := by
            intro j kj hj hb hpl
            exact hrange (j + 1) kj (by simpa using hj)
              (before_last_cons _ _ _ (by exact hlast) hb) hpl
          obtain ⟨ha, hp⟩ := ih _ y rl _ ks' hks2 h0' hy hrange2
          constructor
          · intro j kj hj hb hpl
            cases j with
            | zero =>
              simp only [List.getElem?_cons_zero, Option.some.injEq] at hj
              subst hj
              exact ⟨rfl, ⟨0, Nat.zero_le _, by simp⟩, Or.inl ⟨rfl, Nat.le_refl _⟩⟩
            | succ j =>
              obtain ⟨a1, a3, a4⟩ := ha j kj (by simpa using hj)
                (before_last_tail _ _ _ hb) hpl
              refine ⟨a1, a3, ?_⟩
              rcases a4 with ⟨e1, e2⟩ | e
              · exact Or.inl ⟨e1, by omega⟩
              · exact Or.inr e
          · intro i j ki kj hij hi hj hb hpi hpj
            cases j with
            | zero => omega
            | succ j =>
              cases i with
              | zero =>
                simp only [List.getElem?_cons_zero, Option.some.injEq] at hi
                subst hi
                obtain ⟨-, -, a4⟩ := ha j kj (by simpa using hj)
                  (before_last_tail _ _ _ hb) hpj
                rcases a4 with ⟨e1, e2⟩ | e
                · exact Or.inl ⟨e1.symm, e2⟩
                · exact Or.inr e
              | succ i =>
                exact hp i j ki kj (by omega) (by simpa using hi) (by simpa using hj)
                  (before_last_tail _ _ _ hb) hpi hpj
        · rw [if_neg hw, except_bind_ok] at h
          obtain ⟨ks', hks2, h⟩ := h
          cases h
          have hrange2 : ∀ j kj, ks'[j]? = some kj → before_last ks' j → placed kj →
              kj.x + kj.w < 2 ^ 32 := by
            intro j kj hj hb hpl
            exact hrange (j + 1) kj (by simpa using hj)
              (before_last_cons _ _ _ (by exact hlast) hb) hpl
          obtain ⟨ha, hp⟩ := ih x y rl rw ks' hks2 hx hy hrange2
          constructor
          · intro j kj hj hb hpl
            cases j with
            | zero =>
              simp only [List.getElem?_cons_zero, Option.some.injEq] at hj
              subst hj
              exact absurd hpl.2 hw
            | succ j =>
              exact ha j kj (by simpa using hj) (before_last_tail _ _ _ hb) hpl
          · intro i j ki kj hij hi hj hb hpi hpj
            cases j with
            | zero => omega
            | succ j =>
              cases i with
              | zero =>
                simp only [List.getElem?_cons_zero, Option.some.injEq] at hi
                subst hi
                exact absurd hpi.2 hw
              | succ i =>
                exact hp i j ki kj (by omega) (by simpa using hi) (by simpa using hj)
                  (before_last_tail _ _ _ hb) hpi hpj

/-! ### Rounding errors of `double` -/

/-- The function `pow2` is the power of two. -/
theorem pow2_eq (e : Int) : pow2 e = (2 : ℚ) ^ e := by
  unfold pow2
  split_ifs with h
  · have he : e = ((e.toNat : Nat) : Int) := (Int.toNat_of_nonneg h).symm
    conv_rhs => rw [he]
    rw [zpow_natCast]
    push_cast
    rfl
  · have hneg : 0 ≤ -e := by omega
    have he : e = -(((-e).toNat : Nat) : Int) := by
      rw [Int.toNat_of_nonneg hneg]
      ring
    conv_rhs => rw [he]
    rw [zpow_neg, zpow_natCast]
    push_cast
    rw [one_div]

/-- The halvings count the bits: `2 ^ log2 ≤ n < 2 ^ (log2 + 1)`. -/
theorem log2_fuel_spec : ∀ (fuel n : Nat), 0 < n → n ≤ fuel →
    2 ^ log2_fuel fuel n ≤ n ∧ n < 2 ^ (log2_fuel fuel n + 1) := by
  intro fuel
  induction fuel with
  | zero =>
    intro n h1 h2
    omega
  | succ fuel ih =>
    intro n h1 h2
    unfold log2_fuel
    split_ifs with h
    · constructor
      · simpa using h1
      · simpa using h
    · obtain ⟨a, b⟩ := ih (n / 2) (by omega) (by omega)
      rw [pow_succ] at b
      rw [pow_succ, pow_succ, pow_succ]
      generalize 2 ^ log2_fuel fuel (n / 2) = p at a b ⊢
      constructor <;> omega

theorem log2_floor_spec (n : Nat) (h : 0 < n) :
    2 ^ log2_floor n ≤ n ∧ n < 2 ^ (log2_floor n + 1) :=
  log2_fuel_spec n n h (le_refl n)

/-- The binary exponent of a number that is not 0 brackets its magnitude. -/
theorem binary_exponent_spec (q : ℚ) (hq : q ≠ 0) :
    (2 : ℚ) ^ binary_exponent q ≤ |q| ∧ |q| < (2 : ℚ) ^ (binary_exponent q + 1) := by
  have hnum : 0 < q.num.natAbs := Int.natAbs_pos.mpr (Rat.num_ne_zero.mpr hq)
  have hden : 0 < q.den := q.den_pos
  obtain ⟨n1, n2⟩ := log2_floor_spec _ hnum
  obtain ⟨d1, d2⟩ := log2_floor_spec _ hden
  have habs : |q| = (q.num.natAbs : ℚ) / (q.den : ℚ) := by
    conv_lhs => rw [← Rat.num_div_den q]
    rw [abs_div, Nat.abs_cast, Nat.cast_natAbs]
    simp
  have hdq : (0 : ℚ) < (q.den : ℚ) := by exact_mod_cast hden
  have n1q : ((2 : ℚ) ^ log2_floor q.num.natAbs) ≤ (q.num.natAbs : ℚ) := by exact_mod_cast n1
  have n2q : (q.num.natAbs : ℚ) < (2 : ℚ) ^ (log2_floor q.num.natAbs + 1) := by exact_mod_cast n2
  have d1q : ((2 : ℚ) ^ log2_floor q.den) ≤ (q.den : ℚ) := by exact_mod_cast d1
  have d2q : (q.den : ℚ) < (2 : ℚ) ^ (log2_floor q.den + 1) := by exact_mod_cast d2
  unfold binary_exponent
  generalize log2_floor q.num.natAbs = a at n1q n2q ⊢
  generalize log2_floor q.den = b at d1q d2q ⊢
  have hpa : (0 : ℚ) < 2 ^ a := by positivity
  have hpb : (0 : ℚ) < 2 ^ b := by positivity
  have e1 : (2 : ℚ) ^ ((a : Int) - (b : Int) + 1) = 2 ^ (a + 1) / 2 ^ b := by
    rw [zpow_add₀ (by norm_num), zpow_sub₀ (by norm_num), zpow_natCast, zpow_natCast, pow_succ]
    simp only [zpow_one]
    ring
  have e2 : (2 : ℚ) ^ ((a : Int) - (b : Int) - 1) = 2 ^ a / 2 ^ (b + 1) := by
    rw [zpow_sub₀ (by norm_num), zpow_sub₀ (by norm_num), zpow_natCast, zpow_natCast, pow_succ]
    simp only [zpow_one]
    rw [div_div]
  split_ifs with h
  · rw [pow2_eq] at h
    refine ⟨h, ?_⟩
    rw [e1, habs, div_lt_div_iff₀ hdq hpb]
    calc (q.num.natAbs : ℚ) * 2 ^ b < 2 ^ (a + 1) * 2 ^ b :=
          mul_lt_mul_of_pos_right n2q hpb
      _ ≤ 2 ^ (a + 1) * (q.den : ℚ) := mul_le_mul_of_nonneg_left d1q (by positivity)
  · rw [pow2_eq, not_le] at h
    refine ⟨?_, ?_⟩
    · rw [e2, habs, div_le_div_iff₀ (by positivity) hdq]
      calc (2 : ℚ) ^ a * (q.den : ℚ) ≤ 2 ^ a * 2 ^ (b + 1) :=
            mul_le_mul_of_nonneg_left d2q.le hpa.le
        _ ≤ (q.num.natAbs : ℚ) * 2 ^ (b + 1) := mul_le_mul_of_nonneg_right n1q (by positivity)
    · have : (a : Int) - (b : Int) - 1 + 1 = (a : Int) - (b : Int) := by ring
      rw [this]
      exact h

/-- Rounding to the nearest integer moves a number by a half at most. -/
theorem round_half_even_near (q : ℚ) : |((round_half_even q : Int) : ℚ) - q| ≤ 1 / 2 := by
  have h1 := Int.floor_le q
  have h2 := Int.lt_floor_add_one q
  unfold round_half_even
  rw [abs_le]
  split_ifs with a b c <;> push_cast <;> constructor <;> linarith

/-- Rounding to `double` moves a number of the normal range by the fraction
`2 ^ -53` of its magnitude at most. -/
theorem round_double_near (q : ℚ) (h : (2 : ℚ) ^ (-1022 : Int) ≤ |q|) :
    |round_double q - q| ≤ |q| * (1 / 2 ^ 53) := by
  have hq : q ≠ 0 := by
    intro h0
    rw [h0, abs_zero] at h
    exact absurd h (not_le.mpr (by positivity))
  obtain ⟨e1, e2⟩ := binary_exponent_spec q hq
  have he : -1022 ≤ binary_exponent q := by
    by_contra hcon
    push_neg at hcon
    have : (2 : ℚ) ^ (binary_exponent q + 1) ≤ 2 ^ (-1022 : Int) :=
      zpow_le_zpow_right₀ (by norm_num) (by omega)
    linarith
  unfold round_double
  rw [if_neg hq, max_eq_left he, pow2_eq]
  have hulp : (2 : ℚ) ^ (binary_exponent q - 52) = 2 ^ binary_exponent q * (1 / 2 ^ 52) := by
    rw [zpow_sub₀ (by norm_num), div_eq_mul_one_div]
    norm_num
  rw [hulp]
  have hm : (0 : ℚ) < 2 ^ binary_exponent q := by positivity
  generalize (2 : ℚ) ^ binary_exponent q = m at e1 hm
  have hpos : 0 < m * (1 / 2 ^ 52) := by positivity
  have hnear := round_half_even_near (q / (m * (1 / 2 ^ 52)))
  have hsplit : ((round_half_even (q / (m * (1 / 2 ^ 52))) : Int) : ℚ) * (m * (1 / 2 ^ 52)) - q =
      (((round_half_even (q / (m * (1 / 2 ^ 52))) : Int) : ℚ) - q / (m * (1 / 2 ^ 52))) *
        (m * (1 / 2 ^ 52)) := by
    field_simp
    ring
  rw [hsplit, abs_mul, abs_of_pos hpos]
  calc |((round_half_even (q / (m * (1 / 2 ^ 52))) : Int) : ℚ) - q / (m * (1 / 2 ^ 52))| *
        (m * (1 / 2 ^ 52)) ≤ 1 / 2 * (m * (1 / 2 ^ 52)) :=
        mul_le_mul_of_nonneg_right hnear hpos.le
    _ = m * (1 / 2 ^ 53) := by ring
    _ ≤ |q| * (1 / 2 ^ 53) := mul_le_mul_of_nonneg_right e1 (by positivity)

/-- The integer nearest to an integer is the integer. -/
theorem round_half_even_int (m : Int) : round_half_even (m : ℚ) = m := by
  unfold round_half_even
  simp

/-- The binary exponent is the only exponent that brackets the magnitude. -/
theorem binary_exponent_unique (q : ℚ) (e : Int) (h1 : (2 : ℚ) ^ e ≤ |q|)
    (h2 : |q| < (2 : ℚ) ^ (e + 1)) : binary_exponent q = e := by
  have hq : q ≠ 0 := by
    intro h0
    rw [h0, abs_zero] at h1
    exact absurd h1 (not_le.mpr (by positivity))
  obtain ⟨a, b⟩ := binary_exponent_spec q hq
  have c1 : (2 : ℚ) ^ binary_exponent q < 2 ^ (e + 1) := lt_of_le_of_lt a h2
  have c2 : (2 : ℚ) ^ e < 2 ^ (binary_exponent q + 1) := lt_of_le_of_lt h1 b
  rw [zpow_lt_zpow_iff_right₀ (by norm_num)] at c1 c2
  omega

/-- A number with a 53-bit significand in the normal range is a `double`:
rounding leaves it as it is. -/
theorem round_double_scaled (M e : Int) (he : -1022 ≤ e) (hM1 : 2 ^ 52 ≤ M) (hM2 : M < 2 ^ 53) :
    round_double ((M : ℚ) * 2 ^ (e - 52)) = (M : ℚ) * 2 ^ (e - 52) := by
  have hulp : (0 : ℚ) < 2 ^ (e - 52) := by positivity
  have hMq1 : (2 : ℚ) ^ 52 ≤ (M : ℚ) := by exact_mod_cast hM1
  have hMq2 : (M : ℚ) < 2 ^ 53 := by exact_mod_cast hM2
  have hM0 : (0 : ℚ) < (M : ℚ) := lt_of_lt_of_le (by positivity) hMq1
  have hy0 : 0 < (M : ℚ) * 2 ^ (e - 52) := mul_pos hM0 hulp
  have hs1 : (2 : ℚ) ^ e = 2 ^ 52 * 2 ^ (e - 52) := by
    rw [zpow_sub₀ (by norm_num)]
    norm_num
    ring
  have hs2 : (2 : ℚ) ^ (e + 1) = 2 ^ 53 * 2 ^ (e - 52) := by
    rw [zpow_sub₀ (by norm_num), zpow_add₀ (by norm_num)]
    norm_num
    ring
  have hexp : binary_exponent ((M : ℚ) * 2 ^ (e - 52)) = e := by
    apply binary_exponent_unique
    · rw [abs_of_pos hy0, hs1]
      exact mul_le_mul_of_nonneg_right hMq1 hulp.le
    · rw [abs_of_pos hy0, hs2]
      exact mul_lt_mul_of_pos_right hMq2 hulp
  unfold round_double
  rw [if_neg (ne_of_gt hy0), hexp, max_eq_left he, pow2_eq, mul_div_assoc,
    div_self (ne_of_gt hulp), mul_one, round_half_even_int]

/-- Rounding to `double` gives a `double`: a positive number of the normal range,
once rounded, is left as it is by a second rounding. -/
theorem round_double_idempotent (q : ℚ) (hq : 0 < q) (h : (2 : ℚ) ^ (-1022 : Int) ≤ q) :
    round_double (round_double q) = round_double q := by
  obtain ⟨e1, e2⟩ := binary_exponent_spec q (ne_of_gt hq)
  rw [abs_of_pos hq] at e1 e2
  have he : -1022 ≤ binary_exponent q := by
    by_contra hcon
    push_neg at hcon
    have : (2 : ℚ) ^ (binary_exponent q + 1) ≤ 2 ^ (-1022 : Int) :=
      zpow_le_zpow_right₀ (by norm_num) (by omega)
    linarith
  have hrd : round_double q =
      ((round_half_even (q / 2 ^ (binary_exponent q - 52)) : Int) : ℚ) *
        2 ^ (binary_exponent q - 52) := by
    unfold round_double
    rw [if_neg (ne_of_gt hq), max_eq_left he, pow2_eq]
  rw [hrd]
  generalize binary_exponent q = e at e1 e2 he
  have hulp : (0 : ℚ) < 2 ^ (e - 52) := by positivity
  have hs1 : (2 : ℚ) ^ e = 2 ^ 52 * 2 ^ (e - 52) := by
    rw [zpow_sub₀ (by norm_num)]
    norm_num
    ring
  have hs2 : (2 : ℚ) ^ (e + 1) = 2 ^ 53 * 2 ^ (e - 52) := by
    rw [zpow_sub₀ (by norm_num), zpow_add₀ (by norm_num)]
    norm_num
    ring
  have z1 : (2 : ℚ) ^ 52 ≤ q / 2 ^ (e - 52) := by
    rw [le_div_iff₀ hulp, ← hs1]
    exact e1
  have z2 : q / 2 ^ (e - 52) < 2 ^ 53 := by
    rw [div_lt_iff₀ hulp, ← hs2]
    exact e2
  have hnear := round_half_even_near (q / 2 ^ (e - 52))
  rw [abs_le] at hnear
  generalize round_half_even (q / 2 ^ (e - 52)) = m at hnear
  have m1 : (2 : Int) ^ 52 ≤ m := by
    have : ((2 ^ 52 - 1 : Int) : ℚ) < (m : ℚ) := by
      push_cast
      linarith
    have h3 : (2 ^ 52 - 1 : Int) < m := by exact_mod_cast this
    omega
  have m2 : m ≤ (2 : Int) ^ 53 := by
    have : (m : ℚ) < ((2 ^ 53 + 1 : Int) : ℚ) := by
      push_cast
      linarith
    have h3 : m < (2 ^ 53 + 1 : Int) := by exact_mod_cast this
    omega
  by_cases hm : m < 2 ^ 53
  · exact round_double_scaled m e he m1 hm
  · have hm' : m = 2 ^ 53 := by omega
    have hre : ((m : Int) : ℚ) * 2 ^ (e - 52) = ((2 ^ 52 : Int) : ℚ) * 2 ^ (e + 1 - 52) := by
      rw [hm']
      have : e + 1 - 52 = (e - 52) + 1 := by ring
      rw [this, zpow_add₀ (by norm_num)]
      push_cast
      ring
    rw [hre]
    exact round_double_scaled (2 ^ 52) (e + 1) (by omega) (le_refl _) (by norm_num)

/-- An operation whose real result lies between `2 ^ -200` and `2 ^ 200` gives a
finite `double` within the fraction `2 ^ -53` of it; and the result is a
`double`, which an operation that does not change it returns as it is. -/
theorem double_of_real_normal (q : ℚ) (hlo : 1 / 2 ^ 200 ≤ q) (hhi : q ≤ 2 ^ 200) :
    ∃ r, double_of_real q = .finite r ∧ q * (1 - 1 / 2 ^ 53) ≤ r ∧ r ≤ q * (1 + 1 / 2 ^ 53) ∧
      double_of_real r = .finite r := by
  have hq0 : 0 < q := lt_of_lt_of_le (by positivity) hlo
  have hsmall : (2 : ℚ) ^ (-1022 : Int) ≤ 1 / 2 ^ 200 := by
    have h1 : (2 : ℚ) ^ (-1022 : Int) ≤ 2 ^ (-200 : Int) :=
      zpow_le_zpow_right₀ (by norm_num) (by norm_num)
    have h2 : (2 : ℚ) ^ (-200 : Int) = 1 / 2 ^ 200 := by
      rw [zpow_neg, one_div, zpow_ofNat]
    rw [← h2]
    exact h1
  have hnear := round_double_near q (by rw [abs_of_pos hq0]; exact le_trans hsmall hlo)
  rw [abs_of_pos hq0, abs_le] at hnear
  have hbig : (2 : ℚ) ^ 200 * 2 ≤ 2 ^ (1023 : Int) := by
    have h1 : (2 : ℚ) ^ (201 : Int) ≤ 2 ^ (1023 : Int) :=
      zpow_le_zpow_right₀ (by norm_num) (by norm_num)
    have h2 : (2 : ℚ) ^ (201 : Int) = 2 ^ 200 * 2 := by
      rw [zpow_ofNat, pow_succ]
    rw [← h2]
    exact h1
  have hbig2 : (2 : ℚ) ^ (1023 : Int) < 2 ^ (1024 : Int) :=
    zpow_lt_zpow_right₀ (by norm_num) (by norm_num)
  have hu : q * (1 / 2 ^ 53) ≤ q := by
    have : (1 : ℚ) / 2 ^ 53 ≤ 1 := by norm_num
    calc q * (1 / 2 ^ 53) ≤ q * 1 := mul_le_mul_of_nonneg_left this hq0.le
      _ = q := mul_one q
  have hfin : |round_double q| < pow2 1024 := by
    rw [pow2_eq, abs_lt]
    constructor
    · linarith only [hnear.1, hu, hhi, hbig, hbig2, hq0]
    · linarith only [hnear.2, hu, hhi, hbig, hbig2, hq0]
  refine ⟨round_double q, ?_, by linarith only [hnear.1], by linarith only [hnear.2], ?_⟩
  · unfold double_of_real
    rw [if_pos hfin]
  · unfold double_of_real
    rw [round_double_idempotent q hq0 (le_trans hsmall hlo), if_pos hfin]

/-- The number 0 is a `double`. -/
theorem double_of_real_zero : double_of_real 0 = .finite 0 := by
  decide!

/-! ### The row sums of `kbd_init_layout` -/

theorem double_sum_snoc (ws : List ℚ) (w : ℚ) (len : double) :
    double_sum (ws ++ [w]) len = double_add (double_sum ws len) (.finite w) := by
  simp [double_sum, List.foldl_append]

theorem double_sum_cons (ws : List ℚ) (w : ℚ) (len : double) :
    double_sum (w :: ws) len = double_sum ws (double_add len (.finite w)) := by
  simp [double_sum]

/-- The row length `kbd_get_row_length` returns is the rounded sum of the
relative widths of the keys up to the next `EndRow` or `Last` key. -/
theorem kbd_get_row_length_from_eq : ∀ (ks : List key) (len r : double),
    kbd_get_row_length_from ks len = .ok r →
    r = double_sum ((row_rest ks).map key.width) len := by
  intro ks
  induction ks with
  | nil =>
    intro len r h
    simp [kbd_get_row_length_from] at h
  | cons k ks ih =>
    intro len r h
    unfold kbd_get_row_length_from at h
    split_ifs at h with hk
    · rw [ih _ _ h, row_rest_cons_key k ks hk.1 hk.2, List.map_cons, double_sum_cons]
    · cases h
      have : k.type = .Last ∨ k.type = .EndRow := by
        by_contra hcon
        rw [not_or] at hcon
        exact hk hcon
      rw [row_rest_cons_end k ks this]
      simp [double_sum]

/-- The bounds of a sum of widths that are 0 or between `2 ^ -32` and `2 ^ 32`. -/
theorem tame_sum_bounds : ∀ (ws : List ℚ),
    (∀ w ∈ ws, w = 0 ∨ (1 / 2 ^ 32 ≤ w ∧ w ≤ 2 ^ 32)) →
    0 ≤ ws.sum ∧ ws.sum ≤ (ws.length : ℚ) * 2 ^ 32 := by
  intro ws
  induction ws with
  | nil =>
    intro _
    simp
  | cons w ws ih =>
    intro h
    obtain ⟨a, b⟩ := ih (fun v hv => h v (by simp [hv]))
    simp only [List.sum_cons, List.length_cons]
    push_cast
    rcases h w (by simp) with c | ⟨c, d⟩
    · rw [c]
      constructor <;> linarith
    · have : (0 : ℚ) < 1 / 2 ^ 32 := by positivity
      constructor <;> linarith

/-- The rounded sum of at most `2 ^ 16` widths that are 0 or between `2 ^ -32`
and `2 ^ 32` is finite and within the fraction `2 n / 2 ^ 53` of the sum. -/
theorem double_sum_tame (ws : List ℚ) : ws.length ≤ 2 ^ 16 →
    (∀ w ∈ ws, w = 0 ∨ (1 / 2 ^ 32 ≤ w ∧ w ≤ 2 ^ 32)) →
    ∃ r, double_sum ws (.finite 0) = .finite r ∧
      ws.sum * (1 - (ws.length : ℚ) / 2 ^ 53) ≤ r ∧
      r ≤ ws.sum * (1 + 2 * (ws.length : ℚ) / 2 ^ 53) ∧
      double_of_real r = .finite r := by
  induction ws using List.reverseRecOn with
  | nil =>
    intro _ _
    exact ⟨0, rfl, by simp, by simp, double_of_real_zero⟩
  | append_singleton ws w ih =>
    intro hlen hw
    have hlen' : ws.length + 1 ≤ 2 ^ 16 := by simpa using hlen
    obtain ⟨r, hr, rlo, rhi, rfix⟩ := ih (by omega) (fun v hv => hw v (by simp [hv]))
    obtain ⟨sl, sh⟩ := tame_sum_bounds ws (fun v hv => hw v (by simp [hv]))
    have hN : (ws.length : ℚ) + 1 ≤ 2 ^ 16 := by exact_mod_cast hlen'
    have hN0 : (0 : ℚ) ≤ (ws.length : ℚ) := Nat.cast_nonneg _
    rw [double_sum_snoc, hr]
    simp only [List.sum_append, List.sum_singleton, List.length_append, List.length_singleton]
    push_cast
    generalize (ws.length : ℚ) = N at hN hN0 rlo rhi sl sh
    generalize ws.sum = s at rlo rhi sl sh
    have h1 : s * (1 + 2 * N / 2 ^ 53) ≤ s * 2 :=
      mul_le_mul_of_nonneg_left (by linarith only [hN]) sl
    have h2 : 0 ≤ s * (1 - N / 2 ^ 53) := mul_nonneg sl (by linarith only [hN])
    have h3 : 0 ≤ s * (1 - 2 * N / 2 ^ 53) := mul_nonneg sl (by linarith only [hN])
    have h4 : 0 ≤ s * N := mul_nonneg sl hN0
    rcases hw w (by simp) with hz | ⟨wl, wh⟩
    · subst hz
      refine ⟨r, ?_, by linarith only [rlo, sl], by linarith only [rhi, sl], rfix⟩
      show double_of_real (r + 0) = .finite r
      rw [add_zero]
      exact rfix
    · have hw0 : 0 < w := lt_of_lt_of_le (by positivity) wl
      have h5 : 0 ≤ w * N := mul_nonneg hw0.le hN0
      obtain ⟨r', hr', lo, hi, fix⟩ := double_of_real_normal (r + w)
        (by
          have : (1 : ℚ) / 2 ^ 200 ≤ 1 / 2 ^ 32 := by norm_num
          linarith only [this, wl, h2, rlo])
        (by
          have : (2 : ℚ) ^ 50 ≤ 2 ^ 200 := by norm_num
          linarith only [this, rhi, h1, sh, hN, wh])
      refine ⟨r', hr', ?_, ?_, fix⟩
      · have ha : (s * (1 - N / 2 ^ 53) + w) * (1 - 1 / 2 ^ 53) ≤ (r + w) * (1 - 1 / 2 ^ 53) :=
          mul_le_mul_of_nonneg_right (by linarith only [rlo]) (by norm_num)
        linarith only [ha, lo, h4, h5, sl, hw0]
      · have ha : (r + w) * (1 + 1 / 2 ^ 53) ≤
            (s * (1 + 2 * N / 2 ^ 53) + w) * (1 + 1 / 2 ^ 53) :=
          mul_le_mul_of_nonneg_right (by linarith only [rhi]) (by norm_num)
        linarith only [ha, hi, h3, h4, h5, sl, hw0]

/-- The rounded sum of a tame list of widths is within the fraction `2 ^ -36` of
the sum, and is a `double`. -/
theorem double_sum_tame_near (ws : List ℚ) (hlen : ws.length ≤ 2 ^ 16)
    (hw : ∀ w ∈ ws, w = 0 ∨ (1 / 2 ^ 32 ≤ w ∧ w ≤ 2 ^ 32)) :
    ∃ r, double_sum ws (.finite 0) = .finite r ∧
      ws.sum * (1 - 1 / 2 ^ 36) ≤ r ∧ r ≤ ws.sum * (1 + 1 / 2 ^ 36) ∧
      double_of_real r = .finite r := by
  obtain ⟨r, hr, lo, hi, fix⟩ := double_sum_tame ws hlen hw
  obtain ⟨hs0, -⟩ := tame_sum_bounds ws hw
  have hN : (ws.length : ℚ) ≤ 2 ^ 16 := by exact_mod_cast hlen
  have hN0 : (0 : ℚ) ≤ (ws.length : ℚ) := Nat.cast_nonneg _
  have h1 : ws.sum * (1 - 1 / 2 ^ 36) ≤ ws.sum * (1 - (ws.length : ℚ) / 2 ^ 53) :=
    mul_le_mul_of_nonneg_left (by linarith only [hN]) hs0
  have h2 : ws.sum * (1 + 2 * (ws.length : ℚ) / 2 ^ 53) ≤ ws.sum * (1 + 1 / 2 ^ 36) :=
    mul_le_mul_of_nonneg_left (by linarith only [hN]) hs0
  exact ⟨r, hr, le_trans h1 lo, le_trans hi h2, fix⟩

/-- Two rounded operations in a row stay within the fraction `3 / 2 ^ 53` of the
exact result. -/
theorem rounded_twice (q k a p : ℚ) (hq : 0 ≤ q) (hk : 0 ≤ k)
    (ha1 : q * (1 - 1 / 2 ^ 53) ≤ a) (ha2 : a ≤ q * (1 + 1 / 2 ^ 53))
    (hp1 : a * k * (1 - 1 / 2 ^ 53) ≤ p) (hp2 : p ≤ a * k * (1 + 1 / 2 ^ 53)) :
    q * k * (1 - 3 / 2 ^ 53) ≤ p ∧ p ≤ q * k * (1 + 3 / 2 ^ 53) := by
  have hqk := mul_nonneg hq hk
  have h1 : q * (1 - 1 / 2 ^ 53) * k ≤ a * k := mul_le_mul_of_nonneg_right ha1 hk
  have h2 : a * k ≤ q * (1 + 1 / 2 ^ 53) * k := mul_le_mul_of_nonneg_right ha2 hk
  have h3 : q * (1 - 1 / 2 ^ 53) * k * (1 - 1 / 2 ^ 53) ≤ a * k * (1 - 1 / 2 ^ 53) :=
    mul_le_mul_of_nonneg_right h1 (by norm_num)
  have h4 : a * k * (1 + 1 / 2 ^ 53) ≤ q * (1 + 1 / 2 ^ 53) * k * (1 + 1 / 2 ^ 53) :=
    mul_le_mul_of_nonneg_right h2 (by norm_num)
  constructor
  · linarith only [h3, hp1, hqk]
  · linarith only [h4, hp2, hqk]

/-- One key of the row loop with rounded arithmetic: if the running `x` is the
running share of the width rounded up, but for an error `ε`, it is so again
after the key, with `W / 2 ^ 49` more of error. -/
theorem layout_step_rounded (W x w : Nat) (S r0 r kw p t ε : ℚ)
    (hS : 0 < S) (hkw : 0 < kw) (hr0 : 0 ≤ r0) (hε : 0 ≤ ε)
    (hrS : r0 + kw ≤ 3 / 2 * S)
    (hp1 : (W : ℚ) / S * kw * (1 - 3 / 2 ^ 53) ≤ p) (hp2 : p ≤ (W : ℚ) / S * kw * (1 + 3 / 2 ^ 53))
    (hr1 : (r0 + kw) * (1 - 1 / 2 ^ 53) ≤ r) (hr2 : r ≤ (r0 + kw) * (1 + 1 / 2 ^ 53))
    (ht1 : r / S * (W : ℚ) * (1 - 3 / 2 ^ 53) ≤ t) (ht2 : t ≤ r / S * (W : ℚ) * (1 + 3 / 2 ^ 53))
    (hw : w = Int.toNat ⌊p⌋)
    (hlo : (W : ℚ) * r0 / S - ε ≤ x) (hhi : (x : ℚ) < (W : ℚ) * r0 / S + 1 + ε) :
    (((x + w : Nat) : ℚ) < t →
      (W : ℚ) * r / S - (ε + (W : ℚ) / 2 ^ 49) ≤ ((x + w + 1 : Nat) : ℚ) ∧
      ((x + w + 1 : Nat) : ℚ) < (W : ℚ) * r / S + 1 + (ε + (W : ℚ) / 2 ^ 49)) ∧
    (¬ ((x + w : Nat) : ℚ) < t →
      (W : ℚ) * r / S - (ε + (W : ℚ) / 2 ^ 49) ≤ ((x + w : Nat) : ℚ) ∧
      ((x + w : Nat) : ℚ) < (W : ℚ) * r / S + 1 + (ε + (W : ℚ) / 2 ^ 49)) ∧
    ((x + w : Nat) : ℚ) < (W : ℚ) * r / S + 1 + (ε + (W : ℚ) / 2 ^ 49) ∧
    (W : ℚ) * r / S ≤ 7 / 4 * (W : ℚ) := by
  have hW0 : (0 : ℚ) ≤ W := Nat.cast_nonneg W
  have hA : 0 ≤ (W : ℚ) / S := div_nonneg hW0 hS.le
  have hAS : (W : ℚ) / S * S = W := div_mul_cancel₀ _ (ne_of_gt hS)
  have eT0 : (W : ℚ) * r0 / S = (W : ℚ) / S * r0 := by ring
  have eT : (W : ℚ) * r / S = (W : ℚ) / S * r := by ring
  have eT' : r / S * (W : ℚ) = (W : ℚ) / S * r := by ring
  rw [eT'] at ht1 ht2
  rw [eT0] at hlo hhi
  rw [eT]
  have hP0 : 0 ≤ (W : ℚ) / S * kw := mul_nonneg hA hkw.le
  have hT00 : 0 ≤ (W : ℚ) / S * r0 := mul_nonneg hA hr0
  have hsum : (W : ℚ) / S * (r0 + kw) ≤ 3 / 2 * W := by
    calc (W : ℚ) / S * (r0 + kw) ≤ (W : ℚ) / S * (3 / 2 * S) :=
          mul_le_mul_of_nonneg_left hrS hA
      _ = 3 / 2 * ((W : ℚ) / S * S) := by ring
      _ = 3 / 2 * W := by rw [hAS]
  have hT1 : (W : ℚ) / S * ((r0 + kw) * (1 - 1 / 2 ^ 53)) ≤ (W : ℚ) / S * r :=
    mul_le_mul_of_nonneg_left hr1 hA
  have hT2 : (W : ℚ) / S * r ≤ (W : ℚ) / S * ((r0 + kw) * (1 + 1 / 2 ^ 53)) :=
    mul_le_mul_of_nonneg_left hr2 hA
  have hsplit : (W : ℚ) / S * (r0 + kw) = (W : ℚ) / S * r0 + (W : ℚ) / S * kw := by ring
  have hp0 : 0 ≤ p :=
    le_trans (mul_nonneg hP0 (by norm_num)) hp1
  have hfl0 : 0 ≤ ⌊p⌋ := Int.floor_nonneg.mpr hp0
  have hwq : ((w : Nat) : ℚ) = ((⌊p⌋ : Int) : ℚ) := by
    rw [hw]
    have : ((Int.toNat ⌊p⌋ : Nat) : Int) = ⌊p⌋ := Int.toNat_of_nonneg hfl0
    exact_mod_cast this
  have hw1 : ((w : Nat) : ℚ) ≤ p := by
    rw [hwq]
    exact Int.floor_le p
  have hw2 : p < ((w : Nat) : ℚ) + 1 := by
    rw [hwq]
    exact Int.lt_floor_add_one p
  generalize (W : ℚ) / S * r0 = T0 at *
  generalize (W : ℚ) / S * kw = P at *
  generalize (W : ℚ) / S * r = T at *
  have e1 : (W : ℚ) / S * ((r0 + kw) * (1 - 1 / 2 ^ 53)) =
      (W : ℚ) / S * (r0 + kw) * (1 - 1 / 2 ^ 53) := by ring
  have e2 : (W : ℚ) / S * ((r0 + kw) * (1 + 1 / 2 ^ 53)) =
      (W : ℚ) / S * (r0 + kw) * (1 + 1 / 2 ^ 53) := by ring
  rw [e1] at hT1
  rw [e2] at hT2
  rw [hsplit] at hT1 hT2 hsum
  push_cast
  refine ⟨?_, ?_, ?_, ?_⟩
  · intro hb
    constructor
    · linarith only [hw2, hlo, hp1, hT2, hsum, hP0, hT00, hW0]
    · linarith only [hb, ht2, hT2, hsum, hε, hW0, hT00, hP0]
  · intro hb
    have hb2 := not_lt.mp hb
    constructor
    · linarith only [hb2, ht1, hT1, hT2, hsum, hε, hW0, hT00, hP0]
    · linarith only [hw1, hhi, hp2, hT1, hsum, hW0, hT00, hP0]
  · linarith only [hw1, hhi, hp2, hT1, hsum, hW0, hT00, hP0]
  · linarith only [hT2, hsum, hW0, hT00, hP0]

/-- The bounds of a product of two bounded positive numbers. -/
theorem range_mul (a b la ua lb ub : ℚ) (hla : 0 ≤ la) (hlb : 0 ≤ lb)
    (ha1 : la ≤ a) (ha2 : a ≤ ua) (hb1 : lb ≤ b) (hb2 : b ≤ ub) :
    la * lb ≤ a * b ∧ a * b ≤ ua * ub :=
  ⟨mul_le_mul ha1 hb1 hlb (le_trans hla ha1),
    mul_le_mul ha2 hb2 (le_trans hlb hb1) (le_trans (le_trans hla ha1) ha2)⟩

/-- The bounds of a quotient of two bounded positive numbers. -/
theorem range_div (a b la ua lb ub : ℚ) (hla : 0 ≤ la) (hlb : 0 < lb)
    (ha1 : la ≤ a) (ha2 : a ≤ ua) (hb1 : lb ≤ b) (hb2 : b ≤ ub) :
    la / ub ≤ a / b ∧ a / b ≤ ua / lb := by
  have hb0 : 0 < b := lt_of_lt_of_le hlb hb1
  have hub : 0 < ub := lt_of_lt_of_le hb0 hb2
  constructor
  · rw [div_le_div_iff₀ hub hb0]
    calc la * b ≤ la * ub := mul_le_mul_of_nonneg_left hb2 hla
      _ ≤ a * ub := mul_le_mul_of_nonneg_right ha1 hub.le
  · rw [div_le_div_iff₀ hb0 hlb]
    calc a * lb ≤ a * b := mul_le_mul_of_nonneg_left hb1 (le_trans hla ha1)
      _ ≤ ua * b := mul_le_mul_of_nonneg_right ha2 hb0.le

/-- The five rounded operations of one key of the row loop give finite doubles
near the exact values, when the operands are of moderate size. -/
theorem layout_ops_rounded (W : Nat) (S r0 kw : ℚ) (hW1 : 1 ≤ W) (hW2 : W < 2 ^ 31)
    (hS1 : 1 / 2 ^ 34 ≤ S) (hS2 : S ≤ 2 ^ 50) (hkw1 : 1 / 2 ^ 32 ≤ kw) (hkw2 : kw ≤ 2 ^ 32)
    (hr01 : 0 ≤ r0) (hr02 : r0 ≤ 2 ^ 50) :
    ∃ p r t, double_mul (double_div (double_of_uint32 W) (.finite S)) (.finite kw) = .finite p ∧
      double_add (.finite r0) (.finite kw) = .finite r ∧
      double_mul (double_div (.finite r) (.finite S)) (double_of_uint32 W) = .finite t ∧
      (W : ℚ) / S * kw * (1 - 3 / 2 ^ 53) ≤ p ∧ p ≤ (W : ℚ) / S * kw * (1 + 3 / 2 ^ 53) ∧
      (r0 + kw) * (1 - 1 / 2 ^ 53) ≤ r ∧ r ≤ (r0 + kw) * (1 + 1 / 2 ^ 53) ∧
      r / S * (W : ℚ) * (1 - 3 / 2 ^ 53) ≤ t ∧ t ≤ r / S * (W : ℚ) * (1 + 3 / 2 ^ 53) := by
  have hS0 : 0 < S := lt_of_lt_of_le (by positivity) hS1
  have hkw0 : 0 < kw := lt_of_lt_of_le (by positivity) hkw1
  have hWq1 : (1 : ℚ) ≤ W := by exact_mod_cast hW1
  have hWq2 : (W : ℚ) ≤ 2 ^ 31 := by exact_mod_cast hW2.le
  -- the quotient `width / rowlength`
  obtain ⟨A1, A2⟩ := range_div (W : ℚ) S 1 (2 ^ 31) (1 / 2 ^ 34) (2 ^ 50) (by norm_num)
    (by norm_num) hWq1 hWq2 hS1 hS2
  obtain ⟨a, ha, a1, a2, -⟩ := double_of_real_normal ((W : ℚ) / S)
    (le_trans (by norm_num) A1) (le_trans A2 (by norm_num))
  have hA0 : 0 ≤ (W : ℚ) / S := le_trans (by norm_num) A1
  have a3 : 1 / 2 ^ 51 ≤ a := by
    have : (1 : ℚ) / 2 ^ 50 * (1 - 1 / 2 ^ 53) ≤ (W : ℚ) / S * (1 - 1 / 2 ^ 53) :=
      mul_le_mul_of_nonneg_right A1 (by norm_num)
    have h2 : (1 : ℚ) / 2 ^ 51 ≤ 1 / 2 ^ 50 * (1 - 1 / 2 ^ 53) := by norm_num
    linarith only [this, h2, a1]
  have a4 : a ≤ 2 ^ 66 := by
    have : (W : ℚ) / S * (1 + 1 / 2 ^ 53) ≤ 2 ^ 31 / (1 / 2 ^ 34) * (1 + 1 / 2 ^ 53) :=
      mul_le_mul_of_nonneg_right A2 (by norm_num)
    have h2 : (2 : ℚ) ^ 31 / (1 / 2 ^ 34) * (1 + 1 / 2 ^ 53) ≤ 2 ^ 66 := by norm_num
    linarith only [this, h2, a2]
  -- the product with the relative width
  obtain ⟨P1, P2⟩ := range_mul a kw (1 / 2 ^ 51) (2 ^ 66) (1 / 2 ^ 32) (2 ^ 32) (by norm_num)
    (by norm_num) a3 a4 hkw1 hkw2
  obtain ⟨p, hp, p1, p2, -⟩ := double_of_real_normal (a * kw)
    (le_trans (by norm_num) P1) (le_trans P2 (by norm_num))
  obtain ⟨p3, p4⟩ := rounded_twice ((W : ℚ) / S) kw a p hA0 hkw0.le a1 a2 p1 p2
  -- the sum `rowwidth + width`
  obtain ⟨r, hr, r1, r2, -⟩ := double_of_real_normal (r0 + kw)
    (by
      have : (1 : ℚ) / 2 ^ 200 ≤ 1 / 2 ^ 32 := by norm_num
      linarith only [this, hkw1, hr01])
    (by
      have : (2 : ℚ) ^ 50 + 2 ^ 32 ≤ 2 ^ 200 := by norm_num
      linarith only [this, hr02, hkw2])
  have r3 : 1 / 2 ^ 33 ≤ r := by
    have : (1 : ℚ) / 2 ^ 32 * (1 - 1 / 2 ^ 53) ≤ (r0 + kw) * (1 - 1 / 2 ^ 53) :=
      mul_le_mul_of_nonneg_right (by linarith only [hkw1, hr01]) (by norm_num)
    have h2 : (1 : ℚ) / 2 ^ 33 ≤ 1 / 2 ^ 32 * (1 - 1 / 2 ^ 53) := by norm_num
    linarith only [this, h2, r1]
  have r4 : r ≤ 2 ^ 52 := by
    have : (r0 + kw) * (1 + 1 / 2 ^ 53) ≤ (2 ^ 50 + 2 ^ 32) * (1 + 1 / 2 ^ 53) :=
      mul_le_mul_of_nonneg_right (by linarith only [hr02, hkw2]) (by norm_num)
    have h2 : ((2 : ℚ) ^ 50 + 2 ^ 32) * (1 + 1 / 2 ^ 53) ≤ 2 ^ 52 := by norm_num
    linarith only [this, h2, r2]
  -- the quotient `rowwidth / rowlength`
  obtain ⟨G1, G2⟩ := range_div r S (1 / 2 ^ 33) (2 ^ 52) (1 / 2 ^ 34) (2 ^ 50) (by norm_num)
    (by norm_num) r3 r4 hS1 hS2
  obtain ⟨g, hg, g1, g2, -⟩ := double_of_real_normal (r / S)
    (le_trans (by norm_num) G1) (le_trans G2 (by norm_num))
  have hG0 : 0 ≤ r / S := le_trans (by norm_num) G1
  have g3 : 1 / 2 ^ 84 ≤ g := by
    have : (1 : ℚ) / 2 ^ 33 / 2 ^ 50 * (1 - 1 / 2 ^ 53) ≤ r / S * (1 - 1 / 2 ^ 53) :=
      mul_le_mul_of_nonneg_right G1 (by norm_num)
    have h2 : (1 : ℚ) / 2 ^ 84 ≤ 1 / 2 ^ 33 / 2 ^ 50 * (1 - 1 / 2 ^ 53) := by norm_num
    linarith only [this, h2, g1]
  have g4 : g ≤ 2 ^ 87 := by
    have : r / S * (1 + 1 / 2 ^ 53) ≤ 2 ^ 52 / (1 / 2 ^ 34) * (1 + 1 / 2 ^ 53) :=
      mul_le_mul_of_nonneg_right G2 (by norm_num)
    have h2 : (2 : ℚ) ^ 52 / (1 / 2 ^ 34) * (1 + 1 / 2 ^ 53) ≤ 2 ^ 87 := by norm_num
    linarith only [this, h2, g2]
  -- the product with the width
  obtain ⟨T1, T2⟩ := range_mul g (W : ℚ) (1 / 2 ^ 84) (2 ^ 87) 1 (2 ^ 31) (by norm_num)
    (by norm_num) g3 g4 hWq1 hWq2
  obtain ⟨t, ht, t1, t2, -⟩ := double_of_real_normal (g * (W : ℚ))
    (le_trans (by norm_num) T1) (le_trans T2 (by norm_num))
  obtain ⟨t3, t4⟩ := rounded_twice (r / S) (W : ℚ) g t hG0 (by linarith only [hWq1]) g1 g2 t1 t2
  refine ⟨p, r, t, ?_, ?_, ?_, p3, p4, r1, r2, t3, t4⟩
  · simp only [double_of_uint32, double_div, if_neg (ne_of_gt hS0), ha, double_mul]
    exact hp
  · simp only [double_add]
    exact hr
  · simp only [double_of_uint32, double_div, if_neg (ne_of_gt hS0), hg, double_mul]
    exact ht

/-- A `double` that converts to `uint32_t` is a finite number above -1, and
converts to its integer part. -/
theorem double_to_uint32_finite (q : ℚ) (w : Nat) (h : double_to_uint32 (.finite q) = .ok w) :
    -1 < q ∧ q < 2 ^ 32 ∧ w = Int.toNat ⌊q⌋ := by
  simp only [double_to_uint32] at h
  split_ifs at h with hq
  cases h
  exact ⟨hq.1, hq.2, rfl⟩

/-- The invariant at the start of a row. -/
theorem rounded_row_invariant_start (W : Nat) (ks : List key) (rl : double)
    (h : kbd_get_row_length ks = .ok rl) :
    rounded_row_invariant W [] ks 0 (.finite 0) rl := by
  have hrl := kbd_get_row_length_from_eq ks (.finite 0) rl h
  refine ⟨by rw [hrl]; simp, ?_⟩
  intro _
  refine ⟨by simp [pixel_width], by simp [double_sum], ?_⟩
  intro r S hr _
  cases hr
  simp

/-- A row with one key more, of the same relative widths, is tame when the row
with the key in the middle is. -/
theorem tame_row_middle (W : Nat) (cur rest : List key) (k k' : key) (hk' : k'.width = k.width)
    (h : tame_row W ((cur ++ [k']) ++ rest)) : tame_row W (cur ++ k :: rest) := by
  obtain ⟨t1, t2, t3, t4⟩ := h
  refine ⟨t1, t2, by simpa using t3, ?_⟩
  intro j hj
  simp only [List.mem_append, List.mem_cons] at hj
  rcases hj with hj | hj | hj
  · exact t4 j (by simp [hj])
  · rw [hj, ← hk']
    exact t4 k' (by simp)
  · exact t4 j (by simp [hj])

/-- The relative widths of a part of a tame row are tame. -/
theorem tame_row_widths (W : Nat) (row part : List key) (h : tame_row W row)
    (hsub : ∀ j ∈ part, j ∈ row) :
    ∀ v ∈ part.map key.width, v = 0 ∨ (1 / 2 ^ 32 ≤ v ∧ v ≤ 2 ^ 32) := by
  intro v hv
  obtain ⟨j, hj, rfl⟩ := List.mem_map.mp hv
  exact h.2.2.2 j (hsub j hj)

/-- A key that is skipped (relative width not positive) keeps the invariant: in
a tame row its relative width is 0, which leaves the rounded sums as they
are. -/
theorem rounded_row_invariant_skip (W : Nat) (cur ks : List key) (k k' : key) (x : Nat)
    (rw rl : double) (hinv : rounded_row_invariant W cur (k :: ks) x rw rl)
    (h1 : k.type ≠ .Last) (h2 : k.type ≠ .EndRow) (hw : ¬ k.width > 0)
    (hk' : k'.width = k.width) :
    rounded_row_invariant W (cur ++ [k']) ks x rw rl := by
  obtain ⟨hrl, hc⟩ := hinv
  rw [row_rest_cons_key k ks h1 h2] at hrl hc
  refine ⟨?_, ?_⟩
  · rw [hrl]
    simp [hk']
  intro htame
  have htame0 := tame_row_middle W cur (row_rest ks) k k' hk' htame
  obtain ⟨hx, hrw, hb⟩ := hc htame0
  have hkz : k.width = 0 := by
    rcases htame0.2.2.2 k (by simp) with c | ⟨c, -⟩
    · exact c
    · exact absurd (lt_of_lt_of_le (by positivity) c) hw
  have tlen : cur.length ≤ 2 ^ 16 := by
    have := htame0.2.2.1
    simp only [List.length_append, List.length_cons] at this
    omega
  obtain ⟨r0, hr0, -, -, fix⟩ := double_sum_tame_near (cur.map key.width)
    (by simpa using tlen) (tame_row_widths W _ cur htame0 (fun j hj => by simp [hj]))
  have hpix : pixel_width (cur ++ [k']) = pixel_width cur := by
    rw [pixel_width_append]
    simp [pixel_width, hk', hkz]
  refine ⟨by rw [hpix]; exact hx, ?_, ?_⟩
  · rw [List.map_append, List.map_singleton, double_sum_snoc, hk', hkz, ← hrw, hrw, hr0]
    show Wvkbd.double.finite r0 = double_of_real (r0 + 0)
    rw [add_zero, fix]
  · intro r S hr hS
    obtain ⟨b1, b2⟩ := hb r S hr hS
    have hη : (0 : ℚ) ≤ (W : ℚ) / 2 ^ 49 := by positivity
    have hlen : (((cur ++ [k']).length : Nat) : ℚ) * ((W : ℚ) / 2 ^ 49) =
        (cur.length : ℚ) * ((W : ℚ) / 2 ^ 49) + (W : ℚ) / 2 ^ 49 := by
      simp only [List.length_append, List.length_singleton]
      push_cast
      ring
    rw [hlen]
    constructor
    · linarith only [b1, hη]
    · linarith only [b2, hη]

/-- The operands of a key of positive relative width in a tame row: the row
sums are finite doubles of moderate size, and the operations of the key give
finite doubles near the exact values. -/
theorem rounded_row_ops (W : Nat) (cur rest : List key) (k : key) (rw rl : double)
    (htame0 : tame_row W (cur ++ k :: rest)) (hkw0 : k.width > 0)
    (hrl : rl = double_sum ((cur ++ k :: rest).map key.width) (.finite 0))
    (hrw : rw = double_sum (cur.map key.width) (.finite 0)) :
    ∃ S r0 p r t, rl = .finite S ∧ rw = .finite r0 ∧ 0 < S ∧ 0 ≤ r0 ∧
      r0 + k.width ≤ 3 / 2 * S ∧
      double_mul (double_div (double_of_uint32 W) rl) (.finite k.width) = .finite p ∧
      double_add rw (.finite k.width) = .finite r ∧
      double_mul (double_div (double_add rw (.finite k.width)) rl) (double_of_uint32 W) =
        .finite t ∧
      (W : ℚ) / S * k.width * (1 - 3 / 2 ^ 53) ≤ p ∧
      p ≤ (W : ℚ) / S * k.width * (1 + 3 / 2 ^ 53) ∧
      (r0 + k.width) * (1 - 1 / 2 ^ 53) ≤ r ∧ r ≤ (r0 + k.width) * (1 + 1 / 2 ^ 53) ∧
      r / S * (W : ℚ) * (1 - 3 / 2 ^ 53) ≤ t ∧ t ≤ r / S * (W : ℚ) * (1 + 3 / 2 ^ 53) := by
  have twc := tame_row_widths W _ cur htame0 (fun j hj => by simp [hj])
  have twr := tame_row_widths W _ rest htame0 (fun j hj => by simp [hj])
  have twa := tame_row_widths W _ _ htame0 (fun j hj => hj)
  obtain ⟨tW1, tW2, tlen, tw⟩ := htame0
  have tlen' : cur.length + rest.length + 1 ≤ 2 ^ 16 := by
    simp only [List.length_append, List.length_cons] at tlen
    omega
  obtain ⟨kw1, kw2⟩ : 1 / 2 ^ 32 ≤ k.width ∧ k.width ≤ 2 ^ 32 := by
    rcases tw k (by simp) with c | c
    · rw [c] at hkw0
      exact absurd hkw0 (lt_irrefl _)
    · exact c
  obtain ⟨S, hS, S1, S2, -⟩ := double_sum_tame_near ((cur ++ k :: rest).map key.width)
    (by simpa using tlen) twa
  obtain ⟨r0, hr0, r01, r02, -⟩ := double_sum_tame_near (cur.map key.width)
    (by simp only [List.length_map]; omega) twc
  rw [← hrl] at hS
  rw [← hrw] at hr0
  obtain ⟨sc1, sc2⟩ := tame_sum_bounds _ twc
  obtain ⟨sr1, sr2⟩ := tame_sum_bounds _ twr
  obtain ⟨sa1, sa2⟩ := tame_sum_bounds _ twa
  have hsum : ((cur ++ k :: rest).map key.width).sum =
      (cur.map key.width).sum + k.width + (rest.map key.width).sum := by
    simp [add_assoc]
  rw [hsum] at S1 S2 sa1 sa2
  simp only [List.length_map, List.length_append, List.length_cons] at sc1 sc2 sr1 sr2 sa1 sa2
  have hn : (cur.length : ℚ) + (rest.length : ℚ) + 1 ≤ 2 ^ 16 := by
    exact_mod_cast tlen'
  have hn0 : (0 : ℚ) ≤ (cur.length : ℚ) := Nat.cast_nonneg _
  have hm0 : (0 : ℚ) ≤ (rest.length : ℚ) := Nat.cast_nonneg _
  push_cast at sa1 sa2
  generalize (cur.map key.width).sum = sc at *
  generalize (rest.map key.width).sum = sr at *
  have hS1 : 1 / 2 ^ 34 ≤ S := by linarith only [S1, kw1, sc1, sr1]
  have hS2 : S ≤ 2 ^ 50 := by linarith only [S2, sa2, hn]
  have hr00 : 0 ≤ r0 := le_trans (mul_nonneg sc1 (by norm_num)) r01
  have hr02 : r0 ≤ 2 ^ 50 := by linarith only [r02, sc2, hn, hm0]
  have hS0 : 0 < S := lt_of_lt_of_le (by positivity) hS1
  obtain ⟨p, r, t, hp, hr, ht, p1, p2, r1, r2, t1, t2⟩ :=
    layout_ops_rounded W S r0 k.width tW1 tW2 hS1 hS2 kw1 kw2 hr00 hr02
  refine ⟨S, r0, p, r, t, hS, hr0, hS0, hr00, by linarith only [r02, S1, sc1, sr1, kw1],
    ?_, ?_, ?_, p1, p2, r1, r2, t1, t2⟩
  · rw [hS]
    exact hp
  · rw [hr0]
    exact hr
  · rw [hr0, hr, hS]
    exact ht

/-- In a tame row the pixel width of a key of positive relative width converts
to `uint32_t`. -/
theorem rounded_row_converts (W : Nat) (cur rest : List key) (k : key) (rw rl : double)
    (htame0 : tame_row W (cur ++ k :: rest)) (hkw0 : k.width > 0)
    (hrl : rl = double_sum ((cur ++ k :: rest).map key.width) (.finite 0))
    (hrw : rw = double_sum (cur.map key.width) (.finite 0)) :
    ∃ w, double_to_uint32
      (double_mul (double_div (double_of_uint32 W) rl) (.finite k.width)) = .ok w := by
  obtain ⟨S, r0, p, r, t, hS, hr0, hS0, hr00, hrS, hp, -, -, p1, p2, -, -, -, -⟩ :=
    rounded_row_ops W cur rest k rw rl htame0 hkw0 hrl hrw
  have hWq : (W : ℚ) < 2 ^ 31 := by exact_mod_cast htame0.2.1
  have hW0 : (0 : ℚ) ≤ (W : ℚ) := Nat.cast_nonneg _
  have hA : 0 ≤ (W : ℚ) / S := div_nonneg hW0 hS0.le
  have hAS : (W : ℚ) / S * S = W := div_mul_cancel₀ _ (ne_of_gt hS0)
  have hP0 : 0 ≤ (W : ℚ) / S * k.width := mul_nonneg hA hkw0.le
  have hP : (W : ℚ) / S * k.width ≤ 3 / 2 * W := by
    calc (W : ℚ) / S * k.width ≤ (W : ℚ) / S * (3 / 2 * S) :=
          mul_le_mul_of_nonneg_left (by linarith only [hrS, hr00]) hA
      _ = 3 / 2 * ((W : ℚ) / S * S) := by ring
      _ = 3 / 2 * W := by rw [hAS]
  rw [hp]
  refine ⟨Int.toNat ⌊p⌋, ?_⟩
  simp only [double_to_uint32]
  rw [if_pos]
  constructor
  · linarith only [p1, hP0]
  · linarith only [p2, hP, hWq, hP0]

/-- A key of positive relative width keeps the invariant: `k'` is the key with
its geometry, `x2` the `x` after it. -/
theorem rounded_row_invariant_key (W : Nat) (cur ks : List key) (k k' : key)
    (x w x2 : Nat) (rw rl : double) (bump : Bool)
    (hinv : rounded_row_invariant W cur (k :: ks) x rw rl) (h1 : k.type ≠ .Last)
    (h2 : k.type ≠ .EndRow) (hkw0 : k.width > 0)
    (hconv : double_to_uint32
      (double_mul (double_div (double_of_uint32 W) rl) (.finite k.width)) = .ok w)
    (hbump : double_lt (double_of_uint32 ((x + w) % 2 ^ 32))
      (double_mul (double_div (double_add rw (.finite k.width)) rl) (double_of_uint32 W)) = bump)
    (hk'w : k'.width = k.width)
    (hk'p : k'.w = if bump = true then (w + 1) % 2 ^ 32 else w)
    (hx2 : x2 = if bump = true then ((x + w) % 2 ^ 32 + 1) % 2 ^ 32 else (x + w) % 2 ^ 32) :
    rounded_row_invariant W (cur ++ [k']) ks x2 (double_add rw (.finite k.width)) rl := by
  obtain ⟨hrl, hc⟩ := hinv
  rw [row_rest_cons_key k ks h1 h2] at hrl hc
  refine ⟨?_, ?_⟩
  · rw [hrl]
    simp [hk'w]
  intro htame
  have htame0 := tame_row_middle W cur (row_rest ks) k k' hk'w htame
  obtain ⟨hx, hrw, hb⟩ := hc htame0
  obtain ⟨S, r0, p, r, t, hS, hr0, hS0, hr00, hrS, hp, hr, ht, p1, p2, r1, r2, t1, t2⟩ :=
    rounded_row_ops W cur (row_rest ks) k rw rl htame0 hkw0 hrl hrw
  obtain ⟨tW1, tW2, tlen, tw⟩ := htame0
  have tlen' : cur.length + (row_rest ks).length + 1 ≤ 2 ^ 16 := by
    simp only [List.length_append, List.length_cons] at tlen
    omega
  have hn : (cur.length : ℚ) + ((row_rest ks).length : ℚ) + 1 ≤ 2 ^ 16 := by
    exact_mod_cast tlen'
  have hm0 : (0 : ℚ) ≤ ((row_rest ks).length : ℚ) := Nat.cast_nonneg _
  obtain ⟨b1, b2⟩ := hb r0 S hr0 hS
  rw [hp] at hconv
  obtain ⟨-, -, hwp⟩ := double_to_uint32_finite p w hconv
  rw [ht] at hbump
  have hε : (0 : ℚ) ≤ (cur.length : ℚ) * ((W : ℚ) / 2 ^ 49) := by positivity
  obtain ⟨s1, s2, s3, s4⟩ := layout_step_rounded W x w S r0 r k.width p t
    ((cur.length : ℚ) * ((W : ℚ) / 2 ^ 49)) hS0 hkw0 hr00 hε hrS p1 p2 r1 r2 t1 t2
    hwp b1 b2
  have hWq : (W : ℚ) < 2 ^ 31 := by exact_mod_cast tW2
  have hW0 : (0 : ℚ) ≤ (W : ℚ) := Nat.cast_nonneg _
  have hεle : (cur.length : ℚ) * ((W : ℚ) / 2 ^ 49) ≤ 2 ^ 16 * ((W : ℚ) / 2 ^ 49) :=
    mul_le_mul_of_nonneg_right (by linarith only [hn, hm0]) (by positivity)
  have hnowrap : x + w + 1 < 2 ^ 32 := by
    have : ((x + w + 1 : Nat) : ℚ) < 2 ^ 32 := by
      push_cast
      push_cast at s3
      linarith only [s3, s4, hεle, hWq, hW0]
    exact_mod_cast this
  have e1 : (x + w) % 2 ^ 32 = x + w := Nat.mod_eq_of_lt (by omega)
  have e2 : (x + w + 1) % 2 ^ 32 = x + w + 1 := Nat.mod_eq_of_lt hnowrap
  have e3 : (w + 1) % 2 ^ 32 = w + 1 := Nat.mod_eq_of_lt (by omega)
  rw [e1] at hbump hx2
  rw [e2] at hx2
  rw [e3] at hk'p
  have hpixk : pixel_width (cur ++ [k']) = pixel_width cur + k'.w := by
    rw [pixel_width_append]
    simp [pixel_width, hk'w, hkw0]
  have hrw' : double_add rw (.finite k.width) =
      double_sum ((cur ++ [k']).map key.width) (.finite 0) := by
    rw [List.map_append, List.map_singleton, double_sum_snoc, ← hrw, hk'w]
  refine ⟨?_, hrw', ?_⟩
  · rw [hpixk, hk'p, hx2, ← hx]
    cases bump with
    | true =>
      show x + w + 1 = x + (w + 1)
      omega
    | false => rfl
  · intro r' S' hr' hS'
    rw [hr] at hr'
    rw [hS] at hS'
    cases hr'
    cases hS'
    have hlen : (((cur ++ [k']).length : Nat) : ℚ) * ((W : ℚ) / 2 ^ 49) =
        (cur.length : ℚ) * ((W : ℚ) / 2 ^ 49) + (W : ℚ) / 2 ^ 49 := by
      simp only [List.length_append, List.length_singleton]
      push_cast
      ring
    rw [hlen, hx2]
    simp only [double_of_uint32, double_lt] at hbump
    cases bump with
    | true =>
      have hb' : ((x + w : Nat) : ℚ) < t := of_decide_eq_true hbump
      simpa using s1 hb'
    | false =>
      have hb' : ¬ ((x + w : Nat) : ℚ) < t := of_decide_eq_false hbump
      simpa using s2 hb'

/-- At the end of a tame row with a key of positive relative width the
invariant gives its pixel width: the width of the screen, or one pixel more. -/
theorem rounded_row_invariant_end (W : Nat) (cur rest : List key) (x : Nat) (rw rl : double)
    (hinv : rounded_row_invariant W cur rest x rw rl) (hend : row_rest rest = [])
    (htame : tame_row W cur) (hne : ∃ k ∈ cur, 0 < k.width) :
    pixel_width cur = W ∨ pixel_width cur = W + 1 := by
  obtain ⟨hrl, hc⟩ := hinv
  rw [hend, List.append_nil] at hrl hc
  obtain ⟨hx, hrw, hb⟩ := hc htame
  have twc := tame_row_widths W _ cur htame (fun j hj => hj)
  obtain ⟨tW1, tW2, tlen, tw⟩ := htame
  obtain ⟨S, hS, S1, -, -⟩ := double_sum_tame_near (cur.map key.width)
    (by simpa using tlen) twc
  have hn2 : (cur.length : ℚ) ≤ 2 ^ 16 := by exact_mod_cast tlen
  have hn0 : (0 : ℚ) ≤ (cur.length : ℚ) := Nat.cast_nonneg _
  have hS0 : 0 < S := by
    obtain ⟨k, hk, hkpos⟩ := hne
    have hle : k.width ≤ (cur.map key.width).sum := by
      apply List.single_le_sum
      · intro v hv
        rcases twc v hv with c | ⟨c, -⟩
        · rw [c]
        · exact le_trans (by positivity) c
      · exact List.mem_map.mpr ⟨k, hk, rfl⟩
    have h1 : (0 : ℚ) < (cur.map key.width).sum := lt_of_lt_of_le hkpos hle
    have h2 : 0 < (cur.map key.width).sum * (1 - 1 / 2 ^ 36) := mul_pos h1 (by norm_num)
    exact lt_of_lt_of_le h2 S1
  obtain ⟨b1, b2⟩ := hb S S (by rw [hrw, hS]) (by rw [hrl, hS])
  rw [mul_div_assoc, div_self (ne_of_gt hS0), mul_one] at b1 b2
  have hWq : (W : ℚ) < 2 ^ 31 := by exact_mod_cast tW2
  have hW0 : (0 : ℚ) ≤ (W : ℚ) := Nat.cast_nonneg _
  have hεle : (cur.length : ℚ) * ((W : ℚ) / 2 ^ 49) ≤ 2 ^ 16 * ((W : ℚ) / 2 ^ 49) :=
    mul_le_mul_of_nonneg_right hn2 (by positivity)
  rw [← hx]
  have h2 : (x : ℚ) < (W : ℚ) + 2 := by linarith only [b2, hεle, hWq, hW0]
  have h3 : W < x + 1 := by
    exact_mod_cast (by linarith only [b1, hεle, hWq, hW0] : (W : ℚ) < (x : ℚ) + 1)
  have h4 : x < W + 2 := by exact_mod_cast h2
  omega

/-- On a screen of 1 to `2 ^ 31 - 1` pixels, every tame row the loop of
`kbd_init_layout` completes is as wide as the screen or one pixel wider. -/
theorem kbd_init_layout_loop_rounded_rows (W kh : Nat) :
    ∀ (ks : List key) (x y : Nat) (rl rw : double) (out cur : List key),
    kbd_init_layout_loop W kh ks x y rl rw = .ok out →
    rounded_row_invariant W cur ks x rw rl →
    ∀ row ∈ layout_rows_from out cur, tame_row W row → (∃ k ∈ row, 0 < k.width) →
      pixel_width row = W ∨ pixel_width row = W + 1 := by
  intro ks
  induction ks with
  | nil =>
    intro x y rl rw out cur h
    simp [kbd_init_layout_loop] at h
  | cons k ks ih =>
    intro x y rl rw out cur h hinv row hrow htame hne
    unfold kbd_init_layout_loop at h
    by_cases hlast : k.type = .Last
    · rw [if_pos hlast] at h
      cases h
      simp only [layout_rows_from, if_pos hlast, List.mem_singleton] at hrow
      subst hrow
      exact rounded_row_invariant_end W row (k :: ks) x rw rl hinv
        (row_rest_cons_end k ks (Or.inl hlast)) htame hne
    · rw [if_neg hlast] at h
      by_cases hend : k.type = .EndRow
      · rw [if_pos hend, except_bind_ok] at h
        obtain ⟨rl', hrl', h⟩ := h
        rw [except_bind_ok] at h
        obtain ⟨ks', hks', h⟩ := h
        cases h
        simp only [layout_rows_from, if_neg hlast, if_pos hend, List.mem_cons] at hrow
        rcases hrow with hrow | hrow
        · subst hrow
          exact rounded_row_invariant_end W row (k :: ks) x rw rl hinv
            (row_rest_cons_end k ks (Or.inr hend)) htame hne
        · exact ih 0 _ rl' _ ks' [] hks' (rounded_row_invariant_start W ks rl' hrl')
            row hrow htame hne
      · rw [if_neg hend] at h
        by_cases hw : k.width > 0
        · rw [if_pos hw, except_bind_ok] at h
          obtain ⟨w, hconv, h⟩ := h
          rw [except_bind_ok] at h
          obtain ⟨ks', hks', h⟩ := h
          generalize hbump : double_lt (double_of_uint32 ((x + w) % 2 ^ 32))
            (double_mul (double_div (double_add rw (.finite k.width)) rl)
              (double_of_uint32 W)) = bump at hks' h
          cases h
          simp only [layout_rows_from, if_neg hlast, if_neg hend] at hrow
          exact ih _ y rl _ ks' _ hks'
            (rounded_row_invariant_key W cur ks k
              { k with x := x, y := y, w := if bump = true then (w + 1) % 2 ^ 32 else w, h := kh }
              x w _ rw rl bump hinv hlast hend hw hconv hbump rfl rfl rfl)
            row hrow htame hne
        · rw [if_neg hw, except_bind_ok] at h
          obtain ⟨ks', hks', h⟩ := h
          cases h
          simp only [layout_rows_from, if_neg hlast, if_neg hend] at hrow
          exact ih x y rl rw ks' _ hks'
            (rounded_row_invariant_skip W cur ks k { k with h := kh } x rw rl hinv hlast hend
              hw rfl)
            row hrow htame hne

/-- After `kbd_init_layout` on a screen of 1 to `2 ^ 31 - 1` pixels, every tame
row of the layout is as wide as the screen or one pixel wider. -/
theorem kbd_init_layout_rounded_rows (l l' : layout) (width height y_offset : Nat)
    (h : kbd_init_layout l width height y_offset = .ok l') :
    ∀ row ∈ layout_rows l'.keys, tame_row width row → (∃ k ∈ row, 0 < k.width) →
      pixel_width row = width ∨ pixel_width row = width + 1 := by
  intro row hrow htame hne
  unfold kbd_init_layout at h
  rw [except_bind_ok] at h
  obtain ⟨rows, -, h⟩ := h
  split_ifs at h
  rw [except_bind_ok] at h
  obtain ⟨rl, hrl, h⟩ := h
  rw [except_bind_ok] at h
  obtain ⟨keys, hkeys, h⟩ := h
  cases h
  exact kbd_init_layout_loop_rounded_rows width (height / rows) l.keys 0 y_offset rl _ keys []
    hkeys (rounded_row_invariant_start width l.keys rl hrl) row hrow htame hne

/-- On a key array with a `Last` key `kbd_get_row_length` returns. -/
theorem kbd_get_row_length_from_returns : ∀ (ks : List key) (len : double),
    (∃ k ∈ ks, k.type = .Last) → ∃ r, kbd_get_row_length_from ks len = .ok r := by
  intro ks
  induction ks with
  | nil =>
    intro len h
    obtain ⟨k, hk, -⟩ := h
    simp at hk
  | cons k ks ih =>
    intro len h
    unfold kbd_get_row_length_from
    split_ifs with hk
    · have hrest : ∃ k' ∈ ks, k'.type = .Last := by
        obtain ⟨k', hk', hl⟩ := h
        rcases List.mem_cons.mp hk' with hk' | hk'
        · rw [hk'] at hl
          exact absurd hl hk.1
        · exact ⟨k', hk', hl⟩
      exact ih _ hrest
    · exact ⟨_, rfl⟩

/-- On a screen of 1 to `2 ^ 31 - 1` pixels the loop of `kbd_init_layout`
returns on a key array with a `Last` key, when the keys are `2 ^ 16` at most and
each relative width is 0 or between `2 ^ -32` and `2 ^ 32`. -/
theorem kbd_init_layout_loop_rounded_returns (W kh : Nat) (hW1 : 1 ≤ W) (hW2 : W < 2 ^ 31) :
    ∀ (ks : List key) (x y : Nat) (rl rw : double) (cur : List key),
    (∃ k ∈ ks, k.type = .Last) → rounded_row_invariant W cur ks x rw rl →
    cur.length + ks.length ≤ 2 ^ 16 →
    (∀ k ∈ cur, k.width = 0 ∨ (1 / 2 ^ 32 ≤ k.width ∧ k.width ≤ 2 ^ 32)) →
    (∀ k ∈ ks, k.width = 0 ∨ (1 / 2 ^ 32 ≤ k.width ∧ k.width ≤ 2 ^ 32)) →
    ∃ out, kbd_init_layout_loop W kh ks x y rl rw = .ok out := by
  intro ks
  induction ks with
  | nil =>
    intro x y rl rw cur h
    obtain ⟨k, hk, -⟩ := h
    simp at hk
  | cons k ks ih =>
    intro x y rl rw cur h hinv hlen hwc hwk
    unfold kbd_init_layout_loop
    by_cases hlast : k.type = .Last
    · exact ⟨_, by rw [if_pos hlast]⟩
    · have hrest : ∃ k' ∈ ks, k'.type = .Last := by
        obtain ⟨k', hk', hl⟩ := h
        rcases List.mem_cons.mp hk' with hk' | hk'
        · rw [hk'] at hl
          exact absurd hl hlast
        · exact ⟨k', hk', hl⟩
      have hwk' : ∀ j ∈ ks, j.width = 0 ∨ (1 / 2 ^ 32 ≤ j.width ∧ j.width ≤ 2 ^ 32) :=
        fun j hj => hwk j (by simp [hj])
      have hlen' : cur.length + ks.length + 1 ≤ 2 ^ 16 := by
        simp only [List.length_cons] at hlen
        omega
      rw [if_neg hlast]
      by_cases hend : k.type = .EndRow
      · rw [if_pos hend]
        obtain ⟨rl', hrl'⟩ := kbd_get_row_length_from_returns ks (.finite 0) hrest
        have hrl'' : kbd_get_row_length ks = .ok rl' := hrl'
        obtain ⟨out, hout⟩ := ih 0 ((y + kh) % 2 ^ 32) rl' (.finite 0) [] hrest
          (rounded_row_invariant_start W ks rl' hrl'') (by simp; omega)
          (by simp) hwk'
        simp only [hrl'', hout, bind, Except.bind, pure, Except.pure]
        exact ⟨_, rfl⟩
      · rw [if_neg hend]
        by_cases hw : k.width > 0
        · rw [if_pos hw]
          have htame0 : tame_row W (cur ++ k :: row_rest ks) := by
            refine ⟨hW1, hW2, ?_, ?_⟩
            · have hpre : row_rest ks <+: ks := List.takeWhile_prefix _
              have := hpre.length_le
              simp only [List.length_append, List.length_cons]
              omega
            · intro j hj
              simp only [List.mem_append, List.mem_cons] at hj
              rcases hj with hj | hj | hj
              · exact hwc j hj
              · rw [hj]
                exact hwk k (by simp)
              · exact hwk' j (List.takeWhile_subset _ hj)
          have hinv0 := hinv
          obtain ⟨hrl, hc⟩ := hinv0
          rw [row_rest_cons_key k ks hlast hend] at hrl hc
          obtain ⟨-, hrw, -⟩ := hc htame0
          obtain ⟨w, hconv⟩ := rounded_row_converts W cur (row_rest ks) k rw rl htame0 hw hrl hrw
          generalize hbump : double_lt (double_of_uint32 ((x + w) % 2 ^ 32))
            (double_mul (double_div (double_add rw (.finite k.width)) rl)
              (double_of_uint32 W)) = bump
          obtain ⟨out, hout⟩ := ih
            (if bump = true then ((x + w) % 2 ^ 32 + 1) % 2 ^ 32 else (x + w) % 2 ^ 32)
            y rl (double_add rw (.finite k.width))
            (cur ++ [{ k with x := x, y := y,
                              w := if bump = true then (w + 1) % 2 ^ 32 else w, h := kh }])
            hrest
            (rounded_row_invariant_key W cur ks k
              { k with x := x, y := y, w := if bump = true then (w + 1) % 2 ^ 32 else w, h := kh }
              x w _ rw rl bump hinv hlast hend hw hconv hbump rfl rfl rfl)
            (by simp; omega)
            (by
              intro j hj
              simp only [List.mem_append, List.mem_singleton] at hj
              rcases hj with hj | hj
              · exact hwc j hj
              · rw [hj]
                exact hwk k (by simp))
            hwk'
          simp only [hconv, hbump, hout, bind, Except.bind, pure, Except.pure]
          exact ⟨_, rfl⟩
        · rw [if_neg hw]
          obtain ⟨out, hout⟩ := ih x y rl rw (cur ++ [{ k with h := kh }]) hrest
            (rounded_row_invariant_skip W cur ks k { k with h := kh } x rw rl hinv hlast hend
              hw rfl)
            (by simp; omega)
            (by
              intro j hj
              simp only [List.mem_append, List.mem_singleton] at hj
              rcases hj with hj | hj
              · exact hwc j hj
              · rw [hj]
                exact hwk k (by simp))
            hwk'
          simp only [hout, bind, Except.bind, pure, Except.pure]
          exact ⟨_, rfl⟩

/-- On a screen of 1 to `2 ^ 31 - 1` pixels `kbd_init_layout` returns for every
layout that ends in a `Last` key, has a row count that is not 0 as a `uint8_t`
and has `2 ^ 16` keys at most, each of relative width 0 or between `2 ^ -32` and
`2 ^ 32`. -/
theorem kbd_init_layout_rounded_returns (l : layout) (width height y_offset : Nat)
    (hW1 : 1 ≤ width) (hW2 : width < 2 ^ 31) (hlast : ∃ k ∈ l.keys, k.type = .Last)
    (hrows : ∀ r, kbd_get_rows l = .ok r → r ≠ 0) (hlen : l.keys.length ≤ 2 ^ 16)
    (hw : ∀ k ∈ l.keys, k.width = 0 ∨ (1 / 2 ^ 32 ≤ k.width ∧ k.width ≤ 2 ^ 32)) :
    ∃ l', kbd_init_layout l width height y_offset = .ok l' := by
  obtain ⟨rows, hr⟩ := kbd_get_rows_from_returns l.keys 0 hlast
  have hr' : kbd_get_rows l = .ok rows := hr
  obtain ⟨rl, hrl⟩ := kbd_get_row_length_from_returns l.keys (.finite 0) hlast
  have hrl' : kbd_get_row_length l.keys = .ok rl := hrl
  obtain ⟨keys, hkeys⟩ := kbd_init_layout_loop_rounded_returns width (height / rows) hW1 hW2
    l.keys 0 y_offset rl (.finite 0) [] hlast (rounded_row_invariant_start width l.keys rl hrl')
    (by simpa using hlen) (by simp) hw
  unfold kbd_init_layout
  simp only [hr', hrl', hkeys, bind, Except.bind, pure, Except.pure, if_neg (hrows rows hr')]
  exact ⟨_, rfl⟩

/-- In a row that is laid out and no wider than `2 ^ 32 - 1` pixels each key of
positive relative width starts at the pixel width of the keys before it, and
ends inside the pixel width of the row. -/
theorem laid_out_mod_in_range (row : List key) (h : laid_out_mod row)
    (hw : pixel_width row < 2 ^ 32) :
    ∀ pre k post, row = pre ++ k :: post → 0 < k.width →
      k.x = pixel_width pre ∧ k.x + k.w ≤ pixel_width row := by
  intro pre k post hrow hk
  have hx := h pre k post hrow hk
  have hsum : pixel_width row = pixel_width pre + k.w + pixel_width post := by
    rw [hrow, pixel_width_append]
    have : pixel_width (k :: post) = k.w + pixel_width post := by
      simp [pixel_width, hk]
    rw [this]
    ring
  have hmod : pixel_width pre % 2 ^ 32 = pixel_width pre := Nat.mod_eq_of_lt (by omega)
  rw [hmod] at hx
  exact ⟨hx, by omega⟩

/-- C9, as stated, fails of the program: in a row of relative widths 0.5, nine
times 1 and 0.5, none negative, laid out on 720 pixels, the share of the first
six keys is computed as `(5.5 / 10.0) * 720.0`, which in `double` is
`396 + 2 ^ -44`, above the 396 pixels reached, so the sixth key is widened by
one pixel and the row is 721 pixels wide.  And in a row of relative widths 2
and -1 (total 1, which is positive) laid out on 100 pixels, the one key of
positive width is 200 pixels wide. -/
theorem kbd_init_layout_rows_counterexample :
    ((∀ k ∈ half_layout.keys, 0 ≤ k.width) ∧
      (kbd_init_layout half_layout 720 60 10).toOption.map
        (fun l => (layout_rows l.keys).map
          (fun row => (decide (0 < relative_width row), pixel_width row))) =
        some [(true, 721)] ∧
      (kbd_init_layout half_layout 720 60 10).toOption.map
        (fun l => l.keys.map (fun k => (k.x, k.w))) =
        some [(0, 36), (36, 72), (108, 72), (180, 72), (252, 72), (324, 73), (397, 72),
          (469, 72), (541, 72), (613, 72), (685, 36), (0, 0)] ∧
      double_mul (double_div (.finite (11 / 2)) (.finite 10)) (.finite 720) =
        .finite (396 + 1 / 2 ^ 44)) ∧
    (kbd_init_layout negative_layout 100 60 10).toOption.map
      (fun l => (layout_rows l.keys).map
        (fun row => (decide (0 < relative_width row), pixel_width row))) =
      some [(true, 200)] := by
  refine ⟨⟨?_, ?_, ?_, ?_⟩, ?_⟩ <;> decide!

/-- C9, as amended: after `kbd_init_layout(layout, width, height, yOffset)` with
`1 ≤ width < 2 ^ 31`, for every row of the layout that has `2 ^ 16` keys at
most, each of relative width 0 or between `2 ^ -32` and `2 ^ 32`, and a key of
positive relative width, the pixel widths of the row's positive-width keys sum
to `width` or to `width + 1`, each such key's `x` equals the sum of the pixel
widths of the positive-width keys before it in the same row, and the key ends
at `width + 1` or before.  In every row whatever the `x` of each key of
positive relative width equals that sum modulo `2 ^ 32`.  The call returns for
every layout that ends in a `Last` key, has a row count that is not 0 as a
`uint8_t` and has `2 ^ 16` keys at most, each of relative width 0 or between
`2 ^ -32` and `2 ^ 32`. -/
theorem kbd_init_layout_rows (l : layout) (width height y_offset : Nat) :
    (∀ l', kbd_init_layout l width height y_offset = .ok l' →
      ∀ row ∈ layout_rows l'.keys,
        (∀ pre k post, row = pre ++ k :: post → 0 < k.width →
          k.x = pixel_width pre % 2 ^ 32) ∧
        (1 ≤ width → width < 2 ^ 31 → row.length ≤ 2 ^ 16 →
          (∀ k ∈ row, k.width = 0 ∨ (1 / 2 ^ 32 ≤ k.width ∧ k.width ≤ 2 ^ 32)) →
          (∃ k ∈ row, 0 < k.width) →
          (pixel_width row = width ∨ pixel_width row = width + 1) ∧
          ∀ pre k post, row = pre ++ k :: post → 0 < k.width →
            k.x = pixel_width pre ∧ k.x + k.w ≤ width + 1)) ∧
    (1 ≤ width → width < 2 ^ 31 → (∃ k ∈ l.keys, k.type = .Last) →
      (∀ r, kbd_get_rows l = .ok r → r ≠ 0) → l.keys.length ≤ 2 ^ 16 →
      (∀ k ∈ l.keys, k.width = 0 ∨ (1 / 2 ^ 32 ≤ k.width ∧ k.width ≤ 2 ^ 32)) →
      ∃ l', kbd_init_layout l width height y_offset = .ok l') := by
  refine ⟨?_, fun hW1 hW2 hlast hrows hlen hw =>
    kbd_init_layout_rounded_returns l width height y_offset hW1 hW2 hlast hrows hlen hw⟩
  intro l' hrun row hrow
  have hlaid : laid_out_mod row := by
    have h := hrun
    unfold kbd_init_layout at h
    rw [except_bind_ok] at h
    obtain ⟨rows, -, h⟩ := h
    split_ifs at h
    rw [except_bind_ok] at h
    obtain ⟨rl, hrl, h⟩ := h
    rw [except_bind_ok] at h
    obtain ⟨keys, hkeys, h⟩ := h
    cases h
    refine kbd_init_layout_loop_laid_out width (height / rows) l.keys 0 y_offset rl _ keys []
      hkeys (by simp [pixel_width]) ?_ row hrow
    intro pre j post hnil
    exact absurd hnil (by simp)
  refine ⟨hlaid, ?_⟩
  intro hW1 hW2 hlen hw hpos
  have hsum := kbd_init_layout_rounded_rows l l' width height y_offset hrun row hrow
    ⟨hW1, hW2, hlen, hw⟩ hpos
  refine ⟨hsum, ?_⟩
  intro pre k post hpre hk
  obtain ⟨a, b⟩ := laid_out_mod_in_range row hlaid (by omega) pre k post hpre hk
  exact ⟨a, by omega⟩

/-- C9, as amended, at the sample layout of rows 1, 1, 1 and 1.5, 1 on 100
pixels: the call returns with the keys at 0, 34, 67 and at 0, 60, both rows are
100 pixels wide (34 + 33 + 33 and 60 + 40), and each key starts where the keys
before it in its row end. -/
theorem kbd_init_layout_rows_witness :
    ∃ l', kbd_init_layout thirds_layout 100 60 10 = .ok l' ∧
      l'.keys.map (fun k => (k.x, k.w)) =
        [(0, 34), (34, 33), (67, 33), (0, 0), (0, 60), (60, 40), (0, 0)] ∧
      (layout_rows l'.keys).map pixel_width = [100, 100] ∧
      ∀ row ∈ layout_rows l'.keys,
        (pixel_width row = 100 ∨ pixel_width row = 100 + 1) ∧
        ∀ pre k post, row = pre ++ k :: post → 0 < k.width →
          k.x = pixel_width pre ∧ k.x + k.w ≤ 100 + 1 := by
  obtain ⟨hrows, hret⟩ := kbd_init_layout_rows thirds_layout 100 60 10
  obtain ⟨l', hrun⟩ := hret (by decide) (by decide) (by decide)
    (by
      intro r hr
      have h2 : kbd_get_rows thirds_layout = .ok 2 := rfl
      rw [h2] at hr
      cases hr
      decide)
    (by decide) (by decide!)
  have hval : (kbd_init_layout thirds_layout 100 60 10).toOption.map
      (fun l => l.keys.map (fun k => (k.x, k.w))) =
      some [(0, 34), (34, 33), (67, 33), (0, 0), (0, 60), (60, 40), (0, 0)] := by decide!
  have hpix : (kbd_init_layout thirds_layout 100 60 10).toOption.map
      (fun l => (layout_rows l.keys).map pixel_width) = some [100, 100] := by decide!
  have htame : (kbd_init_layout thirds_layout 100 60 10).toOption.map
      (fun l => decide (∀ row ∈ layout_rows l.keys, row.length ≤ 2 ^ 16 ∧
        (∀ k ∈ row, k.width = 0 ∨ (1 / 2 ^ 32 ≤ k.width ∧ k.width ≤ 2 ^ 32)) ∧
        ∃ k ∈ row, 0 < k.width)) = some true := by decide!
  rw [hrun] at hval hpix htame
  have htame' := of_decide_eq_true (Option.some.inj htame)
  refine ⟨l', hrun, Option.some.inj hval, Option.some.inj hpix, ?_⟩
  intro row hrow
  obtain ⟨t1, t2, t3⟩ := htame' row hrow
  exact (hrows l' hrun row hrow).2 (by decide) (by decide) t1 t2 t3

/-- C37, as stated, fails: in a row of relative widths 1, 1, 1 and -2 laid out on
2 ^ 31 pixels each of the three keys of positive width is 2 ^ 31 pixels wide or
one more, the position wraps around in `uint32_t` after the second, and the
third key starts at pixel 1: the rectangles of the first and the third key both
contain the point (5, 20), and both keys qualify there for `kbd_get_key`. -/
theorem kbd_init_layout_disjoint_counterexample :
    (kbd_init_layout wrap_layout 2147483648 60 10).toOption.map
      (fun l => l.keys.map (fun k => (decide (placed k), k.x, k.w, decide (key_rect k 5 20)))) =
      some [(true, 0, 2147483648, true), (true, 2147483648, 2147483649, false),
        (true, 1, 2147483649, true), (false, 0, 0, false), (false, 0, 0, false)] ∧
    (kbd_init_layout wrap_layout 2147483648 60 10).toOption.map
      (fun l => l.keys.map (fun k => (k.y, k.h, decide (key_hit k 5 20)))) =
      some [(10, 60, true), (10, 60, false), (10, 60, true), (0, 60, false),
        (0, 0, false)] := by
  constructor <;> decide!

/-- C37, as amended: after `kbd_init_layout(layout, width, height, yOffset)` on a
layout with fewer than 256 rows, with `yOffset + height` below 2 ^ 32, when the
`x` range of no key of positive relative width runs past 2 ^ 32 (`x + w` stays
below it), of any two distinct keys of positive relative width before the
`Last` key the earlier one lies in the same row with its `x` range ending where
the other starts or before, or in a row above, so their rectangles have no point
in common; each such key has the height `height / rowCount`, lies in a row at
`yOffset` plus a multiple of that height and ends inside the height; at most
one such key contains any given point, and when every key that is neither `Pad`
nor `EndRow` has positive relative width the key `kbd_get_key` returns is the
only key that qualifies at the point. -/
theorem kbd_init_layout_disjoint (l l' : layout) (width height y_offset : Nat)
    (hheight : y_offset + height < 2 ^ 32) (hrows : end_rows l.keys + 1 < 256)
    (hrun : kbd_init_layout l width height y_offset = .ok l')
    (hrange : ∀ j kj, l'.keys[j]? = some kj → before_last l'.keys j → placed kj →
      kj.x + kj.w < 2 ^ 32) :
    (∀ i j ki kj, i < j → l'.keys[i]? = some ki → l'.keys[j]? = some kj →
      before_last l'.keys j → placed ki → placed kj →
      key_apart ki kj ∧ ∀ x y, ¬ (key_rect ki x y ∧ key_rect kj x y)) ∧
    (∀ j kj, l'.keys[j]? = some kj → before_last l'.keys j → placed kj →
      kj.h = height / (end_rows l.keys + 1) ∧
      (∃ r, r ≤ end_rows l.keys ∧ kj.y = y_offset + r * kj.h) ∧
      kj.y + kj.h ≤ y_offset + height) ∧
    (∀ x y i j ki kj, l'.keys[i]? = some ki → l'.keys[j]? = some kj →
      before_last l'.keys i → before_last l'.keys j → placed ki → placed kj →
      key_rect ki x y → key_rect kj x y → i = j) ∧
    (∀ kb x y m, kb.layouts kb.layout = l' →
      (∀ j k, l'.keys[j]? = some k → before_last l'.keys j → k.type ≠ .Pad →
        k.type ≠ .EndRow → 0 < k.width) →
      kbd_get_key kb x y = .ok (some m) →
      ∀ j k, l'.keys[j]? = some k → before_last l'.keys j → key_hit k x y → j = m) := by
  have h := hrun
  unfold kbd_init_layout at h
  rw [except_bind_ok] at h
  obtain ⟨rows, hr, h⟩ := h
  split_ifs at h
  have hrows2 : rows = end_rows l.keys + 1 := by
    have := kbd_get_rows_from_eq l.keys 0 rows hr
    omega
  subst hrows2
  rw [except_bind_ok] at h
  obtain ⟨rl, hrl, h⟩ := h
  rw [except_bind_ok] at h
  obtain ⟨keys, hkeys, h⟩ := h
  cases h
  have hkh : (end_rows l.keys + 1) * (height / (end_rows l.keys + 1)) ≤ height :=
    Nat.mul_div_le height (end_rows l.keys + 1)
  obtain ⟨ha, hp⟩ := kbd_init_layout_loop_placed width (height / (end_rows l.keys + 1))
    l.keys 0 y_offset rl _ keys hkeys (by norm_num) (by omega) hrange
  have huniq : ∀ x y i j ki kj, i < j → keys[i]? = some ki → keys[j]? = some kj →
      before_last keys j → placed ki → placed kj →
      key_rect ki x y → key_rect kj x y → False := by
    intro x y i j ki kj hij hi hj hb hpi hpj hri hrj
    exact key_apart_disjoint ki kj x y (hp i j ki kj hij hi hj hb hpi hpj) ⟨hri, hrj⟩
  have hall : ∀ x y i j ki kj, keys[i]? = some ki → keys[j]? = some kj →
      before_last keys i → before_last keys j → placed ki → placed kj →
      key_rect ki x y → key_rect kj x y → i = j := by
    intro x y i j ki kj hi hj hbi hbj hpi hpj hri hrj
    rcases Nat.lt_trichotomy i j with hlt | heq | hgt
    · exact absurd (huniq x y i j ki kj hlt hi hj hbj hpi hpj hri hrj) id
    · exact heq
    · exact absurd (huniq x y j i kj ki hgt hj hi hbi hpj hpi hrj hri) id
  refine ⟨?_, ?_, hall, ?_⟩
  · intro i j ki kj hij hi hj hb hpi hpj
    exact ⟨hp i j ki kj hij hi hj hb hpi hpj,
      fun x y => key_apart_disjoint ki kj x y (hp i j ki kj hij hi hj hb hpi hpj)⟩
  · intro j kj hj hb hpl
    obtain ⟨a1, ⟨r, hr1, hr2⟩, -⟩ := ha j kj hj hb hpl
    refine ⟨a1, ⟨r, hr1, by rw [hr2, a1]⟩, ?_⟩
    rw [hr2, a1]
    have : (r + 1) * (height / (end_rows l.keys + 1)) ≤
        (end_rows l.keys + 1) * (height / (end_rows l.keys + 1)) :=
      Nat.mul_le_mul_right _ (by omega)
    nlinarith
  · intro kb x y m hkb hpos hget j k hj hb hh
    unfold kbd_get_key at hget
    rw [hkb] at hget
    obtain ⟨jm, km, e, hjm, hbm, hhm⟩ := kbd_get_key_from_some x y keys 0 m hget
    have em : m = jm := by omega
    subst em
    have hpm : placed km := ⟨hhm.2.1, hpos m km hjm hbm hhm.1 hhm.2.1⟩
    have hpk : placed k := ⟨hh.2.1, hpos j k hj hb hh.1 hh.2.1⟩
    exact hall x y j m k km hj hjm hb hbm hpk hpm hh.2.2 hhm.2.2

/-- C37, as amended, at the sample layout of rows 1, 1, 1 and 1.5, 1 on 100 by
60 pixels at offset 10: the call returns, no key ends past 2 ^ 32, and of any
two keys of positive relative width the earlier lies before the later. -/
theorem kbd_init_layout_disjoint_witness :
    ∃ l', kbd_init_layout thirds_layout 100 60 10 = .ok l' ∧
      l'.keys.map (fun k => (k.x, k.w, k.y, k.h)) =
        [(0, 34, 10, 30), (34, 33, 10, 30), (67, 33, 10, 30), (0, 0, 0, 30), (0, 60, 40, 30),
          (60, 40, 40, 30), (0, 0, 0, 0)] ∧
      (∀ k ∈ l'.keys, k.x + k.w < 2 ^ 32) ∧
      ∀ i j ki kj, i < j → l'.keys[i]? = some ki → l'.keys[j]? = some kj →
        before_last l'.keys j → placed ki → placed kj →
        key_apart ki kj ∧ ∀ x y, ¬ (key_rect ki x y ∧ key_rect kj x y) := by
  have hval : (kbd_init_layout thirds_layout 100 60 10).toOption.map
      (fun l => l.keys.map (fun k => (k.x, k.w, k.y, k.h))) =
      some [(0, 34, 10, 30), (34, 33, 10, 30), (67, 33, 10, 30), (0, 0, 0, 30),
        (0, 60, 40, 30), (60, 40, 40, 30), (0, 0, 0, 0)] := by decide!
  have hin : (kbd_init_layout thirds_layout 100 60 10).toOption.map
      (fun l => decide (∀ k ∈ l.keys, k.x + k.w < 2 ^ 32)) = some true := by decide!
  cases hrun : kbd_init_layout thirds_layout 100 60 10 with
  | error e =>
    rw [hrun] at hval
    cases hval
  | ok l' =>
    rw [hrun] at hval hin
    have hrange : ∀ k ∈ l'.keys, k.x + k.w < 2 ^ 32 :=
      of_decide_eq_true (Option.some.inj hin)
    exact ⟨l', rfl, Option.some.inj hval, hrange,
      (kbd_init_layout_disjoint thirds_layout l' 100 60 10 (by decide) (by decide) hrun
        (fun j kj hj _ _ => hrange kj (List.mem_iff_getElem?.mpr ⟨j, hj⟩))).1⟩

/-! ### Offset of the typed suffix -/

/-- C39: in `kbd_commit_suggestion` with a well-formed non-empty token and a
word that passes the case-insensitive prefix check, the call goes on to the
case adjustment, and the byte length of the token is at most the byte length of
the adjusted word, itself at most 127: the offset `strlen(current_token)` of the
suffix lies inside the adjusted word, which is the token-long part before the
offset followed by the suffix.  The word may be longer than 127 bytes. -/
theorem commit_suffix_offset (kb : kbd) (time_ms : Nat) (word : List Nat)
    (htok : token_ok kb) (hne : kb.current_token ≠ [])
    (hcheck : utf8_startswith (ascii_lower_inplace (strncpy_token (strncpy_token word)))
      (ascii_lower_inplace (strncpy_token kb.current_token)) = true) :
    kbd_commit_suggestion kb time_ms (some word) =
      kbd_commit_suggestion_typed { kb with pending_swipe := false, pending_swipe_word := [] }
        time_ms (strncpy_token word) ∧
    kb.current_token.length ≤
      (kbd_adjust_suggestion_case { kb with pending_swipe := false, pending_swipe_word := [] }
        (some (strncpy_token word)) kb.mods).length ∧
    (kbd_adjust_suggestion_case { kb with pending_swipe := false, pending_swipe_word := [] }
        (some (strncpy_token word)) kb.mods).length ≤ 127 ∧
    ((kbd_adjust_suggestion_case { kb with pending_swipe := false, pending_swipe_word := [] }
        (some (strncpy_token word)) kb.mods).take kb.current_token.length).length =
      kb.current_token.length ∧
    (kbd_adjust_suggestion_case { kb with pending_swipe := false, pending_swipe_word := [] }
        (some (strncpy_token word)) kb.mods).length =
      kb.current_token.length +
        ((kbd_adjust_suggestion_case { kb with pending_swipe := false, pending_swipe_word := [] }
          (some (strncpy_token word)) kb.mods).drop kb.current_token.length).length := by
  have htok0 : token_ok ({ kb with pending_swipe := false, pending_swipe_word := [] } : kbd) :=
    htok
  have hadj := kbd_adjust_suggestion_case_eq
    { kb with pending_swipe := false, pending_swipe_word := [] } (strncpy_token word) kb.mods htok0
  obtain ⟨hlen, -⟩ := adjusted_case_spec_lower kb.current_token kb.mods (strncpy_token word)
  have hcopy : strncpy_token kb.current_token = kb.current_token := by
    unfold strncpy_token
    exact List.take_of_length_le htok.2
  have hle : kb.current_token.length ≤ ((strncpy_token word).take 127).length := by
    unfold utf8_startswith at hcheck
    rw [ List.isPrefixOf_iff_prefix, hcopy] at hcheck
    have := hcheck.length_le
    unfold ascii_lower_inplace at this
    rw [List.length_map, List.length_map] at this
    exact this
  have hle2 : kb.current_token.length ≤
      (kbd_adjust_suggestion_case { kb with pending_swipe := false, pending_swipe_word := [] }
        (some (strncpy_token word)) kb.mods).length := by
    rw [hadj]
    show kb.current_token.length ≤
      (adjusted_case_spec kb.current_token kb.mods (strncpy_token word)).length
    rw [hlen]
    exact hle
  have hword : word ≠ [] := by
    intro h0
    subst h0
    have : kb.current_token.length ≤ 0 := hle
    exact hne (List.length_eq_zero.mp (Nat.le_zero.mp this))
  refine ⟨?_, hle2, ?_, ?_, ?_⟩
  · have hpos : kb.current_token_len > 0 := by
      rw [htok.1]
      exact_mod_cast List.length_pos.mpr hne
    cases word with
    | nil => exact absurd rfl hword
    | cons c cs =>
      unfold kbd_commit_suggestion
      dsimp only
      rw [if_neg]
      rw [hcheck]
      simp
  · rw [hadj]
    show (adjusted_case_spec kb.current_token kb.mods (strncpy_token word)).length ≤ 127
    rw [hlen]
    exact (List.length_take_le _ _)
  · rw [List.length_take]
    exact Nat.min_eq_left hle2
  · rw [List.length_drop]
    omega

/-- C39 on the sample keyboard with the token `th` and a word of 202 bytes that
starts with `th`: the offset 2 lies inside the adjusted word of 127 bytes. -/
theorem commit_suffix_offset_witness :
    2 ≤ (kbd_adjust_suggestion_case
          { typing_kbd with pending_swipe := false, pending_swipe_word := [] }
          (some (strncpy_token ([116, 104] ++ List.replicate 200 101))) typing_kbd.mods).length ∧
    (kbd_adjust_suggestion_case
          { typing_kbd with pending_swipe := false, pending_swipe_word := [] }
          (some (strncpy_token ([116, 104] ++ List.replicate 200 101))) typing_kbd.mods).length
      ≤ 127 :=
  ⟨(commit_suffix_offset typing_kbd 0 ([116, 104] ++ List.replicate 200 101)
      (by decide) (by decide) (by decide)).2.1,
    (commit_suffix_offset typing_kbd 0 ([116, 104] ++ List.replicate 200 101)
      (by decide) (by decide) (by decide)).2.2.1⟩

end Wvkbd
